import Mathlib

/-!
# CT-HYB local-update engine (`src/moves.hpp`)

A shallow embedding of the Monte Carlo update engine of `moves.hpp`:
the orchestrator `LocalUpdater::update`, its helpers, and the three shipped
proposal strategies.  Floating-point scalars are idealised as exact rationals;
the external collaborators (sliding window, determinant matrix, random
generator) appear as interface records whose fields are arbitrary functions.
-/

namespace CTHYB

/-! ## Operators and the operator container -/

/-- Kind of an operator event (`CREATION_OP` / `ANNIHILATION_OP` in the source). -/
inductive OperatorType where
  | CREATION_OP
  | ANNIHILATION_OP
deriving DecidableEq, Repr

/-- Rank of an operator kind, used to order operators at equal times. -/
def OperatorType.rank : OperatorType → Nat
  | .CREATION_OP => 0
  | .ANNIHILATION_OP => 1

/-- Modelled from the spec: the operator event `psi` (declared in `operator.hpp`,
which is not part of the sources at hand): an imaginary time, a kind and a flavor
index.  Times are exact rationals. -/
structure psi where
  time : ℚ
  type : OperatorType
  flavor : Nat
deriving DecidableEq, Repr

/-- Modelled from the spec: the sort key of an operator; operators are totally
ordered by (time, kind, flavor). -/
def psi.key (a : psi) : ℚ ×ₗ (Nat ×ₗ Nat) :=
  toLex (a.time, toLex (a.type.rank, a.flavor))

instance : LinearOrder psi :=
  LinearOrder.lift' psi.key (by
    intro a b h
    cases a with
    | mk ta ka fa =>
      cases b with
      | mk tb kb fb =>
        have h1 : (ta, toLex (ka.rank, fa)) = (tb, toLex (kb.rank, fb)) := toLex.injective h
        have h2 : ta = tb := congrArg Prod.fst h1
        have h3 : (ka.rank, fa) = (kb.rank, fb) := toLex.injective (congrArg Prod.snd h1)
        have h4 : ka.rank = kb.rank := congrArg Prod.fst h3
        have h5 : fa = fb := congrArg Prod.snd h3
        have h6 : ka = kb := by
          cases ka <;> cases kb <;> simp_all [OperatorType.rank]
        subst h2 h5 h6
        rfl)

/-- Modelled from the spec: `operator_container_t` (declared in `operator.hpp`),
the ordered collection of the active operators.  Two operators with identical
time, kind and flavor are disallowed, so the collection is a strictly sorted
list. -/
structure operator_container_t where
  elems : List psi
  sorted : elems.Sorted (· ≤ ·)
  nodup : elems.Nodup

namespace operator_container_t

/-- The set of operators held by a container. -/
def toFinset (c : operator_container_t) : Finset psi := c.elems.toFinset

/-- The empty container. -/
def empty : operator_container_t := ⟨[], List.sorted_nil, List.nodup_nil⟩

/-- Membership test (`operators.find(op) != operators.end()`). -/
def contains (c : operator_container_t) (op : psi) : Bool := decide (op ∈ c.elems)

/-- Removal of one element (`operators.erase(op)`). -/
def erase (c : operator_container_t) (op : psi) : operator_container_t :=
  ⟨c.elems.erase op, c.sorted.sublist (List.erase_sublist op c.elems),
    c.nodup.sublist (List.erase_sublist op c.elems)⟩

/-- Insertion of an element that is not yet present (`operators.insert(op)`). -/
def insert (c : operator_container_t) (op : psi) (h : op ∉ c.elems) : operator_container_t :=
  ⟨c.elems.orderedInsert (· ≤ ·) op, c.sorted.orderedInsert op c.elems,
    ((List.perm_orderedInsert (· ≤ ·) op c.elems).nodup_iff).mpr (List.nodup_cons.mpr ⟨h, c.nodup⟩)⟩

/-- Build a container from any list of operators (insertion one by one, duplicates
are dropped as `std::set::insert` does). -/
def ofList : List psi → operator_container_t
  | [] => empty
  | op :: rest =>
    if h : op ∈ (ofList rest).elems then ofList rest else (ofList rest).insert op h

/-- The operators with time in the closed window `[tau_low, tau_high]`, in
container order (`operators.range(tau_low <= _1, _1 <= tau_high)`). -/
def range (c : operator_container_t) (tau_low tau_high : ℚ) : List psi :=
  c.elems.filter (fun op => decide (tau_low ≤ op.time) && decide (op.time ≤ tau_high))

instance : DecidableEq operator_container_t := fun c d =>
  decidable_of_iff (c.elems = d.elems)
    ⟨fun h => by cases c; cases d; cases h; rfl, fun h => by rw [h]⟩

end operator_container_t


/-! ## Configuration, proposal record and collaborator interfaces -/

/-- Modelled from the spec: `MonteCarloConfiguration` (declared outside the sources at
hand): the operator collection, the determinant matrix (an abstract state `MS`), the
current trace, the running sign and the permutation-sign parity. -/
structure MonteCarloConfiguration (MS : Type) where
  operators : operator_container_t
  M : MS
  trace : ℚ
  sign : ℚ
  perm_sign : Int
deriving DecidableEq

/-- Members of `LocalUpdater` (lines 320-335 and 391), together with the members
`derived` of the concrete strategy class. -/
structure LocalUpdater (S : Type) where
  acceptance_rate_correction_ : Option ℚ
  cdagg_ops_rem_ : List psi
  c_ops_rem_ : List psi
  cdagg_ops_add_ : List psi
  c_ops_add_ : List psi
  valid_move_generated_ : Bool
  accepted_ : Bool
  duplicate_check_work_ : List psi
  trace_bound : List ℚ
  derived : S
deriving DecidableEq

/-- Interface of the determinant matrix `mc_config.M` as used by `moves.hpp`. -/
structure DeterminantMatrix (MS : Type) where
  num_blocks : MS → Nat
  num_flavors : MS → Nat → Nat
  flavors : MS → Nat → List Nat
  block_belonging_to : MS → Nat → Nat
  get_cdagg_ops_set : MS → Nat → operator_container_t
  get_c_ops_set : MS → Nat → operator_container_t
  try_update : MS → List psi → List psi → List psi → List psi → ℚ × MS
  perform_update : MS → MS
  reject_update : MS → MS

/-- Interface of the sliding window as used by `moves.hpp`; `W` is its state. -/
structure SlidingWindow (W : Type) where
  get_tau_low : W → ℚ
  get_tau_high : W → ℚ
  get_num_brakets : W → Nat
  compute_trace_bound : W → operator_container_t → List ℚ → (ℚ × List ℚ) × W
  lazy_eval_trace : W → operator_container_t → ℚ → List ℚ → (Bool × ℚ) × W

/-- The random generator `alps::random01`: a fixed stream of values, of which the
state is the position of the next value to be drawn. -/
abbrev Random01 := Nat → ℚ

/-- What a call of `propose` leaves behind when it returns: the returned flag, the
members of the updater that `propose` sets (the comment of line 323: the correction
factor and the four lists) together with the members of the derived class, the
configuration (passed by non-const reference) and the position in the random stream.
The flags `valid_move_generated_` and `accepted_` are set by `update` (the comment of
line 330), and the private members are not accessible to a strategy. -/
structure Proposal (S MS : Type) where
  valid : Bool
  acceptance_rate_correction_ : Option ℚ
  cdagg_ops_rem_ : List psi
  c_ops_rem_ : List psi
  cdagg_ops_add_ : List psi
  c_ops_add_ : List psi
  derived : S
  mc_config : MonteCarloConfiguration MS
  rng_pos : Nat
deriving DecidableEq

/-- The proposal made of the returned flag and of the members of the updater `u` as
`propose` leaves them. -/
def Proposal.of {S MS : Type} (valid : Bool) (u : LocalUpdater S)
    (cfg : MonteCarloConfiguration MS) (pos : Nat) : Proposal S MS :=
  { valid := valid
    acceptance_rate_correction_ := u.acceptance_rate_correction_
    cdagg_ops_rem_ := u.cdagg_ops_rem_
    c_ops_rem_ := u.c_ops_rem_
    cdagg_ops_add_ := u.cdagg_ops_add_
    c_ops_add_ := u.c_ops_add_
    derived := u.derived
    mc_config := cfg
    rng_pos := pos }

/-- The updater after `valid_move_generated_ = propose(...)` (lines 410-412). -/
def Proposal.install {S MS : Type} (p : Proposal S MS) (u : LocalUpdater S) : LocalUpdater S :=
  { u with
    acceptance_rate_correction_ := p.acceptance_rate_correction_
    cdagg_ops_rem_ := p.cdagg_ops_rem_
    c_ops_rem_ := p.c_ops_rem_
    cdagg_ops_add_ := p.cdagg_ops_add_
    c_ops_add_ := p.c_ops_add_
    derived := p.derived
    valid_move_generated_ := p.valid }

/-- The virtual functions of a strategy used by `update`.  `propose` yields `none`
when the call has no defined result (it does not return). -/
structure Strategy (S MS W : Type) where
  propose : Random01 → Nat → LocalUpdater S → MonteCarloConfiguration MS → W →
    Option (Proposal S MS)
  call_back : LocalUpdater S → LocalUpdater S

/-- Everything `update` is linked against. -/
structure Env (S MS W : Type) where
  strategy : Strategy S MS W
  matrix : DeterminantMatrix MS
  window : SlidingWindow W
  compute_permutation_sign : MonteCarloConfiguration MS → Int

/-- Abnormal terminations of `update`. -/
inductive Failure where
  /-- `assert(acceptance_rate_correction_)`, line 418 -/
  | assert_correction
  /-- the `runtime_error` of `range_check`, line 397 -/
  | range_error
  /-- `safe_erase` of an operator that is not in the collection -/
  | erase_error
  /-- `safe_insert` of an operator that is already in the collection -/
  | insert_error
  /-- `assert(myabs(trace_new) < myabs(trace_bound_sum) * 1.01)`, line 463 -/
  | assert_trace_bound
  /-- `assert(accepted == std::abs(prob) > r_th)`, line 464 -/
  | assert_accepted
deriving DecidableEq, Repr

instance : DecidableEq (Except Failure Bool)
  | Except.ok a, Except.ok b =>
    decidable_of_iff (a = b) ⟨fun h => congrArg Except.ok h, fun h => Except.ok.inj h⟩
  | Except.error a, Except.error b =>
    decidable_of_iff (a = b) ⟨fun h => congrArg Except.error h, fun h => Except.error.inj h⟩
  | Except.ok _, Except.error _ => isFalse (fun h => nomatch h)
  | Except.error _, Except.ok _ => isFalse (fun h => nomatch h)

/-- How a call of `update` ends. -/
inductive Outcome where
  | returned
  | failed (e : Failure)
  | diverged
deriving DecidableEq, Repr

/-- Calls that `update` makes to its collaborators, in the order they happen. -/
inductive Event where
  | compute_trace_bound
  | try_update
  | rng
  | lazy_eval_trace
  | perform_update
  | compute_permutation_sign
  | reject_update
  /-- `call_back()`, with the flags and the four lists it finds in the updater -/
  | call_back (valid_move_generated accepted : Bool)
      (cdagg_ops_rem c_ops_rem cdagg_ops_add c_ops_add : List psi)
deriving DecidableEq, Repr

/-- State left by a call of `update`, with the record of collaborator calls. -/
structure Run (S MS W : Type) where
  outcome : Outcome
  upd : LocalUpdater S
  mc_config : MonteCarloConfiguration MS
  window : W
  rng_pos : Nat
  log : List Event

/-! ## Helpers of the orchestrator -/

/-- Modelled from the spec: `safe_erase` over a range (declared in `operator_util.hpp`):
erases the operators one by one; an operator that is absent is fatal.  Returns the
collection as left behind and the failure, if any. -/
def safe_erase : operator_container_t → List psi → operator_container_t × Option Failure
  | c, [] => (c, none)
  | c, op :: rest =>
    if c.contains op then safe_erase (c.erase op) rest else (c, some Failure.erase_error)

/-- Modelled from the spec: `safe_insert` over a range (declared in `operator_util.hpp`):
inserts the operators one by one; two operators with identical time, kind and flavor are
disallowed, so an operator that is already present is fatal. -/
def safe_insert : operator_container_t → List psi → operator_container_t × Option Failure
  | c, [] => (c, none)
  | c, op :: rest =>
    if h : op ∈ c.elems then (c, some Failure.insert_error) else safe_insert (c.insert op h) rest

/-- Result of `boost::adjacent_find(v) != v.end()`: two neighbours are equal. -/
def adjacent_find : List psi → Bool
  | a :: b :: rest => if a = b then true else adjacent_find (b :: rest)
  | _ => false

/-- The duplicate test of `update_operators` (lines 343-359), as a function of the
combined add list and the collection left after the removals. -/
def duplicate_found (add : List psi) (ops : operator_container_t) : Bool :=
  if adjacent_find (add.insertionSort (· ≤ ·)) then true
  else (add.insertionSort (· ≤ ·)).any (fun op => ops.contains op)

/-- Lines 337-370: `LocalUpdater::update_operators`.  Returns the returned flag (or the
failure thrown by `safe_erase`/`safe_insert`), the updater and the configuration. -/
def update_operators {S MS : Type} (u : LocalUpdater S) (cfg : MonteCarloConfiguration MS) :
    Except Failure Bool × LocalUpdater S × MonteCarloConfiguration MS :=
  match safe_erase cfg.operators u.cdagg_ops_rem_ with
  | (ops, some e) => (.error e, u, { cfg with operators := ops })
  | (ops, none) =>
    match safe_erase ops u.c_ops_rem_ with
    | (ops, some e) => (.error e, u, { cfg with operators := ops })
    | (ops, none) =>
      let work := (u.cdagg_ops_add_ ++ u.c_ops_add_).insertionSort (· ≤ ·)
      let u := { u with duplicate_check_work_ := work }
      if duplicate_found (u.cdagg_ops_add_ ++ u.c_ops_add_) ops then
        match safe_insert ops u.cdagg_ops_rem_ with
        | (ops, some e) => (.error e, u, { cfg with operators := ops })
        | (ops, none) =>
          match safe_insert ops u.c_ops_rem_ with
          | (ops, some e) => (.error e, u, { cfg with operators := ops })
          | (ops, none) => (.ok false, u, { cfg with operators := ops })
      else
        match safe_insert ops u.cdagg_ops_add_ with
        | (ops, some e) => (.error e, u, { cfg with operators := ops })
        | (ops, none) =>
          match safe_insert ops u.c_ops_add_ with
          | (ops, some e) => (.error e, u, { cfg with operators := ops })
          | (ops, none) => (.ok true, u, { cfg with operators := ops })

/-- Lines 372-377: `LocalUpdater::revert_operators`. -/
def revert_operators {S MS : Type} (u : LocalUpdater S) (cfg : MonteCarloConfiguration MS) :
    Option Failure × MonteCarloConfiguration MS :=
  match safe_erase cfg.operators u.cdagg_ops_add_ with
  | (ops, some e) => (some e, { cfg with operators := ops })
  | (ops, none) =>
    match safe_erase ops u.c_ops_add_ with
    | (ops, some e) => (some e, { cfg with operators := ops })
    | (ops, none) =>
      match safe_insert ops u.cdagg_ops_rem_ with
      | (ops, some e) => (some e, { cfg with operators := ops })
      | (ops, none) =>
        match safe_insert ops u.c_ops_rem_ with
        | (ops, some e) => (some e, { cfg with operators := ops })
        | (ops, none) => (none, { cfg with operators := ops })

/-- The event recorded for a call of `call_back` on the updater `u`. -/
def call_back_event {S : Type} (u : LocalUpdater S) : Event :=
  Event.call_back u.valid_move_generated_ u.accepted_
    u.cdagg_ops_rem_ u.c_ops_rem_ u.cdagg_ops_add_ u.c_ops_add_

/-- Lines 379-389: `LocalUpdater::finalize_update`. -/
def finalize_update {S MS W : Type} (strategy : Strategy S MS W) (u : LocalUpdater S) :
    LocalUpdater S :=
  let u := strategy.call_back u
  { u with
    acceptance_rate_correction_ := none
    cdagg_ops_rem_ := []
    c_ops_rem_ := []
    cdagg_ops_add_ := []
    c_ops_add_ := []
    valid_move_generated_ := false
    accepted_ := false }

/-- Lines 394-400: `range_check`; `true` when it throws. -/
def range_check (ops : List psi) (tau_low tau_high : ℚ) : Bool :=
  ops.any (fun op => decide (tau_low > op.time) || decide (tau_high < op.time))

/-- Lines 422-425 of `LocalUpdater::update`: the four calls of `range_check`; `true`
when one of them throws. -/
def range_check_all {S : Type} (u : LocalUpdater S) (tau_low tau_high : ℚ) : Bool :=
  range_check u.cdagg_ops_rem_ tau_low tau_high
    || range_check u.c_ops_rem_ tau_low tau_high
    || range_check u.cdagg_ops_add_ tau_low tau_high
    || range_check u.c_ops_add_ tau_low tau_high

/-- The call `v.resize(n)` on a vector of bounds: truncates, or pads with zeros. -/
def resize (v : List ℚ) (n : Nat) : List ℚ :=
  v.take n ++ List.replicate (n - v.length) 0

/-- Modelled from the spec: `mysign` (declared outside the sources at hand), the sign
`x / |x|` of the acceptance probability. -/
def mysign (x : ℚ) : ℚ := x / |x|

/-! ## The orchestrator -/

/-- The exit `finalize_update(); return;` of `update`. -/
def Run.finalize {S MS W : Type} (strategy : Strategy S MS W) (u : LocalUpdater S)
    (cfg : MonteCarloConfiguration MS) (w : W) (pos : Nat) (log : List Event) : Run S MS W :=
  { outcome := Outcome.returned
    upd := finalize_update strategy u
    mc_config := cfg
    window := w
    rng_pos := pos
    log := log ++ [call_back_event u] }

/-- Lines 471-476 of `LocalUpdater::update`: the configuration after a move has been
accepted.  In exact arithmetic the check `assert(!my_isnan(mc_config.sign))` cannot fail
and is left out. -/
def commit {S MS W : Type} (env : Env S MS W) (cfg : MonteCarloConfiguration MS)
    (trace_new prob : ℚ) : MonteCarloConfiguration MS :=
  let cfg := { cfg with M := env.matrix.perform_update cfg.M }
  let perm_new := env.compute_permutation_sign cfg
  let cfg := { cfg with
    sign := cfg.sign * (((perm_new : ℚ) / (cfg.perm_sign : ℚ)) * mysign prob) }
  let cfg := { cfg with perm_sign := perm_new }
  { cfg with trace := trace_new }

/-- Lines 470-484 of `LocalUpdater::update`: the move is committed or rolled back, and
the cycle is finalized.  `accepted`, `trace_new` and `prob` are the local variables of
`update`.  In exact arithmetic `mc_config.check_nan()` cannot fail and is left out. -/
def update_conclude {S MS W : Type} (env : Env S MS W)
    (u : LocalUpdater S) (cfg : MonteCarloConfiguration MS) (w : W) (pos : Nat)
    (log : List Event) (accepted : Bool) (trace_new prob : ℚ) : Run S MS W :=
  if accepted then
    Run.finalize env.strategy { u with accepted_ := true } (commit env cfg trace_new prob) w pos
      (log ++ [Event.perform_update, Event.compute_permutation_sign])
  else
    match revert_operators u { cfg with M := env.matrix.reject_update cfg.M } with
    | (some e, cfg) => ⟨Outcome.failed e, u, cfg, w, pos, log ++ [Event.reject_update]⟩
    | (none, cfg) => Run.finalize env.strategy u cfg w pos (log ++ [Event.reject_update])

/-- Lines 434-468 of `LocalUpdater::update`: the trace bound, the determinant ratio, the
random threshold and the lazy evaluation of the trace, followed by `update_conclude`.
`correction` is the value of `*acceptance_rate_correction_`. -/
def update_evaluate {S MS W : Type} (env : Env S MS W) (rng : Random01) (correction : ℚ)
    (u : LocalUpdater S) (cfg : MonteCarloConfiguration MS) (w : W) (pos : Nat) : Run S MS W :=
  let u := { u with trace_bound := resize u.trace_bound (env.window.get_num_brakets w) }
  let tb := env.window.compute_trace_bound w cfg.operators u.trace_bound
  let trace_bound_sum := tb.1.1
  let u := { u with trace_bound := tb.1.2 }
  let w := tb.2
  let log := [Event.compute_trace_bound]
  if trace_bound_sum = 0 then
    match revert_operators u cfg with
    | (some e, cfg) => ⟨Outcome.failed e, u, cfg, w, pos, log⟩
    | (none, cfg) => Run.finalize env.strategy u cfg w pos log
  else
    let tu := env.matrix.try_update cfg.M u.cdagg_ops_rem_ u.c_ops_rem_
      u.cdagg_ops_add_ u.c_ops_add_
    let det_rat := tu.1
    let cfg := { cfg with M := tu.2 }
    let log := log ++ [Event.try_update]
    let r_th := rng pos
    let pos := pos + 1
    let log := log ++ [Event.rng]
    if det_rat ≠ 0 then
      let rest := correction * det_rat
      let trace_cutoff := |r_th * cfg.trace / rest|
      let le := env.window.lazy_eval_trace w cfg.operators trace_cutoff u.trace_bound
      let accepted := le.1.1
      let trace_new := le.1.2
      let w := le.2
      let log := log ++ [Event.lazy_eval_trace]
      let prob := rest * (trace_new / cfg.trace)
      if ¬ (|trace_new| < |trace_bound_sum| * (101 / 100)) then
        ⟨Outcome.failed Failure.assert_trace_bound, u, cfg, w, pos, log⟩
      else if accepted ≠ decide (|prob| > r_th) then
        ⟨Outcome.failed Failure.assert_accepted, u, cfg, w, pos, log⟩
      else
        update_conclude env u cfg w pos log accepted trace_new prob
    else
      update_conclude env u cfg w pos log false 0 0

/-- Lines 402-432 of `LocalUpdater::update`, continued by `update_evaluate`.  The
arguments are the members of the updater, the configuration, the window and the position
in the random stream on entry (`BETA` is not used by the body).  Assertions are enabled:
a failed assertion ends the call abnormally. -/
def update {S MS W : Type} (env : Env S MS W) (rng : Random01)
    (u : LocalUpdater S) (cfg : MonteCarloConfiguration MS) (w : W) (pos : Nat) : Run S MS W :=
  let u := { u with accepted_ := false }
  match env.strategy.propose rng pos u cfg w with
  | none => ⟨Outcome.diverged, u, cfg, w, pos, []⟩
  | some p =>
    let u := p.install u
    let cfg := p.mc_config
    let pos := p.rng_pos
    if !u.valid_move_generated_ then
      Run.finalize env.strategy u cfg w pos []
    else
      match u.acceptance_rate_correction_ with
      | none => ⟨Outcome.failed Failure.assert_correction, u, cfg, w, pos, []⟩
      | some correction =>
        let tau_low := env.window.get_tau_low w
        let tau_high := env.window.get_tau_high w
        if range_check_all u tau_low tau_high then
          ⟨Outcome.failed Failure.range_error, u, cfg, w, pos, []⟩
        else
          match update_operators u cfg with
          | (Except.error e, u, cfg) => ⟨Outcome.failed e, u, cfg, w, pos, []⟩
          | (Except.ok false, u, cfg) => Run.finalize env.strategy u cfg w pos []
          | (Except.ok true, u, cfg) => update_evaluate env rng correction u cfg w pos

/-! ## Utilities of the proposal strategies -/

/-- The conversion `static_cast<int>(x)` of a real number: truncation toward zero. -/
def static_cast_int (x : ℚ) : Int :=
  if 0 ≤ x then Rat.floor x else - Rat.floor (-x)

/-- Element access `v[i]` with an `int` index; `none` when the index is outside the
vector (no defined result in the source). -/
def at_index {T : Type} (v : List T) (i : Int) : Option T :=
  if 0 ≤ i then v.get? i.toNat else none

/-- The statement `v[i] += 1` on a vector of counters; `none` when the index is outside
the vector. -/
def increment_at (v : List Nat) (i : Int) : Option (List Nat) :=
  match at_index v i with
  | none => none
  | some x => some (v.set i.toNat (x + 1))

/-- Lines 67-71: `pick`, one of the elements at random.  Returns the element and the
next position in the random stream. -/
def pick {T : Type} (array : List T) (rng : Random01) (pos : Nat) : Option (T × Nat) :=
  match at_index array (static_cast_int (rng pos * (array.length : ℚ))) with
  | none => none
  | some x => some (x, pos + 1)

/-- Lines 82-87: the rejection loop `while (true)` of `pickup_a_few_numbers`, run for at
most `fuel` draws.  Returns the index found and the next position in the stream. -/
def pickup_draw (rng : Random01) (N : Nat) (flag : List Nat) : Nat → Nat → Option (Nat × Nat)
  | 0, _ => none
  | fuel + 1, pos =>
    let itmp := static_cast_int (rng pos * (N : ℚ))
    match at_index flag itmp with
    | none => none
    | some f => if f = 0 then some (itmp.toNat, pos + 1) else pickup_draw rng N flag fuel (pos + 1)

/-- Lines 80-90: the loop `for (int i = 0; i < n; ++i)` of `pickup_a_few_numbers`;
`list` holds the entries filled so far. -/
def pickup_loop (rng : Random01) (fuel N : Nat) :
    Nat → List Nat → List Nat → Nat → Option (List Nat × Nat)
  | 0, _, list, pos => some (list, pos)
  | n + 1, flag, list, pos =>
    match pickup_draw rng N flag fuel pos with
    | none => none
    | some (itmp, pos) => pickup_loop rng fuel N n (flag.set itmp 1) (list ++ [itmp]) pos

/-- Lines 76-92: `pickup_a_few_numbers(N, n, random01)`, each rejection loop being run
for at most `fuel` draws. -/
def pickup_a_few_numbers (fuel N n : Nat) (rng : Random01) (pos : Nat) :
    Option (List Nat × Nat) :=
  pickup_loop rng fuel N n (List.replicate N 0) [] pos

/-- The helper `open_random(rng, t1, t2)` is declared outside the sources at hand; it is
a parameter: from the stream, the position and the two bounds it yields a time and the
next position. -/
abbrev OpenRandom := Random01 → Nat → ℚ → ℚ → ℚ × Nat

/-! ## InsertionRemovalUpdater -/

/-- Members of `InsertionRemovalUpdater` (lines 537-544). -/
structure InsertionRemovalUpdater where
  update_rank_ : Nat
  num_flavors_ : Nat
  tau_low_ : ℚ
  tau_high_ : ℚ
  num_cdagg_ops_in_range_ : List Nat
  num_c_ops_in_range_ : List Nat
  cdagg_ops_range_ : List (List psi)
  c_ops_range_ : List (List psi)
deriving DecidableEq

namespace InsertionRemovalUpdater

/-- Lines 568-583: the loop of `propose_insertion` that draws the new operators; `n`
iterations remain.  The arguments of the constructor `psi(...)` are evaluated from left
to right.  Returns `num_new_pairs`, the two add lists and the stream position. -/
def insertion_loop {MS : Type} (mat : DeterminantMatrix MS) (open_random : OpenRandom)
    (rng : Random01) (M : MS) (tau_low tau_high : ℚ) :
    Nat → List Nat → List psi → List psi → Nat → Option (List Nat × List psi × List psi × Nat)
  | 0, num_new_pairs, cdagg_ops_add, c_ops_add, pos =>
    some (num_new_pairs, cdagg_ops_add, c_ops_add, pos)
  | n + 1, num_new_pairs, cdagg_ops_add, c_ops_add, pos =>
    let block := static_cast_int (rng pos * (mat.num_blocks M : ℚ))
    let pos := pos + 1
    match increment_at num_new_pairs block with
    | none => none
    | some num_new_pairs =>
      let t1 := open_random rng pos tau_low tau_high
      match pick (mat.flavors M block.toNat) rng t1.2 with
      | none => none
      | some (f1, pos) =>
        let cdagg_ops_add := cdagg_ops_add ++ [psi.mk t1.1 OperatorType.CREATION_OP f1]
        let t2 := open_random rng pos tau_low tau_high
        match pick (mat.flavors M block.toNat) rng t2.2 with
        | none => none
        | some (f2, pos) =>
          let c_ops_add := c_ops_add ++ [psi.mk t2.1 OperatorType.ANNIHILATION_OP f2]
          insertion_loop mat open_random rng M tau_low tau_high n
            num_new_pairs cdagg_ops_add c_ops_add pos

/-- Lines 585-607: the correction factor of `propose_insertion`, from the window width,
the rank, the number of blocks, the flavors per block, the in-window counts and the
numbers of new pairs per block. -/
def insertion_correction (width : ℚ) (update_rank num_blocks : Nat) (num_flavors : Nat → Nat)
    (num_cdagg_ops_in_range num_c_ops_in_range num_new_pairs : List Nat) : ℚ :=
  (List.range num_blocks).foldl
    (fun acc ib =>
      if num_new_pairs.getD ib 0 = 0 then acc
      else
        acc * ((num_new_pairs.getD ib 0).factorial : ℚ)
            * (num_flavors ib : ℚ) * (num_flavors ib : ℚ)
          / (((num_cdagg_ops_in_range.getD ib 0 + num_new_pairs.getD ib 0).choose
                (num_new_pairs.getD ib 0) : Nat) : ℚ)
          / (((num_c_ops_in_range.getD ib 0 + num_new_pairs.getD ib 0).choose
                (num_new_pairs.getD ib 0) : Nat) : ℚ))
    (width ^ (2 * update_rank))

/-- Lines 648-666: the correction factor of `propose_removal`. -/
def removal_correction (width : ℚ) (update_rank num_blocks : Nat) (num_flavors : Nat → Nat)
    (num_cdagg_ops_in_range num_c_ops_in_range num_pairs_rem : List Nat) : ℚ :=
  (List.range num_blocks).foldl
    (fun acc ib =>
      if num_pairs_rem.getD ib 0 = 0 then acc
      else
        acc / (((num_pairs_rem.getD ib 0).factorial : ℚ)
            * (num_flavors ib : ℚ) * (num_flavors ib : ℚ))
          * (((num_cdagg_ops_in_range.getD ib 0).choose (num_pairs_rem.getD ib 0) : Nat) : ℚ)
          * (((num_c_ops_in_range.getD ib 0).choose (num_pairs_rem.getD ib 0) : Nat) : ℚ))
    (1 / width ^ (2 * update_rank))

/-- Lines 559-610: `propose_insertion`. -/
def propose_insertion {MS : Type} (mat : DeterminantMatrix MS) (open_random : OpenRandom)
    (rng : Random01) (pos : Nat) (u : LocalUpdater InsertionRemovalUpdater)
    (cfg : MonteCarloConfiguration MS) : Option (Proposal InsertionRemovalUpdater MS) :=
  let num_blocks := mat.num_blocks cfg.M
  match insertion_loop mat open_random rng cfg.M u.derived.tau_low_ u.derived.tau_high_
      u.derived.update_rank_ (List.replicate num_blocks 0) u.cdagg_ops_add_ u.c_ops_add_ pos with
  | none => none
  | some (num_new_pairs, cdagg_ops_add, c_ops_add, pos) =>
    some (Proposal.of true
      { u with
          cdagg_ops_add_ := cdagg_ops_add
          c_ops_add_ := c_ops_add
          acceptance_rate_correction_ := some
            (insertion_correction (u.derived.tau_high_ - u.derived.tau_low_)
              u.derived.update_rank_ num_blocks (mat.num_flavors cfg.M)
              u.derived.num_cdagg_ops_in_range_ u.derived.num_c_ops_in_range_ num_new_pairs) }
      cfg pos)

/-- Lines 619-621: the loop of `propose_removal` that distributes the pairs to remove
among the blocks; `n` iterations remain. -/
def removal_blocks (rng : Random01) (num_blocks : Nat) :
    Nat → List Nat → Nat → Option (List Nat × Nat)
  | 0, num_pairs_rem, pos => some (num_pairs_rem, pos)
  | n + 1, num_pairs_rem, pos =>
    match increment_at num_pairs_rem (static_cast_int (rng pos * (num_blocks : ℚ))) with
    | none => none
    | some num_pairs_rem => removal_blocks rng num_blocks n num_pairs_rem (pos + 1)

/-- Lines 634-645: the operators picked in one block, from the indices `idx_c`, `idx_a`
into the in-window ranges of the block. -/
def removal_pick (cdagg_range c_range : List psi) :
    List Nat → List Nat → List psi → List psi → Option (List psi × List psi)
  | ic :: idx_c, ia :: idx_a, cdagg_ops_rem, c_ops_rem =>
    match cdagg_range.get? ic, c_range.get? ia with
    | some opc, some opa =>
      removal_pick cdagg_range c_range idx_c idx_a (cdagg_ops_rem ++ [opc]) (c_ops_rem ++ [opa])
    | _, _ => none
  | _, _, cdagg_ops_rem, c_ops_rem => some (cdagg_ops_rem, c_ops_rem)

/-- Lines 631-646: the loop over the blocks `ib, ib + 1, ...` of `propose_removal` that
picks the operators to remove. -/
def removal_loop (fuel : Nat) (rng : Random01) (d : InsertionRemovalUpdater)
    (num_pairs_rem : List Nat) :
    List Nat → List psi → List psi → Nat → Option (List psi × List psi × Nat)
  | [], cdagg_ops_rem, c_ops_rem, pos => some (cdagg_ops_rem, c_ops_rem, pos)
  | ib :: blocks, cdagg_ops_rem, c_ops_rem, pos =>
    match pickup_a_few_numbers fuel (d.num_cdagg_ops_in_range_.getD ib 0)
        (num_pairs_rem.getD ib 0) rng pos with
    | none => none
    | some (idx_c, pos) =>
      match pickup_a_few_numbers fuel (d.num_c_ops_in_range_.getD ib 0)
          (num_pairs_rem.getD ib 0) rng pos with
      | none => none
      | some (idx_a, pos) =>
        match removal_pick (d.cdagg_ops_range_.getD ib []) (d.c_ops_range_.getD ib [])
            idx_c idx_a cdagg_ops_rem c_ops_rem with
        | none => none
        | some (cdagg_ops_rem, c_ops_rem) =>
          removal_loop fuel rng d num_pairs_rem blocks cdagg_ops_rem c_ops_rem pos

/-- Lines 612-669: `propose_removal`. -/
def propose_removal {MS : Type} (mat : DeterminantMatrix MS) (fuel : Nat)
    (rng : Random01) (pos : Nat) (u : LocalUpdater InsertionRemovalUpdater)
    (cfg : MonteCarloConfiguration MS) : Option (Proposal InsertionRemovalUpdater MS) :=
  let num_blocks := mat.num_blocks cfg.M
  match removal_blocks rng num_blocks u.derived.update_rank_ (List.replicate num_blocks 0) pos with
  | none => none
  | some (num_pairs_rem, pos) =>
    if (List.range num_blocks).any (fun ib =>
        decide (u.derived.num_cdagg_ops_in_range_.getD ib 0 < num_pairs_rem.getD ib 0)
          || decide (u.derived.num_c_ops_in_range_.getD ib 0 < num_pairs_rem.getD ib 0)) then
      some (Proposal.of false u cfg pos)
    else
      match removal_loop fuel rng u.derived num_pairs_rem (List.range num_blocks)
          u.cdagg_ops_rem_ u.c_ops_rem_ pos with
      | none => none
      | some (cdagg_ops_rem, c_ops_rem, pos) =>
        some (Proposal.of true
          { u with
              cdagg_ops_rem_ := cdagg_ops_rem
              c_ops_rem_ := c_ops_rem
              acceptance_rate_correction_ := some
                (removal_correction (u.derived.tau_high_ - u.derived.tau_low_)
                  u.derived.update_rank_ num_blocks (mat.num_flavors cfg.M)
                  u.derived.num_cdagg_ops_in_range_ u.derived.num_c_ops_in_range_
                  num_pairs_rem) }
          cfg pos)

/-- Lines 501-532: `InsertionRemovalUpdater::propose`. -/
def propose {MS W : Type} (mat : DeterminantMatrix MS) (win : SlidingWindow W)
    (open_random : OpenRandom) (fuel : Nat)
    (rng : Random01) (pos : Nat) (u : LocalUpdater InsertionRemovalUpdater)
    (cfg : MonteCarloConfiguration MS) (w : W) : Option (Proposal InsertionRemovalUpdater MS) :=
  let tau_low := win.get_tau_low w
  let tau_high := win.get_tau_high w
  let num_blocks := mat.num_blocks cfg.M
  let cdagg_ops_range := (List.range num_blocks).map
    (fun ib => (mat.get_cdagg_ops_set cfg.M ib).range tau_low tau_high)
  let c_ops_range := (List.range num_blocks).map
    (fun ib => (mat.get_c_ops_set cfg.M ib).range tau_low tau_high)
  let d : InsertionRemovalUpdater :=
    { u.derived with
      tau_low_ := tau_low
      tau_high_ := tau_high
      num_cdagg_ops_in_range_ := cdagg_ops_range.map List.length
      num_c_ops_in_range_ := c_ops_range.map List.length
      cdagg_ops_range_ := cdagg_ops_range
      c_ops_range_ := c_ops_range }
  let u := { u with derived := d }
  if rng pos < 1 / 2 then
    propose_insertion mat open_random rng (pos + 1) u cfg
  else
    propose_removal mat fuel rng (pos + 1) u cfg

end InsertionRemovalUpdater

/-! ## InsertionRemovalDiagonalUpdater -/

/-- Members of `InsertionRemovalDiagonalUpdater` (lines 821-832) that `propose` reads
or writes; the acceptance histogram `acc_rate_` is only touched by `call_back`. -/
structure InsertionRemovalDiagonalUpdater where
  num_flavors_ : Nat
  beta_ : ℚ
  tau_low_ : ℚ
  tau_high_ : ℚ
  flavor_ : Nat
  cdagg_ops_in_range_ : List psi
  c_ops_in_range_ : List psi
  update_rank_ : Nat
  distance_ : ℚ
deriving DecidableEq

namespace InsertionRemovalDiagonalUpdater

/-- Lines 728-739: the loop of the insertion branch; `n` iterations remain. -/
def insertion_loop (open_random : OpenRandom) (rng : Random01) (tau_low tau_high : ℚ)
    (flavor : Nat) : Nat → List psi → List psi → Nat → List psi × List psi × Nat
  | 0, cdagg_ops_add, c_ops_add, pos => (cdagg_ops_add, c_ops_add, pos)
  | n + 1, cdagg_ops_add, c_ops_add, pos =>
    let t1 := open_random rng pos tau_low tau_high
    let t2 := open_random rng t1.2 tau_low tau_high
    insertion_loop open_random rng tau_low tau_high flavor n
      (cdagg_ops_add ++ [psi.mk t1.1 OperatorType.CREATION_OP flavor])
      (c_ops_add ++ [psi.mk t2.1 OperatorType.ANNIHILATION_OP flavor]) t2.2

/-- Lines 740-745: the correction factor of the insertion branch, from the window width,
the rank and the numbers of in-window operators of the chosen flavor. -/
def insertion_correction (width : ℚ) (update_rank n_cdagg n_c : Nat) : ℚ :=
  width ^ (2 * update_rank) /
    ((((n_cdagg + update_rank).choose update_rank : Nat) : ℚ)
      * (((n_c + update_rank).choose update_rank : Nat) : ℚ)
      * (update_rank.factorial : ℚ))

/-- Lines 766-771: the correction factor of the removal branch. -/
def removal_correction (width : ℚ) (update_rank n_cdagg n_c : Nat) : ℚ :=
  (((n_cdagg.choose update_rank : Nat) : ℚ)
      * ((n_c.choose update_rank : Nat) : ℚ)
      * (update_rank.factorial : ℚ))
    / width ^ (2 * update_rank)

/-- Lines 749-750 and 774-775: the time spread of two sorted operator lists; `none` when
one of them is empty (`back()` and `[0]` have no defined result). -/
def spread (cdagg_ops c_ops : List psi) : Option ℚ :=
  match cdagg_ops.getLast?, c_ops.getLast?, cdagg_ops.head?, c_ops.head? with
  | some lc, some la, some fc, some fa => some (max lc.time la.time - min fc.time fa.time)
  | _, _, _, _ => none

/-- Lines 758-765: the operators picked from the indices `idx_c`, `idx_a`. -/
def removal_pick (cdagg_ops_in_range c_ops_in_range : List psi) :
    List Nat → List Nat → List psi → List psi → Option (List psi × List psi)
  | ic :: idx_c, ia :: idx_a, cdagg_ops_rem, c_ops_rem =>
    match cdagg_ops_in_range.get? ic, c_ops_in_range.get? ia with
    | some opc, some opa =>
      removal_pick cdagg_ops_in_range c_ops_in_range idx_c idx_a
        (cdagg_ops_rem ++ [opc]) (c_ops_rem ++ [opa])
    | _, _ => none
  | _, _, cdagg_ops_rem, c_ops_rem => some (cdagg_ops_rem, c_ops_rem)

/-- Lines 687-778: `InsertionRemovalDiagonalUpdater::propose`. -/
def propose {MS W : Type} (mat : DeterminantMatrix MS) (win : SlidingWindow W)
    (open_random : OpenRandom) (fuel : Nat)
    (rng : Random01) (pos : Nat) (u : LocalUpdater InsertionRemovalDiagonalUpdater)
    (cfg : MonteCarloConfiguration MS) (w : W) :
    Option (Proposal InsertionRemovalDiagonalUpdater MS) :=
  let tau_low := win.get_tau_low w
  let tau_high := win.get_tau_high w
  let flavor := (static_cast_int (rng pos * (u.derived.num_flavors_ : ℚ))).toNat
  let pos := pos + 1
  let block := mat.block_belonging_to cfg.M flavor
  let cdagg_ops_in_range :=
    ((mat.get_cdagg_ops_set cfg.M block).range tau_low tau_high).filter
      (fun op => decide (op.flavor = flavor))
  let c_ops_in_range :=
    ((mat.get_c_ops_set cfg.M block).range tau_low tau_high).filter
      (fun op => decide (op.flavor = flavor))
  let d : InsertionRemovalDiagonalUpdater :=
    { u.derived with
      tau_low_ := tau_low
      tau_high_ := tau_high
      flavor_ := flavor
      cdagg_ops_in_range_ := cdagg_ops_in_range
      c_ops_in_range_ := c_ops_in_range }
  let update_rank := d.update_rank_
  if rng pos < 1 / 2 then
    let ins := insertion_loop open_random rng tau_low tau_high flavor update_rank
      u.cdagg_ops_add_ u.c_ops_add_ (pos + 1)
    let correction := insertion_correction (tau_high - tau_low) update_rank
      cdagg_ops_in_range.length c_ops_in_range.length
    let cdagg_ops_add := ins.1.insertionSort (· ≤ ·)
    let c_ops_add := ins.2.1.insertionSort (· ≤ ·)
    match spread cdagg_ops_add c_ops_add with
    | none => none
    | some distance =>
      some (Proposal.of true
        { u with
            cdagg_ops_add_ := cdagg_ops_add
            c_ops_add_ := c_ops_add
            acceptance_rate_correction_ := some correction
            derived := { d with distance_ := distance } }
        cfg ins.2.2)
  else
    if cdagg_ops_in_range.length < update_rank || c_ops_in_range.length < update_rank then
      some (Proposal.of false { u with derived := d } cfg (pos + 1))
    else
      match pickup_a_few_numbers fuel cdagg_ops_in_range.length update_rank rng (pos + 1) with
      | none => none
      | some (idx_c, pos) =>
        match pickup_a_few_numbers fuel c_ops_in_range.length update_rank rng pos with
        | none => none
        | some (idx_a, pos) =>
          match removal_pick cdagg_ops_in_range c_ops_in_range idx_c idx_a
              u.cdagg_ops_rem_ u.c_ops_rem_ with
          | none => none
          | some (rem_c, rem_a) =>
            let correction := removal_correction (tau_high - tau_low) update_rank
              cdagg_ops_in_range.length c_ops_in_range.length
            let cdagg_ops_rem := rem_c.insertionSort (· ≤ ·)
            let c_ops_rem := rem_a.insertionSort (· ≤ ·)
            match spread cdagg_ops_rem c_ops_rem with
            | none => none
            | some distance =>
              some (Proposal.of true
                { u with
                    cdagg_ops_rem_ := cdagg_ops_rem
                    c_ops_rem_ := c_ops_rem
                    acceptance_rate_correction_ := some correction
                    derived := { d with distance_ := distance } }
                cfg pos)

end InsertionRemovalDiagonalUpdater

/-! ## SingleOperatorShiftUpdater -/

/-- Members of `SingleOperatorShiftUpdater` (lines 937-942) that `propose` reads or
writes; the acceptance histogram `acc_rate_` is only touched by the other hooks. -/
structure SingleOperatorShiftUpdater where
  num_flavors_ : Nat
  max_distance_ : List ℚ
  distance_ : ℚ
  flavor_ : Nat
deriving DecidableEq

namespace SingleOperatorShiftUpdater

/-- Lines 944-947: `gen_new_flavor`. -/
def gen_new_flavor {MS : Type} (mat : DeterminantMatrix MS) (cfg : MonteCarloConfiguration MS)
    (old_flavor : Nat) (rng : Random01) (pos : Nat) : Option (Nat × Nat) :=
  let block := mat.block_belonging_to cfg.M old_flavor
  pick (mat.flavors cfg.M block) rng pos

/-- Lines 874-884 and 886-896: the body shared by the two branches of `propose`, for the
operator `it` found at the chosen index and the kind `kind` of the branch (`CREATION_OP`
with the lists `cdagg_ops_rem_`, `cdagg_ops_add_` in the first branch, `ANNIHILATION_OP`
with `c_ops_rem_`, `c_ops_add_` in the second).  Returns the returned flag, the removed
and the added operator, the members `flavor_`, `distance_` and the stream position. -/
def shift_branch {MS : Type} (mat : DeterminantMatrix MS) (cfg : MonteCarloConfiguration MS)
    (tau_low tau_high : ℚ) (d : SingleOperatorShiftUpdater) (it : psi) (kind : OperatorType)
    (rng : Random01) (pos : Nat) :
    Option (Option (psi × psi) × SingleOperatorShiftUpdater × Nat) :=
  let d := { d with flavor_ := it.flavor }
  let r := rng pos
  let pos := pos + 1
  match (if r < 1 / 2 then some (it.flavor, pos)
         else gen_new_flavor mat cfg d.flavor_ rng pos) with
  | none => none
  | some (new_flavor, pos) =>
    match d.max_distance_.get? d.flavor_ with
    | none => none
    | some max_distance =>
      let new_time := (2 * rng pos - 1) * max_distance + it.time
      let pos := pos + 1
      if new_time < tau_low ∨ new_time > tau_high then
        some (none, d, pos)
      else
        let d := { d with distance_ := |it.time - new_time| }
        some (some (it, psi.mk new_time kind new_flavor), d, pos)

/-- Lines 848-900: `SingleOperatorShiftUpdater::propose`. -/
def propose {MS W : Type} (mat : DeterminantMatrix MS) (win : SlidingWindow W)
    (rng : Random01) (pos : Nat) (u : LocalUpdater SingleOperatorShiftUpdater)
    (cfg : MonteCarloConfiguration MS) (w : W) :
    Option (Proposal SingleOperatorShiftUpdater MS) :=
  let tau_low := win.get_tau_low w
  let tau_high := win.get_tau_high w
  let cdagg_ops_range := cfg.operators.range tau_low tau_high
  let num_cdagg_ops := cdagg_ops_range.length
  let c_ops_range := cfg.operators.range tau_low tau_high
  let num_c_ops := c_ops_range.length
  if num_cdagg_ops + num_c_ops = 0 then
    some (Proposal.of false u cfg pos)
  else
    let idx := static_cast_int (rng pos * ((num_cdagg_ops + num_c_ops : Nat) : ℚ))
    let pos := pos + 1
    if idx < (num_cdagg_ops : Int) then
      match at_index cdagg_ops_range idx with
      | none => none
      | some it =>
        match shift_branch mat cfg tau_low tau_high u.derived it
            OperatorType.CREATION_OP rng pos with
        | none => none
        | some (none, d, pos) =>
          some (Proposal.of false { u with derived := d } cfg pos)
        | some (some (op_rem, op_add), d, pos) =>
          some (Proposal.of true
            { u with
                cdagg_ops_rem_ := u.cdagg_ops_rem_ ++ [op_rem]
                cdagg_ops_add_ := u.cdagg_ops_add_ ++ [op_add]
                acceptance_rate_correction_ := some 1
                derived := d }
            cfg pos)
    else
      match at_index c_ops_range (idx - (num_cdagg_ops : Int)) with
      | none => none
      | some it =>
        match shift_branch mat cfg tau_low tau_high u.derived it
            OperatorType.ANNIHILATION_OP rng pos with
        | none => none
        | some (none, d, pos) =>
          some (Proposal.of false { u with derived := d } cfg pos)
        | some (some (op_rem, op_add), d, pos) =>
          some (Proposal.of true
            { u with
                c_ops_rem_ := u.c_ops_rem_ ++ [op_rem]
                c_ops_add_ := u.c_ops_add_ ++ [op_add]
                acceptance_rate_correction_ := some 1
                derived := d }
            cfg pos)

end SingleOperatorShiftUpdater

/-! ## The determinant-ratio evaluator -/

/-- Modelled from the spec: the comparator `AbsLessor` (declared outside the sources at
hand), which orders scalars by magnitude. -/
def AbsLessor (a b : ℚ) : Bool := decide (|a| < |b|)

/-- The algorithm `std::max_element(first, last, comp)`: the first element that no later
one exceeds.  `none` stands for the iterator `last`, returned for an empty range, which
cannot be dereferenced. -/
def max_element (comp : ℚ → ℚ → Bool) : List ℚ → Option ℚ
  | [] => none
  | x :: xs => some (xs.foldl (fun largest y => if comp largest y then y else largest) x)

/-- The epsilon test of line 961, `std::abs(det_vec_new[i] / max_abs_elem) > eps`.  In
floating point the quotient by a zero `max_abs_elem` is not a number for a zero pivot
(the comparison is then false) and infinite for any other pivot. -/
def passes_eps (x max_abs_elem eps : ℚ) : Bool :=
  if max_abs_elem = 0 then decide (x ≠ 0) else decide (|x / max_abs_elem| > eps)

/-- One pass through the loop body of lines 960-967.  `none` stands for a value that is
not a finite number (the result of a division by a zero pivot); no later multiplication
or division by a pivot makes it finite again. -/
def compute_det_rat_step (det_vec_new det_vec_old : List ℚ) (max_abs_elem eps : ℚ)
    (det_rat : Option ℚ) (i : Nat) : Option ℚ :=
  match det_rat with
  | none => none
  | some det_rat =>
    let det_rat :=
      if i < det_vec_new.length ∧ passes_eps (det_vec_new.getD i 0) max_abs_elem eps = true
      then det_rat * det_vec_new.getD i 0 else det_rat
    if i < det_vec_old.length then
      if det_vec_old.getD i 0 = 0 then none else some (det_rat / det_vec_old.getD i 0)
    else some det_rat

/-- Lines 950-969: `compute_det_rat` on two pivot vectors.  `none` when no finite result
is defined: the vector `det_vec_new` is empty (the iterator returned by
`std::max_element` is dereferenced) or a division by zero has happened. -/
def compute_det_rat (det_vec_new det_vec_old : List ℚ) (eps : ℚ) : Option ℚ :=
  let num_loop := max det_vec_new.length det_vec_old.length
  match max_element AbsLessor det_vec_new with
  | none => none
  | some largest =>
    let max_abs_elem := |largest|
    (List.range num_loop).foldl
      (compute_det_rat_step det_vec_new det_vec_old max_abs_elem eps) (some 1)

/-- The default value `1E-30` of the parameter `eps` of `compute_det_rat`. -/
def default_eps : ℚ := 1 / 10 ^ 30

/-- Modelled from the spec: the comparator `AbsGreater` (declared outside the sources at
hand), which orders scalars by descending magnitude. -/
def AbsGreater (a b : ℚ) : Bool := decide (|a| > |b|)

/-- The call `std::sort(first, last, AbsGreater<SCALAR>())`: descending magnitude.
Elements of equal magnitude, whose order `std::sort` leaves unspecified, keep their
order. -/
def sort_abs_greater (v : List ℚ) : List ℚ :=
  v.insertionSort (fun a b => AbsGreater b a = false)

/-- What `lu_product` reads of the decomposition `Eigen::FullPivLU` of a square matrix
(a collaborator outside the sources at hand): the matrix `matrixLU()` and the
determinants of the permutations `permutationP()` and `permutationQ()`. -/
structure FullPivLU where
  matrixLU : Nat → Nat → ℚ
  permutationP_determinant : Int
  permutationQ_determinant : Int

/-- Lines 971-985: `lu_product`.  A matrix is the list of its rows; `decompose` stands
for the constructor of `Eigen::FullPivLU`, and `lu.rows()` is the number of rows of the
matrix. -/
def lu_product (decompose : List (List ℚ) → FullPivLU) (matrix : List (List ℚ)) : List ℚ :=
  if matrix.length = 0 then []
  else
    let lu := decompose matrix
    let size1 := matrix.length
    let results := (List.range size1).map (fun i => lu.matrixLU i i)
    match results with
    | [] => []
    | r :: rest =>
      r * (((lu.permutationP_determinant * lu.permutationQ_determinant : Int)) : ℚ) :: rest

/-- The number of pairs of entries of a sequence that stand in descending order. -/
def inversions : List ℚ → Nat
  | [] => 0
  | x :: xs => (xs.filter (fun y => decide (y < x))).length + inversions xs

/-- Modelled from the spec: `alps::fastupdate::comb_sort` on a sequence of operator times
(declared outside the sources at hand) sorts the sequence and returns the parity, `+1` or
`-1`, of the exchanges it has made; for pairwise distinct times this is the sign of the
sorting permutation. -/
def comb_sort (times : List ℚ) : Int := (-1) ^ inversions times

/-- Interface of the determinant matrix as used by the determinant-ratio evaluator and
by `global_update`, beyond the members used by the local updates. -/
structure DeterminantMatrixGlobal (MS : Type) extends DeterminantMatrix MS where
  get_greens_function : MS → psi → psi → ℚ
  get_cdagg_ops : MS → List psi
  get_c_ops : MS → List psi
  /-- the constructor `DeterminantMatrixType(p_gf, first, last)` from operator pairs -/
  construct : (psi → psi → ℚ) → List (psi × psi) → MS

instance (priority := low) {ε α : Type} [DecidableEq ε] [DecidableEq α] :
    DecidableEq (Except ε α)
  | Except.ok a, Except.ok b =>
    decidable_of_iff (a = b) ⟨fun h => congrArg Except.ok h, fun h => Except.ok.inj h⟩
  | Except.error a, Except.error b =>
    decidable_of_iff (a = b) ⟨fun h => congrArg Except.error h, fun h => Except.error.inj h⟩
  | Except.ok _, Except.error _ => isFalse (fun h => nomatch h)
  | Except.error _, Except.ok _ => isFalse (fun h => nomatch h)

/-- Abnormal terminations of the block-wise `compute_det_rat`. -/
inductive EvaluatorFailure where
  /-- `M.block_belonging_to` yields an index outside the vectors `cdagg_ops`, `c_ops` -/
  | block_out_of_range
  /-- `assert(cdagg_ops[ib].size() == c_ops[ib].size())`, line 1015 -/
  | assert_block_size
  /-- a division by a zero pivot: the ratio is not a finite number -/
  | not_finite
deriving DecidableEq, Repr

/-- The loop over the blocks of lines 1013-1033; the state is made of `det_vec_new`,
`cdagg_times` and `c_times`, and each block comes as the pair of `cdagg_ops[ib]` and
`c_ops[ib]`. -/
def compute_det_rat_block_loop (gf : psi → psi → ℚ) (decompose : List (List ℚ) → FullPivLU) :
    List (List psi × List psi) → List ℚ × List ℚ × List ℚ →
      Except EvaluatorFailure (List ℚ × List ℚ × List ℚ)
  | [], state => .ok state
  | (cdagg_ops_ib, c_ops_ib) :: rest, (det_vec_new, cdagg_times, c_times) =>
    let mat_size := cdagg_ops_ib.length
    if cdagg_ops_ib.length ≠ c_ops_ib.length then .error .assert_block_size
    else if mat_size = 0 then
      compute_det_rat_block_loop gf decompose rest (det_vec_new, cdagg_times, c_times)
    else
      let M_new := (List.range mat_size).map (fun row =>
        (List.range mat_size).map (fun col =>
          match c_ops_ib[row]?, cdagg_ops_ib[col]? with
          | some c_op, some cdagg_op => gf c_op cdagg_op
          | _, _ => 0))
      let vec_tmp := lu_product decompose M_new
      compute_det_rat_block_loop gf decompose rest
        (det_vec_new ++ vec_tmp, cdagg_times ++ cdagg_ops_ib.map psi.time,
          c_times ++ c_ops_ib.map psi.time)

/-- Lines 987-1049: `compute_det_rat` on operator lists (the overload that works block by
block; the overload on pivot vectors is `compute_det_rat`).  Returns the ratio together
with the vectors `det_vec_old` and `det_vec_new` as the call leaves them. -/
def compute_det_rat_blocks {MS : Type} (mat : DeterminantMatrixGlobal MS)
    (decompose : List (List ℚ) → FullPivLU)
    (creation_operators annihilation_operators : List psi) (det_vec_old : List ℚ) (M : MS) :
    Except EvaluatorFailure (ℚ × List ℚ × List ℚ) :=
  let num_blocks := mat.num_blocks M
  if (creation_operators ++ annihilation_operators).any
      (fun op => decide (num_blocks ≤ mat.block_belonging_to M op.flavor)) then
    .error .block_out_of_range
  else
    let cdagg_ops := (List.range num_blocks).map (fun ib =>
      creation_operators.filter (fun op => decide (mat.block_belonging_to M op.flavor = ib)))
    let c_ops := (List.range num_blocks).map (fun ib =>
      annihilation_operators.filter
        (fun op => decide (mat.block_belonging_to M op.flavor = ib)))
    let gf := mat.get_greens_function M
    match compute_det_rat_block_loop gf decompose (cdagg_ops.zip c_ops) ([], [], []) with
    | .error e => .error e
    | .ok (det_vec_new, cdagg_times, c_times) =>
      if det_vec_new.length = 0 then .ok (0, det_vec_old, det_vec_new)
      else
        let det_vec_old := sort_abs_greater det_vec_old
        let det_vec_new := sort_abs_greater det_vec_new
        match compute_det_rat det_vec_new det_vec_old default_eps with
        | none => .error .not_finite
        | some det_rat =>
          let perm_sign_block := comb_sort cdagg_times * comb_sort c_times
          let det_vec_new :=
            match det_vec_new with
            | [] => []
            | d :: rest => d * (perm_sign_block : ℚ) :: rest
          .ok ((perm_sign_block : ℚ) * det_rat, det_vec_old, det_vec_new)

/-! ## Global update -/

/-- Lines 23-34: `ExchangeFlavor`, the operator transformer that replaces the flavor of
an operator by the entry of the table `first_` at that flavor. -/
def ExchangeFlavor (first_ : Nat → Nat) (op : psi) : psi :=
  { op with flavor := first_ op.flavor }

/-- Lines 43-62: `OperatorShift`, the operator transformer that moves an operator by
`shift_` in imaginary time, wrapping around at `beta_`.  The source computes on `double`:
`fl` is the rounding of the exact sum or difference to the number that is stored (the
identity in exact arithmetic); the comparisons are exact.  `none` when one of its two
assertions fails. -/
def OperatorShift (fl : ℚ → ℚ) (beta_ shift_ : ℚ) (op : psi) : Option psi :=
  if ¬ (shift_ ≥ 0) then none
  else
    let new_t := fl (op.time + shift_)
    let new_t := if new_t > beta_ then fl (new_t - beta_) else new_t
    if ¬ (new_t ≥ 0 ∧ new_t ≤ beta_) then none
    else some { op with time := new_t }

/-- Modelled from the spec: the side argument of `set_window_size` (declared outside the
sources at hand). -/
inductive ITIME_AXIS_LEFT_OR_RIGHT where
  | ITIME_LEFT
  | ITIME_RIGHT
deriving DecidableEq, Repr

/-- Interface of the sliding window as used by `global_update`, beyond the members used
by the local updates. -/
structure SlidingWindowGlobal (W : Type) extends SlidingWindow W where
  set_window_size : W → Nat → operator_container_t → Nat → ITIME_AXIS_LEFT_OR_RIGHT → W

/-- Everything `global_update` is linked against.  `pert_order` and `sanity_check` are
the member functions of `MonteCarloConfiguration` of these names (declared outside the
sources at hand); `sanity_check` yields the window as it leaves it, or `none` when the
check fails. -/
structure GlobalEnv (MS W : Type) where
  matrix : DeterminantMatrixGlobal MS
  window : SlidingWindowGlobal W
  decompose : List (List ℚ) → FullPivLU
  pert_order : MonteCarloConfiguration MS → Nat
  compute_permutation_sign : MonteCarloConfiguration MS → Int
  sanity_check : MonteCarloConfiguration MS → W → Option W

/-- Abnormal terminations of `global_update`. -/
inductive GlobalFailure where
  /-- `assert(sliding_window.get_tau_low() == 0)`, line 1062 -/
  | assert_tau_low
  /-- `assert(sliding_window.get_tau_high() == BETA)`, line 1063 -/
  | assert_tau_high
  /-- a failure inside the block-wise `compute_det_rat` -/
  | evaluator (e : EvaluatorFailure)
  /-- an index `iop < pert_order` outside one of the transformed operator lists -/
  | pair_out_of_range
  /-- a failure inside `mc_config.sanity_check` -/
  | sanity_check
deriving DecidableEq, Repr

/-- State left by a call of `global_update`: the returned flag or the failure, and the
objects passed by reference. -/
structure GlobalRun (MS W : Type) where
  result : Except GlobalFailure Bool
  mc_config : MonteCarloConfiguration MS
  det_vec : List ℚ
  window : W
  rng_pos : Nat

/-- The statement `operators_new.insert(op)`: an operator that is already present is not
inserted again. -/
def insert_if_new (c : operator_container_t) (op : psi) : operator_container_t :=
  if h : op ∈ c.elems then c else c.insert op h

/-- Lines 1070-1075 of `global_update`: the collection `operators_new`. -/
def transformed_operators (transformer : psi → psi) (operators : operator_container_t) :
    operator_container_t :=
  operators.elems.foldl (fun operators_new op => insert_if_new operators_new (transformer op))
    operator_container_t.empty

/-- Lines 1116-1119 of `global_update`: the vector `operator_pairs`. -/
def make_operator_pairs (pert_order : Nat) (creation_operators_new
    annihilation_operators_new : List psi) : List (psi × psi) :=
  (List.range pert_order).filterMap (fun iop =>
    match creation_operators_new[iop]?, annihilation_operators_new[iop]? with
    | some cdagg_op, some c_op => some (cdagg_op, c_op)
    | _, _ => none)

/-- Lines 1127-1132 of `global_update`: the configuration after the transformed
operators, matrix and trace have been swapped in. -/
def global_commit {MS W : Type} (env : GlobalEnv MS W)
    (mc_config : MonteCarloConfiguration MS) (trace_new : ℚ)
    (operators_new : operator_container_t) (M_new : MS) (prob : ℚ) :
    MonteCarloConfiguration MS :=
  let cfg := { mc_config with trace := trace_new, operators := operators_new, M := M_new }
  let perm_sign_new := env.compute_permutation_sign cfg
  let cfg := { cfg with
    sign := cfg.sign * (((perm_sign_new : ℚ) / (cfg.perm_sign : ℚ)) * prob / |prob|) }
  { cfg with perm_sign := perm_sign_new }

/-- Lines 1051-1139: `global_update`.  The arguments passed by reference are returned in
the `GlobalRun`; `pos` is the position in the random stream; the body does not use
`num_flavors`.  Assertions are enabled. -/
def global_update {MS W : Type} (env : GlobalEnv MS W) (rng : Random01) (BETA : ℚ)
    (mc_config : MonteCarloConfiguration MS) (det_vec : List ℚ) (w : W) (_num_flavors : Nat)
    (transformer : psi → psi) (Nwin : Nat) (pos : Nat) : GlobalRun MS W :=
  if env.window.get_tau_low w ≠ 0 then
    ⟨.error .assert_tau_low, mc_config, det_vec, w, pos⟩
  else if env.window.get_tau_high w ≠ BETA then
    ⟨.error .assert_tau_high, mc_config, det_vec, w, pos⟩
  else
    let pert_order := env.pert_order mc_config
    if pert_order = 0 then ⟨.ok true, mc_config, det_vec, w, pos⟩
    else
      let operators_new := transformed_operators transformer mc_config.operators
      let w := env.window.set_window_size w 1 mc_config.operators 0 .ITIME_LEFT
      let w := env.window.set_window_size w Nwin operators_new 0 .ITIME_LEFT
      let trace_bound := List.replicate (env.window.get_num_brakets w) (0 : ℚ)
      let tb := env.window.compute_trace_bound w operators_new trace_bound
      let r := env.window.lazy_eval_trace tb.2 operators_new 0 tb.1.2
      let trace_new := r.1.2
      let w := env.window.set_window_size r.2 1 mc_config.operators 0 .ITIME_LEFT
      if trace_new = 0 then ⟨.ok false, mc_config, det_vec, w, pos⟩
      else
        let creation_operators_new := (env.matrix.get_cdagg_ops mc_config.M).map transformer
        let annihilation_operators_new := (env.matrix.get_c_ops mc_config.M).map transformer
        match compute_det_rat_blocks env.matrix env.decompose creation_operators_new
            annihilation_operators_new det_vec mc_config.M with
        | .error e => ⟨.error (.evaluator e), mc_config, det_vec, w, pos⟩
        | .ok (det_rat, det_vec, det_vec_new) =>
          let prob := det_rat * (trace_new / mc_config.trace)
          if rng pos < |prob| then
            if pert_order ≤ creation_operators_new.length ∧
                pert_order ≤ annihilation_operators_new.length then
              let operator_pairs := make_operator_pairs pert_order creation_operators_new
                annihilation_operators_new
              let M_new := env.matrix.construct (env.matrix.get_greens_function mc_config.M)
                operator_pairs
              let cfg := global_commit env mc_config trace_new operators_new M_new prob
              match env.sanity_check cfg w with
              | none => ⟨.error .sanity_check, cfg, det_vec_new, w, pos + 1⟩
              | some w => ⟨.ok true, cfg, det_vec_new, w, pos + 1⟩
            else ⟨.error .pair_out_of_range, mc_config, det_vec, w, pos + 1⟩
          else ⟨.ok false, mc_config, det_vec, w, pos + 1⟩

/-! ## Vocabulary of the statements -/

/-- The calls made to the determinant matrix. -/
def Event.is_matrix : Event → Bool
  | .try_update => true
  | .perform_update => true
  | .reject_update => true
  | _ => false

/-- The calls of the hook `call_back`. -/
def Event.is_call_back : Event → Bool
  | .call_back _ _ _ _ _ _ => true
  | _ => false

/-- The combined removal lists of a proposal, in the order `update_operators` erases
them. -/
def Proposal.ops_rem {S MS : Type} (p : Proposal S MS) : List psi :=
  p.cdagg_ops_rem_ ++ p.c_ops_rem_

/-- The combined add lists of a proposal, in the order `update_operators` inserts
them. -/
def Proposal.ops_add {S MS : Type} (p : Proposal S MS) : List psi :=
  p.cdagg_ops_add_ ++ p.c_ops_add_

/-- The calls made to the determinant matrix during a cycle, in order. -/
def matrix_calls (log : List Event) : List Event := log.filter Event.is_matrix

/-- The calls of `call_back` that found `accepted_ = true`. -/
def Event.reports_accepted : Event → Bool
  | .call_back _ true _ _ _ _ => true
  | _ => false

/-- The protocol of the determinant matrix: `some false` when no tentative transaction is
open, `some true` when one is open, `none` once the protocol has been violated (a
`try_update` inside an open transaction, or a `perform_update` or `reject_update` without
one). -/
def transaction_step : Option Bool → Event → Option Bool
  | some false, .try_update => some true
  | some true, .try_update => none
  | some true, .perform_update => some false
  | some true, .reject_update => some false
  | some false, .perform_update => none
  | some false, .reject_update => none
  | s, _ => s

/-- The state of the protocol after the calls of `log`, starting with no tentative
transaction open. -/
def transaction_state (log : List Event) : Option Bool :=
  log.foldl transaction_step (some false)

/-- The transaction discipline of a run: `try_update` is called at most once,
`perform_update` or `reject_update` only after it and at most one of them, the protocol
is never violated; and when the call returns, no transaction is left open and
`perform_update` has been called exactly when `call_back` found `accepted_ = true`. -/
def Run.disciplined {S MS W : Type} (r : Run S MS W) : Prop :=
  (matrix_calls r.log = [] ∨ matrix_calls r.log = [Event.try_update] ∨
    matrix_calls r.log = [Event.try_update, Event.perform_update] ∨
    matrix_calls r.log = [Event.try_update, Event.reject_update]) ∧
  transaction_state r.log ≠ none ∧
  (r.outcome = Outcome.returned →
    matrix_calls r.log ≠ [Event.try_update] ∧
    transaction_state r.log = some false ∧
    (Event.perform_update ∈ r.log ↔ r.log.any Event.reports_accepted = true))

/-- The cycle has been finalized: the proposal record of the updater is cleared, and
the last recorded call is the only call of `call_back`, which found the flag
`valid_move_generated_ = valid`, the four lists `l1 .. l4`, and `accepted_ = true` exactly
when `perform_update` had been called. -/
def Run.cycle_closed {S MS W : Type} (r : Run S MS W) (valid : Bool)
    (l1 l2 l3 l4 : List psi) : Prop :=
  r.upd.acceptance_rate_correction_ = none ∧
  r.upd.cdagg_ops_rem_ = [] ∧ r.upd.c_ops_rem_ = [] ∧
  r.upd.cdagg_ops_add_ = [] ∧ r.upd.c_ops_add_ = [] ∧
  r.upd.valid_move_generated_ = false ∧ r.upd.accepted_ = false ∧
  ∃ (before : List Event) (accepted : Bool),
    r.log = before ++ [Event.call_back valid accepted l1 l2 l3 l4] ∧
    (∀ e ∈ before, e.is_call_back = false) ∧
    (accepted = true ↔ Event.perform_update ∈ before)

/-- The collection `ops` is the collection `old` after a move has been applied to it:
the operators of `rem` (pairwise distinct members of `old`) are gone and the operators of
`add` (pairwise distinct, none of them left in `old`) are there. -/
def applied_to (old ops : operator_container_t) (rem add : List psi) : Prop :=
  rem.Nodup ∧ (∀ x ∈ rem, x ∈ old.toFinset) ∧
  add.Nodup ∧ (∀ x ∈ add, x ∉ old.toFinset \ rem.toFinset) ∧
  ops.toFinset = (old.toFinset \ rem.toFinset) ∪ add.toFinset

/-- Every entry into the rejection loop of `pickup_a_few_numbers`, in the course of the
loop `pickup_loop` with `n` iterations to go, finds an index whose flag is not set. -/
def rejection_loop_has_free_index (rng : Random01) (fuel N : Nat) :
    Nat → List Nat → Nat → Prop
  | 0, _, _ => True
  | n + 1, flag, pos =>
    0 ∈ flag ∧
    match pickup_draw rng N flag fuel pos with
    | none => True
    | some (itmp, pos) => rejection_loop_has_free_index rng fuel N n (flag.set itmp 1) pos

/-- The square matrix that a list of rows stands for (an entry that is absent reads as
zero). -/
def to_matrix (matrix : List (List ℚ)) : Matrix (Fin matrix.length) (Fin matrix.length) ℚ :=
  fun i j => (matrix.getD i []).getD j 0

/-- The vectors `cdagg_ops` and `c_ops` of the block-wise `compute_det_rat` (lines
996-1003), block by block: the creation and the annihilation operators of each block. -/
def operator_blocks {MS : Type} (mat : DeterminantMatrixGlobal MS)
    (creation_operators annihilation_operators : List psi) (M : MS) :
    List (List psi × List psi) :=
  ((List.range (mat.num_blocks M)).map (fun ib =>
    creation_operators.filter (fun op => decide (mat.block_belonging_to M op.flavor = ib)))).zip
  ((List.range (mat.num_blocks M)).map (fun ib =>
    annihilation_operators.filter
      (fun op => decide (mat.block_belonging_to M op.flavor = ib))))

/-- The pivots that the loop over the blocks of the block-wise `compute_det_rat` collects
in `det_vec_new`, before they are sorted (no pivot when the loop fails). -/
def block_pivots {MS : Type} (mat : DeterminantMatrixGlobal MS)
    (decompose : List (List ℚ) → FullPivLU)
    (creation_operators annihilation_operators : List psi) (M : MS) : List ℚ :=
  match compute_det_rat_block_loop (mat.get_greens_function M) decompose
    (operator_blocks mat creation_operators annihilation_operators M) ([], [], []) with
  | .ok (det_vec_new, _, _) => det_vec_new
  | .error _ => []

/-- The matrix `M_new` of lines 1017-1022 for one block, as the list of its rows: the
Green's function between the annihilation operator of the row and the creation operator
of the column. -/
def block_matrix (gf : psi → psi → ℚ) (cdagg_ops_ib c_ops_ib : List psi) : List (List ℚ) :=
  (List.range cdagg_ops_ib.length).map (fun row =>
    (List.range cdagg_ops_ib.length).map (fun col =>
      match c_ops_ib[row]?, cdagg_ops_ib[col]? with
      | some c_op, some cdagg_op => gf c_op cdagg_op
      | _, _ => 0))

/-- The determinant of the matrix with `n` rows and `n` columns whose entry in row `i`
and column `j` is `f i j`. -/
def det_of_entries (n : Nat) (f : Nat → Nat → ℚ) : ℚ :=
  Matrix.det (Matrix.of (fun (i j : Fin n) => f i j))

/-- The exchange of the adjacent indices `k` and `k + 1`. -/
def swap_index (k j : Nat) : Nat := if j = k then k + 1 else if j = k + 1 then k else j

/-- The entry of `M_new` in row `row` and column `col` (line 1020), zero outside the
matrix. -/
def block_entry (gf : psi → psi → ℚ) (cdagg_ops_ib c_ops_ib : List psi) (row col : Nat) : ℚ :=
  match c_ops_ib[row]?, cdagg_ops_ib[col]? with
  | some c_op, some cdagg_op => gf c_op cdagg_op
  | _, _ => 0

/-- What keeps the orchestrator away from its fatal branches once `propose` has returned
true: the correction factor is set and strictly positive, every operator of the four
lists has its time inside `[tau_low, tau_high]`, and the removal lists hold operators of
the collection `operators`, none of them twice. -/
def proposal_is_safe {S MS : Type} (p : Proposal S MS) (operators : operator_container_t)
    (tau_low tau_high : ℚ) : Prop :=
  (∃ c, p.acceptance_rate_correction_ = some c ∧ 0 < c) ∧
  (∀ op ∈ p.cdagg_ops_rem_ ++ p.c_ops_rem_ ++ p.cdagg_ops_add_ ++ p.c_ops_add_,
    tau_low ≤ op.time ∧ op.time ≤ tau_high) ∧
  (∀ op ∈ p.cdagg_ops_rem_ ++ p.c_ops_rem_, op ∈ operators.elems) ∧
  (p.cdagg_ops_rem_ ++ p.c_ops_rem_).Nodup

/-- The trace of the transformed operators as `global_update` evaluates it (lines
1070-1083), for a configuration of non-zero perturbation order. -/
def transformed_trace {MS W : Type} (env : GlobalEnv MS W)
    (mc_config : MonteCarloConfiguration MS) (w : W) (transformer : psi → psi) (Nwin : Nat) :
    ℚ :=
  let operators_new := transformed_operators transformer mc_config.operators
  let w := env.window.set_window_size w 1 mc_config.operators 0 .ITIME_LEFT
  let w := env.window.set_window_size w Nwin operators_new 0 .ITIME_LEFT
  let trace_bound := List.replicate (env.window.get_num_brakets w) (0 : ℚ)
  let tb := env.window.compute_trace_bound w operators_new trace_bound
  (env.window.lazy_eval_trace tb.2 operators_new 0 tb.1.2).1.2

/-- The number of operators of a list whose flavor belongs to the block `b`. -/
def block_count {MS : Type} (mat : DeterminantMatrix MS) (M : MS) (b : Nat)
    (ops : List psi) : Nat :=
  ops.countP (fun op => decide (mat.block_belonging_to M op.flavor = b))

/-- The operators of one kind that are held after a move: the removed operators are
taken out of the list, the added ones are appended. -/
def after_move (ops ops_rem ops_add : List psi) : List psi :=
  ops.diff ops_rem ++ ops_add

/-! ## A small test bench: one block, one flavor, window `[0, 10]` -/

namespace Bench

/-- A determinant matrix with one block holding the single flavor `0`; its state counts
the open tentative transactions and `try_update` reports the ratio `det_rat`. -/
def matrix (det_rat : ℚ) : DeterminantMatrix Nat :=
  { num_blocks := fun _ => 1
    num_flavors := fun _ _ => 1
    flavors := fun _ _ => [0]
    block_belonging_to := fun _ _ => 0
    get_cdagg_ops_set := fun _ _ => operator_container_t.empty
    get_c_ops_set := fun _ _ => operator_container_t.empty
    try_update := fun m _ _ _ _ => (det_rat, m + 1)
    perform_update := fun m => m - 1
    reject_update := fun m => m - 1 }

/-- A window `[0, 10]` with one braket, whose traces all equal `1`: the bound is `1`
and the lazy evaluation accepts exactly when the cutoff is below `1`. -/
def window : SlidingWindow Unit :=
  { get_tau_low := fun _ => 0
    get_tau_high := fun _ => 10
    get_num_brakets := fun _ => 1
    compute_trace_bound := fun _ _ _ => ((1, [1]), ())
    lazy_eval_trace := fun _ _ cutoff _ => ((decide (cutoff < 1), 1), ()) }

/-- A random stream given by its first values (zero afterwards). -/
def stream (values : List ℚ) : Random01 := fun n => values.getD n 0

/-- The shift strategy on the test bench (its hook `call_back` only feeds the
acceptance histogram, which is not modelled). -/
def shift_strategy (det_rat : ℚ) : Strategy SingleOperatorShiftUpdater Nat Unit :=
  { propose := SingleOperatorShiftUpdater.propose (matrix det_rat) window
    call_back := fun u => u }

/-- The test bench around the shift strategy. -/
def shift_env (det_rat : ℚ) : Env SingleOperatorShiftUpdater Nat Unit :=
  { strategy := shift_strategy det_rat
    matrix := matrix det_rat
    window := window
    compute_permutation_sign := fun _ => 1 }

/-- An updater of the shift strategy between two cycles, with maximal distance `5`. -/
def shift_updater : LocalUpdater SingleOperatorShiftUpdater :=
  { acceptance_rate_correction_ := none
    cdagg_ops_rem_ := []
    c_ops_rem_ := []
    cdagg_ops_add_ := []
    c_ops_add_ := []
    valid_move_generated_ := false
    accepted_ := false
    duplicate_check_work_ := []
    trace_bound := []
    derived := { num_flavors_ := 1, max_distance_ := [5], distance_ := 0, flavor_ := 0 } }

/-- The empty configuration. -/
def empty_config : MonteCarloConfiguration Nat :=
  { operators := operator_container_t.empty, M := 0, trace := 1, sign := 1, perm_sign := 1 }

/-- A configuration with a creation operator at time `3` and an annihilation operator at
time `7`. -/
def pair_config : MonteCarloConfiguration Nat :=
  { operators := operator_container_t.ofList
      [⟨3, OperatorType.CREATION_OP, 0⟩, ⟨7, OperatorType.ANNIHILATION_OP, 0⟩]
    M := 0, trace := 1, sign := 1, perm_sign := 1 }

/-- The proposal of the shift strategy on `pair_config` for the stream `0, 0, 3/5`: the
creation operator moves from time `3` to time `4`. -/
def shift_proposal : Proposal SingleOperatorShiftUpdater Nat :=
  { valid := true
    acceptance_rate_correction_ := some 1
    cdagg_ops_rem_ := [⟨3, OperatorType.CREATION_OP, 0⟩]
    c_ops_rem_ := []
    cdagg_ops_add_ := [⟨4, OperatorType.CREATION_OP, 0⟩]
    c_ops_add_ := []
    derived := { num_flavors_ := 1, max_distance_ := [5], distance_ := 1, flavor_ := 0 }
    mc_config := pair_config
    rng_pos := 3 }

/-- A configuration with creation operators at times `3` and `4` and an annihilation
operator at time `7`. -/
def triple_config : MonteCarloConfiguration Nat :=
  { operators := operator_container_t.ofList
      [⟨3, OperatorType.CREATION_OP, 0⟩, ⟨4, OperatorType.CREATION_OP, 0⟩,
        ⟨7, OperatorType.ANNIHILATION_OP, 0⟩]
    M := 0, trace := 1, sign := 1, perm_sign := 1 }

/-- The proposal of the shift strategy on `triple_config` for the stream `0, 0, 3/5`:
the creation operator at time `3` moves onto the creation operator at time `4`. -/
def colliding_proposal : Proposal SingleOperatorShiftUpdater Nat :=
  { shift_proposal with mc_config := triple_config }

/-- A strategy that claims success for a creation operator at time `11`, outside the
window `[0, 10]`, with the correction factor `correction`. -/
def stray_strategy (correction : Option ℚ) : Strategy Unit Nat Unit :=
  { propose := fun _ pos u cfg _ =>
      some
        { valid := true
          acceptance_rate_correction_ := correction
          cdagg_ops_rem_ := []
          c_ops_rem_ := []
          cdagg_ops_add_ := [⟨11, OperatorType.CREATION_OP, 0⟩]
          c_ops_add_ := []
          derived := u.derived
          mc_config := cfg
          rng_pos := pos }
    call_back := fun u => u }

/-- The proposal made by `stray_strategy` on the empty configuration. -/
def stray_proposal (correction : Option ℚ) : Proposal Unit Nat :=
  { valid := true
    acceptance_rate_correction_ := correction
    cdagg_ops_rem_ := []
    c_ops_rem_ := []
    cdagg_ops_add_ := [⟨11, OperatorType.CREATION_OP, 0⟩]
    c_ops_add_ := []
    derived := ()
    mc_config := empty_config
    rng_pos := 0 }

/-- The test bench around `stray_strategy`. -/
def stray_env (correction : Option ℚ) : Env Unit Nat Unit :=
  { strategy := stray_strategy correction
    matrix := matrix 1
    window := window
    compute_permutation_sign := fun _ => 1 }

/-- An updater without derived members, between two cycles. -/
def plain_updater : LocalUpdater Unit :=
  { acceptance_rate_correction_ := none
    cdagg_ops_rem_ := []
    c_ops_rem_ := []
    cdagg_ops_add_ := []
    c_ops_add_ := []
    valid_move_generated_ := false
    accepted_ := false
    duplicate_check_work_ := []
    trace_bound := []
    derived := () }

/-- A stand-in for `open_random`: the point of the open interval at the fraction given
by the next random value (which is never `0`). -/
def open_random : OpenRandom :=
  fun rng pos t1 t2 => (t1 + (t2 - t1) * rng pos, pos + 1)

/-- An updater of the insertion/removal strategy of rank `1`, between two cycles. -/
def insertion_updater : LocalUpdater InsertionRemovalUpdater :=
  { acceptance_rate_correction_ := none
    cdagg_ops_rem_ := []
    c_ops_rem_ := []
    cdagg_ops_add_ := []
    c_ops_add_ := []
    valid_move_generated_ := false
    accepted_ := false
    duplicate_check_work_ := []
    trace_bound := []
    derived :=
      { update_rank_ := 1, num_flavors_ := 1, tau_low_ := -1, tau_high_ := -1
        num_cdagg_ops_in_range_ := [], num_c_ops_in_range_ := []
        cdagg_ops_range_ := [], c_ops_range_ := [] } }

/-- An updater of the diagonal insertion/removal strategy of rank `1`, between two
cycles. -/
def diagonal_updater : LocalUpdater InsertionRemovalDiagonalUpdater :=
  { acceptance_rate_correction_ := none
    cdagg_ops_rem_ := []
    c_ops_rem_ := []
    cdagg_ops_add_ := []
    c_ops_add_ := []
    valid_move_generated_ := false
    accepted_ := false
    duplicate_check_work_ := []
    trace_bound := []
    derived :=
      { num_flavors_ := 1, beta_ := 10, tau_low_ := -1, tau_high_ := -1, flavor_ := 0
        cdagg_ops_in_range_ := [], c_ops_in_range_ := [], update_rank_ := 1, distance_ := 0 } }

/-- The proposal of the shift strategy on `pair_config` for the stream `1/4, 0, 1/2`: the
index `1` designates the annihilation operator at time `7`, which lands in
`cdagg_ops_rem_`, and a creation operator is added at time `7`. -/
def kind_changing_proposal : Proposal SingleOperatorShiftUpdater Nat :=
  { valid := true
    acceptance_rate_correction_ := some 1
    cdagg_ops_rem_ := [⟨7, OperatorType.ANNIHILATION_OP, 0⟩]
    c_ops_rem_ := []
    cdagg_ops_add_ := [⟨7, OperatorType.CREATION_OP, 0⟩]
    c_ops_add_ := []
    derived := { num_flavors_ := 1, max_distance_ := [5], distance_ := 0, flavor_ := 0 }
    mc_config := pair_config
    rng_pos := 3 }

/-- A window like `window` whose trace bound, `1/2`, is below the magnitude `1` of the
traces its lazy evaluation returns. -/
def low_bound_window : SlidingWindow Unit :=
  { window with compute_trace_bound := fun _ _ _ => ((1 / 2, [1 / 2]), ()) }

/-- The test bench around the shift strategy with the window `low_bound_window`. -/
def low_bound_env : Env SingleOperatorShiftUpdater Nat Unit :=
  { shift_env 1 with window := low_bound_window }

/-- A determinant matrix whose state is the list of the operator pairs it holds: one
block with the flavors `0 .. num_flavors - 1` and a Green's function of constant
amplitude `g`. -/
def pair_matrix (g : ℚ) (num_flavors : Nat) : DeterminantMatrixGlobal (List (psi × psi)) :=
  { num_blocks := fun _ => 1
    num_flavors := fun _ _ => num_flavors
    flavors := fun _ _ => List.range num_flavors
    block_belonging_to := fun _ _ => 0
    get_cdagg_ops_set := fun _ _ => operator_container_t.empty
    get_c_ops_set := fun _ _ => operator_container_t.empty
    try_update := fun m _ _ _ _ => (1, m)
    perform_update := fun m => m
    reject_update := fun m => m
    get_greens_function := fun _ _ _ => g
    get_cdagg_ops := fun m => m.map Prod.fst
    get_c_ops := fun m => m.map Prod.snd
    construct := fun _ pairs => pairs }

/-- A decomposition that is the full-pivot LU decomposition of every matrix with one row
and one column: the matrix itself, with trivial permutations. -/
def one_by_one_lu : List (List ℚ) → FullPivLU :=
  fun matrix =>
    { matrixLU := fun i j => (matrix.getD i []).getD j 0
      permutationP_determinant := 1
      permutationQ_determinant := 1 }

/-- The window of the test bench with the member used by `global_update`; resizing
leaves its (trivial) state alone. -/
def global_window : SlidingWindowGlobal Unit :=
  { window with set_window_size := fun w _ _ _ _ => w }

/-- The test bench of `global_update`: two flavors in one block, a Green's function of
constant amplitude `g`, the perturbation order counted on the operator collection. -/
def global_env (g : ℚ) : GlobalEnv (List (psi × psi)) Unit :=
  { matrix := pair_matrix g 2
    window := global_window
    decompose := one_by_one_lu
    pert_order := fun cfg => cfg.operators.elems.length / 2
    compute_permutation_sign := fun _ => 1
    sanity_check := fun _ w => some w }

/-- A configuration with a creation operator at time `3` and an annihilation operator at
time `7`, both of flavor `0`, paired in the determinant matrix. -/
def global_config : MonteCarloConfiguration (List (psi × psi)) :=
  { operators := pair_config.operators
    M := [(⟨3, OperatorType.CREATION_OP, 0⟩, ⟨7, OperatorType.ANNIHILATION_OP, 0⟩)]
    trace := 1, sign := 1, perm_sign := 1 }

/-- The flavor table that exchanges the flavors `0` and `1`. -/
def exchange_table : Nat → Nat := fun f => if f = 0 then 1 else if f = 1 then 0 else f

/-- A matrix with two rows of which full pivoting swaps the rows. -/
def swap_matrix : List (List ℚ) := [[1, 2], [4, 3]]

/-- The decomposition of `swap_matrix` with full pivoting: the rows are swapped, the
columns stay, `L = [[1, 0], [1/4, 1]]` and `U = [[4, 3], [0, 5/4]]`. -/
def swap_lu (_matrix : List (List ℚ)) : FullPivLU :=
  { matrixLU := fun i j =>
      ((([[4, 3], [1 / 4, 5 / 4]] : List (List ℚ)).getD i []).getD j 0)
    permutationP_determinant := -1
    permutationQ_determinant := 1 }

/-- The determinant matrix `pair_matrix 1 1` with a Green's function that depends on the
times of its two operators. -/
def time_matrix : DeterminantMatrixGlobal (List (psi × psi)) :=
  { pair_matrix 1 1 with
    get_greens_function := fun _ c_op cdagg_op => c_op.time ^ 2 * cdagg_op.time + 1 }

/-- The full-pivot LU decomposition of a matrix with two rows and two columns: the first
entry of largest magnitude is brought to the corner by an exchange of rows and an
exchange of columns, and `matrixLU` holds `U` on and above the diagonal and `L` below
it. -/
def two_by_two_lu (matrix : List (List ℚ)) : FullPivLU :=
  let e := fun (i j : Nat) => (matrix.getD i []).getD j 0
  let largest := max (max |e 0 0| |e 0 1|) (max |e 1 0| |e 1 1|)
  let pr : Nat := if |e 0 0| = largest ∨ |e 0 1| = largest then 0 else 1
  let pc : Nat := if |e pr 0| = largest then 0 else 1
  let a := e pr pc
  let b := e pr (1 - pc)
  let c := e (1 - pr) pc
  let d := e (1 - pr) (1 - pc)
  { matrixLU := fun i j =>
      if i = 0 then (if j = 0 then a else b) else (if j = 0 then c / a else d - c / a * b)
    permutationP_determinant := if pr = 0 then 1 else -1
    permutationQ_determinant := if pc = 0 then 1 else -1 }

/-- The determinant matrix `matrix 1` whose block holds the two operators of
`pair_config`. -/
def stocked_matrix : DeterminantMatrix Nat :=
  { matrix 1 with
    get_cdagg_ops_set := fun _ ib =>
      if ib = 0 then operator_container_t.ofList [⟨3, OperatorType.CREATION_OP, 0⟩]
      else operator_container_t.empty
    get_c_ops_set := fun _ ib =>
      if ib = 0 then operator_container_t.ofList [⟨7, OperatorType.ANNIHILATION_OP, 0⟩]
      else operator_container_t.empty }

/-- A stand-in for `open_random` that always returns the midpoint of the interval. -/
def midpoint_random : OpenRandom :=
  fun _ pos t1 t2 => ((t1 + t2) / 2, pos + 1)

end Bench

/-! ## Facts about the operator container -/

namespace operator_container_t

theorem ext_elems {c d : operator_container_t} (h : c.elems = d.elems) : c = d := by
  cases c; cases d; cases h; rfl

theorem toFinset_injective {c d : operator_container_t} (h : c.toFinset = d.toFinset) :
    c = d := by
  apply ext_elems
  have hp : c.elems.Perm d.elems := List.perm_of_nodup_nodup_toFinset_eq c.nodup d.nodup h
  exact List.eq_of_perm_of_sorted hp c.sorted d.sorted

theorem mem_toFinset {c : operator_container_t} {x : psi} : x ∈ c.toFinset ↔ x ∈ c.elems := by
  simp [toFinset]

theorem contains_iff {c : operator_container_t} {x : psi} :
    c.contains x = true ↔ x ∈ c.toFinset := by
  simp [contains, toFinset]

theorem toFinset_erase (c : operator_container_t) (x : psi) :
    (c.erase x).toFinset = c.toFinset.erase x := by
  ext y
  simp only [toFinset, erase, List.mem_toFinset, Finset.mem_erase]
  rw [c.nodup.mem_erase_iff]

theorem toFinset_insert (c : operator_container_t) (x : psi) (h : x ∉ c.elems) :
    (c.insert x h).toFinset = Insert.insert x c.toFinset := by
  ext y
  simp [toFinset, insert, List.mem_orderedInsert]

end operator_container_t

theorem safe_erase_spec (l : List psi) : ∀ c : operator_container_t,
    ((safe_erase c l).2 = none ↔ (l.Nodup ∧ ∀ x ∈ l, x ∈ c.toFinset)) ∧
    ((safe_erase c l).2 = none → (safe_erase c l).1.toFinset = c.toFinset \ l.toFinset) := by
  induction l with
  | nil => intro c; simp [safe_erase]
  | cons a l ih =>
    intro c
    by_cases ha : c.contains a = true
    · have hmem : a ∈ c.toFinset := operator_container_t.contains_iff.mp ha
      obtain ⟨ih1, ih2⟩ := ih (c.erase a)
      simp only [safe_erase, ha, if_true]
      constructor
      · rw [ih1, operator_container_t.toFinset_erase]
        simp only [List.nodup_cons, List.mem_cons, Finset.mem_erase]
        constructor
        · rintro ⟨hn, hx⟩
          refine ⟨⟨fun hal => (hx a hal).1 rfl, hn⟩, ?_⟩
          rintro x (rfl | hxl)
          · exact hmem
          · exact (hx x hxl).2
        · rintro ⟨⟨hal, hn⟩, hx⟩
          refine ⟨hn, fun x hxl => ⟨?_, hx x (Or.inr hxl)⟩⟩
          rintro rfl
          exact hal hxl
      · intro h
        rw [ih2 h, operator_container_t.toFinset_erase]
        ext y
        simp only [Finset.mem_sdiff, Finset.mem_erase, List.mem_toFinset, List.mem_cons]
        tauto
    · have hmem : a ∉ c.toFinset := fun h => ha (operator_container_t.contains_iff.mpr h)
      simp only [safe_erase, ha]
      simp only [Bool.false_eq_true, if_false, List.nodup_cons, List.mem_cons]
      constructor
      · constructor
        · intro h; cases h
        · rintro ⟨_, hx⟩
          exact absurd (hx a (Or.inl rfl)) hmem
      · intro h; cases h

theorem safe_insert_spec (l : List psi) : ∀ c : operator_container_t,
    ((safe_insert c l).2 = none ↔ (l.Nodup ∧ ∀ x ∈ l, x ∉ c.toFinset)) ∧
    ((safe_insert c l).2 = none → (safe_insert c l).1.toFinset = c.toFinset ∪ l.toFinset) := by
  induction l with
  | nil => intro c; simp [safe_insert]
  | cons a l ih =>
    intro c
    by_cases ha : a ∈ c.elems
    · have hmem : a ∈ c.toFinset := operator_container_t.mem_toFinset.mpr ha
      simp only [safe_insert, ha, dite_true, List.nodup_cons, List.mem_cons]
      constructor
      · constructor
        · intro h; cases h
        · rintro ⟨_, hx⟩
          exact absurd hmem (hx a (Or.inl rfl))
      · intro h; cases h
    · have hmem : a ∉ c.toFinset := fun h => ha (operator_container_t.mem_toFinset.mp h)
      obtain ⟨ih1, ih2⟩ := ih (c.insert a ha)
      simp only [safe_insert, ha, dite_false]
      constructor
      · rw [ih1, operator_container_t.toFinset_insert]
        simp only [List.nodup_cons, List.mem_cons, Finset.mem_insert, not_or]
        constructor
        · rintro ⟨hn, hx⟩
          refine ⟨⟨fun hal => (hx a hal).1 rfl, hn⟩, ?_⟩
          rintro x (rfl | hxl)
          · exact hmem
          · exact (hx x hxl).2
        · rintro ⟨⟨hal, hn⟩, hx⟩
          refine ⟨hn, fun x hxl => ⟨?_, hx x (Or.inr hxl)⟩⟩
          rintro rfl
          exact hal hxl
      · intro h
        rw [ih2 h, operator_container_t.toFinset_insert]
        ext y
        simp only [Finset.mem_union, Finset.mem_insert, List.mem_toFinset, List.mem_cons]
        tauto


theorem safe_erase_eq (c : operator_container_t) (l : List psi)
    (hn : l.Nodup) (hm : ∀ x ∈ l, x ∈ c.toFinset) :
    ∃ c', safe_erase c l = (c', none) ∧ c'.toFinset = c.toFinset \ l.toFinset := by
  have h := (safe_erase_spec l c).1.mpr ⟨hn, hm⟩
  exact ⟨(safe_erase c l).1, Prod.ext rfl h, (safe_erase_spec l c).2 h⟩

theorem safe_insert_eq (c : operator_container_t) (l : List psi)
    (hn : l.Nodup) (hm : ∀ x ∈ l, x ∉ c.toFinset) :
    ∃ c', safe_insert c l = (c', none) ∧ c'.toFinset = c.toFinset ∪ l.toFinset := by
  have h := (safe_insert_spec l c).1.mpr ⟨hn, hm⟩
  exact ⟨(safe_insert c l).1, Prod.ext rfl h, (safe_insert_spec l c).2 h⟩

theorem adjacent_find_sorted : ∀ l : List psi, l.Sorted (· ≤ ·) →
    (adjacent_find l = true ↔ ¬ l.Nodup)
  | [], _ => by simp [adjacent_find]
  | [a], _ => by simp [adjacent_find]
  | a :: b :: rest, hs => by
    have hs' : (b :: rest).Sorted (· ≤ ·) := hs.of_cons
    have ih := adjacent_find_sorted (b :: rest) hs'
    by_cases hab : a = b
    · subst hab
      simp [adjacent_find]
    · have hle : a ≤ b := List.rel_of_sorted_cons hs b (List.mem_cons_self b rest)
      have hnot : a ∉ b :: rest := by
        intro hmem
        rcases List.mem_cons.mp hmem with h | h
        · exact hab h
        · exact hab (le_antisymm hle (List.rel_of_sorted_cons hs' a h))
      simp only [adjacent_find, hab, if_false, ih]
      rw [List.nodup_cons (a := a)]
      tauto

theorem duplicate_found_iff (add : List psi) (ops : operator_container_t) :
    duplicate_found add ops = true ↔ (¬ add.Nodup ∨ ∃ x ∈ add, x ∈ ops.toFinset) := by
  have hp : (add.insertionSort (· ≤ ·)).Perm add := List.perm_insertionSort _ add
  have hs : (add.insertionSort (· ≤ ·)).Sorted (· ≤ ·) := List.sorted_insertionSort _ add
  have h1 := adjacent_find_sorted _ hs
  rw [hp.nodup_iff] at h1
  have h2 : (add.insertionSort (· ≤ ·)).any (fun op => ops.contains op) = true ↔
      ∃ x ∈ add, x ∈ ops.toFinset := by
    simp only [List.any_eq_true, operator_container_t.contains_iff]
    constructor
    · rintro ⟨x, hx, hxo⟩
      exact ⟨x, hp.mem_iff.mp hx, hxo⟩
    · rintro ⟨x, hx, hxo⟩
      exact ⟨x, hp.mem_iff.mpr hx, hxo⟩
  unfold duplicate_found
  by_cases hadj : adjacent_find (add.insertionSort (· ≤ ·)) = true
  · simp only [hadj, if_true, true_iff]
    exact Or.inl (h1.mp hadj)
  · simp only [hadj, Bool.false_eq_true, if_false, h2]
    have : add.Nodup := by
      by_contra hc
      exact hadj (h1.mpr hc)
    tauto


theorem safe_erase_two (c : operator_container_t) (l1 l2 : List psi)
    (hn : (l1 ++ l2).Nodup) (hm : ∀ x ∈ l1 ++ l2, x ∈ c.toFinset) :
    ∃ c1 c2, safe_erase c l1 = (c1, none) ∧ safe_erase c1 l2 = (c2, none) ∧
      c2.toFinset = c.toFinset \ (l1 ++ l2).toFinset := by
  obtain ⟨hn1, hn2, hdis⟩ := List.nodup_append.mp hn
  obtain ⟨c1, e1, f1⟩ := safe_erase_eq c l1 hn1
    (fun x hx => hm x (List.mem_append.mpr (Or.inl hx)))
  obtain ⟨c2, e2, f2⟩ := safe_erase_eq c1 l2 hn2 (by
    intro x hx
    rw [f1]
    simp only [Finset.mem_sdiff, List.mem_toFinset]
    exact ⟨hm x (List.mem_append.mpr (Or.inr hx)), fun hx1 => hdis hx1 hx⟩)
  refine ⟨c1, c2, e1, e2, ?_⟩
  rw [f2, f1]
  ext y
  simp only [Finset.mem_sdiff, List.mem_toFinset, List.mem_append]
  tauto

theorem safe_insert_two (c : operator_container_t) (l1 l2 : List psi)
    (hn : (l1 ++ l2).Nodup) (hm : ∀ x ∈ l1 ++ l2, x ∉ c.toFinset) :
    ∃ c1 c2, safe_insert c l1 = (c1, none) ∧ safe_insert c1 l2 = (c2, none) ∧
      c2.toFinset = c.toFinset ∪ (l1 ++ l2).toFinset := by
  obtain ⟨hn1, hn2, hdis⟩ := List.nodup_append.mp hn
  obtain ⟨c1, e1, f1⟩ := safe_insert_eq c l1 hn1
    (fun x hx => hm x (List.mem_append.mpr (Or.inl hx)))
  obtain ⟨c2, e2, f2⟩ := safe_insert_eq c1 l2 hn2 (by
    intro x hx
    rw [f1]
    simp only [Finset.mem_union, List.mem_toFinset, not_or]
    exact ⟨hm x (List.mem_append.mpr (Or.inr hx)), fun hx1 => hdis hx1 hx⟩)
  refine ⟨c1, c2, e1, e2, ?_⟩
  rw [f2, f1]
  ext y
  simp only [Finset.mem_union, List.mem_toFinset, List.mem_append]
  tauto

/-- The effect of `update_operators` when the removal lists hold pairwise distinct
members of the collection: a collision is reported and the collection is as before, or
the move is applied. -/
theorem update_operators_spec {S MS : Type} (u : LocalUpdater S)
    (cfg : MonteCarloConfiguration MS)
    (hn : (u.cdagg_ops_rem_ ++ u.c_ops_rem_).Nodup)
    (hm : ∀ x ∈ u.cdagg_ops_rem_ ++ u.c_ops_rem_, x ∈ cfg.operators.toFinset) :
    ((¬ (u.cdagg_ops_add_ ++ u.c_ops_add_).Nodup ∨
        ∃ x ∈ u.cdagg_ops_add_ ++ u.c_ops_add_,
          x ∈ cfg.operators.toFinset \ (u.cdagg_ops_rem_ ++ u.c_ops_rem_).toFinset) →
      update_operators u cfg = (Except.ok false,
        { u with duplicate_check_work_ :=
            (u.cdagg_ops_add_ ++ u.c_ops_add_).insertionSort (· ≤ ·) }, cfg)) ∧
    (¬ (¬ (u.cdagg_ops_add_ ++ u.c_ops_add_).Nodup ∨
        ∃ x ∈ u.cdagg_ops_add_ ++ u.c_ops_add_,
          x ∈ cfg.operators.toFinset \ (u.cdagg_ops_rem_ ++ u.c_ops_rem_).toFinset) →
      ∃ ops, applied_to cfg.operators ops (u.cdagg_ops_rem_ ++ u.c_ops_rem_)
          (u.cdagg_ops_add_ ++ u.c_ops_add_) ∧
        update_operators u cfg = (Except.ok true,
          { u with duplicate_check_work_ :=
              (u.cdagg_ops_add_ ++ u.c_ops_add_).insertionSort (· ≤ ·) },
          { cfg with operators := ops })) := by
  obtain ⟨c1, c2, e1, e2, f2⟩ := safe_erase_two cfg.operators _ _ hn hm
  have hdup := duplicate_found_iff (u.cdagg_ops_add_ ++ u.c_ops_add_) c2
  rw [f2] at hdup
  constructor
  · intro h
    have hd := hdup.mpr h
    obtain ⟨c3, c4, e3, e4, f4⟩ := safe_insert_two c2 u.cdagg_ops_rem_ u.c_ops_rem_ hn (by
      intro x hx
      rw [f2]
      simp only [Finset.mem_sdiff, List.mem_toFinset, not_and, not_not]
      exact fun _ => hx)
    have hc4 : c4 = cfg.operators := by
      apply operator_container_t.toFinset_injective
      rw [f4, f2]
      ext y
      simp only [Finset.mem_union, Finset.mem_sdiff, List.mem_toFinset]
      constructor
      · rintro (⟨h1, _⟩ | h1)
        · exact h1
        · exact hm y h1
      · intro h1
        by_cases h2 : y ∈ u.cdagg_ops_rem_ ++ u.c_ops_rem_
        · exact Or.inr h2
        · exact Or.inl ⟨h1, h2⟩
    subst hc4
    simp only [update_operators, e1, e2, hd, if_true, e3, e4]
  · intro h
    have hd : duplicate_found (u.cdagg_ops_add_ ++ u.c_ops_add_) c2 = false := by
      cases hb : duplicate_found (u.cdagg_ops_add_ ++ u.c_ops_add_) c2 with
      | false => rfl
      | true => exact absurd (hdup.mp hb) h
    rw [not_or, not_not] at h
    obtain ⟨hna, hma⟩ := h
    have hma' : ∀ x ∈ u.cdagg_ops_add_ ++ u.c_ops_add_,
        x ∉ cfg.operators.toFinset \ (u.cdagg_ops_rem_ ++ u.c_ops_rem_).toFinset :=
      fun x hx hx' => hma ⟨x, hx, hx'⟩
    obtain ⟨c3, c4, e3, e4, f4⟩ := safe_insert_two c2 u.cdagg_ops_add_ u.c_ops_add_ hna (by
      intro x hx
      rw [f2]
      exact hma' x hx)
    refine ⟨c4, ⟨hn, hm, hna, hma', ?_⟩, ?_⟩
    · rw [f4, f2]
    · simp only [update_operators, e1, e2, hd, Bool.false_eq_true, if_false, e3, e4]

/-- Undoing an applied move gives the collection back, element for element. -/
theorem revert_operators_spec {S MS : Type} (u : LocalUpdater S)
    (cfg : MonteCarloConfiguration MS) (old : operator_container_t)
    (h : applied_to old cfg.operators (u.cdagg_ops_rem_ ++ u.c_ops_rem_)
      (u.cdagg_ops_add_ ++ u.c_ops_add_)) :
    revert_operators u cfg = (none, { cfg with operators := old }) := by
  obtain ⟨hn, hm, hna, hma, hops⟩ := h
  obtain ⟨c1, c2, e1, e2, f2⟩ := safe_erase_two cfg.operators u.cdagg_ops_add_ u.c_ops_add_
    hna (by
      intro x hx
      rw [hops]
      exact Finset.mem_union_right _ (List.mem_toFinset.mpr hx))
  have hc2 : c2.toFinset = old.toFinset \ (u.cdagg_ops_rem_ ++ u.c_ops_rem_).toFinset := by
    rw [f2, hops]
    ext y
    simp only [Finset.mem_sdiff, Finset.mem_union, List.mem_toFinset]
    constructor
    · rintro ⟨h1 | h1, h2⟩
      · exact h1
      · exact absurd h1 h2
    · intro h1
      refine ⟨Or.inl h1, fun h2 => hma y h2 ?_⟩
      simp only [Finset.mem_sdiff, List.mem_toFinset]
      exact h1
  obtain ⟨c3, c4, e3, e4, f4⟩ := safe_insert_two c2 u.cdagg_ops_rem_ u.c_ops_rem_ hn (by
    intro x hx
    rw [hc2]
    simp only [Finset.mem_sdiff, List.mem_toFinset, not_and, not_not]
    exact fun _ => hx)
  have hc4 : c4 = old := by
    apply operator_container_t.toFinset_injective
    rw [f4, hc2]
    ext y
    simp only [Finset.mem_union, Finset.mem_sdiff, List.mem_toFinset]
    constructor
    · rintro (⟨h1, _⟩ | h1)
      · exact h1
      · exact hm y h1
    · intro h1
      by_cases h2 : y ∈ u.cdagg_ops_rem_ ++ u.c_ops_rem_
      · exact Or.inr h2
      · exact Or.inl ⟨h1, h2⟩
  subst hc4
  simp only [revert_operators, e1, e2, e3, e4]

/-! ## Frame lemmas of the helpers -/

theorem safe_erase_failure (l : List psi) : ∀ (c : operator_container_t) (e : Failure),
    (safe_erase c l).2 = some e → e = Failure.erase_error := by
  induction l with
  | nil => intro c e h; simp [safe_erase] at h
  | cons a l ih =>
    intro c e h
    by_cases ha : c.contains a = true
    · simp only [safe_erase, ha, if_true] at h
      exact ih _ e h
    · simp only [safe_erase, ha, Bool.false_eq_true, if_false, Option.some.injEq] at h
      exact h.symm

theorem safe_insert_failure (l : List psi) : ∀ (c : operator_container_t) (e : Failure),
    (safe_insert c l).2 = some e → e = Failure.insert_error := by
  induction l with
  | nil => intro c e h; simp [safe_insert] at h
  | cons a l ih =>
    intro c e h
    by_cases ha : a ∈ c.elems
    · simp only [safe_insert, ha, dite_true, Option.some.injEq] at h
      exact h.symm
    · simp only [safe_insert, ha, dite_false] at h
      exact ih _ e h

/-- What `revert_operators` leaves untouched, and the failures it can raise. -/
theorem revert_operators_frame {S MS : Type} (u : LocalUpdater S)
    (cfg : MonteCarloConfiguration MS) :
    (revert_operators u cfg).2.M = cfg.M ∧ (revert_operators u cfg).2.trace = cfg.trace ∧
    (revert_operators u cfg).2.sign = cfg.sign ∧
    (revert_operators u cfg).2.perm_sign = cfg.perm_sign ∧
    ∀ e, (revert_operators u cfg).1 = some e →
      e = Failure.erase_error ∨ e = Failure.insert_error := by
  unfold revert_operators
  split
  · rename_i ops e h1
    refine ⟨rfl, rfl, rfl, rfl, fun e' he => Or.inl ?_⟩
    cases he
    exact safe_erase_failure _ _ _ (by rw [h1])
  · split
    · rename_i ops e h2
      refine ⟨rfl, rfl, rfl, rfl, fun e' he => Or.inl ?_⟩
      cases he
      exact safe_erase_failure _ _ _ (by rw [h2])
    · split
      · rename_i ops e h3
        refine ⟨rfl, rfl, rfl, rfl, fun e' he => Or.inr ?_⟩
        cases he
        exact safe_insert_failure _ _ _ (by rw [h3])
      · split
        · rename_i ops e h4
          refine ⟨rfl, rfl, rfl, rfl, fun e' he => Or.inr ?_⟩
          cases he
          exact safe_insert_failure _ _ _ (by rw [h4])
        · exact ⟨rfl, rfl, rfl, rfl, fun e' he => by cases he⟩

/-- What `update_operators` leaves untouched, and the failures it can raise. -/
theorem update_operators_frame {S MS : Type} (u : LocalUpdater S)
    (cfg : MonteCarloConfiguration MS) :
    ((update_operators u cfg).2.1 = u ∨
      (update_operators u cfg).2.1 =
        { u with duplicate_check_work_ :=
            (u.cdagg_ops_add_ ++ u.c_ops_add_).insertionSort (· ≤ ·) }) ∧
    (update_operators u cfg).2.2.M = cfg.M ∧ (update_operators u cfg).2.2.trace = cfg.trace ∧
    (update_operators u cfg).2.2.sign = cfg.sign ∧
    (update_operators u cfg).2.2.perm_sign = cfg.perm_sign ∧
    ∀ e, (update_operators u cfg).1 = Except.error e →
      e = Failure.erase_error ∨ e = Failure.insert_error := by
  unfold update_operators
  split
  · rename_i ops e h1
    refine ⟨Or.inl rfl, rfl, rfl, rfl, rfl, fun e' he => Or.inl ?_⟩
    cases he
    exact safe_erase_failure _ _ _ (by rw [h1])
  · split
    · rename_i ops e h2
      refine ⟨Or.inl rfl, rfl, rfl, rfl, rfl, fun e' he => Or.inl ?_⟩
      cases he
      exact safe_erase_failure _ _ _ (by rw [h2])
    · simp only []
      split
      · split
        · rename_i ops e h3
          refine ⟨Or.inr rfl, rfl, rfl, rfl, rfl, fun e' he => Or.inr ?_⟩
          cases he
          exact safe_insert_failure _ _ _ (by rw [h3])
        · split
          · rename_i ops e h4
            refine ⟨Or.inr rfl, rfl, rfl, rfl, rfl, fun e' he => Or.inr ?_⟩
            cases he
            exact safe_insert_failure _ _ _ (by rw [h4])
          · exact ⟨Or.inr rfl, rfl, rfl, rfl, rfl, fun e' he => by cases he⟩
      · split
        · rename_i ops e h3
          refine ⟨Or.inr rfl, rfl, rfl, rfl, rfl, fun e' he => Or.inr ?_⟩
          cases he
          exact safe_insert_failure _ _ _ (by rw [h3])
        · split
          · rename_i ops e h4
            refine ⟨Or.inr rfl, rfl, rfl, rfl, rfl, fun e' he => Or.inr ?_⟩
            cases he
            exact safe_insert_failure _ _ _ (by rw [h4])
          · exact ⟨Or.inr rfl, rfl, rfl, rfl, rfl, fun e' he => by cases he⟩

/-! ## The orchestrator: cycles without a valid proposal -/

/-- C1.  If `propose` returns false and leaves the configuration as it found it, then
`update` returns, the operator collection, the matrix `M`, the trace, the sign and
`perm_sign` are those before the call, and none of `compute_trace_bound`, `try_update`,
`perform_update`, `reject_update`, `lazy_eval_trace` is called. -/
theorem update_without_proposal_is_noop {S MS W : Type} (env : Env S MS W) (rng : Random01)
    (u : LocalUpdater S) (cfg : MonteCarloConfiguration MS) (w : W) (pos : Nat)
    (p : Proposal S MS)
    (hp : env.strategy.propose rng pos { u with accepted_ := false } cfg w = some p)
    (hvalid : p.valid = false) (hframe : p.mc_config = cfg) :
    (update env rng u cfg w pos).outcome = Outcome.returned ∧
    (update env rng u cfg w pos).mc_config.operators = cfg.operators ∧
    (update env rng u cfg w pos).mc_config.M = cfg.M ∧
    (update env rng u cfg w pos).mc_config.trace = cfg.trace ∧
    (update env rng u cfg w pos).mc_config.sign = cfg.sign ∧
    (update env rng u cfg w pos).mc_config.perm_sign = cfg.perm_sign ∧
    Event.compute_trace_bound ∉ (update env rng u cfg w pos).log ∧
    Event.try_update ∉ (update env rng u cfg w pos).log ∧
    Event.perform_update ∉ (update env rng u cfg w pos).log ∧
    Event.reject_update ∉ (update env rng u cfg w pos).log ∧
    Event.lazy_eval_trace ∉ (update env rng u cfg w pos).log := by
  have h : update env rng u cfg w pos =
      Run.finalize env.strategy (p.install { u with accepted_ := false }) cfg w p.rng_pos [] := by
    simp only [update, hp, Proposal.install, hvalid, hframe]
    simp
  rw [h]
  simp [Run.finalize, call_back_event]



/-- Witness of C1: the shift strategy on the empty configuration proposes nothing. -/
theorem update_without_proposal_is_noop_witness :
    (Bench.shift_env 1).strategy.propose (Bench.stream []) 0
        { Bench.shift_updater with accepted_ := false } Bench.empty_config ()
      = some (Proposal.of false Bench.shift_updater Bench.empty_config 0) ∧
    (update (Bench.shift_env 1) (Bench.stream []) Bench.shift_updater Bench.empty_config () 0).outcome
      = Outcome.returned ∧
    (update (Bench.shift_env 1) (Bench.stream []) Bench.shift_updater Bench.empty_config () 0).mc_config.operators
      = Bench.empty_config.operators ∧
    Event.try_update ∉
      (update (Bench.shift_env 1) (Bench.stream []) Bench.shift_updater Bench.empty_config () 0).log := by
  have h := update_without_proposal_is_noop (Bench.shift_env 1) (Bench.stream [])
    Bench.shift_updater Bench.empty_config () 0
    (Proposal.of false Bench.shift_updater Bench.empty_config 0)
    (by decide!) (by decide!) (by decide!)
  exact ⟨by decide!, h.1, h.2.1, h.2.2.2.2.2.2.2.1⟩

/-! ## Case analysis of the orchestrator -/

/-- The ways in which `update_conclude` ends. -/
theorem update_conclude_cases {S MS W : Type} {Q : Run S MS W → Prop} (env : Env S MS W)
    (u : LocalUpdater S) (cfg : MonteCarloConfiguration MS) (w : W) (pos : Nat)
    (log : List Event) (accepted : Bool) (trace_new prob : ℚ)
    (h_accept : accepted = true →
      Q (Run.finalize env.strategy { u with accepted_ := true } (commit env cfg trace_new prob)
        w pos (log ++ [Event.perform_update, Event.compute_permutation_sign])))
    (h_fail : accepted = false → ∀ e cfg',
      revert_operators u { cfg with M := env.matrix.reject_update cfg.M } = (some e, cfg') →
      Q ⟨Outcome.failed e, u, cfg', w, pos, log ++ [Event.reject_update]⟩)
    (h_reject : accepted = false → ∀ cfg',
      revert_operators u { cfg with M := env.matrix.reject_update cfg.M } = (none, cfg') →
      Q (Run.finalize env.strategy u cfg' w pos (log ++ [Event.reject_update]))) :
    Q (update_conclude env u cfg w pos log accepted trace_new prob) := by
  cases accepted with
  | true => exact h_accept rfl
  | false =>
    rcases hrev : revert_operators u { cfg with M := env.matrix.reject_update cfg.M }
      with ⟨_ | e, cfg'⟩
    · have h := h_reject rfl cfg' hrev
      simpa only [update_conclude, hrev, Bool.false_eq_true, if_false] using h
    · have h := h_fail rfl e cfg' hrev
      simpa only [update_conclude, hrev, Bool.false_eq_true, if_false] using h

/-- The ways in which `update_evaluate` ends or continues. -/
theorem update_evaluate_cases {S MS W : Type} {Q : Run S MS W → Prop} (env : Env S MS W)
    (rng : Random01) (correction : ℚ)
    (u : LocalUpdater S) (cfg : MonteCarloConfiguration MS) (w : W) (pos : Nat)
    (tb : (ℚ × List ℚ) × W)
    (htb : tb = env.window.compute_trace_bound w cfg.operators
      (resize u.trace_bound (env.window.get_num_brakets w)))
    (u1 : LocalUpdater S) (hu1 : u1 = { u with trace_bound := tb.1.2 })
    (tu : ℚ × MS)
    (htu : tu = env.matrix.try_update cfg.M u.cdagg_ops_rem_ u.c_ops_rem_
      u.cdagg_ops_add_ u.c_ops_add_)
    (cfg1 : MonteCarloConfiguration MS) (hcfg1 : cfg1 = { cfg with M := tu.2 })
    (le : (Bool × ℚ) × W)
    (hle : le = env.window.lazy_eval_trace tb.2 cfg.operators
      |rng pos * cfg.trace / (correction * tu.1)| tb.1.2)
    (prob : ℚ) (hprob : prob = correction * tu.1 * (le.1.2 / cfg.trace))
    (h_zero_fail : tb.1.1 = 0 → ∀ e cfg', revert_operators u1 cfg = (some e, cfg') →
      Q ⟨Outcome.failed e, u1, cfg', tb.2, pos, [Event.compute_trace_bound]⟩)
    (h_zero : tb.1.1 = 0 → ∀ cfg', revert_operators u1 cfg = (none, cfg') →
      Q (Run.finalize env.strategy u1 cfg' tb.2 pos [Event.compute_trace_bound]))
    (h_singular : tb.1.1 ≠ 0 → tu.1 = 0 →
      Q (update_conclude env u1 cfg1 tb.2 (pos + 1)
        [Event.compute_trace_bound, Event.try_update, Event.rng] false 0 0))
    (h_assert_bound : tb.1.1 ≠ 0 → tu.1 ≠ 0 → ¬ (|le.1.2| < |tb.1.1| * (101 / 100)) →
      Q ⟨Outcome.failed Failure.assert_trace_bound, u1, cfg1, le.2, pos + 1,
        [Event.compute_trace_bound, Event.try_update, Event.rng, Event.lazy_eval_trace]⟩)
    (h_assert_accepted : tb.1.1 ≠ 0 → tu.1 ≠ 0 → |le.1.2| < |tb.1.1| * (101 / 100) →
      le.1.1 ≠ decide (|prob| > rng pos) →
      Q ⟨Outcome.failed Failure.assert_accepted, u1, cfg1, le.2, pos + 1,
        [Event.compute_trace_bound, Event.try_update, Event.rng, Event.lazy_eval_trace]⟩)
    (h_decided : tb.1.1 ≠ 0 → tu.1 ≠ 0 → |le.1.2| < |tb.1.1| * (101 / 100) →
      le.1.1 = decide (|prob| > rng pos) →
      Q (update_conclude env u1 cfg1 le.2 (pos + 1)
        [Event.compute_trace_bound, Event.try_update, Event.rng, Event.lazy_eval_trace]
        le.1.1 le.1.2 prob)) :
    Q (update_evaluate env rng correction u cfg w pos) := by
  subst hu1 hcfg1 hprob
  by_cases hz : tb.1.1 = 0
  · rcases hrev : revert_operators { u with trace_bound := tb.1.2 } cfg with ⟨_ | e, cfg'⟩
    · have h := h_zero hz cfg' hrev
      rw [htb] at hz hrev
      simp only [update_evaluate, hz, hrev, if_true]
      rw [htb] at h
      exact h
    · have h := h_zero_fail hz e cfg' hrev
      rw [htb] at hz hrev
      simp only [update_evaluate, hz, hrev, if_true]
      rw [htb] at h
      exact h
  · by_cases hd : tu.1 = 0
    · have h := h_singular hz hd
      rw [htb] at hz
      rw [htu] at hd
      simp only [update_evaluate, hz, hd, if_false, ne_eq, not_true_eq_false]
      rw [htb, htu] at h
      exact h
    · by_cases hb : |le.1.2| < |tb.1.1| * (101 / 100)
      · by_cases ha : le.1.1 = decide (|correction * tu.1 * (le.1.2 / cfg.trace)| > rng pos)
        · have h := h_decided hz hd hb ha
          subst hle
          subst htu
          subst htb
          simp only [update_evaluate, hz, hd, if_false, ne_eq, not_false_eq_true, if_true,
            hb, not_true_eq_false]
          split_ifs with hx
          all_goals first | exact h | exact absurd ha hx
        · have h := h_assert_accepted hz hd hb ha
          subst hle
          subst htu
          subst htb
          simp only [update_evaluate, hz, hd, if_false, ne_eq, not_false_eq_true, if_true,
            hb, not_true_eq_false]
          split_ifs with hx
          all_goals exact h
      · have h := h_assert_bound hz hd hb
        subst hle
        subst htu
        subst htb
        simp only [update_evaluate, hz, hd, if_false, ne_eq, not_false_eq_true, if_true, hb]
        exact h


/-- The ways in which `update` ends or continues. -/
theorem update_cases {S MS W : Type} {Q : Run S MS W → Prop} (env : Env S MS W)
    (rng : Random01) (u : LocalUpdater S) (cfg : MonteCarloConfiguration MS) (w : W) (pos : Nat)
    (h_diverged : env.strategy.propose rng pos { u with accepted_ := false } cfg w = none →
      Q ⟨Outcome.diverged, { u with accepted_ := false }, cfg, w, pos, []⟩)
    (h_invalid : ∀ p, env.strategy.propose rng pos { u with accepted_ := false } cfg w = some p →
      p.valid = false →
      Q (Run.finalize env.strategy (p.install { u with accepted_ := false })
        p.mc_config w p.rng_pos []))
    (h_assert : ∀ p, env.strategy.propose rng pos { u with accepted_ := false } cfg w = some p →
      p.valid = true → p.acceptance_rate_correction_ = none →
      Q ⟨Outcome.failed Failure.assert_correction, p.install { u with accepted_ := false },
        p.mc_config, w, p.rng_pos, []⟩)
    (h_range : ∀ p c, env.strategy.propose rng pos { u with accepted_ := false } cfg w = some p →
      p.valid = true → p.acceptance_rate_correction_ = some c →
      range_check_all (p.install { u with accepted_ := false })
        (env.window.get_tau_low w) (env.window.get_tau_high w) = true →
      Q ⟨Outcome.failed Failure.range_error, p.install { u with accepted_ := false },
        p.mc_config, w, p.rng_pos, []⟩)
    (h_fail : ∀ p c e u' cfg',
      env.strategy.propose rng pos { u with accepted_ := false } cfg w = some p →
      p.valid = true → p.acceptance_rate_correction_ = some c →
      range_check_all (p.install { u with accepted_ := false })
        (env.window.get_tau_low w) (env.window.get_tau_high w) = false →
      update_operators (p.install { u with accepted_ := false }) p.mc_config
        = (Except.error e, u', cfg') →
      Q ⟨Outcome.failed e, u', cfg', w, p.rng_pos, []⟩)
    (h_collision : ∀ p c u' cfg',
      env.strategy.propose rng pos { u with accepted_ := false } cfg w = some p →
      p.valid = true → p.acceptance_rate_correction_ = some c →
      range_check_all (p.install { u with accepted_ := false })
        (env.window.get_tau_low w) (env.window.get_tau_high w) = false →
      update_operators (p.install { u with accepted_ := false }) p.mc_config
        = (Except.ok false, u', cfg') →
      Q (Run.finalize env.strategy u' cfg' w p.rng_pos []))
    (h_evaluate : ∀ p c u' cfg',
      env.strategy.propose rng pos { u with accepted_ := false } cfg w = some p →
      p.valid = true → p.acceptance_rate_correction_ = some c →
      range_check_all (p.install { u with accepted_ := false })
        (env.window.get_tau_low w) (env.window.get_tau_high w) = false →
      update_operators (p.install { u with accepted_ := false }) p.mc_config
        = (Except.ok true, u', cfg') →
      Q (update_evaluate env rng c u' cfg' w p.rng_pos)) :
    Q (update env rng u cfg w pos) := by
  cases hp : env.strategy.propose rng pos { u with accepted_ := false } cfg w with
  | none =>
    have h := h_diverged hp
    simpa only [update, hp] using h
  | some p =>
    cases hv : p.valid with
    | false =>
      have h := h_invalid p hp hv
      have hv' : (p.install { u with accepted_ := false }).valid_move_generated_ = false := hv
      simpa only [update, hp, hv', Bool.not_false, if_true] using h
    | true =>
      have hv' : (p.install { u with accepted_ := false }).valid_move_generated_ = true := hv
      cases hc : p.acceptance_rate_correction_ with
      | none =>
        have h := h_assert p hp hv hc
        have hc' : (p.install { u with accepted_ := false }).acceptance_rate_correction_
            = none := hc
        simp only [update, hp, hv', Bool.not_true, Bool.false_eq_true, if_false]
        rw [hc']
        exact h
      | some c =>
        have hc' : (p.install { u with accepted_ := false }).acceptance_rate_correction_
            = some c := hc
        cases hr : range_check_all (p.install { u with accepted_ := false })
            (env.window.get_tau_low w) (env.window.get_tau_high w) with
        | true =>
          have h := h_range p c hp hv hc hr
          simp only [update, hp, hv', Bool.not_true, Bool.false_eq_true, if_false]
          rw [hc']
          simp only [hr, if_true]
          exact h
        | false =>
          rcases huo : update_operators (p.install { u with accepted_ := false }) p.mc_config
            with ⟨_ | _ | _, u', cfg'⟩
          · have h := h_fail p c _ u' cfg' hp hv hc hr huo
            simp only [update, hp, hv', Bool.not_true, Bool.false_eq_true, if_false]
            rw [hc']
            simp only [hr, Bool.false_eq_true, if_false, huo]
            exact h
          · have h := h_collision p c u' cfg' hp hv hc hr huo
            simp only [update, hp, hv', Bool.not_true, Bool.false_eq_true, if_false]
            rw [hc']
            simp only [hr, Bool.false_eq_true, if_false, huo]
            exact h
          · have h := h_evaluate p c u' cfg' hp hv hc hr huo
            simp only [update, hp, hv', Bool.not_true, Bool.false_eq_true, if_false]
            rw [hc']
            simp only [hr, Bool.false_eq_true, if_false, huo]
            exact h


/-! ## The orchestrator: the end of a cycle -/

theorem finalize_cycle_closed {S MS W : Type} (strategy : Strategy S MS W) (u : LocalUpdater S)
    (cfg : MonteCarloConfiguration MS) (w : W) (pos : Nat) (log : List Event)
    (h1 : ∀ e ∈ log, e.is_call_back = false)
    (h2 : u.accepted_ = true ↔ Event.perform_update ∈ log) :
    (Run.finalize strategy u cfg w pos log).cycle_closed u.valid_move_generated_
      u.cdagg_ops_rem_ u.c_ops_rem_ u.cdagg_ops_add_ u.c_ops_add_ :=
  ⟨rfl, rfl, rfl, rfl, rfl, rfl, rfl, log, u.accepted_, rfl, h1, h2⟩

theorem conclude_cycle_closed {S MS W : Type} (env : Env S MS W) (u : LocalUpdater S)
    (cfg : MonteCarloConfiguration MS) (w : W) (pos : Nat) (log : List Event)
    (accepted : Bool) (trace_new prob : ℚ)
    (h1 : ∀ e ∈ log, e.is_call_back = false) (h2 : Event.perform_update ∉ log)
    (h3 : u.accepted_ = false) :
    (update_conclude env u cfg w pos log accepted trace_new prob).outcome = Outcome.returned →
    (update_conclude env u cfg w pos log accepted trace_new prob).cycle_closed
      u.valid_move_generated_ u.cdagg_ops_rem_ u.c_ops_rem_ u.cdagg_ops_add_ u.c_ops_add_ := by
  apply update_conclude_cases (Q := fun r => r.outcome = Outcome.returned →
    r.cycle_closed u.valid_move_generated_ u.cdagg_ops_rem_ u.c_ops_rem_
      u.cdagg_ops_add_ u.c_ops_add_) env u cfg w pos log accepted trace_new prob
  · intro _ _
    apply finalize_cycle_closed env.strategy { u with accepted_ := true }
    · intro e he
      simp only [List.mem_append, List.mem_cons, List.mem_singleton, List.not_mem_nil,
        or_false] at he
      rcases he with he | rfl | rfl
      · exact h1 e he
      · rfl
      · rfl
    · simp
  · intro _ e cfg' _ hret
    cases hret
  · intro _ cfg' _ _
    apply finalize_cycle_closed env.strategy u
    · intro e he
      simp only [List.mem_append, List.mem_singleton] at he
      rcases he with he | rfl
      · exact h1 e he
      · rfl
    · simp [h3, h2]

theorem evaluate_cycle_closed {S MS W : Type} (env : Env S MS W) (rng : Random01)
    (correction : ℚ) (u : LocalUpdater S)
    (cfg : MonteCarloConfiguration MS) (w : W) (pos : Nat)
    (h3 : u.accepted_ = false) :
    (update_evaluate env rng correction u cfg w pos).outcome = Outcome.returned →
    (update_evaluate env rng correction u cfg w pos).cycle_closed
      u.valid_move_generated_ u.cdagg_ops_rem_ u.c_ops_rem_ u.cdagg_ops_add_ u.c_ops_add_ := by
  apply update_evaluate_cases (Q := fun r => r.outcome = Outcome.returned →
    r.cycle_closed u.valid_move_generated_ u.cdagg_ops_rem_ u.c_ops_rem_
      u.cdagg_ops_add_ u.c_ops_add_) env rng correction u cfg w pos
    _ rfl _ rfl _ rfl _ rfl _ rfl _ rfl
  · intro _ e cfg' _ hret
    cases hret
  · intro _ cfg' _ _
    exact finalize_cycle_closed env.strategy _ _ _ _ _ (by simp [Event.is_call_back])
      (by simp [h3])
  · intro _ _
    exact conclude_cycle_closed env _ _ _ _ _ _ _ _ (by simp [Event.is_call_back])
      (by simp) h3
  · intro _ _ _ hret
    cases hret
  · intro _ _ _ _ hret
    cases hret
  · intro _ _ _ _
    exact conclude_cycle_closed env _ _ _ _ _ _ _ _ (by simp [Event.is_call_back])
      (by simp) h3

/-- C7.  Whenever `update` returns, whatever the outcome of the cycle, the proposal
record is cleared (the four lists are empty, the correction factor is absent, both
flags are false), and `call_back` has been called exactly once, as the last call of the
cycle: it found the record as `propose` left it, and `accepted_ = true` exactly when
the move had been committed by `perform_update`. -/
theorem update_closes_the_cycle {S MS W : Type} (env : Env S MS W) (rng : Random01)
    (u : LocalUpdater S) (cfg : MonteCarloConfiguration MS) (w : W) (pos : Nat)
    (hret : (update env rng u cfg w pos).outcome = Outcome.returned) :
    (update env rng u cfg w pos).upd.acceptance_rate_correction_ = none ∧
    (update env rng u cfg w pos).upd.cdagg_ops_rem_ = [] ∧
    (update env rng u cfg w pos).upd.c_ops_rem_ = [] ∧
    (update env rng u cfg w pos).upd.cdagg_ops_add_ = [] ∧
    (update env rng u cfg w pos).upd.c_ops_add_ = [] ∧
    (update env rng u cfg w pos).upd.valid_move_generated_ = false ∧
    (update env rng u cfg w pos).upd.accepted_ = false ∧
    ∃ (p : Proposal S MS) (before : List Event) (accepted : Bool),
      env.strategy.propose rng pos { u with accepted_ := false } cfg w = some p ∧
      (update env rng u cfg w pos).log = before ++
        [Event.call_back p.valid accepted
          p.cdagg_ops_rem_ p.c_ops_rem_ p.cdagg_ops_add_ p.c_ops_add_] ∧
      (∀ e ∈ before, e.is_call_back = false) ∧
      (accepted = true ↔ Event.perform_update ∈ before) := by
  have key : (update env rng u cfg w pos).outcome = Outcome.returned →
      ∃ p, env.strategy.propose rng pos { u with accepted_ := false } cfg w = some p ∧
        (update env rng u cfg w pos).cycle_closed p.valid
          p.cdagg_ops_rem_ p.c_ops_rem_ p.cdagg_ops_add_ p.c_ops_add_ := by
    apply update_cases (Q := fun r => r.outcome = Outcome.returned →
      ∃ p, env.strategy.propose rng pos { u with accepted_ := false } cfg w = some p ∧
        r.cycle_closed p.valid p.cdagg_ops_rem_ p.c_ops_rem_ p.cdagg_ops_add_ p.c_ops_add_)
      env rng u cfg w pos
    · intro _ h
      cases h
    · intro p hp hv _
      exact ⟨p, hp, finalize_cycle_closed env.strategy (p.install { u with accepted_ := false })
        _ _ _ _ (by simp) (by simp [Proposal.install])⟩
    · intro p _ _ _ h
      cases h
    · intro p c _ _ _ _ h
      cases h
    · intro p c e u' cfg' _ _ _ _ _ h
      cases h
    · intro p c u' cfg' hp hv hc hr huo _
      refine ⟨p, hp, ?_⟩
      have hfr := (update_operators_frame (p.install { u with accepted_ := false })
        p.mc_config).1
      rw [huo] at hfr
      rcases hfr with hu | hu <;> simp only [] at hu <;> subst hu
      · exact finalize_cycle_closed env.strategy _ _ _ _ _ (by simp)
          (by simp [Proposal.install])
      · exact finalize_cycle_closed env.strategy _ _ _ _ _ (by simp)
          (by simp [Proposal.install])
    · intro p c u' cfg' hp hv hc hr huo hret
      refine ⟨p, hp, ?_⟩
      have hfr := (update_operators_frame (p.install { u with accepted_ := false })
        p.mc_config).1
      rw [huo] at hfr
      rcases hfr with hu | hu <;> simp only [] at hu <;> subst hu
      · exact evaluate_cycle_closed env rng c _ _ _ _ (by simp [Proposal.install]) hret
      · exact evaluate_cycle_closed env rng c _ _ _ _ (by simp [Proposal.install]) hret
  obtain ⟨p, hp, k1, k2, k3, k4, k5, k6, k7, before, accepted, k8, k9, k10⟩ := key hret
  exact ⟨k1, k2, k3, k4, k5, k6, k7, p, before, accepted, hp, k8, k9, k10⟩


/-- Witness of C7: an accepted shift of the creation operator of a pair. -/
theorem update_closes_the_cycle_witness :
    (update (Bench.shift_env 1) (Bench.stream [0, 0, 1 / 2, 1 / 4]) Bench.shift_updater
      Bench.pair_config () 0).outcome = Outcome.returned ∧
    (update (Bench.shift_env 1) (Bench.stream [0, 0, 1 / 2, 1 / 4]) Bench.shift_updater
      Bench.pair_config () 0).upd.acceptance_rate_correction_ = none ∧
    (update (Bench.shift_env 1) (Bench.stream [0, 0, 1 / 2, 1 / 4]) Bench.shift_updater
      Bench.pair_config () 0).upd.cdagg_ops_rem_ = [] := by
  have h := update_closes_the_cycle (Bench.shift_env 1) (Bench.stream [0, 0, 1 / 2, 1 / 4])
    Bench.shift_updater Bench.pair_config () 0 (by decide!)
  exact ⟨by decide!, h.1, h.2.1⟩


/-! ## The orchestrator: rejected moves are rolled back -/

theorem conclude_rollback {S MS W : Type} (env : Env S MS W) (u : LocalUpdater S)
    (cfg : MonteCarloConfiguration MS) (w : W) (pos : Nat) (log : List Event)
    (accepted : Bool) (trace_new prob : ℚ) (old : operator_container_t)
    (h : applied_to old cfg.operators (u.cdagg_ops_rem_ ++ u.c_ops_rem_)
      (u.cdagg_ops_add_ ++ u.c_ops_add_)) :
    (update_conclude env u cfg w pos log accepted trace_new prob).outcome = Outcome.returned →
    Event.perform_update ∉ (update_conclude env u cfg w pos log accepted trace_new prob).log →
    (update_conclude env u cfg w pos log accepted trace_new prob).mc_config.operators = old ∧
    (update_conclude env u cfg w pos log accepted trace_new prob).mc_config.trace = cfg.trace ∧
    (update_conclude env u cfg w pos log accepted trace_new prob).mc_config.sign = cfg.sign ∧
    (update_conclude env u cfg w pos log accepted trace_new prob).mc_config.perm_sign
      = cfg.perm_sign := by
  apply update_conclude_cases (Q := fun r => r.outcome = Outcome.returned →
    Event.perform_update ∉ r.log → r.mc_config.operators = old ∧
    r.mc_config.trace = cfg.trace ∧ r.mc_config.sign = cfg.sign ∧
    r.mc_config.perm_sign = cfg.perm_sign) env u cfg w pos log accepted trace_new prob
  · intro _ _ hlog
    exact absurd (by simp [Run.finalize]) hlog
  · intro _ e cfg' _ hret
    cases hret
  · intro _ cfg' hrev _ _
    have e := hrev.symm.trans (revert_operators_spec _ _ old h)
    cases e
    exact ⟨rfl, rfl, rfl, rfl⟩

theorem evaluate_rollback {S MS W : Type} (env : Env S MS W) (rng : Random01)
    (correction : ℚ) (u : LocalUpdater S)
    (cfg : MonteCarloConfiguration MS) (w : W) (pos : Nat) (old : operator_container_t)
    (h : applied_to old cfg.operators (u.cdagg_ops_rem_ ++ u.c_ops_rem_)
      (u.cdagg_ops_add_ ++ u.c_ops_add_)) :
    (update_evaluate env rng correction u cfg w pos).outcome = Outcome.returned →
    Event.perform_update ∉ (update_evaluate env rng correction u cfg w pos).log →
    (update_evaluate env rng correction u cfg w pos).mc_config.operators = old ∧
    (update_evaluate env rng correction u cfg w pos).mc_config.trace = cfg.trace ∧
    (update_evaluate env rng correction u cfg w pos).mc_config.sign = cfg.sign ∧
    (update_evaluate env rng correction u cfg w pos).mc_config.perm_sign = cfg.perm_sign := by
  apply update_evaluate_cases (Q := fun r => r.outcome = Outcome.returned →
    Event.perform_update ∉ r.log → r.mc_config.operators = old ∧
    r.mc_config.trace = cfg.trace ∧ r.mc_config.sign = cfg.sign ∧
    r.mc_config.perm_sign = cfg.perm_sign) env rng correction u cfg w pos
    _ rfl _ rfl _ rfl _ rfl _ rfl _ rfl
  · intro _ e cfg' _ hret
    cases hret
  · intro _ cfg' hrev _ _
    have e := hrev.symm.trans (revert_operators_spec _ _ old h)
    cases e
    exact ⟨rfl, rfl, rfl, rfl⟩
  · intro _ _
    exact conclude_rollback env _ _ _ _ _ _ _ _ old h
  · intro _ _ _ hret
    cases hret
  · intro _ _ _ _ hret
    cases hret
  · intro _ _ _ _
    exact conclude_rollback env _ _ _ _ _ _ _ _ old h

/-- C2.  Let `propose` return a move whose two removal lists hold pairwise distinct
members of the operator collection.  If `update` returns without having committed the
move (a collision in `update_operators`, a zero trace bound, a zero determinant ratio or
a trace evaluation that reports not-accepted), then the operator collection is, element
for element, the one `propose` was given, and trace, sign and `perm_sign` are unchanged;
for a `propose` that only reads the configuration these are the values before the
call. -/
theorem rejected_move_is_rolled_back {S MS W : Type} (env : Env S MS W) (rng : Random01)
    (u : LocalUpdater S) (cfg : MonteCarloConfiguration MS) (w : W) (pos : Nat)
    (p : Proposal S MS)
    (hp : env.strategy.propose rng pos { u with accepted_ := false } cfg w = some p)
    (hvalid : p.valid = true)
    (hdistinct : p.ops_rem.Nodup)
    (hmembers : ∀ x ∈ p.ops_rem, x ∈ p.mc_config.operators.elems)
    (hret : (update env rng u cfg w pos).outcome = Outcome.returned)
    (hrejected : Event.perform_update ∉ (update env rng u cfg w pos).log) :
    ((update env rng u cfg w pos).mc_config.operators = p.mc_config.operators ∧
      (update env rng u cfg w pos).mc_config.trace = p.mc_config.trace ∧
      (update env rng u cfg w pos).mc_config.sign = p.mc_config.sign ∧
      (update env rng u cfg w pos).mc_config.perm_sign = p.mc_config.perm_sign) ∧
    (p.mc_config = cfg →
      (update env rng u cfg w pos).mc_config.operators = cfg.operators ∧
      (update env rng u cfg w pos).mc_config.trace = cfg.trace ∧
      (update env rng u cfg w pos).mc_config.sign = cfg.sign ∧
      (update env rng u cfg w pos).mc_config.perm_sign = cfg.perm_sign) := by
  have key : (update env rng u cfg w pos).outcome = Outcome.returned →
      Event.perform_update ∉ (update env rng u cfg w pos).log →
      (update env rng u cfg w pos).mc_config.operators = p.mc_config.operators ∧
      (update env rng u cfg w pos).mc_config.trace = p.mc_config.trace ∧
      (update env rng u cfg w pos).mc_config.sign = p.mc_config.sign ∧
      (update env rng u cfg w pos).mc_config.perm_sign = p.mc_config.perm_sign := by
    have hm' : ∀ x ∈ (p.install { u with accepted_ := false }).cdagg_ops_rem_ ++
        (p.install { u with accepted_ := false }).c_ops_rem_,
        x ∈ p.mc_config.operators.toFinset :=
      fun x hx => operator_container_t.mem_toFinset.mpr (hmembers x hx)
    have hspec := update_operators_spec (p.install { u with accepted_ := false })
      p.mc_config hdistinct hm'
    apply update_cases (Q := fun r => r.outcome = Outcome.returned →
      Event.perform_update ∉ r.log →
      r.mc_config.operators = p.mc_config.operators ∧
      r.mc_config.trace = p.mc_config.trace ∧ r.mc_config.sign = p.mc_config.sign ∧
      r.mc_config.perm_sign = p.mc_config.perm_sign) env rng u cfg w pos
    · intro _ h
      cases h
    · intro q hq hv
      rw [hp] at hq
      cases hq
      rw [hvalid] at hv
      cases hv
    · intro q _ _ _ h
      cases h
    · intro q c _ _ _ _ h
      cases h
    · intro q c e u' cfg' _ _ _ _ _ h
      cases h
    · intro q c u' cfg' hq _ _ _ huo _ _
      rw [hp] at hq
      cases hq
      by_cases hdup : ¬ ((p.install { u with accepted_ := false }).cdagg_ops_add_ ++
            (p.install { u with accepted_ := false }).c_ops_add_).Nodup ∨
          ∃ x ∈ (p.install { u with accepted_ := false }).cdagg_ops_add_ ++
              (p.install { u with accepted_ := false }).c_ops_add_,
            x ∈ p.mc_config.operators.toFinset \
              ((p.install { u with accepted_ := false }).cdagg_ops_rem_ ++
                (p.install { u with accepted_ := false }).c_ops_rem_).toFinset
      · rw [hspec.1 hdup] at huo
        cases huo
        exact ⟨rfl, rfl, rfl, rfl⟩
      · obtain ⟨ops, _, hops⟩ := hspec.2 hdup
        rw [hops] at huo
        cases huo
    · intro q c u' cfg' hq _ _ _ huo
      rw [hp] at hq
      cases hq
      by_cases hdup : ¬ ((p.install { u with accepted_ := false }).cdagg_ops_add_ ++
            (p.install { u with accepted_ := false }).c_ops_add_).Nodup ∨
          ∃ x ∈ (p.install { u with accepted_ := false }).cdagg_ops_add_ ++
              (p.install { u with accepted_ := false }).c_ops_add_,
            x ∈ p.mc_config.operators.toFinset \
              ((p.install { u with accepted_ := false }).cdagg_ops_rem_ ++
                (p.install { u with accepted_ := false }).c_ops_rem_).toFinset
      · rw [hspec.1 hdup] at huo
        cases huo
      · obtain ⟨ops, happ, hops⟩ := hspec.2 hdup
        rw [hops] at huo
        cases huo
        exact evaluate_rollback env rng c _ _ w _ _ happ
  have h := key hret hrejected
  refine ⟨h, fun hframe => ?_⟩
  rw [hframe] at h
  exact h


/-- Witness of C2: a shift rejected because the determinant ratio is zero. -/
theorem rejected_move_is_rolled_back_witness :
    (Bench.shift_env 0).strategy.propose (Bench.stream [0, 0, 3 / 5, 1 / 4]) 0
        { Bench.shift_updater with accepted_ := false } Bench.pair_config ()
      = some Bench.shift_proposal ∧
    (update (Bench.shift_env 0) (Bench.stream [0, 0, 3 / 5, 1 / 4]) Bench.shift_updater
      Bench.pair_config () 0).outcome = Outcome.returned ∧
    Event.perform_update ∉ (update (Bench.shift_env 0) (Bench.stream [0, 0, 3 / 5, 1 / 4])
      Bench.shift_updater Bench.pair_config () 0).log ∧
    (update (Bench.shift_env 0) (Bench.stream [0, 0, 3 / 5, 1 / 4]) Bench.shift_updater
      Bench.pair_config () 0).mc_config.operators = Bench.pair_config.operators := by
  have h := rejected_move_is_rolled_back (Bench.shift_env 0)
    (Bench.stream [0, 0, 3 / 5, 1 / 4]) Bench.shift_updater Bench.pair_config () 0
    Bench.shift_proposal (by decide!) (by decide!) (by decide!) (by decide!) (by decide!)
    (by decide!)
  exact ⟨by decide!, by decide!, by decide!, h.1.1⟩


/-! ## The orchestrator: transactions on the determinant matrix -/

theorem finalize_disciplined {S MS W : Type} (strategy : Strategy S MS W) (u : LocalUpdater S)
    (cfg : MonteCarloConfiguration MS) (w : W) (pos : Nat) (log : List Event)
    (h1 : matrix_calls log = [] ∨
      matrix_calls log = [Event.try_update, Event.perform_update] ∨
      matrix_calls log = [Event.try_update, Event.reject_update])
    (h2 : transaction_state log = some false)
    (h3 : log.any Event.reports_accepted = false)
    (h4 : Event.perform_update ∈ log ↔ u.accepted_ = true) :
    (Run.finalize strategy u cfg w pos log).disciplined := by
  have e1 : matrix_calls (Run.finalize strategy u cfg w pos log).log = matrix_calls log := by
    simp [Run.finalize, matrix_calls, call_back_event, List.filter_append, Event.is_matrix]
  have e2 : transaction_state (Run.finalize strategy u cfg w pos log).log
      = transaction_state log := by
    simp only [Run.finalize, transaction_state, call_back_event, List.foldl_append,
      List.foldl_cons, List.foldl_nil]
    cases hs : List.foldl transaction_step (some false) log with
    | none => rfl
    | some b => cases b <;> rfl
  have e3 : Event.perform_update ∈ (Run.finalize strategy u cfg w pos log).log ↔
      Event.perform_update ∈ log := by
    simp [Run.finalize, call_back_event]
  have e4 : (Run.finalize strategy u cfg w pos log).log.any Event.reports_accepted
      = u.accepted_ := by
    simp only [Run.finalize, call_back_event, List.any_append, h3, Bool.false_or]
    cases u.accepted_ <;> rfl
  unfold Run.disciplined
  rw [e1, e2, e3, e4, h2]
  refine ⟨?_, by simp, fun _ => ⟨?_, rfl, h4⟩⟩
  · rcases h1 with h | h | h
    · exact Or.inl h
    · exact Or.inr (Or.inr (Or.inl h))
    · exact Or.inr (Or.inr (Or.inr h))
  · rcases h1 with h | h | h <;> rw [h] <;> simp

theorem conclude_disciplined {S MS W : Type} (env : Env S MS W) (u : LocalUpdater S)
    (cfg : MonteCarloConfiguration MS) (w : W) (pos : Nat) (log : List Event)
    (accepted : Bool) (trace_new prob : ℚ)
    (h1 : matrix_calls log = [Event.try_update])
    (h2 : transaction_state log = some true)
    (h3 : log.any Event.reports_accepted = false)
    (h4 : Event.perform_update ∉ log)
    (h5 : u.accepted_ = false) :
    (update_conclude env u cfg w pos log accepted trace_new prob).disciplined := by
  have hm : ∀ l, matrix_calls (log ++ l) = Event.try_update :: matrix_calls l := by
    intro l
    simp only [matrix_calls, List.filter_append] at h1 ⊢
    rw [h1]
    rfl
  have hs : ∀ l, transaction_state (log ++ l) = l.foldl transaction_step (some true) := by
    intro l
    simp only [transaction_state, List.foldl_append] at h2 ⊢
    rw [h2]
  apply update_conclude_cases (Q := fun r => r.disciplined)
    env u cfg w pos log accepted trace_new prob
  · intro _
    apply finalize_disciplined env.strategy { u with accepted_ := true }
    · right; left
      rw [hm]; rfl
    · rw [hs]; rfl
    · simp [List.any_append, h3, Event.reports_accepted]
    · simp
  · intro _ e cfg' _
    refine ⟨?_, ?_, fun h => by cases h⟩
    · right; right; right
      show matrix_calls (log ++ [Event.reject_update]) = _
      rw [hm]; rfl
    · show transaction_state (log ++ [Event.reject_update]) ≠ none
      rw [hs]
      simp [transaction_step]
  · intro _ cfg' _
    apply finalize_disciplined env.strategy u
    · right; right
      rw [hm]; rfl
    · rw [hs]; rfl
    · simp [List.any_append, h3, Event.reports_accepted]
    · simp [h4, h5]

theorem evaluate_disciplined {S MS W : Type} (env : Env S MS W) (rng : Random01)
    (correction : ℚ) (u : LocalUpdater S)
    (cfg : MonteCarloConfiguration MS) (w : W) (pos : Nat)
    (h5 : u.accepted_ = false) :
    (update_evaluate env rng correction u cfg w pos).disciplined := by
  apply update_evaluate_cases (Q := fun r => r.disciplined) env rng correction u cfg w pos
    _ rfl _ rfl _ rfl _ rfl _ rfl _ rfl
  · intro _ e cfg' _
    exact ⟨Or.inl rfl, by simp [transaction_state, transaction_step], fun h => by cases h⟩
  · intro _ cfg' _
    exact finalize_disciplined env.strategy _ _ _ _ _ (Or.inl rfl) rfl rfl (by simp [h5])
  · intro _ _
    exact conclude_disciplined env _ _ _ _ _ _ _ _ rfl rfl rfl (by simp) h5
  · intro _ _ _
    exact ⟨Or.inr (Or.inl rfl), by simp [transaction_state, transaction_step],
      fun h => by cases h⟩
  · intro _ _ _ _
    exact ⟨Or.inr (Or.inl rfl), by simp [transaction_state, transaction_step],
      fun h => by cases h⟩
  · intro _ _ _ _
    exact conclude_disciplined env _ _ _ _ _ _ _ _ rfl rfl rfl (by simp) h5

/-- C10.  Transaction discipline on the determinant matrix.  In every execution of
`update`, started with no tentative transaction open: the calls made to the matrix are
none at all, or one `try_update`, or one `try_update` followed by one `perform_update`,
or one `try_update` followed by one `reject_update`; so `try_update` is never issued
inside an open transaction and `perform_update`, `reject_update` only come after it.
When `update` returns, a `try_update` has been followed by exactly one of the two, no
transaction is open, and `perform_update` was called exactly when the move was accepted
(`call_back` found `accepted_ = true`). -/
theorem update_transaction_discipline {S MS W : Type} (env : Env S MS W) (rng : Random01)
    (u : LocalUpdater S) (cfg : MonteCarloConfiguration MS) (w : W) (pos : Nat) :
    (matrix_calls (update env rng u cfg w pos).log = [] ∨
      matrix_calls (update env rng u cfg w pos).log = [Event.try_update] ∨
      matrix_calls (update env rng u cfg w pos).log
        = [Event.try_update, Event.perform_update] ∨
      matrix_calls (update env rng u cfg w pos).log
        = [Event.try_update, Event.reject_update]) ∧
    transaction_state (update env rng u cfg w pos).log ≠ none ∧
    ((update env rng u cfg w pos).outcome = Outcome.returned →
      matrix_calls (update env rng u cfg w pos).log ≠ [Event.try_update] ∧
      transaction_state (update env rng u cfg w pos).log = some false ∧
      (Event.perform_update ∈ (update env rng u cfg w pos).log ↔
        (update env rng u cfg w pos).log.any Event.reports_accepted = true)) := by
  have key : (update env rng u cfg w pos).disciplined := by
    apply update_cases (Q := fun r => r.disciplined) env rng u cfg w pos
    · intro _
      exact ⟨Or.inl rfl, by simp [transaction_state], fun h => by cases h⟩
    · intro p _ hv
      exact finalize_disciplined env.strategy _ _ _ _ _ (Or.inl rfl) rfl rfl
        (by simp [Proposal.install, hv])
    · intro p _ _ _
      exact ⟨Or.inl rfl, by simp [transaction_state], fun h => by cases h⟩
    · intro p c _ _ _ _
      exact ⟨Or.inl rfl, by simp [transaction_state], fun h => by cases h⟩
    · intro p c e u' cfg' _ _ _ _ _
      exact ⟨Or.inl rfl, by simp [transaction_state], fun h => by cases h⟩
    · intro p c u' cfg' _ _ _ _ huo
      have hfr := (update_operators_frame (p.install { u with accepted_ := false })
        p.mc_config).1
      rw [huo] at hfr
      have hacc : u'.accepted_ = false := by
        rcases hfr with hu | hu <;> simp only [] at hu <;> subst hu <;> rfl
      exact finalize_disciplined env.strategy _ _ _ _ _ (Or.inl rfl) rfl rfl (by simp [hacc])
    · intro p c u' cfg' _ _ _ _ huo
      have hfr := (update_operators_frame (p.install { u with accepted_ := false })
        p.mc_config).1
      rw [huo] at hfr
      have hacc : u'.accepted_ = false := by
        rcases hfr with hu | hu <;> simp only [] at hu <;> subst hu <;> rfl
      exact evaluate_disciplined env rng c _ _ _ _ hacc
  exact key


/-! ## The orchestrator: the range check -/

theorem range_check_iff (ops : List psi) (tau_low tau_high : ℚ) :
    range_check ops tau_low tau_high = true ↔
      ∃ op ∈ ops, op.time < tau_low ∨ tau_high < op.time := by
  simp [range_check]

theorem range_check_all_iff {S MS : Type} (p : Proposal S MS) (u : LocalUpdater S)
    (tau_low tau_high : ℚ) :
    range_check_all (p.install u) tau_low tau_high = true ↔
      ∃ op ∈ p.ops_rem ++ p.ops_add, op.time < tau_low ∨ tau_high < op.time := by
  simp only [range_check_all, Proposal.install, Proposal.ops_rem, Proposal.ops_add,
    Bool.or_eq_true, range_check_iff, List.mem_append]
  constructor
  · rintro (((⟨op, h, ht⟩ | ⟨op, h, ht⟩) | ⟨op, h, ht⟩) | ⟨op, h, ht⟩)
    · exact ⟨op, Or.inl (Or.inl h), ht⟩
    · exact ⟨op, Or.inl (Or.inr h), ht⟩
    · exact ⟨op, Or.inr (Or.inl h), ht⟩
    · exact ⟨op, Or.inr (Or.inr h), ht⟩
  · rintro ⟨op, (h | h) | (h | h), ht⟩
    · exact Or.inl (Or.inl (Or.inl ⟨op, h, ht⟩))
    · exact Or.inl (Or.inl (Or.inr ⟨op, h, ht⟩))
    · exact Or.inl (Or.inr ⟨op, h, ht⟩)
    · exact Or.inr ⟨op, h, ht⟩

theorem conclude_no_range_error {S MS W : Type} (env : Env S MS W) (u : LocalUpdater S)
    (cfg : MonteCarloConfiguration MS) (w : W) (pos : Nat) (log : List Event)
    (accepted : Bool) (trace_new prob : ℚ) :
    (update_conclude env u cfg w pos log accepted trace_new prob).outcome
      ≠ Outcome.failed Failure.range_error := by
  apply update_conclude_cases (Q := fun r => r.outcome ≠ Outcome.failed Failure.range_error)
    env u cfg w pos log accepted trace_new prob
  · intro _ h
    cases h
  · intro _ e cfg' hrev h
    have hf := (revert_operators_frame u
      { cfg with M := env.matrix.reject_update cfg.M }).2.2.2.2 e (by rw [hrev])
    cases h
    rcases hf with hf | hf <;> cases hf
  · intro _ cfg' _ h
    cases h

theorem evaluate_no_range_error {S MS W : Type} (env : Env S MS W) (rng : Random01)
    (correction : ℚ) (u : LocalUpdater S)
    (cfg : MonteCarloConfiguration MS) (w : W) (pos : Nat) :
    (update_evaluate env rng correction u cfg w pos).outcome
      ≠ Outcome.failed Failure.range_error := by
  apply update_evaluate_cases (Q := fun r => r.outcome ≠ Outcome.failed Failure.range_error)
    env rng correction u cfg w pos _ rfl _ rfl _ rfl _ rfl _ rfl _ rfl
  · intro _ e cfg' hrev h
    have hf := (revert_operators_frame _ cfg).2.2.2.2 e (by rw [hrev])
    cases h
    rcases hf with hf | hf <;> cases hf
  · intro _ cfg' _ h
    cases h
  · intro _ _
    exact conclude_no_range_error env _ _ _ _ _ _ _ _
  · intro _ _ _ h
    cases h
  · intro _ _ _ _ h
    cases h
  · intro _ _ _ _
    exact conclude_no_range_error env _ _ _ _ _ _ _ _

/-- C8, as it fails on the code: a proposal that returns true with an operator at time
`11`, outside the window `[0, 10]`, but without a correction factor makes `update` fail
on the assertion of line 418, which comes before the range check; the failure is not the
range error. -/
theorem range_error_counterexample :
    (Bench.stray_env none).strategy.propose (Bench.stream []) 0
        { Bench.plain_updater with accepted_ := false } Bench.empty_config ()
      = some (Bench.stray_proposal none) ∧
    (Bench.stray_proposal none).valid = true ∧
    (∃ op ∈ (Bench.stray_proposal none).ops_rem ++ (Bench.stray_proposal none).ops_add,
      op.time < (Bench.stray_env none).window.get_tau_low () ∨
        (Bench.stray_env none).window.get_tau_high () < op.time) ∧
    (update (Bench.stray_env none) (Bench.stream []) Bench.plain_updater
      Bench.empty_config () 0).outcome = Outcome.failed Failure.assert_correction ∧
    (update (Bench.stray_env none) (Bench.stream []) Bench.plain_updater
      Bench.empty_config () 0).outcome ≠ Outcome.failed Failure.range_error := by
  refine ⟨by decide!, by decide!, ?_, by decide!, by decide!⟩
  exact ⟨⟨11, OperatorType.CREATION_OP, 0⟩, by decide!, Or.inr (by decide!)⟩

/-- C8, amended.  When `propose` returns with the correction factor set whenever it
returns true, `update` fails with the range error if and only if `propose` returned true
and some operator of the four lists has a time `t < tau_low` or `t > tau_high` (times
equal to a bound pass).  When it fails so, nothing has been mutated and no collaborator
has been called: the configuration (operators, `M`, trace, sign, `perm_sign`) is the one
`propose` left, which is the one before the call for a `propose` that only reads it. -/
theorem range_error_iff {S MS W : Type} (env : Env S MS W) (rng : Random01)
    (u : LocalUpdater S) (cfg : MonteCarloConfiguration MS) (w : W) (pos : Nat)
    (p : Proposal S MS)
    (hp : env.strategy.propose rng pos { u with accepted_ := false } cfg w = some p)
    (hcorrection : p.valid = true → p.acceptance_rate_correction_ ≠ none) :
    ((update env rng u cfg w pos).outcome = Outcome.failed Failure.range_error ↔
      (p.valid = true ∧ ∃ op ∈ p.ops_rem ++ p.ops_add,
        op.time < env.window.get_tau_low w ∨ env.window.get_tau_high w < op.time)) ∧
    ((update env rng u cfg w pos).outcome = Outcome.failed Failure.range_error →
      (update env rng u cfg w pos).mc_config = p.mc_config ∧
      (update env rng u cfg w pos).log = [] ∧
      (p.mc_config = cfg → (update env rng u cfg w pos).mc_config = cfg)) := by
  have key : ((update env rng u cfg w pos).outcome = Outcome.failed Failure.range_error ↔
        (p.valid = true ∧ range_check_all (p.install { u with accepted_ := false })
          (env.window.get_tau_low w) (env.window.get_tau_high w) = true)) ∧
      ((update env rng u cfg w pos).outcome = Outcome.failed Failure.range_error →
        (update env rng u cfg w pos).mc_config = p.mc_config ∧
        (update env rng u cfg w pos).log = []) := by
    apply update_cases (Q := fun r =>
      (r.outcome = Outcome.failed Failure.range_error ↔
        (p.valid = true ∧ range_check_all (p.install { u with accepted_ := false })
          (env.window.get_tau_low w) (env.window.get_tau_high w) = true)) ∧
      (r.outcome = Outcome.failed Failure.range_error →
        r.mc_config = p.mc_config ∧ r.log = [])) env rng u cfg w pos
    · intro h
      rw [hp] at h
      cases h
    · intro q hq hv
      rw [hp] at hq
      cases hq
      refine ⟨⟨fun h => (nomatch h), fun h => ?_⟩, fun h => (nomatch h)⟩
      rw [hv] at h
      cases h.1
    · intro q hq hv hc
      rw [hp] at hq
      cases hq
      exact absurd hc (hcorrection hv)
    · intro q c hq hv _ hr
      rw [hp] at hq
      cases hq
      exact ⟨⟨fun _ => ⟨hv, hr⟩, fun _ => rfl⟩, fun _ => ⟨rfl, rfl⟩⟩
    · intro q c e u' cfg' hq _ _ hr huo
      rw [hp] at hq
      cases hq
      have hf := (update_operators_frame (p.install { u with accepted_ := false })
        p.mc_config).2.2.2.2.2 e (by rw [huo])
      have hne : Outcome.failed e ≠ Outcome.failed Failure.range_error := by
        intro h
        cases h
        rcases hf with hf | hf <;> cases hf
      refine ⟨⟨fun h => absurd h hne, fun h => ?_⟩, fun h => absurd h hne⟩
      rw [hr] at h
      cases h.2
    · intro q c u' cfg' hq _ _ hr _
      rw [hp] at hq
      cases hq
      refine ⟨⟨fun h => (nomatch h), fun h => ?_⟩, fun h => (nomatch h)⟩
      rw [hr] at h
      cases h.2
    · intro q c u' cfg' hq _ _ hr _
      rw [hp] at hq
      cases hq
      have hne := evaluate_no_range_error env rng c u' cfg' w p.rng_pos
      refine ⟨⟨fun h => absurd h hne, fun h => ?_⟩, fun h => absurd h hne⟩
      rw [hr] at h
      cases h.2
  rw [range_check_all_iff] at key
  refine ⟨key.1, fun h => ⟨(key.2 h).1, (key.2 h).2, fun hframe => ?_⟩⟩
  rw [(key.2 h).1, hframe]

/-- Witness of C8: the same stray proposal, with the correction factor set. -/
theorem range_error_iff_witness :
    (Bench.stray_env (some 1)).strategy.propose (Bench.stream []) 0
        { Bench.plain_updater with accepted_ := false } Bench.empty_config ()
      = some (Bench.stray_proposal (some 1)) ∧
    (update (Bench.stray_env (some 1)) (Bench.stream []) Bench.plain_updater
      Bench.empty_config () 0).outcome = Outcome.failed Failure.range_error ∧
    (update (Bench.stray_env (some 1)) (Bench.stream []) Bench.plain_updater
      Bench.empty_config () 0).mc_config = Bench.empty_config := by
  have h := range_error_iff (Bench.stray_env (some 1)) (Bench.stream [])
    Bench.plain_updater Bench.empty_config () 0 (Bench.stray_proposal (some 1))
    (by decide!) (by decide!)
  exact ⟨by decide!, by decide!, (h.2 (by decide!)).2.2 (by decide!)⟩


/-! ## The orchestrator: collisions -/

theorem update_operators_erase_failure {S MS : Type} (u : LocalUpdater S)
    (cfg : MonteCarloConfiguration MS)
    (h : ¬ ((u.cdagg_ops_rem_ ++ u.c_ops_rem_).Nodup ∧
      ∀ x ∈ u.cdagg_ops_rem_ ++ u.c_ops_rem_, x ∈ cfg.operators.toFinset)) :
    ∃ e, (update_operators u cfg).1 = Except.error e := by
  rcases h1 : safe_erase cfg.operators u.cdagg_ops_rem_ with ⟨c1, _ | e⟩
  · have s1 := safe_erase_spec u.cdagg_ops_rem_ cfg.operators
    rw [h1] at s1
    obtain ⟨hn1, hm1⟩ := s1.1.mp rfl
    have f1 := s1.2 rfl
    simp only [] at f1
    rcases h2 : safe_erase c1 u.c_ops_rem_ with ⟨c2, _ | e⟩
    · have s2 := safe_erase_spec u.c_ops_rem_ c1
      rw [h2] at s2
      obtain ⟨hn2, hm2⟩ := s2.1.mp rfl
      exfalso
      apply h
      constructor
      · refine List.nodup_append.mpr ⟨hn1, hn2, ?_⟩
        intro x hx1 hx2
        have := hm2 x hx2
        rw [f1] at this
        simp only [Finset.mem_sdiff, List.mem_toFinset] at this
        exact this.2 hx1
      · intro x hx
        rcases List.mem_append.mp hx with hx | hx
        · exact hm1 x hx
        · have := hm2 x hx
          rw [f1] at this
          exact (Finset.mem_sdiff.mp this).1
    · exact ⟨e, by simp only [update_operators, h1, h2]⟩
  · exact ⟨e, by simp only [update_operators, h1]⟩

/-- C9.  `update_operators` returns false exactly when the removal lists could be
erased (they hold pairwise distinct members of the collection) and then two operators of
the combined add lists are equal or one of them is still present in the collection.  In
that case the configuration is exactly as before the call, and `update` ends the cycle
as rejected: the only call recorded is `call_back`, so neither `compute_trace_bound`,
`try_update`, `lazy_eval_trace` nor the random generator is called.  When the removal
lists could be erased and there is no such collision, it returns true and the collection
is the old one minus the removed operators plus the added ones. -/
theorem update_operators_collision {S MS : Type} (u : LocalUpdater S)
    (cfg : MonteCarloConfiguration MS) :
    ((update_operators u cfg).1 = Except.ok false ↔
      (((u.cdagg_ops_rem_ ++ u.c_ops_rem_).Nodup ∧
          ∀ x ∈ u.cdagg_ops_rem_ ++ u.c_ops_rem_, x ∈ cfg.operators.elems) ∧
        (¬ (u.cdagg_ops_add_ ++ u.c_ops_add_).Nodup ∨
          ∃ x ∈ u.cdagg_ops_add_ ++ u.c_ops_add_,
            x ∈ cfg.operators.elems ∧ x ∉ u.cdagg_ops_rem_ ++ u.c_ops_rem_))) ∧
    ((update_operators u cfg).1 = Except.ok false → (update_operators u cfg).2.2 = cfg) ∧
    (((u.cdagg_ops_rem_ ++ u.c_ops_rem_).Nodup ∧
        ∀ x ∈ u.cdagg_ops_rem_ ++ u.c_ops_rem_, x ∈ cfg.operators.elems) →
      ¬ (¬ (u.cdagg_ops_add_ ++ u.c_ops_add_).Nodup ∨
          ∃ x ∈ u.cdagg_ops_add_ ++ u.c_ops_add_,
            x ∈ cfg.operators.elems ∧ x ∉ u.cdagg_ops_rem_ ++ u.c_ops_rem_) →
      (update_operators u cfg).1 = Except.ok true ∧
      (update_operators u cfg).2.2.operators.toFinset =
        (cfg.operators.toFinset \ (u.cdagg_ops_rem_ ++ u.c_ops_rem_).toFinset)
          ∪ (u.cdagg_ops_add_ ++ u.c_ops_add_).toFinset) ∧
    (∀ (W : Type) (env : Env S MS W) (rng : Random01) (u0 : LocalUpdater S)
        (cfg0 : MonteCarloConfiguration MS) (w : W) (pos : Nat) (p : Proposal S MS) (c : ℚ),
      env.strategy.propose rng pos { u0 with accepted_ := false } cfg0 w = some p →
      p.valid = true → p.acceptance_rate_correction_ = some c →
      range_check_all (p.install { u0 with accepted_ := false })
        (env.window.get_tau_low w) (env.window.get_tau_high w) = false →
      (update_operators (p.install { u0 with accepted_ := false }) p.mc_config).1
        = Except.ok false →
      (update env rng u0 cfg0 w pos).outcome = Outcome.returned ∧
      (update env rng u0 cfg0 w pos).mc_config = p.mc_config ∧
      (update env rng u0 cfg0 w pos).rng_pos = p.rng_pos ∧
      (update env rng u0 cfg0 w pos).log =
        [Event.call_back true false p.cdagg_ops_rem_ p.c_ops_rem_
          p.cdagg_ops_add_ p.c_ops_add_]) := by
  have hdupiff : (¬ (u.cdagg_ops_add_ ++ u.c_ops_add_).Nodup ∨
        ∃ x ∈ u.cdagg_ops_add_ ++ u.c_ops_add_,
          x ∈ cfg.operators.elems ∧ x ∉ u.cdagg_ops_rem_ ++ u.c_ops_rem_) ↔
      (¬ (u.cdagg_ops_add_ ++ u.c_ops_add_).Nodup ∨
        ∃ x ∈ u.cdagg_ops_add_ ++ u.c_ops_add_,
          x ∈ cfg.operators.toFinset \ (u.cdagg_ops_rem_ ++ u.c_ops_rem_).toFinset) := by
    simp only [Finset.mem_sdiff, List.mem_toFinset, operator_container_t.mem_toFinset]
  have hmemiff : ((u.cdagg_ops_rem_ ++ u.c_ops_rem_).Nodup ∧
        ∀ x ∈ u.cdagg_ops_rem_ ++ u.c_ops_rem_, x ∈ cfg.operators.elems) ↔
      ((u.cdagg_ops_rem_ ++ u.c_ops_rem_).Nodup ∧
        ∀ x ∈ u.cdagg_ops_rem_ ++ u.c_ops_rem_, x ∈ cfg.operators.toFinset) := by
    simp only [operator_container_t.mem_toFinset]
  rw [hdupiff, hmemiff]
  have part1 : (update_operators u cfg).1 = Except.ok false →
      (((u.cdagg_ops_rem_ ++ u.c_ops_rem_).Nodup ∧
          ∀ x ∈ u.cdagg_ops_rem_ ++ u.c_ops_rem_, x ∈ cfg.operators.toFinset) ∧
        (¬ (u.cdagg_ops_add_ ++ u.c_ops_add_).Nodup ∨
          ∃ x ∈ u.cdagg_ops_add_ ++ u.c_ops_add_,
            x ∈ cfg.operators.toFinset \ (u.cdagg_ops_rem_ ++ u.c_ops_rem_).toFinset)) ∧
      (update_operators u cfg).2.2 = cfg := by
    intro h
    by_cases he : (u.cdagg_ops_rem_ ++ u.c_ops_rem_).Nodup ∧
        ∀ x ∈ u.cdagg_ops_rem_ ++ u.c_ops_rem_, x ∈ cfg.operators.toFinset
    · have hspec := update_operators_spec u cfg he.1 he.2
      by_cases hd : ¬ (u.cdagg_ops_add_ ++ u.c_ops_add_).Nodup ∨
          ∃ x ∈ u.cdagg_ops_add_ ++ u.c_ops_add_,
            x ∈ cfg.operators.toFinset \ (u.cdagg_ops_rem_ ++ u.c_ops_rem_).toFinset
      · exact ⟨⟨he, hd⟩, by rw [hspec.1 hd]⟩
      · obtain ⟨ops, _, hops⟩ := hspec.2 hd
        rw [hops] at h
        cases h
    · obtain ⟨e, herr⟩ := update_operators_erase_failure u cfg he
      rw [herr] at h
      cases h
  refine ⟨⟨fun h => (part1 h).1, fun h => ?_⟩, fun h => (part1 h).2, ?_, ?_⟩
  · rw [(update_operators_spec u cfg h.1.1 h.1.2).1 h.2]
  · intro he hd
    obtain ⟨ops, happ, hops⟩ := (update_operators_spec u cfg he.1 he.2).2 hd
    rw [hops]
    exact ⟨rfl, happ.2.2.2.2⟩
  · intro W env rng u0 cfg0 w pos p c hp hv hc hr hfalse
    rcases huo : update_operators (p.install { u0 with accepted_ := false }) p.mc_config
      with ⟨r, u', cfg'⟩
    rw [huo] at hfalse
    simp only [] at hfalse
    subst hfalse
    have hv' : (p.install { u0 with accepted_ := false }).valid_move_generated_ = true := hv
    have hc' : (p.install { u0 with accepted_ := false }).acceptance_rate_correction_
        = some c := hc
    have hrun : update env rng u0 cfg0 w pos =
        Run.finalize env.strategy u' cfg' w p.rng_pos [] := by
      simp only [update, hp, hv', Bool.not_true, Bool.false_eq_true, if_false]
      rw [hc']
      simp only [hr, Bool.false_eq_true, if_false, huo]
    have hfr := (update_operators_frame (p.install { u0 with accepted_ := false })
      p.mc_config).1
    rw [huo] at hfr
    by_cases he : ((p.install { u0 with accepted_ := false }).cdagg_ops_rem_ ++
          (p.install { u0 with accepted_ := false }).c_ops_rem_).Nodup ∧
        ∀ x ∈ (p.install { u0 with accepted_ := false }).cdagg_ops_rem_ ++
          (p.install { u0 with accepted_ := false }).c_ops_rem_,
          x ∈ p.mc_config.operators.toFinset
    · have hspec := update_operators_spec (p.install { u0 with accepted_ := false })
        p.mc_config he.1 he.2
      by_cases hd : ¬ ((p.install { u0 with accepted_ := false }).cdagg_ops_add_ ++
            (p.install { u0 with accepted_ := false }).c_ops_add_).Nodup ∨
          ∃ x ∈ (p.install { u0 with accepted_ := false }).cdagg_ops_add_ ++
              (p.install { u0 with accepted_ := false }).c_ops_add_,
            x ∈ p.mc_config.operators.toFinset \
              ((p.install { u0 with accepted_ := false }).cdagg_ops_rem_ ++
                (p.install { u0 with accepted_ := false }).c_ops_rem_).toFinset
      · have e := huo.symm.trans (hspec.1 hd)
        cases e
        rw [hrun]
        refine ⟨rfl, rfl, rfl, ?_⟩
        simp [Run.finalize, call_back_event, Proposal.install, hv]
      · obtain ⟨ops, _, hops⟩ := hspec.2 hd
        have e := huo.symm.trans hops
        cases e
    · obtain ⟨e, herr⟩ := update_operators_erase_failure _ _ he
      rw [huo] at herr
      cases herr


/-- Witness of C9: shifting the creation operator at time `3` onto the one at time `4`
is a collision; the cycle ends with the single call of `call_back`. -/
theorem update_operators_collision_witness :
    (update_operators (Bench.colliding_proposal.install Bench.shift_updater)
      Bench.triple_config).1 = Except.ok false ∧
    (update (Bench.shift_env 1) (Bench.stream [0, 0, 3 / 5]) Bench.shift_updater
      Bench.triple_config () 0).outcome = Outcome.returned ∧
    (update (Bench.shift_env 1) (Bench.stream [0, 0, 3 / 5]) Bench.shift_updater
      Bench.triple_config () 0).mc_config = Bench.triple_config ∧
    (update (Bench.shift_env 1) (Bench.stream [0, 0, 3 / 5]) Bench.shift_updater
      Bench.triple_config () 0).log =
        [Event.call_back true false [⟨3, OperatorType.CREATION_OP, 0⟩] []
          [⟨4, OperatorType.CREATION_OP, 0⟩] []] := by
  have h := (update_operators_collision Bench.shift_updater Bench.triple_config).2.2.2
    Unit (Bench.shift_env 1) (Bench.stream [0, 0, 3 / 5]) Bench.shift_updater
    Bench.triple_config () 0 Bench.colliding_proposal 1
    (by decide!) (by decide!) (by decide!) (by decide!) (by decide!)
  exact ⟨by decide!, h.1, h.2.1, h.2.2.2⟩

/-- Witness of C10: an accepted shift opens and commits one transaction. -/
theorem update_transaction_discipline_witness :
    matrix_calls (update (Bench.shift_env 1) (Bench.stream [0, 0, 3 / 5, 1 / 4])
      Bench.shift_updater Bench.pair_config () 0).log
        = [Event.try_update, Event.perform_update] ∧
    transaction_state (update (Bench.shift_env 1) (Bench.stream [0, 0, 3 / 5, 1 / 4])
      Bench.shift_updater Bench.pair_config () 0).log = some false := by
  have h := update_transaction_discipline (Bench.shift_env 1)
    (Bench.stream [0, 0, 3 / 5, 1 / 4]) Bench.shift_updater Bench.pair_config () 0
  exact ⟨by decide!, (h.2.2 (by decide!)).2.1⟩


/-! ## Correction factors of the insertion and removal proposals -/

theorem correction_step_algebra (A B f nf C1 C2 : ℚ)
    (hf : f ≠ 0) (hnf : nf ≠ 0) (h1 : C1 ≠ 0) (h2 : C2 ≠ 0) :
    (A * f * nf * nf / C1 / C2) * (B / (f * nf * nf) * C1 * C2) = A * B := by
  field_simp
  ring

theorem correction_fold_reciprocal (num_flavors : Nat → Nat)
    (ncd nc ncd' nc' k : List Nat) (n : Nat)
    (hflavors : ∀ b, b < n → 1 ≤ num_flavors b)
    (hcd : ∀ b, b < n → ncd'.getD b 0 = ncd.getD b 0 + k.getD b 0)
    (hc : ∀ b, b < n → nc'.getD b 0 = nc.getD b 0 + k.getD b 0)
    (a0 b0 : ℚ) (h0 : a0 * b0 = 1) :
    (List.range n).foldl
        (fun acc ib =>
          if k.getD ib 0 = 0 then acc
          else
            acc * ((k.getD ib 0).factorial : ℚ) * (num_flavors ib : ℚ) * (num_flavors ib : ℚ)
              / (((ncd.getD ib 0 + k.getD ib 0).choose (k.getD ib 0) : Nat) : ℚ)
              / (((nc.getD ib 0 + k.getD ib 0).choose (k.getD ib 0) : Nat) : ℚ)) a0 *
      (List.range n).foldl
        (fun acc ib =>
          if k.getD ib 0 = 0 then acc
          else
            acc / (((k.getD ib 0).factorial : ℚ) * (num_flavors ib : ℚ) * (num_flavors ib : ℚ))
              * (((ncd'.getD ib 0).choose (k.getD ib 0) : Nat) : ℚ)
              * (((nc'.getD ib 0).choose (k.getD ib 0) : Nat) : ℚ)) b0 = 1 := by
  induction n with
  | zero => simpa using h0
  | succ n ih =>
    have ih' := ih (fun b hb => hflavors b (Nat.lt_succ_of_lt hb))
      (fun b hb => hcd b (Nat.lt_succ_of_lt hb)) (fun b hb => hc b (Nat.lt_succ_of_lt hb))
    rw [List.range_succ, List.foldl_append, List.foldl_append]
    simp only [List.foldl_cons, List.foldl_nil]
    by_cases hk : k.getD n 0 = 0
    · simp only [hk, if_true]
      exact ih'
    · simp only [hk, if_false]
      rw [hcd n (Nat.lt_succ_self n), hc n (Nat.lt_succ_self n)]
      have h1 : ((k.getD n 0).factorial : ℚ) ≠ 0 :=
        Nat.cast_ne_zero.mpr (Nat.factorial_ne_zero _)
      have h2 : (num_flavors n : ℚ) ≠ 0 :=
        Nat.cast_ne_zero.mpr (Nat.one_le_iff_ne_zero.mp (hflavors n (Nat.lt_succ_self n)))
      have h3 : (((ncd.getD n 0 + k.getD n 0).choose (k.getD n 0) : Nat) : ℚ) ≠ 0 :=
        Nat.cast_ne_zero.mpr (Nat.choose_pos (Nat.le_add_left _ _)).ne'
      have h4 : (((nc.getD n 0 + k.getD n 0).choose (k.getD n 0) : Nat) : ℚ) ≠ 0 :=
        Nat.cast_ne_zero.mpr (Nat.choose_pos (Nat.le_add_left _ _)).ne'
      rw [correction_step_algebra _ _ _ _ _ _ h1 h2 h3 h4]
      exact ih'

/-- C3.  Detailed balance of the correction factors, in exact arithmetic.  For a window
of width `w > 0` and blocks with at least one flavor each: the factor `f` that
`propose_insertion` computes from the in-window counts `(n_cdagg, n_c)` for `k[b]` new
pairs per block is not zero, and the factor that `propose_removal` computes for removing
`k[b]` pairs per block from the counts `(n_cdagg[b] + k[b], n_c[b] + k[b])` is `1 / f`
(whatever the counts `k[b]` sum to).  The same holds between the insertion and the
removal branch of the diagonal strategy, with `update_rank` pairs of the chosen flavor. -/
theorem correction_factors_reciprocal (width : ℚ) (update_rank num_blocks : Nat)
    (num_flavors : Nat → Nat) (ncd nc ncd' nc' k : List Nat) (n_cdagg n_c : Nat)
    (hwidth : 0 < width)
    (hflavors : ∀ b, b < num_blocks → 1 ≤ num_flavors b)
    (hcd : ∀ b, b < num_blocks → ncd'.getD b 0 = ncd.getD b 0 + k.getD b 0)
    (hc : ∀ b, b < num_blocks → nc'.getD b 0 = nc.getD b 0 + k.getD b 0) :
    (InsertionRemovalUpdater.insertion_correction width update_rank num_blocks num_flavors
        ncd nc k ≠ 0 ∧
      InsertionRemovalUpdater.removal_correction width update_rank num_blocks num_flavors
        ncd' nc' k =
      1 / InsertionRemovalUpdater.insertion_correction width update_rank num_blocks
        num_flavors ncd nc k) ∧
    (InsertionRemovalDiagonalUpdater.insertion_correction width update_rank n_cdagg n_c ≠ 0 ∧
      InsertionRemovalDiagonalUpdater.removal_correction width update_rank
        (n_cdagg + update_rank) (n_c + update_rank) =
      1 / InsertionRemovalDiagonalUpdater.insertion_correction width update_rank n_cdagg n_c) := by
  have hw : width ^ (2 * update_rank) ≠ 0 := pow_ne_zero _ hwidth.ne'
  constructor
  · have h := correction_fold_reciprocal num_flavors ncd nc ncd' nc' k num_blocks
      hflavors hcd hc (width ^ (2 * update_rank)) (1 / width ^ (2 * update_rank))
      (by field_simp)
    have hne : InsertionRemovalUpdater.insertion_correction width update_rank num_blocks
        num_flavors ncd nc k ≠ 0 := by
      intro hz
      unfold InsertionRemovalUpdater.insertion_correction at hz
      rw [hz, zero_mul] at h
      exact zero_ne_one h
    refine ⟨hne, ?_⟩
    rw [eq_div_iff hne, mul_comm]
    exact h
  · have h1 : ((((n_cdagg + update_rank).choose update_rank : Nat) : ℚ)) ≠ 0 :=
      Nat.cast_ne_zero.mpr (Nat.choose_pos (Nat.le_add_left _ _)).ne'
    have h2 : ((((n_c + update_rank).choose update_rank : Nat) : ℚ)) ≠ 0 :=
      Nat.cast_ne_zero.mpr (Nat.choose_pos (Nat.le_add_left _ _)).ne'
    have h3 : (update_rank.factorial : ℚ) ≠ 0 :=
      Nat.cast_ne_zero.mpr (Nat.factorial_ne_zero _)
    unfold InsertionRemovalDiagonalUpdater.insertion_correction
      InsertionRemovalDiagonalUpdater.removal_correction
    refine ⟨div_ne_zero hw (mul_ne_zero (mul_ne_zero h1 h2) h3), ?_⟩
    field_simp

/-- Witness of C3: one block with one flavor, a window of width `10`, one new pair in an
empty window. -/
theorem correction_factors_reciprocal_witness :
    InsertionRemovalUpdater.removal_correction 10 1 1 (fun _ => 1) [1] [1] [1] =
      1 / InsertionRemovalUpdater.insertion_correction 10 1 1 (fun _ => 1) [0] [0] [1] ∧
    InsertionRemovalUpdater.insertion_correction 10 1 1 (fun _ => 1) [0] [0] [1] = 100 :=
  ⟨(correction_factors_reciprocal 10 1 1 (fun _ => 1) [0] [0] [1] [1] [1] 0 0
      (by norm_num) (fun _ _ => le_refl 1)
      (fun b hb => by
        have hb0 : b = 0 := by omega
        subst hb0
        rfl)
      (fun b hb => by
        have hb0 : b = 0 := by omega
        subst hb0
        rfl)).1.2,
    by decide!⟩


/-! ## The correction factor of `propose_insertion` -/

theorem static_cast_int_bounds (r : ℚ) (n : Nat) (h0 : 0 ≤ r) (h1 : r < 1) (hn : 0 < n) :
    0 ≤ static_cast_int (r * (n : ℚ)) ∧ (static_cast_int (r * (n : ℚ))).toNat < n := by
  have hnq : (0 : ℚ) < (n : ℚ) := Nat.cast_pos.mpr hn
  have hx : 0 ≤ r * (n : ℚ) := mul_nonneg h0 hnq.le
  have hx' : r * (n : ℚ) < (n : ℚ) := by nlinarith
  have hfloor : static_cast_int (r * (n : ℚ)) = Rat.floor (r * (n : ℚ)) := by
    simp [static_cast_int, hx]
  have hlow : (0 : Int) ≤ Rat.floor (r * (n : ℚ)) := Rat.le_floor.mpr (by simpa using hx)
  have hhigh : Rat.floor (r * (n : ℚ)) < (n : Int) := by
    by_contra hc
    have := Rat.le_floor.mp (not_lt.mp hc)
    simp only [Int.cast_natCast] at this
    linarith
  rw [hfloor]
  refine ⟨hlow, ?_⟩
  omega

theorem at_index_some {T : Type} (v : List T) (i : Int) (x : T) (h : at_index v i = some x) :
    0 ≤ i ∧ i.toNat < v.length ∧ v.get? i.toNat = some x := by
  unfold at_index at h
  split at h
  · rename_i hi
    exact ⟨hi, (List.get?_eq_some.mp h).1, h⟩
  · cases h

theorem at_index_of_lt {T : Type} (v : List T) (i : Int) (h0 : 0 ≤ i) (h1 : i.toNat < v.length) :
    ∃ x, at_index v i = some x := by
  unfold at_index
  rw [if_pos h0]
  exact ⟨v.get ⟨i.toNat, h1⟩, List.get?_eq_get h1⟩

theorem increment_at_some (v v' : List Nat) (i : Int) (h : increment_at v i = some v') :
    0 ≤ i ∧ i.toNat < v.length ∧ v'.length = v.length ∧
    ∀ b, v'.getD b 0 = v.getD b 0 + (if b = i.toNat then 1 else 0) := by
  unfold increment_at at h
  split at h
  · cases h
  · rename_i x hx
    obtain ⟨h0, h1, h2⟩ := at_index_some v i x hx
    cases h
    refine ⟨h0, h1, by simp, ?_⟩
    intro b
    by_cases hb : b = i.toNat
    · subst hb
      simp only [if_true]
      rw [List.getD_eq_getElem?_getD, List.getD_eq_getElem?_getD, List.getElem?_set_self h1]
      rw [List.get?_eq_getElem?] at h2
      rw [h2]
      rfl
    · simp only [hb, if_false, Nat.add_zero]
      rw [List.getD_eq_getElem?_getD, List.getD_eq_getElem?_getD,
        List.getElem?_set_ne (fun h => hb h.symm)]

theorem pick_some {T : Type} (array : List T) (rng : Random01) (pos : Nat) (x : T) (pos' : Nat)
    (h : pick array rng pos = some (x, pos')) : x ∈ array ∧ pos' = pos + 1 := by
  unfold pick at h
  split at h
  · cases h
  · rename_i y hy
    obtain ⟨_, _, h2⟩ := at_index_some array _ y hy
    cases h
    exact ⟨List.get?_mem h2, rfl⟩

theorem pick_of_bounds {T : Type} (array : List T) (rng : Random01) (pos : Nat)
    (h0 : 0 ≤ rng pos) (h1 : rng pos < 1) (hne : array ≠ []) :
    ∃ x, pick array rng pos = some (x, pos + 1) := by
  have hlen : 0 < array.length := List.length_pos.mpr hne
  obtain ⟨hb0, hb1⟩ := static_cast_int_bounds (rng pos) array.length h0 h1 hlen
  obtain ⟨x, hx⟩ := at_index_of_lt array _ hb0 hb1
  exact ⟨x, by simp only [pick, hx]⟩


/-- The loop of `propose_insertion` counts, block by block, the creation operators it
appends, when every flavor of a block belongs to that block. -/
theorem insertion_loop_counts {MS : Type} (mat : DeterminantMatrix MS)
    (open_random : OpenRandom) (rng : Random01) (M : MS) (tau_low tau_high : ℚ)
    (N : Nat)
    (hblocks : ∀ b, b < N → ∀ f ∈ mat.flavors M b, mat.block_belonging_to M f = b) :
    ∀ (n : Nat) (k : List Nat) (cd c : List psi) (pos : Nat)
      (k' : List Nat) (cd' c' : List psi) (pos' : Nat),
      k.length = N →
      InsertionRemovalUpdater.insertion_loop mat open_random rng M tau_low tau_high
        n k cd c pos = some (k', cd', c', pos') →
      k'.length = k.length ∧
      ∀ b, k'.getD b 0 + cd.countP (fun op => decide (mat.block_belonging_to M op.flavor = b))
        = k.getD b 0 + cd'.countP (fun op => decide (mat.block_belonging_to M op.flavor = b)) := by
  intro n
  induction n with
  | zero =>
    intro k cd c pos k' cd' c' pos' _ h
    simp only [InsertionRemovalUpdater.insertion_loop, Option.some.injEq, Prod.mk.injEq] at h
    obtain ⟨rfl, rfl, rfl, rfl⟩ := h
    exact ⟨rfl, fun _ => rfl⟩
  | succ n ih =>
    intro k cd c pos k' cd' c' pos' hkN h
    simp only [InsertionRemovalUpdater.insertion_loop] at h
    split at h
    · cases h
    · rename_i k1 hk1
      split at h
      · cases h
      · rename_i f1 pos1 hf1
        split at h
        · cases h
        · rename_i f2 pos2 hf2
          obtain ⟨_, hlt, hlen, hget⟩ := increment_at_some _ _ _ hk1
          obtain ⟨hmem, _⟩ := pick_some _ _ _ _ _ hf1
          have hblk := hblocks _ (hkN ▸ hlt) f1 hmem
          obtain ⟨ihlen, ihget⟩ := ih _ _ _ _ _ _ _ _ (hlen.trans hkN) h
          refine ⟨ihlen.trans hlen, fun b => ?_⟩
          have e1 := ihget b
          have e2 := hget b
          simp only [List.countP_append, List.countP_cons, List.countP_nil, hblk,
            decide_eq_true_eq] at e1
          rw [e2] at e1
          by_cases hb : b = (static_cast_int (rng pos * (mat.num_blocks M : ℚ))).toNat
          · simp only [hb, if_true] at e1 ⊢
            omega
          · have hb' : ¬ (static_cast_int (rng pos * (mat.num_blocks M : ℚ))).toNat = b :=
              fun h => hb h.symm
            simp only [hb, hb', if_false] at e1 ⊢
            omega

/-- The loop of `propose_insertion` returns when the random stream has its values in
`[0, 1)` and every block has a flavor. -/
theorem insertion_loop_returns {MS : Type} (mat : DeterminantMatrix MS)
    (open_random : OpenRandom) (rng : Random01) (M : MS) (tau_low tau_high : ℚ)
    (hrng : ∀ i, 0 ≤ rng i ∧ rng i < 1)
    (hnb : 0 < mat.num_blocks M)
    (hflavors : ∀ b, b < mat.num_blocks M → mat.flavors M b ≠ []) :
    ∀ (n : Nat) (k : List Nat) (cd c : List psi) (pos : Nat),
      k.length = mat.num_blocks M →
      ∃ r, InsertionRemovalUpdater.insertion_loop mat open_random rng M tau_low tau_high
        n k cd c pos = some r := by
  intro n
  induction n with
  | zero =>
    intro k cd c pos _
    exact ⟨_, rfl⟩
  | succ n ih =>
    intro k cd c pos hk
    obtain ⟨hb0, hb1⟩ := static_cast_int_bounds (rng pos) (mat.num_blocks M)
      (hrng pos).1 (hrng pos).2 hnb
    obtain ⟨x, hx⟩ := at_index_of_lt k _ hb0 (by rw [hk]; exact hb1)
    have hinc : increment_at k (static_cast_int (rng pos * (mat.num_blocks M : ℚ)))
        = some (k.set (static_cast_int (rng pos * (mat.num_blocks M : ℚ))).toNat (x + 1)) := by
      simp only [increment_at, hx]
    obtain ⟨f1, hf1⟩ := pick_of_bounds
      (mat.flavors M (static_cast_int (rng pos * (mat.num_blocks M : ℚ))).toNat) rng
      (open_random rng (pos + 1) tau_low tau_high).2 (hrng _).1 (hrng _).2 (hflavors _ hb1)
    obtain ⟨f2, hf2⟩ := pick_of_bounds
      (mat.flavors M (static_cast_int (rng pos * (mat.num_blocks M : ℚ))).toNat) rng
      (open_random rng ((open_random rng (pos + 1) tau_low tau_high).2 + 1)
        tau_low tau_high).2 (hrng _).1 (hrng _).2 (hflavors _ hb1)
    obtain ⟨r, hr⟩ := ih (k.set (static_cast_int (rng pos * (mat.num_blocks M : ℚ))).toNat
        (x + 1))
      (cd ++ [psi.mk (open_random rng (pos + 1) tau_low tau_high).1
        OperatorType.CREATION_OP f1])
      (c ++ [psi.mk (open_random rng ((open_random rng (pos + 1) tau_low tau_high).2 + 1)
        tau_low tau_high).1 OperatorType.ANNIHILATION_OP f2])
      ((open_random rng ((open_random rng (pos + 1) tau_low tau_high).2 + 1)
        tau_low tau_high).2 + 1)
      (by simp [hk])
    exact ⟨r, by simp only [InsertionRemovalUpdater.insertion_loop, hinc, hf1, hf2, hr]⟩

/-- The loop of lines 586-607 in closed form: a product over the blocks that receive new
pairs. -/
theorem insertion_correction_closed_form (width : ℚ) (update_rank : Nat)
    (num_flavors : Nat → Nat) (ncd nc k : List Nat) (n : Nat) :
    InsertionRemovalUpdater.insertion_correction width update_rank n num_flavors ncd nc k =
      width ^ (2 * update_rank) *
        ∏ b in (Finset.range n).filter (fun b => 0 < k.getD b 0),
          (((k.getD b 0).factorial : ℚ) * (num_flavors b : ℚ) ^ 2 /
            ((((ncd.getD b 0 + k.getD b 0).choose (k.getD b 0) : Nat) : ℚ) *
              (((nc.getD b 0 + k.getD b 0).choose (k.getD b 0) : Nat) : ℚ))) := by
  unfold InsertionRemovalUpdater.insertion_correction
  induction n with
  | zero => simp
  | succ n ih =>
    rw [List.range_succ, List.foldl_append, ih, Finset.range_succ, Finset.filter_insert]
    simp only [List.foldl_cons, List.foldl_nil]
    by_cases hk : k.getD n 0 = 0
    · have hnpos : ¬ 0 < k.getD n 0 := by omega
      rw [if_pos hk, if_neg hnpos]
    · have hpos : 0 < k.getD n 0 := Nat.pos_of_ne_zero hk
      rw [if_neg hk, if_pos hpos, Finset.prod_insert (by simp)]
      ring


theorem propose_insertion_some {MS : Type} (mat : DeterminantMatrix MS)
    (open_random : OpenRandom) (rng : Random01) (pos : Nat)
    (u : LocalUpdater InsertionRemovalUpdater) (cfg : MonteCarloConfiguration MS)
    (p : Proposal InsertionRemovalUpdater MS)
    (h : InsertionRemovalUpdater.propose_insertion mat open_random rng pos u cfg = some p) :
    ∃ k' cd' c' pos',
      InsertionRemovalUpdater.insertion_loop mat open_random rng cfg.M u.derived.tau_low_
        u.derived.tau_high_ u.derived.update_rank_ (List.replicate (mat.num_blocks cfg.M) 0)
        u.cdagg_ops_add_ u.c_ops_add_ pos = some (k', cd', c', pos') ∧
      p.valid = true ∧ p.cdagg_ops_add_ = cd' ∧
      p.acceptance_rate_correction_ = some
        (InsertionRemovalUpdater.insertion_correction
          (u.derived.tau_high_ - u.derived.tau_low_) u.derived.update_rank_
          (mat.num_blocks cfg.M) (mat.num_flavors cfg.M)
          u.derived.num_cdagg_ops_in_range_ u.derived.num_c_ops_in_range_ k') := by
  unfold InsertionRemovalUpdater.propose_insertion at h
  simp only [] at h
  split at h
  · cases h
  · rename_i k' cd' c' pos' hloop
    cases h
    exact ⟨k', cd', c', pos', hloop, rfl, rfl, rfl⟩

theorem getD_map_range (g : Nat → Nat) (n b : Nat) (hb : b < n) :
    ((List.range n).map g).getD b 0 = g b := by
  rw [List.getD_eq_getElem?_getD, List.getElem?_map, List.getElem?_range hb]
  rfl


/-- C4.  Let `InsertionRemovalUpdater::propose` take its insertion branch, with the add
lists empty on entry and a matrix whose blocks hold their own flavors.  Whenever it
returns it returns true, and the correction factor is
`(tau_high - tau_low)^(2 * update_rank)` times the product, over the blocks `b` that
receive `k[b] > 0` new pairs, of
`k[b]! * num_flavors(b)^2 / (C(n_cdagg[b] + k[b], k[b]) * C(n_c[b] + k[b], k[b]))`, where
`k[b]` counts the new creation operators of block `b` and `n_cdagg[b]`, `n_c[b]` count the
operators of block `b` inside the window.  It does return when the random stream has its
values in `[0, 1)` and every block has a flavor.  In particular, for one block with one
flavor, no operator in the window, `update_rank = 1` and the window `[0, beta]`, the
factor is `beta^2`. -/
theorem propose_insertion_correction {MS W : Type} (mat : DeterminantMatrix MS)
    (win : SlidingWindow W) (open_random : OpenRandom) (fuel : Nat) (rng : Random01)
    (pos : Nat) (u : LocalUpdater InsertionRemovalUpdater) (cfg : MonteCarloConfiguration MS)
    (w : W)
    (hcoin : rng pos < 1 / 2)
    (hentry : u.cdagg_ops_add_ = [])
    (hblocks : ∀ b, b < mat.num_blocks cfg.M → ∀ f ∈ mat.flavors cfg.M b,
      mat.block_belonging_to cfg.M f = b) :
    (∀ p, InsertionRemovalUpdater.propose mat win open_random fuel rng pos u cfg w = some p →
      p.valid = true ∧
      p.acceptance_rate_correction_ = some
        ((win.get_tau_high w - win.get_tau_low w) ^ (2 * u.derived.update_rank_) *
          ∏ b in (Finset.range (mat.num_blocks cfg.M)).filter (fun b =>
              0 < p.cdagg_ops_add_.countP
                (fun op => decide (mat.block_belonging_to cfg.M op.flavor = b))),
            (((p.cdagg_ops_add_.countP
                  (fun op => decide (mat.block_belonging_to cfg.M op.flavor = b))).factorial : ℚ)
              * (mat.num_flavors cfg.M b : ℚ) ^ 2 /
              ((((((mat.get_cdagg_ops_set cfg.M b).range (win.get_tau_low w)
                      (win.get_tau_high w)).length
                    + p.cdagg_ops_add_.countP
                      (fun op => decide (mat.block_belonging_to cfg.M op.flavor = b))).choose
                  (p.cdagg_ops_add_.countP
                    (fun op => decide (mat.block_belonging_to cfg.M op.flavor = b))) : Nat) : ℚ)
                * (((((mat.get_c_ops_set cfg.M b).range (win.get_tau_low w)
                      (win.get_tau_high w)).length
                    + p.cdagg_ops_add_.countP
                      (fun op => decide (mat.block_belonging_to cfg.M op.flavor = b))).choose
                  (p.cdagg_ops_add_.countP
                    (fun op => decide (mat.block_belonging_to cfg.M op.flavor = b)))
                    : Nat) : ℚ))))) ∧
    ((∀ i, 0 ≤ rng i ∧ rng i < 1) → 0 < mat.num_blocks cfg.M →
      (∀ b, b < mat.num_blocks cfg.M → mat.flavors cfg.M b ≠ []) →
      ∃ p, InsertionRemovalUpdater.propose mat win open_random fuel rng pos u cfg w = some p) ∧
    (mat.num_blocks cfg.M = 1 → mat.num_flavors cfg.M 0 = 1 →
      (mat.get_cdagg_ops_set cfg.M 0).range (win.get_tau_low w) (win.get_tau_high w) = [] →
      (mat.get_c_ops_set cfg.M 0).range (win.get_tau_low w) (win.get_tau_high w) = [] →
      u.derived.update_rank_ = 1 → win.get_tau_low w = 0 →
      ∀ p, InsertionRemovalUpdater.propose mat win open_random fuel rng pos u cfg w = some p →
        p.acceptance_rate_correction_ = some (win.get_tau_high w ^ 2)) := by
  have hform : ∀ p,
      InsertionRemovalUpdater.propose mat win open_random fuel rng pos u cfg w = some p →
      ∃ k' : List Nat, k'.length = mat.num_blocks cfg.M ∧
        (∀ b, k'.getD b 0 = p.cdagg_ops_add_.countP
          (fun op => decide (mat.block_belonging_to cfg.M op.flavor = b))) ∧
        (∃ cd c pos', InsertionRemovalUpdater.insertion_loop mat open_random rng cfg.M
          (win.get_tau_low w) (win.get_tau_high w) u.derived.update_rank_
          (List.replicate (mat.num_blocks cfg.M) 0) cd c (pos + 1) = some (k', pos')) ∧
        p.valid = true ∧
        p.acceptance_rate_correction_ = some
          (InsertionRemovalUpdater.insertion_correction
            (win.get_tau_high w - win.get_tau_low w) u.derived.update_rank_
            (mat.num_blocks cfg.M) (mat.num_flavors cfg.M)
            ((List.range (mat.num_blocks cfg.M)).map (fun ib =>
              ((mat.get_cdagg_ops_set cfg.M ib).range (win.get_tau_low w)
                (win.get_tau_high w)).length))
            ((List.range (mat.num_blocks cfg.M)).map (fun ib =>
              ((mat.get_c_ops_set cfg.M ib).range (win.get_tau_low w)
                (win.get_tau_high w)).length)) k') := by
    intro p hp
    simp only [InsertionRemovalUpdater.propose, hcoin, if_true] at hp
    obtain ⟨k', cd', c', pos', hloop, hv, hcd, hcorr⟩ := propose_insertion_some _ _ _ _ _ _ _ hp
    simp only [List.map_map] at hcorr
    simp only [] at hloop
    obtain ⟨hlen, hcount⟩ := insertion_loop_counts mat open_random rng cfg.M _ _
      (mat.num_blocks cfg.M) hblocks _ _ _ _ _ _ _ _ _ (by simp) hloop
    refine ⟨k', by simpa using hlen, fun b => ?_, ⟨_, _, _, hloop⟩, hv, hcorr⟩
    have := hcount b
    rw [hentry] at this
    rw [hcd]
    have hz : (List.replicate (mat.num_blocks cfg.M) 0).getD b 0 = 0 := by
      rw [List.getD_eq_getElem?_getD, List.getElem?_replicate]
      split <;> rfl
    rw [hz] at this
    simpa using this
  refine ⟨?_, ?_, ?_⟩
  · intro p hp
    obtain ⟨k', _, hk, _, hv, hcorr⟩ := hform p hp
    refine ⟨hv, ?_⟩
    rw [hcorr, insertion_correction_closed_form]
    congr 2
    have hfilter : (Finset.range (mat.num_blocks cfg.M)).filter (fun b => 0 < k'.getD b 0) =
        (Finset.range (mat.num_blocks cfg.M)).filter (fun b =>
          0 < p.cdagg_ops_add_.countP
            (fun op => decide (mat.block_belonging_to cfg.M op.flavor = b))) := by
      apply Finset.filter_congr
      intro b _
      rw [hk b]
    rw [hfilter]
    apply Finset.prod_congr rfl
    intro b hb
    have hb' : b < mat.num_blocks cfg.M := Finset.mem_range.mp (Finset.mem_filter.mp hb).1
    rw [hk b, getD_map_range _ _ _ hb', getD_map_range _ _ _ hb']
  · intro hrng hnb hfl
    obtain ⟨r, hr⟩ := insertion_loop_returns mat open_random rng cfg.M (win.get_tau_low w)
      (win.get_tau_high w) hrng hnb hfl u.derived.update_rank_
      (List.replicate (mat.num_blocks cfg.M) 0) u.cdagg_ops_add_ u.c_ops_add_ (pos + 1)
      (by simp)
    obtain ⟨k', cd', c', pos'⟩ := r
    simp only [InsertionRemovalUpdater.propose, hcoin, if_true,
      InsertionRemovalUpdater.propose_insertion, hr]
    exact ⟨_, rfl⟩
  · intro hnb hnf hcdr hcr hrank hlow p hp
    obtain ⟨k', hlen, _, ⟨cd, c, pos', hloop⟩, _, hcorr⟩ := hform p hp
    rw [hrank, hnb] at hloop
    simp only [InsertionRemovalUpdater.insertion_loop] at hloop
    have hk' : k' = [1] := by
      split at hloop
      · cases hloop
      · rename_i k1 hk1
        split at hloop
        · cases hloop
        · split at hloop
          · cases hloop
          · simp only [Option.some.injEq, Prod.mk.injEq] at hloop
            obtain ⟨_, hlt, hl1, hget⟩ := increment_at_some _ _ _ hk1
            have h0 := hget 0
            simp only [List.length_replicate, Nat.lt_one_iff] at hlt
            rw [hlt] at h0
            rw [← hloop.1]
            simp only [List.length_replicate] at hl1
            match k1, hl1, h0 with
            | [x], _, h0 =>
              simp only [List.getD_cons_zero, if_true] at h0
              simp [h0]
    rw [hcorr, hk', hnb, hrank, hlow]
    rw [hlow] at hcdr hcr
    simp only [InsertionRemovalUpdater.insertion_correction, List.range_succ, List.range_zero,
      List.nil_append, List.map_cons, List.map_nil, List.foldl_cons, List.foldl_nil, hcdr,
      hcr, hnf, hlow]
    simp


/-- Witness of C4: the first insertion into the empty configuration, window `[0, 10]`. -/
theorem propose_insertion_correction_witness :
    ∃ p, InsertionRemovalUpdater.propose (Bench.matrix 1) Bench.window Bench.open_random 8
        (Bench.stream [1 / 4, 0, 3 / 10, 0, 7 / 10, 0]) 0 Bench.insertion_updater
        Bench.empty_config () = some p ∧
      p.acceptance_rate_correction_ = some (10 ^ 2) := by
  have hsome : (InsertionRemovalUpdater.propose (Bench.matrix 1) Bench.window
      Bench.open_random 8 (Bench.stream [1 / 4, 0, 3 / 10, 0, 7 / 10, 0]) 0
      Bench.insertion_updater Bench.empty_config ()).isSome = true := by decide!
  obtain ⟨p, hp⟩ := Option.isSome_iff_exists.mp hsome
  have h := (propose_insertion_correction (Bench.matrix 1) Bench.window Bench.open_random 8
    (Bench.stream [1 / 4, 0, 3 / 10, 0, 7 / 10, 0]) 0 Bench.insertion_updater
    Bench.empty_config () (by decide!) rfl
    (fun b hb f _ => by
      have hb0 : b = 0 := Nat.lt_one_iff.mp hb
      subst hb0
      rfl)).2.2 rfl rfl rfl rfl rfl rfl p hp
  exact ⟨p, hp, h⟩

/-! ## The shift proposal -/

/-- C5, on the code: with a creation operator at time `3` and an annihilation operator at
time `7` in the window and the random stream `1/4, 0, 1/2`, the shift strategy returns
true with the annihilation operator in `cdagg_ops_rem_` and a creation operator added in
its place: the kind of the relocated operator changes.  Both ranges of lines 859-865 are
taken from `mc_config.operators`, which holds the operators of both kinds. -/
theorem shift_changes_the_kind :
    SingleOperatorShiftUpdater.propose (Bench.matrix 1) Bench.window
        (Bench.stream [1 / 4, 0, 1 / 2]) 0 Bench.shift_updater Bench.pair_config ()
      = some Bench.kind_changing_proposal ∧
    (⟨3, OperatorType.CREATION_OP, 0⟩ : psi) ∈ Bench.pair_config.operators.elems ∧
    (⟨7, OperatorType.ANNIHILATION_OP, 0⟩ : psi) ∈ Bench.pair_config.operators.elems ∧
    Bench.kind_changing_proposal.valid = true ∧
    Bench.kind_changing_proposal.cdagg_ops_rem_.map psi.type
      = [OperatorType.ANNIHILATION_OP] ∧
    Bench.kind_changing_proposal.cdagg_ops_add_.map psi.type
      = [OperatorType.CREATION_OP] := by
  refine ⟨by decide!, by decide!, by decide!, rfl, rfl, rfl⟩


/-! ## Proposals that return false -/

theorem insertion_removal_false_keeps_lists {MS W : Type} (mat : DeterminantMatrix MS)
    (win : SlidingWindow W) (open_random : OpenRandom) (fuel : Nat) (rng : Random01)
    (pos : Nat) (u : LocalUpdater InsertionRemovalUpdater) (cfg : MonteCarloConfiguration MS)
    (w : W) (p : Proposal InsertionRemovalUpdater MS)
    (hp : InsertionRemovalUpdater.propose mat win open_random fuel rng pos u cfg w = some p)
    (hv : p.valid = false) :
    p.cdagg_ops_rem_ = u.cdagg_ops_rem_ ∧ p.c_ops_rem_ = u.c_ops_rem_ ∧
    p.cdagg_ops_add_ = u.cdagg_ops_add_ ∧ p.c_ops_add_ = u.c_ops_add_ := by
  unfold InsertionRemovalUpdater.propose at hp
  simp only [] at hp
  split at hp
  · obtain ⟨_, _, _, _, _, hv', _⟩ := propose_insertion_some _ _ _ _ _ _ _ hp
    rw [hv] at hv'
    cases hv'
  · unfold InsertionRemovalUpdater.propose_removal at hp
    simp only [] at hp
    split at hp
    · cases hp
    · split at hp
      · cases hp
        exact ⟨rfl, rfl, rfl, rfl⟩
      · split at hp
        · cases hp
        · cases hp
          cases hv

theorem diagonal_false_keeps_lists {MS W : Type} (mat : DeterminantMatrix MS)
    (win : SlidingWindow W) (open_random : OpenRandom) (fuel : Nat) (rng : Random01)
    (pos : Nat) (u : LocalUpdater InsertionRemovalDiagonalUpdater)
    (cfg : MonteCarloConfiguration MS) (w : W)
    (p : Proposal InsertionRemovalDiagonalUpdater MS)
    (hp : InsertionRemovalDiagonalUpdater.propose mat win open_random fuel rng pos u cfg w
      = some p)
    (hv : p.valid = false) :
    p.cdagg_ops_rem_ = u.cdagg_ops_rem_ ∧ p.c_ops_rem_ = u.c_ops_rem_ ∧
    p.cdagg_ops_add_ = u.cdagg_ops_add_ ∧ p.c_ops_add_ = u.c_ops_add_ := by
  unfold InsertionRemovalDiagonalUpdater.propose at hp
  simp only [] at hp
  split at hp
  · split at hp
    · cases hp
    · cases hp
      cases hv
  · split at hp
    · cases hp
      exact ⟨rfl, rfl, rfl, rfl⟩
    · split at hp
      · cases hp
      · split at hp
        · cases hp
        · split at hp
          · cases hp
          · split at hp
            · cases hp
            · cases hp
              cases hv

theorem shift_false_keeps_lists {MS W : Type} (mat : DeterminantMatrix MS)
    (win : SlidingWindow W) (rng : Random01)
    (pos : Nat) (u : LocalUpdater SingleOperatorShiftUpdater)
    (cfg : MonteCarloConfiguration MS) (w : W)
    (p : Proposal SingleOperatorShiftUpdater MS)
    (hp : SingleOperatorShiftUpdater.propose mat win rng pos u cfg w = some p)
    (hv : p.valid = false) :
    p.cdagg_ops_rem_ = u.cdagg_ops_rem_ ∧ p.c_ops_rem_ = u.c_ops_rem_ ∧
    p.cdagg_ops_add_ = u.cdagg_ops_add_ ∧ p.c_ops_add_ = u.c_ops_add_ := by
  unfold SingleOperatorShiftUpdater.propose at hp
  simp only [] at hp
  split at hp
  · cases hp
    exact ⟨rfl, rfl, rfl, rfl⟩
  · split at hp
    · split at hp
      · cases hp
      · split at hp
        · cases hp
        · cases hp
          exact ⟨rfl, rfl, rfl, rfl⟩
        · cases hp
          cases hv
    · split at hp
      · cases hp
      · split at hp
        · cases hp
        · cases hp
          exact ⟨rfl, rfl, rfl, rfl⟩
        · cases hp
          cases hv

/-- C6.  For each of the three shipped strategies: if `propose` is entered with the four
operator lists empty and returns false, the four lists are still empty on return. -/
theorem false_proposals_leave_lists_empty {MS W : Type} (mat : DeterminantMatrix MS)
    (win : SlidingWindow W) (open_random : OpenRandom) (fuel : Nat) (rng : Random01)
    (pos : Nat) (cfg : MonteCarloConfiguration MS) (w : W) :
    (∀ (u : LocalUpdater InsertionRemovalUpdater) (p : Proposal InsertionRemovalUpdater MS),
      u.cdagg_ops_rem_ = [] → u.c_ops_rem_ = [] → u.cdagg_ops_add_ = [] → u.c_ops_add_ = [] →
      InsertionRemovalUpdater.propose mat win open_random fuel rng pos u cfg w = some p →
      p.valid = false →
      p.cdagg_ops_rem_ = [] ∧ p.c_ops_rem_ = [] ∧ p.cdagg_ops_add_ = [] ∧ p.c_ops_add_ = []) ∧
    (∀ (u : LocalUpdater InsertionRemovalDiagonalUpdater)
        (p : Proposal InsertionRemovalDiagonalUpdater MS),
      u.cdagg_ops_rem_ = [] → u.c_ops_rem_ = [] → u.cdagg_ops_add_ = [] → u.c_ops_add_ = [] →
      InsertionRemovalDiagonalUpdater.propose mat win open_random fuel rng pos u cfg w
        = some p →
      p.valid = false →
      p.cdagg_ops_rem_ = [] ∧ p.c_ops_rem_ = [] ∧ p.cdagg_ops_add_ = [] ∧ p.c_ops_add_ = []) ∧
    (∀ (u : LocalUpdater SingleOperatorShiftUpdater)
        (p : Proposal SingleOperatorShiftUpdater MS),
      u.cdagg_ops_rem_ = [] → u.c_ops_rem_ = [] → u.cdagg_ops_add_ = [] → u.c_ops_add_ = [] →
      SingleOperatorShiftUpdater.propose mat win rng pos u cfg w = some p →
      p.valid = false →
      p.cdagg_ops_rem_ = [] ∧ p.c_ops_rem_ = [] ∧ p.cdagg_ops_add_ = [] ∧ p.c_ops_add_ = []) := by
  refine ⟨?_, ?_, ?_⟩
  · intro u p h1 h2 h3 h4 hp hv
    obtain ⟨e1, e2, e3, e4⟩ :=
      insertion_removal_false_keeps_lists mat win open_random fuel rng pos u cfg w p hp hv
    exact ⟨e1.trans h1, e2.trans h2, e3.trans h3, e4.trans h4⟩
  · intro u p h1 h2 h3 h4 hp hv
    obtain ⟨e1, e2, e3, e4⟩ :=
      diagonal_false_keeps_lists mat win open_random fuel rng pos u cfg w p hp hv
    exact ⟨e1.trans h1, e2.trans h2, e3.trans h3, e4.trans h4⟩
  · intro u p h1 h2 h3 h4 hp hv
    obtain ⟨e1, e2, e3, e4⟩ := shift_false_keeps_lists mat win rng pos u cfg w p hp hv
    exact ⟨e1.trans h1, e2.trans h2, e3.trans h3, e4.trans h4⟩


/-- Witness of C6: on the empty configuration the removal branches of the two
insertion/removal strategies and the shift strategy return false. -/
theorem false_proposals_leave_lists_empty_witness :
    (∃ p, InsertionRemovalUpdater.propose (Bench.matrix 1) Bench.window Bench.open_random 8
        (Bench.stream [3 / 4, 0]) 0 Bench.insertion_updater Bench.empty_config () = some p ∧
      p.valid = false ∧ p.cdagg_ops_rem_ = [] ∧ p.c_ops_rem_ = []) ∧
    (∃ p, InsertionRemovalDiagonalUpdater.propose (Bench.matrix 1) Bench.window
        Bench.open_random 8 (Bench.stream [3 / 4, 3 / 4]) 0 Bench.diagonal_updater
        Bench.empty_config () = some p ∧
      p.valid = false ∧ p.cdagg_ops_rem_ = [] ∧ p.c_ops_rem_ = []) ∧
    (∃ p, SingleOperatorShiftUpdater.propose (Bench.matrix 1) Bench.window
        (Bench.stream [3 / 4, 0]) 0 Bench.shift_updater Bench.empty_config () = some p ∧
      p.valid = false ∧ p.cdagg_ops_rem_ = [] ∧ p.c_ops_rem_ = []) := by
  have h1 : (InsertionRemovalUpdater.propose (Bench.matrix 1) Bench.window Bench.open_random 8
      (Bench.stream [3 / 4, 0]) 0 Bench.insertion_updater Bench.empty_config ()).map
      Proposal.valid = some false := by decide!
  have h2 : (InsertionRemovalDiagonalUpdater.propose (Bench.matrix 1) Bench.window
      Bench.open_random 8 (Bench.stream [3 / 4, 3 / 4]) 0 Bench.diagonal_updater
      Bench.empty_config ()).map Proposal.valid = some false := by decide!
  have h3 : (SingleOperatorShiftUpdater.propose (Bench.matrix 1) Bench.window
      (Bench.stream [3 / 4, 0]) 0 Bench.shift_updater Bench.empty_config ()).map
      Proposal.valid = some false := by decide!
  obtain ⟨p1, hp1, hv1⟩ := Option.map_eq_some'.mp h1
  obtain ⟨p2, hp2, hv2⟩ := Option.map_eq_some'.mp h2
  obtain ⟨p3, hp3, hv3⟩ := Option.map_eq_some'.mp h3
  have h := false_proposals_leave_lists_empty (Bench.matrix 1) Bench.window
    Bench.open_random 8 (Bench.stream [3 / 4, 0]) 0 Bench.empty_config ()
  have h' := false_proposals_leave_lists_empty (Bench.matrix 1) Bench.window
    Bench.open_random 8 (Bench.stream [3 / 4, 3 / 4]) 0 Bench.empty_config ()
  have r1 := h.1 Bench.insertion_updater p1 rfl rfl rfl rfl hp1 hv1
  have r2 := h'.2.1 Bench.diagonal_updater p2 rfl rfl rfl rfl hp2 hv2
  have r3 := h.2.2 Bench.shift_updater p3 rfl rfl rfl rfl hp3 hv3
  exact ⟨⟨p1, hp1, hv1, r1.1, r1.2.1⟩, ⟨p2, hp2, hv2, r2.1, r2.2.1⟩,
    ⟨p3, hp3, hv3, r3.1, r3.2.1⟩⟩

/-! ## The orchestrator: the evaluation of a move -/

/-- When `update_operators` returns true, the move has been applied to the operator
collection, nothing else of the configuration has changed, and the updater differs only
by the work space of the duplicate check. -/
theorem update_operators_true {S MS : Type} (u u' : LocalUpdater S)
    (cfg cfg' : MonteCarloConfiguration MS)
    (h : update_operators u cfg = (Except.ok true, u', cfg')) :
    applied_to cfg.operators cfg'.operators (u.cdagg_ops_rem_ ++ u.c_ops_rem_)
      (u.cdagg_ops_add_ ++ u.c_ops_add_) ∧
    u' = { u with duplicate_check_work_ :=
      (u.cdagg_ops_add_ ++ u.c_ops_add_).insertionSort (· ≤ ·) } ∧
    cfg' = { cfg with operators := cfg'.operators } := by
  by_cases hpre : (u.cdagg_ops_rem_ ++ u.c_ops_rem_).Nodup ∧
      ∀ x ∈ u.cdagg_ops_rem_ ++ u.c_ops_rem_, x ∈ cfg.operators.toFinset
  · have hspec := update_operators_spec u cfg hpre.1 hpre.2
    by_cases hdup : ¬ (u.cdagg_ops_add_ ++ u.c_ops_add_).Nodup ∨
        ∃ x ∈ u.cdagg_ops_add_ ++ u.c_ops_add_,
          x ∈ cfg.operators.toFinset \ (u.cdagg_ops_rem_ ++ u.c_ops_rem_).toFinset
    · rw [hspec.1 hdup] at h
      cases h
    · obtain ⟨ops, happ, heq⟩ := hspec.2 hdup
      rw [heq] at h
      cases h
      exact ⟨happ, rfl, rfl⟩
  · obtain ⟨e, he⟩ := update_operators_erase_failure u cfg hpre
    rw [h] at he
    cases he

/-- A valid proposal that passes the range check and is applied without a collision
brings `update` to the evaluation of the move. -/
theorem update_eq_evaluate {S MS W : Type} (env : Env S MS W) (rng : Random01)
    (u : LocalUpdater S) (cfg : MonteCarloConfiguration MS) (w : W) (pos : Nat)
    (p : Proposal S MS) (c : ℚ) (u' : LocalUpdater S) (cfg' : MonteCarloConfiguration MS)
    (hp : env.strategy.propose rng pos { u with accepted_ := false } cfg w = some p)
    (hv : p.valid = true) (hc : p.acceptance_rate_correction_ = some c)
    (hr : range_check_all (p.install { u with accepted_ := false })
      (env.window.get_tau_low w) (env.window.get_tau_high w) = false)
    (huo : update_operators (p.install { u with accepted_ := false }) p.mc_config
      = (Except.ok true, u', cfg')) :
    update env rng u cfg w pos = update_evaluate env rng c u' cfg' w p.rng_pos := by
  apply update_cases (Q := fun r => r = update_evaluate env rng c u' cfg' w p.rng_pos)
    env rng u cfg w pos
  · intro h
    rw [hp] at h
    cases h
  · intro q hq hqv
    rw [hp] at hq
    cases hq
    rw [hv] at hqv
    cases hqv
  · intro q hq _ hqc
    rw [hp] at hq
    cases hq
    rw [hc] at hqc
    cases hqc
  · intro q d hq _ _ hqr
    rw [hp] at hq
    cases hq
    rw [hr] at hqr
    cases hqr
  · intro q d e u2 cfg2 hq _ _ _ hq2
    rw [hp] at hq
    cases hq
    rw [huo] at hq2
    cases hq2
  · intro q d u2 cfg2 hq _ _ _ hq2
    rw [hp] at hq
    cases hq
    rw [huo] at hq2
    cases hq2
  · intro q d u2 cfg2 hq _ hqc _ hq2
    rw [hp] at hq
    cases hq
    rw [hc] at hqc
    cases hqc
    rw [huo] at hq2
    cases hq2
    rfl

/-- C11. Zero determinant ratio.  Let `propose` report a valid move that passes the
range check and is applied without a collision, and let the trace bound be non-zero.  If
`try_update` reports a determinant ratio equal to zero, then `update` concludes with
`accepted = false`, trace `0` and acceptance probability `0`; the collaborators are called
in the order trace bound, `try_update`, random threshold, `reject_update`, `call_back`, so
the lazy trace evaluation is not called; the call returns with the move rolled back:
operators, trace, sign and `perm_sign` are those handed over by `propose`, and the
determinant matrix is the one left by `reject_update`. -/
theorem zero_det_ratio_rejects {S MS W : Type} (env : Env S MS W) (rng : Random01)
    (u : LocalUpdater S) (cfg : MonteCarloConfiguration MS) (w : W) (pos : Nat)
    (p : Proposal S MS) (c : ℚ) (u' : LocalUpdater S) (cfg' : MonteCarloConfiguration MS)
    (hp : env.strategy.propose rng pos { u with accepted_ := false } cfg w = some p)
    (hv : p.valid = true) (hc : p.acceptance_rate_correction_ = some c)
    (hr : range_check_all (p.install { u with accepted_ := false })
      (env.window.get_tau_low w) (env.window.get_tau_high w) = false)
    (huo : update_operators (p.install { u with accepted_ := false }) p.mc_config
      = (Except.ok true, u', cfg'))
    (hbound : (env.window.compute_trace_bound w cfg'.operators
      (resize u'.trace_bound (env.window.get_num_brakets w))).1.1 ≠ 0)
    (hdet : (env.matrix.try_update p.mc_config.M p.cdagg_ops_rem_ p.c_ops_rem_
      p.cdagg_ops_add_ p.c_ops_add_).1 = 0) :
    update env rng u cfg w pos
      = update_conclude env
          { u' with trace_bound := (env.window.compute_trace_bound w cfg'.operators
              (resize u'.trace_bound (env.window.get_num_brakets w))).1.2 }
          { cfg' with M := (env.matrix.try_update p.mc_config.M p.cdagg_ops_rem_
              p.c_ops_rem_ p.cdagg_ops_add_ p.c_ops_add_).2 }
          (env.window.compute_trace_bound w cfg'.operators
            (resize u'.trace_bound (env.window.get_num_brakets w))).2
          (p.rng_pos + 1)
          [Event.compute_trace_bound, Event.try_update, Event.rng] false 0 0 ∧
    (update env rng u cfg w pos).outcome = Outcome.returned ∧
    (update env rng u cfg w pos).log
      = [Event.compute_trace_bound, Event.try_update, Event.rng, Event.reject_update,
          Event.call_back true false p.cdagg_ops_rem_ p.c_ops_rem_ p.cdagg_ops_add_
            p.c_ops_add_] ∧
    Event.lazy_eval_trace ∉ (update env rng u cfg w pos).log ∧
    (update env rng u cfg w pos).mc_config.operators = p.mc_config.operators ∧
    (update env rng u cfg w pos).mc_config.trace = p.mc_config.trace ∧
    (update env rng u cfg w pos).mc_config.sign = p.mc_config.sign ∧
    (update env rng u cfg w pos).mc_config.perm_sign = p.mc_config.perm_sign ∧
    (update env rng u cfg w pos).mc_config.M
      = env.matrix.reject_update (env.matrix.try_update p.mc_config.M p.cdagg_ops_rem_
          p.c_ops_rem_ p.cdagg_ops_add_ p.c_ops_add_).2 := by
  obtain ⟨happ, hu', hcfg'⟩ := update_operators_true _ _ _ _ huo
  have hM : cfg'.M = p.mc_config.M := by rw [hcfg']
  have hl1 : u'.cdagg_ops_rem_ = p.cdagg_ops_rem_ := by rw [hu']; rfl
  have hl2 : u'.c_ops_rem_ = p.c_ops_rem_ := by rw [hu']; rfl
  have hl3 : u'.cdagg_ops_add_ = p.cdagg_ops_add_ := by rw [hu']; rfl
  have hl4 : u'.c_ops_add_ = p.c_ops_add_ := by rw [hu']; rfl
  have hl5 : u'.valid_move_generated_ = true := by rw [hu']; exact hv
  have hl6 : u'.accepted_ = false := by rw [hu']; rfl
  have hdet' : (env.matrix.try_update cfg'.M u'.cdagg_ops_rem_ u'.c_ops_rem_
      u'.cdagg_ops_add_ u'.c_ops_add_).1 = 0 := by rw [hM, hl1, hl2, hl3, hl4]; exact hdet
  have e1 : update env rng u cfg w pos
      = update_conclude env
          { u' with trace_bound := (env.window.compute_trace_bound w cfg'.operators
              (resize u'.trace_bound (env.window.get_num_brakets w))).1.2 }
          { cfg' with M := (env.matrix.try_update p.mc_config.M p.cdagg_ops_rem_
              p.c_ops_rem_ p.cdagg_ops_add_ p.c_ops_add_).2 }
          (env.window.compute_trace_bound w cfg'.operators
            (resize u'.trace_bound (env.window.get_num_brakets w))).2
          (p.rng_pos + 1)
          [Event.compute_trace_bound, Event.try_update, Event.rng] false 0 0 := by
    rw [update_eq_evaluate env rng u cfg w pos p c u' cfg' hp hv hc hr huo]
    rw [← hM, ← hl1, ← hl2, ← hl3, ← hl4]
    apply update_evaluate_cases (Q := fun r => r = update_conclude env
          { u' with trace_bound := (env.window.compute_trace_bound w cfg'.operators
              (resize u'.trace_bound (env.window.get_num_brakets w))).1.2 }
          { cfg' with M := (env.matrix.try_update cfg'.M u'.cdagg_ops_rem_
              u'.c_ops_rem_ u'.cdagg_ops_add_ u'.c_ops_add_).2 }
          (env.window.compute_trace_bound w cfg'.operators
            (resize u'.trace_bound (env.window.get_num_brakets w))).2
          (p.rng_pos + 1)
          [Event.compute_trace_bound, Event.try_update, Event.rng] false 0 0)
      env rng c u' cfg' w p.rng_pos _ rfl _ rfl _ rfl _ rfl _ rfl _ rfl
    · intro h
      exact absurd h hbound
    · intro h
      exact absurd h hbound
    · intro _ _
      rfl
    · intro _ h
      exact absurd hdet' h
    · intro _ h
      exact absurd hdet' h
    · intro _ h
      exact absurd hdet' h
  have hrev := revert_operators_spec
    { u' with trace_bound := (env.window.compute_trace_bound w cfg'.operators
        (resize u'.trace_bound (env.window.get_num_brakets w))).1.2 }
    { cfg' with M := env.matrix.reject_update (env.matrix.try_update p.mc_config.M
        p.cdagg_ops_rem_ p.c_ops_rem_ p.cdagg_ops_add_ p.c_ops_add_).2 }
    p.mc_config.operators (by rw [hu']; exact happ)
  have e2 : update env rng u cfg w pos
      = Run.finalize env.strategy
          { u' with trace_bound := (env.window.compute_trace_bound w cfg'.operators
              (resize u'.trace_bound (env.window.get_num_brakets w))).1.2 }
          { cfg' with
            M := env.matrix.reject_update (env.matrix.try_update p.mc_config.M
              p.cdagg_ops_rem_ p.c_ops_rem_ p.cdagg_ops_add_ p.c_ops_add_).2
            operators := p.mc_config.operators }
          (env.window.compute_trace_bound w cfg'.operators
            (resize u'.trace_bound (env.window.get_num_brakets w))).2
          (p.rng_pos + 1)
          [Event.compute_trace_bound, Event.try_update, Event.rng, Event.reject_update] := by
    rw [e1]
    simp only [update_conclude, Bool.false_eq_true, if_false]
    rw [hrev]
    rfl
  have hlog : (update env rng u cfg w pos).log
      = [Event.compute_trace_bound, Event.try_update, Event.rng, Event.reject_update,
          Event.call_back true false p.cdagg_ops_rem_ p.c_ops_rem_ p.cdagg_ops_add_
            p.c_ops_add_] := by
    rw [e2]
    simp only [Run.finalize, call_back_event, hl1, hl2, hl3, hl4, hl5, hl6]
    rfl
  refine ⟨e1, ?_, hlog, ?_, ?_, ?_, ?_, ?_, ?_⟩
  · rw [e2]
    rfl
  · rw [hlog]
    simp
  · rw [e2]
    rfl
  · rw [e2, hcfg']
    rfl
  · rw [e2, hcfg']
    rfl
  · rw [e2, hcfg']
    rfl
  · rw [e2]
    rfl

/-- Witness of C11: a shift of the creation operator from time `3` to time `4` whose
determinant ratio is zero. -/
theorem zero_det_ratio_rejects_witness :
    (Bench.shift_env 0).strategy.propose (Bench.stream [0, 0, 3 / 5, 1 / 4]) 0
        { Bench.shift_updater with accepted_ := false } Bench.pair_config ()
      = some Bench.shift_proposal ∧
    ((Bench.shift_env 0).matrix.try_update Bench.shift_proposal.mc_config.M
      Bench.shift_proposal.cdagg_ops_rem_ Bench.shift_proposal.c_ops_rem_
      Bench.shift_proposal.cdagg_ops_add_ Bench.shift_proposal.c_ops_add_).1 = 0 ∧
    (update (Bench.shift_env 0) (Bench.stream [0, 0, 3 / 5, 1 / 4]) Bench.shift_updater
      Bench.pair_config () 0).log
      = [Event.compute_trace_bound, Event.try_update, Event.rng, Event.reject_update,
          Event.call_back true false [⟨3, OperatorType.CREATION_OP, 0⟩] []
            [⟨4, OperatorType.CREATION_OP, 0⟩] []] ∧
    (update (Bench.shift_env 0) (Bench.stream [0, 0, 3 / 5, 1 / 4]) Bench.shift_updater
      Bench.pair_config () 0).mc_config.operators = Bench.pair_config.operators := by
  have h1 : (update_operators
      (Bench.shift_proposal.install { Bench.shift_updater with accepted_ := false })
      Bench.shift_proposal.mc_config).1 = Except.ok true := by decide!
  have h := zero_det_ratio_rejects (Bench.shift_env 0)
    (Bench.stream [0, 0, 3 / 5, 1 / 4]) Bench.shift_updater Bench.pair_config () 0
    Bench.shift_proposal 1 _ _ (by decide!) (by decide!) (by decide!) (by decide!)
    (Prod.ext h1 rfl) (by decide!) (by decide!)
  exact ⟨by decide!, by decide!, h.2.2.1, h.2.2.2.2.1⟩

/-! ## The orchestrator: the random threshold -/

/-- The conclusion of a cycle draws no random number and calls `try_update` no more: it
appends calls other than these two to the log. -/
theorem conclude_draws_nothing {S MS W : Type} (env : Env S MS W) (u : LocalUpdater S)
    (cfg : MonteCarloConfiguration MS) (w : W) (pos : Nat) (log : List Event)
    (accepted : Bool) (trace_new prob : ℚ) :
    (update_conclude env u cfg w pos log accepted trace_new prob).rng_pos = pos ∧
    ∃ tail, (update_conclude env u cfg w pos log accepted trace_new prob).log = log ++ tail ∧
      Event.rng ∉ tail ∧ Event.try_update ∉ tail := by
  apply update_conclude_cases (Q := fun r => r.rng_pos = pos ∧
    ∃ tail, r.log = log ++ tail ∧ Event.rng ∉ tail ∧ Event.try_update ∉ tail)
  · intro _
    refine ⟨rfl, [Event.perform_update, Event.compute_permutation_sign,
      call_back_event { u with accepted_ := true }], ?_, ?_, ?_⟩
    · simp [Run.finalize]
    · simp [call_back_event]
    · simp [call_back_event]
  · intro _ e cfg' _
    exact ⟨rfl, [Event.reject_update], rfl, by simp, by simp⟩
  · intro _ cfg' _
    refine ⟨rfl, [Event.reject_update, call_back_event u], ?_, ?_, ?_⟩
    · simp [Run.finalize]
    · simp [call_back_event]
    · simp [call_back_event]

/-- The evaluation of a move draws the threshold exactly once when it calls `try_update`
and not at all otherwise. -/
theorem evaluate_draws_once {S MS W : Type} (env : Env S MS W) (rng : Random01)
    (correction : ℚ) (u : LocalUpdater S) (cfg : MonteCarloConfiguration MS) (w : W)
    (pos : Nat) :
    (Event.try_update ∈ (update_evaluate env rng correction u cfg w pos).log →
      (update_evaluate env rng correction u cfg w pos).rng_pos = pos + 1 ∧
      (update_evaluate env rng correction u cfg w pos).log.count Event.rng = 1) ∧
    (Event.try_update ∉ (update_evaluate env rng correction u cfg w pos).log →
      (update_evaluate env rng correction u cfg w pos).rng_pos = pos ∧
      Event.rng ∉ (update_evaluate env rng correction u cfg w pos).log) := by
  apply update_evaluate_cases (Q := fun r =>
    (Event.try_update ∈ r.log → r.rng_pos = pos + 1 ∧ r.log.count Event.rng = 1) ∧
    (Event.try_update ∉ r.log → r.rng_pos = pos ∧ Event.rng ∉ r.log))
    env rng correction u cfg w pos _ rfl _ rfl _ rfl _ rfl _ rfl _ rfl
  · intro _ e cfg' _
    exact ⟨fun h => by simp at h, fun _ => ⟨rfl, by simp⟩⟩
  · intro _ cfg' _
    exact ⟨fun h => by simp [Run.finalize, call_back_event] at h,
      fun _ => ⟨rfl, by simp [Run.finalize, call_back_event]⟩⟩
  · intro _ _
    obtain ⟨hpos, tail, hlog, h1, h2⟩ := conclude_draws_nothing env
      { u with trace_bound := (env.window.compute_trace_bound w cfg.operators
          (resize u.trace_bound (env.window.get_num_brakets w))).1.2 }
      { cfg with M := (env.matrix.try_update cfg.M u.cdagg_ops_rem_ u.c_ops_rem_
          u.cdagg_ops_add_ u.c_ops_add_).2 }
      (env.window.compute_trace_bound w cfg.operators
        (resize u.trace_bound (env.window.get_num_brakets w))).2 (pos + 1)
      [Event.compute_trace_bound, Event.try_update, Event.rng] false 0 0
    refine ⟨fun _ => ⟨hpos, ?_⟩, fun h => absurd (by rw [hlog]; simp) h⟩
    rw [hlog, List.count_append, List.count_eq_zero_of_not_mem h1]
    decide
  · intro _ _ _
    exact ⟨fun _ => ⟨rfl, by show List.count Event.rng [Event.compute_trace_bound,
      Event.try_update, Event.rng, Event.lazy_eval_trace] = 1; decide⟩,
      fun h => absurd (by simp) h⟩
  · intro _ _ _ _
    exact ⟨fun _ => ⟨rfl, by show List.count Event.rng [Event.compute_trace_bound,
      Event.try_update, Event.rng, Event.lazy_eval_trace] = 1; decide⟩,
      fun h => absurd (by simp) h⟩
  · intro _ _ _ _
    obtain ⟨hpos, tail, hlog, h1, h2⟩ := conclude_draws_nothing env
      { u with trace_bound := (env.window.compute_trace_bound w cfg.operators
          (resize u.trace_bound (env.window.get_num_brakets w))).1.2 }
      { cfg with M := (env.matrix.try_update cfg.M u.cdagg_ops_rem_ u.c_ops_rem_
          u.cdagg_ops_add_ u.c_ops_add_).2 }
      (env.window.lazy_eval_trace (env.window.compute_trace_bound w cfg.operators
          (resize u.trace_bound (env.window.get_num_brakets w))).2 cfg.operators
        |rng pos * cfg.trace / (correction * (env.matrix.try_update cfg.M u.cdagg_ops_rem_
          u.c_ops_rem_ u.cdagg_ops_add_ u.c_ops_add_).1)|
        (env.window.compute_trace_bound w cfg.operators
          (resize u.trace_bound (env.window.get_num_brakets w))).1.2).2 (pos + 1)
      [Event.compute_trace_bound, Event.try_update, Event.rng, Event.lazy_eval_trace]
      (env.window.lazy_eval_trace (env.window.compute_trace_bound w cfg.operators
          (resize u.trace_bound (env.window.get_num_brakets w))).2 cfg.operators
        |rng pos * cfg.trace / (correction * (env.matrix.try_update cfg.M u.cdagg_ops_rem_
          u.c_ops_rem_ u.cdagg_ops_add_ u.c_ops_add_).1)|
        (env.window.compute_trace_bound w cfg.operators
          (resize u.trace_bound (env.window.get_num_brakets w))).1.2).1.1
      (env.window.lazy_eval_trace (env.window.compute_trace_bound w cfg.operators
          (resize u.trace_bound (env.window.get_num_brakets w))).2 cfg.operators
        |rng pos * cfg.trace / (correction * (env.matrix.try_update cfg.M u.cdagg_ops_rem_
          u.c_ops_rem_ u.cdagg_ops_add_ u.c_ops_add_).1)|
        (env.window.compute_trace_bound w cfg.operators
          (resize u.trace_bound (env.window.get_num_brakets w))).1.2).1.2
      (correction * (env.matrix.try_update cfg.M u.cdagg_ops_rem_
          u.c_ops_rem_ u.cdagg_ops_add_ u.c_ops_add_).1 *
        ((env.window.lazy_eval_trace (env.window.compute_trace_bound w cfg.operators
          (resize u.trace_bound (env.window.get_num_brakets w))).2 cfg.operators
        |rng pos * cfg.trace / (correction * (env.matrix.try_update cfg.M u.cdagg_ops_rem_
          u.c_ops_rem_ u.cdagg_ops_add_ u.c_ops_add_).1)|
        (env.window.compute_trace_bound w cfg.operators
          (resize u.trace_bound (env.window.get_num_brakets w))).1.2).1.2 / cfg.trace))
    refine ⟨fun _ => ⟨hpos, ?_⟩, fun h => absurd (by rw [hlog]; simp) h⟩
    rw [hlog, List.count_append, List.count_eq_zero_of_not_mem h1]
    decide

/-- Counterexample to C12: a shift whose determinant ratio is zero.  `propose` leaves the
random stream at position `3`; `update` nevertheless draws the threshold and leaves the
stream at position `4`. -/
theorem threshold_drawn_counterexample :
    (Bench.shift_env 0).strategy.propose (Bench.stream [0, 0, 3 / 5, 1 / 4]) 0
        { Bench.shift_updater with accepted_ := false } Bench.pair_config ()
      = some Bench.shift_proposal ∧
    ((Bench.shift_env 0).matrix.try_update Bench.shift_proposal.mc_config.M
      Bench.shift_proposal.cdagg_ops_rem_ Bench.shift_proposal.c_ops_rem_
      Bench.shift_proposal.cdagg_ops_add_ Bench.shift_proposal.c_ops_add_).1 = 0 ∧
    Bench.shift_proposal.rng_pos = 3 ∧
    (update (Bench.shift_env 0) (Bench.stream [0, 0, 3 / 5, 1 / 4]) Bench.shift_updater
      Bench.pair_config () 0).rng_pos = 4 ∧
    Event.rng ∈ (update (Bench.shift_env 0) (Bench.stream [0, 0, 3 / 5, 1 / 4])
      Bench.shift_updater Bench.pair_config () 0).log := by
  refine ⟨by decide!, by decide!, rfl, by decide!, by decide!⟩

/-- C12, amended.  Within one cycle the orchestrator itself draws the threshold exactly
once whenever it has called `try_update`, whatever determinant ratio that call reports
(zero included): the random stream is then one position behind the position left by
`propose`.  When the cycle ends before `try_update` (invalid proposal, failed check,
collision, zero trace bound) the orchestrator draws nothing and the stream is where
`propose` left it. -/
theorem threshold_drawn_after_try_update {S MS W : Type} (env : Env S MS W) (rng : Random01)
    (u : LocalUpdater S) (cfg : MonteCarloConfiguration MS) (w : W) (pos : Nat)
    (p : Proposal S MS)
    (hp : env.strategy.propose rng pos { u with accepted_ := false } cfg w = some p) :
    (Event.try_update ∈ (update env rng u cfg w pos).log →
      (update env rng u cfg w pos).rng_pos = p.rng_pos + 1 ∧
      (update env rng u cfg w pos).log.count Event.rng = 1) ∧
    (Event.try_update ∉ (update env rng u cfg w pos).log →
      (update env rng u cfg w pos).rng_pos = p.rng_pos ∧
      Event.rng ∉ (update env rng u cfg w pos).log) := by
  apply update_cases (Q := fun r =>
    (Event.try_update ∈ r.log → r.rng_pos = p.rng_pos + 1 ∧ r.log.count Event.rng = 1) ∧
    (Event.try_update ∉ r.log → r.rng_pos = p.rng_pos ∧ Event.rng ∉ r.log))
    env rng u cfg w pos
  · intro h
    rw [hp] at h
    cases h
  · intro q hq _
    rw [hp] at hq
    cases hq
    exact ⟨fun h => by simp [Run.finalize, call_back_event] at h,
      fun _ => ⟨rfl, by simp [Run.finalize, call_back_event]⟩⟩
  · intro q hq _ _
    rw [hp] at hq
    cases hq
    exact ⟨fun h => by simp at h, fun _ => ⟨rfl, by simp⟩⟩
  · intro q c hq _ _ _
    rw [hp] at hq
    cases hq
    exact ⟨fun h => by simp at h, fun _ => ⟨rfl, by simp⟩⟩
  · intro q c e u' cfg' hq _ _ _ _
    rw [hp] at hq
    cases hq
    exact ⟨fun h => by simp at h, fun _ => ⟨rfl, by simp⟩⟩
  · intro q c u' cfg' hq _ _ _ _
    rw [hp] at hq
    cases hq
    exact ⟨fun h => by simp [Run.finalize, call_back_event] at h,
      fun _ => ⟨rfl, by simp [Run.finalize, call_back_event]⟩⟩
  · intro q c u' cfg' hq _ _ _ _
    rw [hp] at hq
    cases hq
    exact evaluate_draws_once env rng c u' cfg' w p.rng_pos

/-- Witness of C12 (amended): an accepted shift, whose cycle draws the threshold once. -/
theorem threshold_drawn_after_try_update_witness :
    (Bench.shift_env 1).strategy.propose (Bench.stream [0, 0, 3 / 5, 1 / 4]) 0
        { Bench.shift_updater with accepted_ := false } Bench.pair_config ()
      = some Bench.shift_proposal ∧
    Event.try_update ∈ (update (Bench.shift_env 1) (Bench.stream [0, 0, 3 / 5, 1 / 4])
      Bench.shift_updater Bench.pair_config () 0).log ∧
    (update (Bench.shift_env 1) (Bench.stream [0, 0, 3 / 5, 1 / 4]) Bench.shift_updater
      Bench.pair_config () 0).rng_pos = Bench.shift_proposal.rng_pos + 1 ∧
    (update (Bench.shift_env 1) (Bench.stream [0, 0, 3 / 5, 1 / 4]) Bench.shift_updater
      Bench.pair_config () 0).log.count Event.rng = 1 := by
  have h := threshold_drawn_after_try_update (Bench.shift_env 1)
    (Bench.stream [0, 0, 3 / 5, 1 / 4]) Bench.shift_updater Bench.pair_config () 0
    Bench.shift_proposal (by decide!)
  have ht : Event.try_update ∈ (update (Bench.shift_env 1)
      (Bench.stream [0, 0, 3 / 5, 1 / 4]) Bench.shift_updater Bench.pair_config () 0).log := by
    decide!
  exact ⟨by decide!, ht, h.1 ht⟩

/-! ## The orchestrator: the acceptance decision -/

/-- The cutoff handed to the lazy evaluation is equivalent to the comparison of the
acceptance probability with the threshold. -/
theorem cutoff_equivalence (T a k r : ℚ) (ha : a ≠ 0) (hk : k ≠ 0) (hr : 0 ≤ r) :
    |T| > |r * a / k| ↔ |k * (T / a)| > r := by
  have ha' : 0 < |a| := abs_pos.mpr ha
  have hk' : 0 < |k| := abs_pos.mpr hk
  rw [abs_div, abs_mul, abs_mul, abs_div, abs_of_nonneg hr, gt_iff_lt, gt_iff_lt,
    div_lt_iff₀ hk', ← mul_div_assoc, lt_div_iff₀ ha', mul_comm |k| |T|]

/-- A cycle concluded with `accepted = false` does not call `perform_update`. -/
theorem conclude_rejected_no_perform {S MS W : Type} (env : Env S MS W) (u : LocalUpdater S)
    (cfg : MonteCarloConfiguration MS) (w : W) (pos : Nat) (log : List Event)
    (trace_new prob : ℚ) (h : Event.perform_update ∉ log) :
    Event.perform_update ∉ (update_conclude env u cfg w pos log false trace_new prob).log := by
  apply update_conclude_cases (Q := fun r => Event.perform_update ∉ r.log)
  · intro h0
    cases h0
  · intro _ e cfg' _
    simpa using h
  · intro _ cfg' _
    simpa [Run.finalize, call_back_event] using h

/-- A cycle concluded with `accepted = true` returns after `perform_update` and stores
the new trace. -/
theorem conclude_accepted {S MS W : Type} (env : Env S MS W) (u : LocalUpdater S)
    (cfg : MonteCarloConfiguration MS) (w : W) (pos : Nat) (log : List Event)
    (trace_new prob : ℚ) :
    (update_conclude env u cfg w pos log true trace_new prob).outcome = Outcome.returned ∧
    Event.perform_update ∈ (update_conclude env u cfg w pos log true trace_new prob).log ∧
    (update_conclude env u cfg w pos log true trace_new prob).mc_config
      = commit env cfg trace_new prob := by
  refine ⟨rfl, ?_, rfl⟩
  simp [update_conclude, Run.finalize]

/-- The acceptance decision of `update_evaluate` under the contract of the lazy
evaluation: `T` is the exact trace of the new configuration. -/
theorem evaluate_commit_iff {S MS W : Type} (env : Env S MS W) (rng : Random01) (c : ℚ)
    (u : LocalUpdater S) (cfg : MonteCarloConfiguration MS) (w : W) (pos : Nat) (T : ℚ)
    (hbound : (env.window.compute_trace_bound w cfg.operators
      (resize u.trace_bound (env.window.get_num_brakets w))).1.1 ≠ 0)
    (htrace : cfg.trace ≠ 0)
    (hrest : c * (env.matrix.try_update cfg.M u.cdagg_ops_rem_ u.c_ops_rem_
      u.cdagg_ops_add_ u.c_ops_add_).1 ≠ 0)
    (hr0 : 0 ≤ rng pos)
    (hcontract : ∀ w0 cutoff bounds,
      (env.window.lazy_eval_trace w0 cfg.operators cutoff bounds).1.1
          = decide (|T| > cutoff) ∧
        ((env.window.lazy_eval_trace w0 cfg.operators cutoff bounds).1.1 = true →
          (env.window.lazy_eval_trace w0 cfg.operators cutoff bounds).1.2 = T))
    (hsound : |T| < |(env.window.compute_trace_bound w cfg.operators
      (resize u.trace_bound (env.window.get_num_brakets w))).1.1| * (101 / 100)) :
    (Event.perform_update ∈ (update_evaluate env rng c u cfg w pos).log ↔
      |c * (env.matrix.try_update cfg.M u.cdagg_ops_rem_ u.c_ops_rem_
        u.cdagg_ops_add_ u.c_ops_add_).1 * (T / cfg.trace)| > rng pos) ∧
    (|c * (env.matrix.try_update cfg.M u.cdagg_ops_rem_ u.c_ops_rem_
        u.cdagg_ops_add_ u.c_ops_add_).1 * (T / cfg.trace)| > rng pos →
      (update_evaluate env rng c u cfg w pos).outcome = Outcome.returned ∧
      (update_evaluate env rng c u cfg w pos).mc_config.trace = T) := by
  have hd : (env.matrix.try_update cfg.M u.cdagg_ops_rem_ u.c_ops_rem_
      u.cdagg_ops_add_ u.c_ops_add_).1 ≠ 0 := fun h => hrest (by rw [h, mul_zero])
  have hcut := cutoff_equivalence T cfg.trace _ (rng pos) htrace hrest hr0
  apply update_evaluate_cases (Q := fun r =>
    (Event.perform_update ∈ r.log ↔
      |c * (env.matrix.try_update cfg.M u.cdagg_ops_rem_ u.c_ops_rem_
        u.cdagg_ops_add_ u.c_ops_add_).1 * (T / cfg.trace)| > rng pos) ∧
    (|c * (env.matrix.try_update cfg.M u.cdagg_ops_rem_ u.c_ops_rem_
        u.cdagg_ops_add_ u.c_ops_add_).1 * (T / cfg.trace)| > rng pos →
      r.outcome = Outcome.returned ∧ r.mc_config.trace = T))
    env rng c u cfg w pos _ rfl _ rfl _ rfl _ rfl _ rfl _ rfl
  · intro h
    exact absurd h hbound
  · intro h
    exact absurd h hbound
  · intro _ h
    exact absurd h hd
  · intro _ _ hnb
    obtain ⟨hc1, hc2⟩ := hcontract (env.window.compute_trace_bound w cfg.operators
        (resize u.trace_bound (env.window.get_num_brakets w))).2
      |rng pos * cfg.trace / (c * (env.matrix.try_update cfg.M u.cdagg_ops_rem_
        u.c_ops_rem_ u.cdagg_ops_add_ u.c_ops_add_).1)|
      (env.window.compute_trace_bound w cfg.operators
        (resize u.trace_bound (env.window.get_num_brakets w))).1.2
    have hn : ¬ (|c * (env.matrix.try_update cfg.M u.cdagg_ops_rem_ u.c_ops_rem_
        u.cdagg_ops_add_ u.c_ops_add_).1 * (T / cfg.trace)| > rng pos) := by
      intro hP
      have ha := hc1.trans (decide_eq_true (hcut.mpr hP))
      rw [hc2 ha] at hnb
      exact hnb hsound
    exact ⟨⟨fun h => by simp at h, fun h => absurd h hn⟩, fun h => absurd h hn⟩
  · intro _ _ _ hna
    obtain ⟨hc1, hc2⟩ := hcontract (env.window.compute_trace_bound w cfg.operators
        (resize u.trace_bound (env.window.get_num_brakets w))).2
      |rng pos * cfg.trace / (c * (env.matrix.try_update cfg.M u.cdagg_ops_rem_
        u.c_ops_rem_ u.cdagg_ops_add_ u.c_ops_add_).1)|
      (env.window.compute_trace_bound w cfg.operators
        (resize u.trace_bound (env.window.get_num_brakets w))).1.2
    have hn : ¬ (|c * (env.matrix.try_update cfg.M u.cdagg_ops_rem_ u.c_ops_rem_
        u.cdagg_ops_add_ u.c_ops_add_).1 * (T / cfg.trace)| > rng pos) := by
      intro hP
      have ha := hc1.trans (decide_eq_true (hcut.mpr hP))
      rw [hc2 ha, ha] at hna
      exact hna (decide_eq_true hP).symm
    exact ⟨⟨fun h => by simp at h, fun h => absurd h hn⟩, fun h => absurd h hn⟩
  · intro _ _ _ _
    obtain ⟨hc1, hc2⟩ := hcontract (env.window.compute_trace_bound w cfg.operators
        (resize u.trace_bound (env.window.get_num_brakets w))).2
      |rng pos * cfg.trace / (c * (env.matrix.try_update cfg.M u.cdagg_ops_rem_
        u.c_ops_rem_ u.cdagg_ops_add_ u.c_ops_add_).1)|
      (env.window.compute_trace_bound w cfg.operators
        (resize u.trace_bound (env.window.get_num_brakets w))).1.2
    by_cases hP : |c * (env.matrix.try_update cfg.M u.cdagg_ops_rem_ u.c_ops_rem_
        u.cdagg_ops_add_ u.c_ops_add_).1 * (T / cfg.trace)| > rng pos
    · have ha := hc1.trans (decide_eq_true (hcut.mpr hP))
      rw [ha, hc2 ha]
      obtain ⟨h1, h2, h3⟩ := conclude_accepted env
        { u with trace_bound := (env.window.compute_trace_bound w cfg.operators
          (resize u.trace_bound (env.window.get_num_brakets w))).1.2 }
        { cfg with M := (env.matrix.try_update cfg.M u.cdagg_ops_rem_ u.c_ops_rem_
          u.cdagg_ops_add_ u.c_ops_add_).2 }
        (env.window.lazy_eval_trace (env.window.compute_trace_bound w cfg.operators
          (resize u.trace_bound (env.window.get_num_brakets w))).2 cfg.operators
          |rng pos * cfg.trace / (c * (env.matrix.try_update cfg.M u.cdagg_ops_rem_
            u.c_ops_rem_ u.cdagg_ops_add_ u.c_ops_add_).1)|
          (env.window.compute_trace_bound w cfg.operators
            (resize u.trace_bound (env.window.get_num_brakets w))).1.2).2
        (pos + 1)
        [Event.compute_trace_bound, Event.try_update, Event.rng, Event.lazy_eval_trace]
        T (c * (env.matrix.try_update cfg.M u.cdagg_ops_rem_ u.c_ops_rem_
          u.cdagg_ops_add_ u.c_ops_add_).1 * (T / cfg.trace))
      refine ⟨⟨fun _ => hP, fun _ => h2⟩, fun _ => ⟨h1, ?_⟩⟩
      rw [h3]
      rfl
    · have ha : (env.window.lazy_eval_trace (env.window.compute_trace_bound w cfg.operators
          (resize u.trace_bound (env.window.get_num_brakets w))).2 cfg.operators
          |rng pos * cfg.trace / (c * (env.matrix.try_update cfg.M u.cdagg_ops_rem_
            u.c_ops_rem_ u.cdagg_ops_add_ u.c_ops_add_).1)|
          (env.window.compute_trace_bound w cfg.operators
            (resize u.trace_bound (env.window.get_num_brakets w))).1.2).1.1 = false :=
        hc1.trans (decide_eq_false (fun h => hP (hcut.mp h)))
      rw [ha]
      refine ⟨⟨fun h => absurd h ?_, fun h => absurd h hP⟩, fun h => absurd h hP⟩
      exact conclude_rejected_no_perform _ _ _ _ _ _ _ _ (by simp)

/-- Counterexample to C13: the hypotheses of the claim hold (trace `1`, correction and
determinant ratio `1`, threshold `1/4`, a lazy evaluation that reports accepted exactly
when the exact trace `1` exceeds the cutoff and returns it) and the acceptance
probability `1` exceeds the threshold; but the trace bound `1/2` of the window is below
the trace, the assertion on the trace bound fails and the move is not committed. -/
theorem commit_counterexample :
    Bench.low_bound_env.strategy.propose (Bench.stream [0, 0, 3 / 5, 1 / 4]) 0
        { Bench.shift_updater with accepted_ := false } Bench.pair_config ()
      = some Bench.shift_proposal ∧
    Bench.shift_proposal.mc_config.trace = 1 ∧
    Bench.shift_proposal.acceptance_rate_correction_ = some 1 ∧
    (Bench.low_bound_env.matrix.try_update Bench.shift_proposal.mc_config.M
      Bench.shift_proposal.cdagg_ops_rem_ Bench.shift_proposal.c_ops_rem_
      Bench.shift_proposal.cdagg_ops_add_ Bench.shift_proposal.c_ops_add_).1 = 1 ∧
    Bench.stream [0, 0, 3 / 5, 1 / 4] Bench.shift_proposal.rng_pos = 1 / 4 ∧
    (∀ w0 ops cutoff bounds,
      Bench.low_bound_env.window.lazy_eval_trace w0 ops cutoff bounds
        = ((decide (|(1 : ℚ)| > cutoff), 1), ())) ∧
    |(1 : ℚ) * 1 * (1 / 1)| > 1 / 4 ∧
    Event.perform_update ∉ (update Bench.low_bound_env (Bench.stream [0, 0, 3 / 5, 1 / 4])
      Bench.shift_updater Bench.pair_config () 0).log ∧
    (update Bench.low_bound_env (Bench.stream [0, 0, 3 / 5, 1 / 4]) Bench.shift_updater
      Bench.pair_config () 0).outcome = Outcome.failed Failure.assert_trace_bound := by
  refine ⟨by decide!, rfl, rfl, rfl, by decide!, ?_, by decide!, by decide!, by decide!⟩
  intro w0 ops cutoff bounds
  show ((decide (cutoff < 1), (1 : ℚ)), ()) = ((decide (|(1 : ℚ)| > cutoff), 1), ())
  rw [abs_one]

/-- C13, amended.  Let `propose` report a valid move with correction factor `c` that
passes the range check and is applied without a collision, and let the trace bound be
non-zero.  Assume the current trace is non-zero, `c * det_rat` is non-zero, the threshold
`r` is not negative, the lazy evaluation honours its contract for the exact new trace `T`
(accepted exactly when `|T|` exceeds the cutoff, returning `T` in that case), and `T`
respects the trace bound (`|T| < 1.01 * |bound sum|`).  Then the cutoff passed to the
evaluation is equivalent to the comparison of the acceptance probability with `r`;
`update` commits the move if and only if `|c * det_rat * (T / trace)| > r`; and in that
case it returns (so both assertions held) with `T` stored as the trace. -/
theorem commit_iff_probability_exceeds_threshold {S MS W : Type} (env : Env S MS W)
    (rng : Random01) (u : LocalUpdater S) (cfg : MonteCarloConfiguration MS) (w : W)
    (pos : Nat) (p : Proposal S MS) (c : ℚ) (u' : LocalUpdater S)
    (cfg' : MonteCarloConfiguration MS) (T : ℚ)
    (hp : env.strategy.propose rng pos { u with accepted_ := false } cfg w = some p)
    (hv : p.valid = true) (hc : p.acceptance_rate_correction_ = some c)
    (hr : range_check_all (p.install { u with accepted_ := false })
      (env.window.get_tau_low w) (env.window.get_tau_high w) = false)
    (huo : update_operators (p.install { u with accepted_ := false }) p.mc_config
      = (Except.ok true, u', cfg'))
    (hbound : (env.window.compute_trace_bound w cfg'.operators
      (resize u'.trace_bound (env.window.get_num_brakets w))).1.1 ≠ 0)
    (htrace : p.mc_config.trace ≠ 0)
    (hrest : c * (env.matrix.try_update p.mc_config.M p.cdagg_ops_rem_ p.c_ops_rem_
      p.cdagg_ops_add_ p.c_ops_add_).1 ≠ 0)
    (hr0 : 0 ≤ rng p.rng_pos)
    (hcontract : ∀ w0 cutoff bounds,
      (env.window.lazy_eval_trace w0 cfg'.operators cutoff bounds).1.1
          = decide (|T| > cutoff) ∧
        ((env.window.lazy_eval_trace w0 cfg'.operators cutoff bounds).1.1 = true →
          (env.window.lazy_eval_trace w0 cfg'.operators cutoff bounds).1.2 = T))
    (hsound : |T| < |(env.window.compute_trace_bound w cfg'.operators
      (resize u'.trace_bound (env.window.get_num_brakets w))).1.1| * (101 / 100)) :
    (|T| > |rng p.rng_pos * p.mc_config.trace /
        (c * (env.matrix.try_update p.mc_config.M p.cdagg_ops_rem_ p.c_ops_rem_
          p.cdagg_ops_add_ p.c_ops_add_).1)| ↔
      |c * (env.matrix.try_update p.mc_config.M p.cdagg_ops_rem_ p.c_ops_rem_
        p.cdagg_ops_add_ p.c_ops_add_).1 * (T / p.mc_config.trace)| > rng p.rng_pos) ∧
    (Event.perform_update ∈ (update env rng u cfg w pos).log ↔
      |c * (env.matrix.try_update p.mc_config.M p.cdagg_ops_rem_ p.c_ops_rem_
        p.cdagg_ops_add_ p.c_ops_add_).1 * (T / p.mc_config.trace)| > rng p.rng_pos) ∧
    (|c * (env.matrix.try_update p.mc_config.M p.cdagg_ops_rem_ p.c_ops_rem_
        p.cdagg_ops_add_ p.c_ops_add_).1 * (T / p.mc_config.trace)| > rng p.rng_pos →
      (update env rng u cfg w pos).outcome = Outcome.returned ∧
      (update env rng u cfg w pos).mc_config.trace = T) := by
  obtain ⟨_, hu', hcfg'⟩ := update_operators_true _ _ _ _ huo
  have hM : cfg'.M = p.mc_config.M := by rw [hcfg']
  have htr : cfg'.trace = p.mc_config.trace := by rw [hcfg']
  have hl1 : u'.cdagg_ops_rem_ = p.cdagg_ops_rem_ := by rw [hu']; rfl
  have hl2 : u'.c_ops_rem_ = p.c_ops_rem_ := by rw [hu']; rfl
  have hl3 : u'.cdagg_ops_add_ = p.cdagg_ops_add_ := by rw [hu']; rfl
  have hl4 : u'.c_ops_add_ = p.c_ops_add_ := by rw [hu']; rfl
  rw [update_eq_evaluate env rng u cfg w pos p c u' cfg' hp hv hc hr huo]
  rw [← hM, ← hl1, ← hl2, ← hl3, ← hl4] at hrest
  rw [← htr] at htrace
  rw [← hM, ← hl1, ← hl2, ← hl3, ← hl4, ← htr]
  exact ⟨cutoff_equivalence T cfg'.trace _ (rng p.rng_pos) htrace hrest hr0,
    evaluate_commit_iff env rng c u' cfg' w p.rng_pos T hbound htrace hrest hr0 hcontract
      hsound⟩

/-- Witness of C13 (amended): an accepted shift; trace `1`, bound `1`, threshold `1/4`. -/
theorem commit_iff_probability_exceeds_threshold_witness :
    (Bench.shift_env 1).strategy.propose (Bench.stream [0, 0, 3 / 5, 1 / 4]) 0
        { Bench.shift_updater with accepted_ := false } Bench.pair_config ()
      = some Bench.shift_proposal ∧
    (Event.perform_update ∈ (update (Bench.shift_env 1) (Bench.stream [0, 0, 3 / 5, 1 / 4])
        Bench.shift_updater Bench.pair_config () 0).log ↔
      |(1 : ℚ) * ((Bench.shift_env 1).matrix.try_update Bench.shift_proposal.mc_config.M
        Bench.shift_proposal.cdagg_ops_rem_ Bench.shift_proposal.c_ops_rem_
        Bench.shift_proposal.cdagg_ops_add_ Bench.shift_proposal.c_ops_add_).1 *
        (1 / Bench.shift_proposal.mc_config.trace)|
        > Bench.stream [0, 0, 3 / 5, 1 / 4] Bench.shift_proposal.rng_pos) ∧
    Event.perform_update ∈ (update (Bench.shift_env 1) (Bench.stream [0, 0, 3 / 5, 1 / 4])
        Bench.shift_updater Bench.pair_config () 0).log := by
  have h1 : (update_operators
      (Bench.shift_proposal.install { Bench.shift_updater with accepted_ := false })
      Bench.shift_proposal.mc_config).1 = Except.ok true := by decide!
  have h := commit_iff_probability_exceeds_threshold (Bench.shift_env 1)
    (Bench.stream [0, 0, 3 / 5, 1 / 4]) Bench.shift_updater Bench.pair_config () 0
    Bench.shift_proposal 1 _ _ 1 (by decide!) (by decide!) (by decide!) (by decide!)
    (Prod.ext h1 rfl) (by decide!) (by decide!) (by decide!) (by decide!)
    (fun w0 cutoff bounds => ⟨by
      show decide (cutoff < 1) = decide (|(1 : ℚ)| > cutoff)
      rw [abs_one], fun _ => rfl⟩)
    (by decide!)
  exact ⟨by decide!, h.2.1, by decide!⟩

/-! ## The orchestrator: the accepted move -/

/-- An evaluation that calls `perform_update` returns with the committed configuration. -/
theorem evaluate_accepted {S MS W : Type} (env : Env S MS W) (rng : Random01) (c : ℚ)
    (u : LocalUpdater S) (cfg : MonteCarloConfiguration MS) (w : W) (pos : Nat)
    (tb : (ℚ × List ℚ) × W)
    (htb : tb = env.window.compute_trace_bound w cfg.operators
      (resize u.trace_bound (env.window.get_num_brakets w)))
    (tu : ℚ × MS)
    (htu : tu = env.matrix.try_update cfg.M u.cdagg_ops_rem_ u.c_ops_rem_
      u.cdagg_ops_add_ u.c_ops_add_)
    (le : (Bool × ℚ) × W)
    (hle : le = env.window.lazy_eval_trace tb.2 cfg.operators
      |rng pos * cfg.trace / (c * tu.1)| tb.1.2)
    (hacc : Event.perform_update ∈ (update_evaluate env rng c u cfg w pos).log) :
    (update_evaluate env rng c u cfg w pos).outcome = Outcome.returned ∧
    (update_evaluate env rng c u cfg w pos).log
      = [Event.compute_trace_bound, Event.try_update, Event.rng, Event.lazy_eval_trace,
          Event.perform_update, Event.compute_permutation_sign,
          Event.call_back u.valid_move_generated_ true u.cdagg_ops_rem_ u.c_ops_rem_
            u.cdagg_ops_add_ u.c_ops_add_] ∧
    (update_evaluate env rng c u cfg w pos).mc_config
      = commit env { cfg with M := tu.2 } le.1.2 (c * tu.1 * (le.1.2 / cfg.trace)) := by
  subst htb htu hle
  revert hacc
  apply update_evaluate_cases (Q := fun r => Event.perform_update ∈ r.log →
    r.outcome = Outcome.returned ∧
    r.log = [Event.compute_trace_bound, Event.try_update, Event.rng, Event.lazy_eval_trace,
          Event.perform_update, Event.compute_permutation_sign,
          Event.call_back u.valid_move_generated_ true u.cdagg_ops_rem_ u.c_ops_rem_
            u.cdagg_ops_add_ u.c_ops_add_] ∧
    r.mc_config = commit env _ _ _)
    env rng c u cfg w pos _ rfl _ rfl _ rfl _ rfl _ rfl _ rfl
  · intro _ e cfg' _ h
    simp at h
  · intro _ cfg' _ h
    simp [Run.finalize, call_back_event] at h
  · intro _ _ h
    exact absurd h (conclude_rejected_no_perform _ _ _ _ _ _ _ _ (by simp))
  · intro _ _ _ h
    simp at h
  · intro _ _ _ _ h
    simp at h
  · intro _ _ _ _
    cases hb : (env.window.lazy_eval_trace (env.window.compute_trace_bound w cfg.operators
        (resize u.trace_bound (env.window.get_num_brakets w))).2 cfg.operators
        |rng pos * cfg.trace / (c * (env.matrix.try_update cfg.M u.cdagg_ops_rem_
          u.c_ops_rem_ u.cdagg_ops_add_ u.c_ops_add_).1)|
        (env.window.compute_trace_bound w cfg.operators
          (resize u.trace_bound (env.window.get_num_brakets w))).1.2).1.1 with
    | false =>
      intro h
      exact absurd h (conclude_rejected_no_perform _ _ _ _ _ _ _ _ (by simp))
    | true =>
      intro _
      exact ⟨rfl, rfl, rfl⟩
/-- C14. After every accepted `update` (one that called `perform_update`): the call
returned; the collaborators were called in the order trace bound, `try_update`, random
threshold, lazy trace evaluation, `perform_update`, `compute_permutation_sign`,
`call_back` (which sees `accepted_` set); the determinant matrix is the one left by
`perform_update`; the operator collection is the collection left by `propose` minus the
removal lists plus the add lists; the trace is the newly evaluated trace; `perm_sign` is
the value `perm_new` returned by `compute_permutation_sign` on the configuration with the
new operators and the updated matrix; and the sign is
`old_sign * (perm_new / old_perm_sign) * prob / |prob|` with
`prob = correction * det_rat * (new trace / old trace)`. -/
theorem accepted_update_postconditions {S MS W : Type} (env : Env S MS W) (rng : Random01)
    (u : LocalUpdater S) (cfg : MonteCarloConfiguration MS) (w : W) (pos : Nat)
    (p : Proposal S MS)
    (hp : env.strategy.propose rng pos { u with accepted_ := false } cfg w = some p)
    (hacc : Event.perform_update ∈ (update env rng u cfg w pos).log) :
    ∃ (c : ℚ) (ops : operator_container_t) (tb : (ℚ × List ℚ) × W) (tu : ℚ × MS)
      (le : (Bool × ℚ) × W) (prob : ℚ) (perm_new : Int),
      p.acceptance_rate_correction_ = some c ∧
      ops.toFinset = (p.mc_config.operators.toFinset \ p.ops_rem.toFinset) ∪
        p.ops_add.toFinset ∧
      tb = env.window.compute_trace_bound w ops
        (resize u.trace_bound (env.window.get_num_brakets w)) ∧
      tu = env.matrix.try_update p.mc_config.M p.cdagg_ops_rem_ p.c_ops_rem_
        p.cdagg_ops_add_ p.c_ops_add_ ∧
      le = env.window.lazy_eval_trace tb.2 ops
        |rng p.rng_pos * p.mc_config.trace / (c * tu.1)| tb.1.2 ∧
      prob = c * tu.1 * (le.1.2 / p.mc_config.trace) ∧
      perm_new = env.compute_permutation_sign
        { p.mc_config with operators := ops, M := env.matrix.perform_update tu.2 } ∧
      (update env rng u cfg w pos).outcome = Outcome.returned ∧
      (update env rng u cfg w pos).log
        = [Event.compute_trace_bound, Event.try_update, Event.rng, Event.lazy_eval_trace,
            Event.perform_update, Event.compute_permutation_sign,
            Event.call_back true true p.cdagg_ops_rem_ p.c_ops_rem_ p.cdagg_ops_add_
              p.c_ops_add_] ∧
      (update env rng u cfg w pos).mc_config.M = env.matrix.perform_update tu.2 ∧
      (update env rng u cfg w pos).mc_config.operators = ops ∧
      (update env rng u cfg w pos).mc_config.trace = le.1.2 ∧
      (update env rng u cfg w pos).mc_config.perm_sign = perm_new ∧
      (update env rng u cfg w pos).mc_config.sign
        = p.mc_config.sign * ((perm_new : ℚ) / (p.mc_config.perm_sign : ℚ)) *
          (prob / |prob|) := by
  revert hacc
  apply update_cases (Q := fun r => Event.perform_update ∈ r.log →
    ∃ (c : ℚ) (ops : operator_container_t) (tb : (ℚ × List ℚ) × W) (tu : ℚ × MS)
      (le : (Bool × ℚ) × W) (prob : ℚ) (perm_new : Int),
      p.acceptance_rate_correction_ = some c ∧
      ops.toFinset = (p.mc_config.operators.toFinset \ p.ops_rem.toFinset) ∪
        p.ops_add.toFinset ∧
      tb = env.window.compute_trace_bound w ops
        (resize u.trace_bound (env.window.get_num_brakets w)) ∧
      tu = env.matrix.try_update p.mc_config.M p.cdagg_ops_rem_ p.c_ops_rem_
        p.cdagg_ops_add_ p.c_ops_add_ ∧
      le = env.window.lazy_eval_trace tb.2 ops
        |rng p.rng_pos * p.mc_config.trace / (c * tu.1)| tb.1.2 ∧
      prob = c * tu.1 * (le.1.2 / p.mc_config.trace) ∧
      perm_new = env.compute_permutation_sign
        { p.mc_config with operators := ops, M := env.matrix.perform_update tu.2 } ∧
      r.outcome = Outcome.returned ∧
      r.log
        = [Event.compute_trace_bound, Event.try_update, Event.rng, Event.lazy_eval_trace,
            Event.perform_update, Event.compute_permutation_sign,
            Event.call_back true true p.cdagg_ops_rem_ p.c_ops_rem_ p.cdagg_ops_add_
              p.c_ops_add_] ∧
      r.mc_config.M = env.matrix.perform_update tu.2 ∧
      r.mc_config.operators = ops ∧
      r.mc_config.trace = le.1.2 ∧
      r.mc_config.perm_sign = perm_new ∧
      r.mc_config.sign
        = p.mc_config.sign * ((perm_new : ℚ) / (p.mc_config.perm_sign : ℚ)) *
          (prob / |prob|))
    env rng u cfg w pos
  · intro _ h
    simp at h
  · intro q _ _ h
    simp [Run.finalize, call_back_event] at h
  · intro q _ _ _ h
    simp at h
  · intro q c _ _ _ _ h
    simp at h
  · intro q c e u' cfg' _ _ _ _ _ h
    simp at h
  · intro q c u' cfg' _ _ _ _ _ h
    simp [Run.finalize, call_back_event] at h
  · intro q c u' cfg' hq hv hc _ huo hacc
    rw [hp] at hq
    cases hq
    obtain ⟨happ, hu', hcfg'⟩ := update_operators_true _ _ _ _ huo
    have hM : cfg'.M = p.mc_config.M := by rw [hcfg']
    have htr : cfg'.trace = p.mc_config.trace := by rw [hcfg']
    have hsg : cfg'.sign = p.mc_config.sign := by rw [hcfg']
    have hps : cfg'.perm_sign = p.mc_config.perm_sign := by rw [hcfg']
    have hl1 : u'.cdagg_ops_rem_ = p.cdagg_ops_rem_ := by rw [hu']; rfl
    have hl2 : u'.c_ops_rem_ = p.c_ops_rem_ := by rw [hu']; rfl
    have hl3 : u'.cdagg_ops_add_ = p.cdagg_ops_add_ := by rw [hu']; rfl
    have hl4 : u'.c_ops_add_ = p.c_ops_add_ := by rw [hu']; rfl
    have hl5 : u'.valid_move_generated_ = true := by rw [hu']; exact hv
    have hl6 : u'.trace_bound = u.trace_bound := by rw [hu']; rfl
    obtain ⟨h1, h2, h3⟩ := evaluate_accepted env rng c u' cfg' w p.rng_pos _ rfl _ rfl _ rfl
      hacc
    rw [hM, htr, hl1, hl2, hl3, hl4, hl6] at h3
    rw [hl1, hl2, hl3, hl4, hl5] at h2
    refine ⟨c, cfg'.operators, _, _, _, _, _, hc, happ.2.2.2.2, rfl, rfl, rfl, rfl, rfl,
      h1, h2, ?_, ?_, ?_, ?_, ?_⟩
    · rw [h3]
      rfl
    · rw [h3]
      rfl
    · rw [h3]
      rfl
    · rw [h3]
      simp only [commit, hsg, hps]
    · rw [h3]
      simp only [commit, hsg, hps, mysign, mul_assoc]
/-- Witness of C14: an accepted shift of the creation operator from time `3` to time
`4`. -/
theorem accepted_update_postconditions_witness :
    (Bench.shift_env 1).strategy.propose (Bench.stream [0, 0, 3 / 5, 1 / 4]) 0
        { Bench.shift_updater with accepted_ := false } Bench.pair_config ()
      = some Bench.shift_proposal ∧
    Event.perform_update ∈ (update (Bench.shift_env 1) (Bench.stream [0, 0, 3 / 5, 1 / 4])
      Bench.shift_updater Bench.pair_config () 0).log ∧
    (update (Bench.shift_env 1) (Bench.stream [0, 0, 3 / 5, 1 / 4]) Bench.shift_updater
      Bench.pair_config () 0).outcome = Outcome.returned ∧
    (update (Bench.shift_env 1) (Bench.stream [0, 0, 3 / 5, 1 / 4]) Bench.shift_updater
      Bench.pair_config () 0).mc_config.operators.toFinset
      = (Bench.pair_config.operators.toFinset \ {⟨3, OperatorType.CREATION_OP, 0⟩}) ∪
        {⟨4, OperatorType.CREATION_OP, 0⟩} := by
  obtain ⟨c, ops, tb, tu, le, prob, perm_new, _, hops, _, _, _, _, _, hret, _, _, ho, _⟩ :=
    accepted_update_postconditions (Bench.shift_env 1)
      (Bench.stream [0, 0, 3 / 5, 1 / 4]) Bench.shift_updater Bench.pair_config () 0
      Bench.shift_proposal (by decide!) (by decide!)
  refine ⟨by decide!, by decide!, hret, ?_⟩
  rw [ho, hops]
  rfl

/-! ## The orchestrator: the assertion on the trace bound -/

theorem conclude_no_bound_failure {S MS W : Type} (env : Env S MS W) (u : LocalUpdater S)
    (cfg : MonteCarloConfiguration MS) (w : W) (pos : Nat) (log : List Event)
    (accepted : Bool) (trace_new prob : ℚ) :
    (update_conclude env u cfg w pos log accepted trace_new prob).outcome
      ≠ Outcome.failed Failure.assert_trace_bound := by
  apply update_conclude_cases
    (Q := fun r => r.outcome ≠ Outcome.failed Failure.assert_trace_bound)
    env u cfg w pos log accepted trace_new prob
  · intro _ h
    cases h
  · intro _ e cfg' hrev h
    have hf := (revert_operators_frame u
      { cfg with M := env.matrix.reject_update cfg.M }).2.2.2.2 e (by rw [hrev])
    cases h
    rcases hf with hf | hf <;> cases hf
  · intro _ cfg' _ h
    cases h

/-- A trace within a non-negative, non-zero bound passes the assertion of line 463. -/
theorem within_bound_passes (T s : ℚ) (bounds : List ℚ) (hb : ∀ b ∈ bounds, 0 ≤ b)
    (hs : s = bounds.sum) (h0 : s ≠ 0) (hT : |T| ≤ s) : |T| < |s| * (101 / 100) := by
  have hs0 : 0 ≤ s := hs ▸ List.sum_nonneg hb
  have hpos : 0 < s := lt_of_le_of_ne hs0 (Ne.symm h0)
  rw [abs_of_nonneg hs0]
  linarith

theorem evaluate_no_bound_failure {S MS W : Type} (env : Env S MS W) (rng : Random01)
    (correction : ℚ) (u : LocalUpdater S)
    (cfg : MonteCarloConfiguration MS) (w : W) (pos : Nat)
    (hsound : ∀ w0 ops v,
      (∀ b ∈ (env.window.compute_trace_bound w0 ops v).1.2, 0 ≤ b) ∧
      (env.window.compute_trace_bound w0 ops v).1.1
        = (env.window.compute_trace_bound w0 ops v).1.2.sum ∧
      ∀ cutoff, |(env.window.lazy_eval_trace (env.window.compute_trace_bound w0 ops v).2 ops
        cutoff (env.window.compute_trace_bound w0 ops v).1.2).1.2|
          ≤ (env.window.compute_trace_bound w0 ops v).1.1) :
    (update_evaluate env rng correction u cfg w pos).outcome
      ≠ Outcome.failed Failure.assert_trace_bound := by
  apply update_evaluate_cases
    (Q := fun r => r.outcome ≠ Outcome.failed Failure.assert_trace_bound)
    env rng correction u cfg w pos _ rfl _ rfl _ rfl _ rfl _ rfl _ rfl
  · intro _ e cfg' hrev h
    have hf := (revert_operators_frame _ cfg).2.2.2.2 e (by rw [hrev])
    cases h
    rcases hf with hf | hf <;> cases hf
  · intro _ cfg' _ h
    cases h
  · intro _ _
    exact conclude_no_bound_failure env _ _ _ _ _ _ _ _
  · intro h0 _ hn _
    obtain ⟨hb, hs, hT⟩ := hsound w cfg.operators
      (resize u.trace_bound (env.window.get_num_brakets w))
    exact hn (within_bound_passes _ _ _ hb hs h0 (hT _))
  · intro _ _ _ _ h
    cases h
  · intro _ _ _ _
    exact conclude_no_bound_failure env _ _ _ _ _ _ _ _

/-- C15. Trace-bound soundness assertion.  Assume the window returns non-negative
per-braket bounds, a bound sum equal to their sum, and a lazy evaluation whose returned
trace values never exceed that sum in magnitude.  Then no call of `update` ends in a
failure of the assertion `|trace_new| < 1.01 * |trace_bound_sum|`: when the evaluation is
reached the bound sum is non-zero, hence positive. -/
theorem trace_bound_assertion_holds {S MS W : Type} (env : Env S MS W) (rng : Random01)
    (u : LocalUpdater S) (cfg : MonteCarloConfiguration MS) (w : W) (pos : Nat)
    (hsound : ∀ w0 ops v,
      (∀ b ∈ (env.window.compute_trace_bound w0 ops v).1.2, 0 ≤ b) ∧
      (env.window.compute_trace_bound w0 ops v).1.1
        = (env.window.compute_trace_bound w0 ops v).1.2.sum ∧
      ∀ cutoff, |(env.window.lazy_eval_trace (env.window.compute_trace_bound w0 ops v).2 ops
        cutoff (env.window.compute_trace_bound w0 ops v).1.2).1.2|
          ≤ (env.window.compute_trace_bound w0 ops v).1.1) :
    (update env rng u cfg w pos).outcome ≠ Outcome.failed Failure.assert_trace_bound := by
  apply update_cases
    (Q := fun r => r.outcome ≠ Outcome.failed Failure.assert_trace_bound)
    env rng u cfg w pos
  · intro _ h
    cases h
  · intro q _ _ h
    cases h
  · intro q _ _ _ h
    cases h
  · intro q c _ _ _ _ h
    cases h
  · intro q c e u' cfg' _ _ _ _ huo h
    have hf := (update_operators_frame (q.install { u with accepted_ := false })
      q.mc_config).2.2.2.2.2 e (by rw [huo])
    cases h
    rcases hf with hf | hf <;> cases hf
  · intro q c u' cfg' _ _ _ _ _ h
    cases h
  · intro q c u' cfg' _ _ _ _ _
    exact evaluate_no_bound_failure env rng c u' cfg' w q.rng_pos hsound

/-- Witness of C15: the window of the test bench (bound `1`, traces `1`) is sound, and an
accepted shift reaches the assertion and passes it. -/
theorem trace_bound_assertion_holds_witness :
    Event.lazy_eval_trace ∈ (update (Bench.shift_env 1) (Bench.stream [0, 0, 3 / 5, 1 / 4])
      Bench.shift_updater Bench.pair_config () 0).log ∧
    (update (Bench.shift_env 1) (Bench.stream [0, 0, 3 / 5, 1 / 4]) Bench.shift_updater
      Bench.pair_config () 0).outcome ≠ Outcome.failed Failure.assert_trace_bound :=
  ⟨by decide!, trace_bound_assertion_holds (Bench.shift_env 1)
    (Bench.stream [0, 0, 3 / 5, 1 / 4]) Bench.shift_updater Bench.pair_config () 0
    (fun _ _ _ => ⟨fun b hb => by
      have hb1 : b = 1 := by simpa [Bench.shift_env, Bench.window] using hb
      rw [hb1]
      exact zero_le_one, by simp [Bench.shift_env, Bench.window],
      fun _ => by simp [Bench.shift_env, Bench.window]⟩)⟩

/-! ## The determinant-ratio evaluator: pivot vectors -/

/-- The element found by `max_element` with `AbsLessor` belongs to the sequence and has the
largest magnitude. -/
theorem max_element_spec (x : ℚ) (xs : List ℚ) :
    ∃ m, max_element AbsLessor (x :: xs) = some m ∧ m ∈ x :: xs ∧
      ∀ y ∈ x :: xs, |y| ≤ |m| := by
  refine ⟨_, rfl, ?_⟩
  induction xs generalizing x with
  | nil => simp
  | cons a l ih =>
    simp only [List.foldl_cons]
    by_cases h : AbsLessor x a = true
    · rw [if_pos h]
      obtain ⟨h1, h2⟩ := ih a
      have hx : |x| < |a| := by simpa [AbsLessor] using h
      refine ⟨List.mem_cons_of_mem _ h1, ?_⟩
      intro y hy
      rcases List.mem_cons.mp hy with rfl | hy
      · exact le_trans (le_of_lt hx) (h2 a (List.mem_cons_self _ _))
      · exact h2 y hy
    · rw [if_neg h]
      obtain ⟨h1, h2⟩ := ih x
      have hx : |a| ≤ |x| := by simpa [AbsLessor] using h
      refine ⟨?_, ?_⟩
      · rcases List.mem_cons.mp h1 with h1 | h1
        · rw [h1]; exact List.mem_cons_self _ _
        · exact List.mem_cons_of_mem _ (List.mem_cons_of_mem _ h1)
      · intro y hy
        rcases List.mem_cons.mp hy with rfl | hy
        · exact h2 y (List.mem_cons_self _ _)
        · rcases List.mem_cons.mp hy with rfl | hy
          · exact le_trans hx (h2 x (List.mem_cons_self _ _))
          · exact h2 y (List.mem_cons_of_mem _ hy)

/-- The magnitude found by `max_element` is the largest magnitude `M` of the sequence. -/
theorem max_element_abs (l : List ℚ) (M : ℚ) (h1 : ∀ x ∈ l, |x| ≤ M)
    (h2 : ∃ x ∈ l, |x| = M) : ∃ m, max_element AbsLessor l = some m ∧ |m| = M := by
  cases l with
  | nil =>
    obtain ⟨x, hx, _⟩ := h2
    cases hx
  | cons a l =>
    obtain ⟨m, hm, hmem, hmax⟩ := max_element_spec a l
    obtain ⟨x, hx, hxM⟩ := h2
    exact ⟨m, hm, le_antisymm (h1 m hmem) (hxM ▸ hmax x hx)⟩

/-- The state of the loop of `compute_det_rat` after `k` passes. -/
theorem compute_det_rat_loop (det_vec_new det_vec_old : List ℚ) (M eps : ℚ) (k : Nat) :
    (List.range k).foldl (compute_det_rat_step det_vec_new det_vec_old M eps) (some 1)
      = if (0 : ℚ) ∈ det_vec_old.take k then none
        else some (((det_vec_new.take k).filter (fun x => passes_eps x M eps)).prod /
          (det_vec_old.take k).prod) := by
  induction k with
  | zero => simp
  | succ k ih =>
    rw [List.range_succ, List.foldl_append, ih, List.foldl_cons, List.foldl_nil]
    have hn : det_vec_new.take (k + 1)
        = det_vec_new.take k ++ (if k < det_vec_new.length then [det_vec_new.getD k 0] else []) := by
      rw [List.take_succ]
      by_cases hk : k < det_vec_new.length
      · simp [hk, List.getD_eq_getElem?_getD]
      · simp [hk, List.getElem?_eq_none (not_lt.mp hk)]
    have ho : det_vec_old.take (k + 1)
        = det_vec_old.take k ++ (if k < det_vec_old.length then [det_vec_old.getD k 0] else []) := by
      rw [List.take_succ]
      by_cases hk : k < det_vec_old.length
      · simp [hk, List.getD_eq_getElem?_getD]
      · simp [hk, List.getElem?_eq_none (not_lt.mp hk)]
    rw [hn, ho]
    simp only [compute_det_rat_step]
    generalize det_vec_new.getD k 0 = a
    generalize det_vec_old.getD k 0 = b
    generalize det_vec_new.take k = tn
    generalize det_vec_old.take k = tl
    by_cases hz : (0 : ℚ) ∈ tl
    · simp [hz]
    · rw [if_neg hz]
      simp only []
      have hprod : ∀ d : ℚ,
          (if k < det_vec_new.length ∧ passes_eps a M eps = true then d * a else d)
            = d * ((if k < det_vec_new.length then [a] else []).filter
                (fun x => passes_eps x M eps)).prod := by
        intro d
        by_cases hkn : k < det_vec_new.length
        · by_cases hp : passes_eps a M eps = true
          · simp [hkn, hp]
          · simp [hkn, hp]
        · simp [hkn]
      rw [hprod, List.filter_append, List.prod_append]
      by_cases hko : k < det_vec_old.length
      · rw [if_pos hko, if_pos hko]
        by_cases hb : b = 0
        · have hmem : (0 : ℚ) ∈ tl ++ [b] := by
            rw [hb]
            exact List.mem_append_right _ (List.mem_singleton_self _)
          rw [if_pos hb, if_pos hmem]
        · have hmem : ¬ (0 : ℚ) ∈ tl ++ [b] := by
            intro h
            rcases List.mem_append.mp h with h | h
            · exact hz h
            · exact hb (List.mem_singleton.mp h).symm
          rw [if_neg hb, if_neg hmem, List.prod_append, List.prod_singleton]
          congr 1
          rw [div_mul_eq_div_div, div_mul_eq_mul_div]
      · rw [if_neg hko, if_neg hko, List.append_nil, if_neg hz]
        congr 1
        rw [div_mul_eq_mul_div]
/-- The epsilon test of the code on a pivot of a sequence with largest magnitude `M`:
the pivot passes when `M` is not zero and `|x| / M` exceeds `eps`. -/
theorem passes_eps_iff (x M eps : ℚ) (hx : |x| ≤ M) :
    passes_eps x M eps = decide (M ≠ 0 ∧ |x| / M > eps) := by
  have hM : 0 ≤ M := le_trans (abs_nonneg x) hx
  unfold passes_eps
  by_cases h0 : M = 0
  · have hx0 : x = 0 := abs_eq_zero.mp (le_antisymm (h0 ▸ hx) (abs_nonneg x))
    simp [h0, hx0]
  · rw [if_neg h0, abs_div, abs_of_nonneg hM]
    simp [h0]

/-- The value of `compute_det_rat` on a non-empty new sequence with largest magnitude
`M`. -/
theorem compute_det_rat_formula (det_vec_new det_vec_old : List ℚ) (eps M : ℚ)
    (h1 : ∀ x ∈ det_vec_new, |x| ≤ M) (h2 : ∃ x ∈ det_vec_new, |x| = M) :
    compute_det_rat det_vec_new det_vec_old eps
      = if (0 : ℚ) ∈ det_vec_old then none
        else some ((det_vec_new.filter (fun p => decide (M ≠ 0 ∧ |p| / M > eps))).prod /
          det_vec_old.prod) := by
  obtain ⟨m, hm, hmM⟩ := max_element_abs det_vec_new M h1 h2
  unfold compute_det_rat
  simp only [hm, hmM]
  rw [compute_det_rat_loop, List.take_of_length_le (le_max_left _ _),
    List.take_of_length_le (le_max_right _ _)]
  have hf : det_vec_new.filter (fun x => passes_eps x M eps)
      = det_vec_new.filter (fun p => decide (M ≠ 0 ∧ |p| / M > eps)) :=
    List.filter_congr (fun x hx => passes_eps_iff x M eps (h1 x hx))
  rw [hf]

/-- C18. Pivot-vector determinant ratio.  Let `M` be the largest magnitude of the
non-empty new pivot sequence and let all old pivots be non-zero.  Then
`compute_det_rat(det_vec_new, det_vec_old, eps)` is the product of the new pivots `p`
with `|p| / M > eps` (none when `M` is zero, where the quotient is not a number) divided
by the product of all old pivots, whatever the two lengths are; in particular, when every
new pivot passes the test, the result is `prod(new) / prod(old)`. -/
theorem compute_det_rat_is_product_ratio (det_vec_new det_vec_old : List ℚ) (eps M : ℚ)
    (hM1 : ∀ x ∈ det_vec_new, |x| ≤ M) (hM2 : ∃ x ∈ det_vec_new, |x| = M)
    (hold : ∀ x ∈ det_vec_old, x ≠ 0) :
    compute_det_rat det_vec_new det_vec_old eps
      = some ((det_vec_new.filter (fun p => decide (M ≠ 0 ∧ |p| / M > eps))).prod /
          det_vec_old.prod) ∧
    ((∀ p ∈ det_vec_new, M ≠ 0 ∧ |p| / M > eps) →
      compute_det_rat det_vec_new det_vec_old eps
        = some (det_vec_new.prod / det_vec_old.prod)) := by
  have h0 : ¬ (0 : ℚ) ∈ det_vec_old := fun h => hold 0 h rfl
  have h := compute_det_rat_formula det_vec_new det_vec_old eps M hM1 hM2
  rw [if_neg h0] at h
  refine ⟨h, fun hall => ?_⟩
  rw [h, List.filter_eq_self.mpr (fun p hp => decide_eq_true (hall p hp))]

/-- Witness of C18: two new pivots, the second far below the first, against three old
pivots; the small pivot is skipped and all old pivots are divided out. -/
theorem compute_det_rat_is_product_ratio_witness :
    compute_det_rat [4, 1 / 10 ^ 31] [2, 1, -1] default_eps
      = some (([4, 1 / 10 ^ 31].filter
          (fun p => decide ((4 : ℚ) ≠ 0 ∧ |p| / 4 > default_eps))).prod /
        [2, 1, -1].prod) ∧
    compute_det_rat [4, 1 / 10 ^ 31] [2, 1, -1] default_eps = some (-2) := by
  have h := compute_det_rat_is_product_ratio [4, 1 / 10 ^ 31] [2, 1, -1] default_eps 4
    (by decide!) (by decide!) (by decide!)
  exact ⟨h.1, by decide!⟩

/-- Counterexample to C19: an old pivot whose magnitude relative to the largest new pivot
is below `eps` is divided out all the same, and an old pivot equal to zero is divided by
(no finite result). -/
theorem old_pivot_counterexample :
    |(1 / 10 ^ 31 : ℚ)| / |(1 : ℚ)| < default_eps ∧
    compute_det_rat [1] [1 / 10 ^ 31] default_eps = some (10 ^ 31) ∧
    compute_det_rat [1] [0] default_eps = none := by
  refine ⟨by decide!, by decide!, by decide!⟩

/-- C19, amended.  In exact arithmetic, only the new pivots are tested.  For old pivots
that are all non-zero and a new sequence with largest magnitude `M`: a new pivot `x` that
fails the test (`M` zero or `|x| / M` not above `eps`) is treated as absent, the result
being the one without it; and every non-zero old pivot `y` is divided out whatever its
magnitude. -/
theorem new_pivot_below_eps_is_absent (l1 l2 o1 o2 : List ℚ) (x y eps M : ℚ)
    (hM1 : ∀ z ∈ l1 ++ l2, |z| ≤ M) (hM2 : ∃ z ∈ l1 ++ l2, |z| = M)
    (hx : |x| ≤ M) (hfail : ¬ (M ≠ 0 ∧ |x| / M > eps)) (hy : y ≠ 0)
    (hold : ∀ z ∈ o1 ++ o2, z ≠ 0) :
    ∃ d, compute_det_rat (l1 ++ l2) (o1 ++ o2) eps = some d ∧
      compute_det_rat (l1 ++ x :: l2) (o1 ++ o2) eps = some d ∧
      compute_det_rat (l1 ++ l2) (o1 ++ y :: o2) eps = some (d / y) := by
  have hM1' : ∀ z ∈ l1 ++ x :: l2, |z| ≤ M := by
    intro z hz
    rcases List.mem_append.mp hz with hz | hz
    · exact hM1 z (List.mem_append_left _ hz)
    · rcases List.mem_cons.mp hz with rfl | hz
      · exact hx
      · exact hM1 z (List.mem_append_right _ hz)
  have hM2' : ∃ z ∈ l1 ++ x :: l2, |z| = M := by
    obtain ⟨z, hz, hzM⟩ := hM2
    refine ⟨z, ?_, hzM⟩
    rcases List.mem_append.mp hz with hz | hz
    · exact List.mem_append_left _ hz
    · exact List.mem_append_right _ (List.mem_cons_of_mem _ hz)
  have hf1 := compute_det_rat_formula (l1 ++ x :: l2) (o1 ++ o2) eps M hM1' hM2'
  have hf2 := compute_det_rat_formula (l1 ++ l2) (o1 ++ o2) eps M hM1 hM2
  have hf3 := compute_det_rat_formula (l1 ++ l2) (o1 ++ y :: o2) eps M hM1 hM2
  have h0 : ¬ (0 : ℚ) ∈ o1 ++ o2 := fun h => hold 0 h rfl
  have h0' : ¬ (0 : ℚ) ∈ o1 ++ y :: o2 := by
    intro h
    rcases List.mem_append.mp h with h | h
    · exact h0 (List.mem_append_left _ h)
    · rcases List.mem_cons.mp h with h | h
      · exact hy h.symm
      · exact h0 (List.mem_append_right _ h)
  rw [if_neg h0] at hf1 hf2
  rw [if_neg h0'] at hf3
  refine ⟨_, hf2, ?_, ?_⟩
  · rw [hf1, List.filter_append, List.filter_cons_of_neg (by simpa using hfail),
      List.filter_append]
  · rw [hf3]
    congr 1
    rw [List.prod_append, List.prod_cons, List.prod_append]
    rw [mul_left_comm, mul_comm y, div_mul_eq_div_div]

/-- Witness of C19 (amended): the new pivot `1 / 10 ^ 31` next to the pivot `4` is
absent from the result; the old pivot `1 / 10 ^ 31` is divided out. -/
theorem new_pivot_below_eps_is_absent_witness :
    compute_det_rat ([4] ++ 1 / 10 ^ 31 :: []) ([2] ++ []) default_eps = some 2 ∧
    compute_det_rat ([4] ++ []) ([2] ++ []) default_eps = some 2 ∧
    compute_det_rat ([4] ++ []) ([2] ++ 1 / 10 ^ 31 :: []) default_eps
      = some (2 / (1 / 10 ^ 31)) := by
  obtain ⟨d, h1, h2, h3⟩ := new_pivot_below_eps_is_absent [4] [] [2] [] (1 / 10 ^ 31)
    (1 / 10 ^ 31) default_eps 4 (by decide!) (by decide!) (by decide!) (by decide!)
    (by decide!) (by decide!)
  have hd : d = 2 := by
    have h1' : compute_det_rat ([4] ++ []) ([2] ++ []) default_eps = some 2 := by decide!
    rw [h1] at h1'
    exact Option.some.inj h1'
  subst hd
  exact ⟨h2, h1, h3⟩

/-! ## The determinant-ratio evaluator: operator lists -/

/-- Counterexample to C20: for the amplitude `g = 0` the only pivot is zero, it fails the
epsilon test (the quotient `0 / 0` is not above `eps`) and is skipped: the call returns
`1`, not `g`, and leaves `det_vec_new = [0]`. -/
theorem single_pair_counterexample :
    compute_det_rat_blocks (Bench.pair_matrix 0 1) Bench.one_by_one_lu
      [⟨3 / 10, OperatorType.CREATION_OP, 0⟩] [⟨7 / 10, OperatorType.ANNIHILATION_OP, 0⟩]
      [] [] = Except.ok (1, [], [0]) := by
  decide!

/-- C20, amended.  End-to-end determinant ratio: for one block holding the flavor `0`, a
single creation operator at time `0.3` and a single annihilation operator at time `0.7`,
a Green's function of constant amplitude `g`, a decomposition that treats the one-by-one
matrix `(g)` as full-pivot LU does (pivot `g`, trivial permutations) and an empty old
pivot vector, the block-wise `compute_det_rat` returns `g` and leaves
`det_vec_new = [g]`, for every non-zero amplitude `g`. -/
theorem single_pair_det_rat {MS : Type} (mat : DeterminantMatrixGlobal MS)
    (decompose : List (List ℚ) → FullPivLU) (M : MS) (g : ℚ)
    (hblocks : mat.num_blocks M = 1) (hblock : mat.block_belonging_to M 0 = 0)
    (hgf : ∀ c_op cdagg_op, mat.get_greens_function M c_op cdagg_op = g)
    (hlu : (decompose [[g]]).matrixLU 0 0 = g ∧
      (decompose [[g]]).permutationP_determinant = 1 ∧
      (decompose [[g]]).permutationQ_determinant = 1)
    (hg : g ≠ 0) :
    compute_det_rat_blocks mat decompose
      [⟨3 / 10, OperatorType.CREATION_OP, 0⟩] [⟨7 / 10, OperatorType.ANNIHILATION_OP, 0⟩]
      [] M = Except.ok (g, [], [g]) := by
  obtain ⟨h1, h2, h3⟩ := hlu
  have hr1 : List.range 1 = [0] := rfl
  have hlup : lu_product decompose [[g]] = [g] := by
    simp [lu_product, hr1, h1, h2, h3]
  have hmax : max_element AbsLessor [g] = some g := rfl
  have hpass : passes_eps g |g| default_eps = true := by
    have hg' : |g| ≠ 0 := abs_ne_zero.mpr hg
    unfold passes_eps
    rw [if_neg hg', abs_div, abs_abs, div_self hg']
    decide!
  have hrat : compute_det_rat [g] [] default_eps = some g := by
    simp [compute_det_rat, hmax, hr1, compute_det_rat_step, hpass]
  have hloop : compute_det_rat_block_loop (mat.get_greens_function M) decompose
      [([⟨3 / 10, OperatorType.CREATION_OP, 0⟩], [⟨7 / 10, OperatorType.ANNIHILATION_OP, 0⟩])]
      ([], [], []) = Except.ok ([g], [3 / 10], [7 / 10]) := by
    simp [compute_det_rat_block_loop, hgf, hr1, hlup]
  have hsort : sort_abs_greater [g] = [g] := rfl
  have hsort0 : sort_abs_greater [] = [] := rfl
  have hcomb : ∀ t : ℚ, comb_sort [t] = 1 := fun t => rfl
  simp [compute_det_rat_blocks, hblocks, hblock, hr1, hloop, hsort, hsort0, hrat, hcomb]

/-- Witness of C20 (amended): the amplitude `g = -2 / 3` on the test bench. -/
theorem single_pair_det_rat_witness :
    compute_det_rat_blocks (Bench.pair_matrix (-2 / 3) 1) Bench.one_by_one_lu
      [⟨3 / 10, OperatorType.CREATION_OP, 0⟩] [⟨7 / 10, OperatorType.ANNIHILATION_OP, 0⟩]
      [] [] = Except.ok (-2 / 3, [], [-2 / 3]) :=
  single_pair_det_rat (Bench.pair_matrix (-2 / 3) 1) Bench.one_by_one_lu [] (-2 / 3)
    rfl rfl (fun _ _ => rfl) ⟨by decide!, rfl, rfl⟩ (by decide!)

/-! ## Global update: what a call leaves behind -/

/-- The ways in which `global_update` ends. -/
theorem global_update_cases {MS W : Type} {Q : GlobalRun MS W → Prop} (env : GlobalEnv MS W)
    (rng : Random01) (BETA : ℚ) (mc_config : MonteCarloConfiguration MS) (det_vec : List ℚ)
    (w : W) (num_flavors : Nat) (transformer : psi → psi) (Nwin : Nat) (pos : Nat)
    (operators_new : operator_container_t)
    (hops : operators_new = transformed_operators transformer mc_config.operators)
    (tb : (ℚ × List ℚ) × W)
    (htb : tb = env.window.compute_trace_bound
      (env.window.set_window_size
        (env.window.set_window_size w 1 mc_config.operators 0 .ITIME_LEFT)
        Nwin operators_new 0 .ITIME_LEFT)
      operators_new
      (List.replicate (env.window.get_num_brakets
        (env.window.set_window_size
          (env.window.set_window_size w 1 mc_config.operators 0 .ITIME_LEFT)
          Nwin operators_new 0 .ITIME_LEFT)) (0 : ℚ)))
    (r : (Bool × ℚ) × W) (hr : r = env.window.lazy_eval_trace tb.2 operators_new 0 tb.1.2)
    (w2 : W) (hw2 : w2 = env.window.set_window_size r.2 1 mc_config.operators 0 .ITIME_LEFT)
    (cdagg_new : List psi)
    (hcdagg : cdagg_new = (env.matrix.get_cdagg_ops mc_config.M).map transformer)
    (c_new : List psi) (hc : c_new = (env.matrix.get_c_ops mc_config.M).map transformer)
    (h_low : env.window.get_tau_low w ≠ 0 →
      Q ⟨.error .assert_tau_low, mc_config, det_vec, w, pos⟩)
    (h_high : env.window.get_tau_high w ≠ BETA →
      Q ⟨.error .assert_tau_high, mc_config, det_vec, w, pos⟩)
    (h_empty : env.pert_order mc_config = 0 → Q ⟨.ok true, mc_config, det_vec, w, pos⟩)
    (h_trace : env.pert_order mc_config ≠ 0 → r.1.2 = 0 →
      Q ⟨.ok false, mc_config, det_vec, w2, pos⟩)
    (h_evaluator : env.pert_order mc_config ≠ 0 → r.1.2 ≠ 0 → ∀ e,
      compute_det_rat_blocks env.matrix env.decompose cdagg_new c_new det_vec mc_config.M
        = .error e →
      Q ⟨.error (.evaluator e), mc_config, det_vec, w2, pos⟩)
    (h_reject : env.pert_order mc_config ≠ 0 → r.1.2 ≠ 0 → ∀ det_rat det_vec_old det_vec_new,
      compute_det_rat_blocks env.matrix env.decompose cdagg_new c_new det_vec mc_config.M
        = .ok (det_rat, det_vec_old, det_vec_new) →
      ¬ rng pos < |det_rat * (r.1.2 / mc_config.trace)| →
      Q ⟨.ok false, mc_config, det_vec_old, w2, pos + 1⟩)
    (h_range : env.pert_order mc_config ≠ 0 → r.1.2 ≠ 0 → ∀ det_rat det_vec_old det_vec_new,
      compute_det_rat_blocks env.matrix env.decompose cdagg_new c_new det_vec mc_config.M
        = .ok (det_rat, det_vec_old, det_vec_new) →
      rng pos < |det_rat * (r.1.2 / mc_config.trace)| →
      ¬ (env.pert_order mc_config ≤ cdagg_new.length ∧
        env.pert_order mc_config ≤ c_new.length) →
      Q ⟨.error .pair_out_of_range, mc_config, det_vec_old, w2, pos + 1⟩)
    (h_sanity : env.pert_order mc_config ≠ 0 → r.1.2 ≠ 0 → ∀ det_rat det_vec_old det_vec_new,
      compute_det_rat_blocks env.matrix env.decompose cdagg_new c_new det_vec mc_config.M
        = .ok (det_rat, det_vec_old, det_vec_new) →
      rng pos < |det_rat * (r.1.2 / mc_config.trace)| →
      (env.pert_order mc_config ≤ cdagg_new.length ∧
        env.pert_order mc_config ≤ c_new.length) →
      env.sanity_check (global_commit env mc_config r.1.2 operators_new
        (env.matrix.construct (env.matrix.get_greens_function mc_config.M)
          (make_operator_pairs (env.pert_order mc_config) cdagg_new c_new))
        (det_rat * (r.1.2 / mc_config.trace))) w2 = none →
      Q ⟨.error .sanity_check, global_commit env mc_config r.1.2 operators_new
        (env.matrix.construct (env.matrix.get_greens_function mc_config.M)
          (make_operator_pairs (env.pert_order mc_config) cdagg_new c_new))
        (det_rat * (r.1.2 / mc_config.trace)), det_vec_new, w2, pos + 1⟩)
    (h_accept : env.pert_order mc_config ≠ 0 → r.1.2 ≠ 0 →
      ∀ det_rat det_vec_old det_vec_new w3,
      compute_det_rat_blocks env.matrix env.decompose cdagg_new c_new det_vec mc_config.M
        = .ok (det_rat, det_vec_old, det_vec_new) →
      rng pos < |det_rat * (r.1.2 / mc_config.trace)| →
      (env.pert_order mc_config ≤ cdagg_new.length ∧
        env.pert_order mc_config ≤ c_new.length) →
      env.sanity_check (global_commit env mc_config r.1.2 operators_new
        (env.matrix.construct (env.matrix.get_greens_function mc_config.M)
          (make_operator_pairs (env.pert_order mc_config) cdagg_new c_new))
        (det_rat * (r.1.2 / mc_config.trace))) w2 = some w3 →
      Q ⟨.ok true, global_commit env mc_config r.1.2 operators_new
        (env.matrix.construct (env.matrix.get_greens_function mc_config.M)
          (make_operator_pairs (env.pert_order mc_config) cdagg_new c_new))
        (det_rat * (r.1.2 / mc_config.trace)), det_vec_new, w3, pos + 1⟩) :
    Q (global_update env rng BETA mc_config det_vec w num_flavors transformer Nwin pos) := by
  subst hops htb hr hw2 hcdagg hc
  unfold global_update
  by_cases h1 : env.window.get_tau_low w ≠ 0
  · rw [if_pos h1]
    exact h_low h1
  rw [if_neg h1]
  by_cases h2 : env.window.get_tau_high w ≠ BETA
  · rw [if_pos h2]
    exact h_high h2
  rw [if_neg h2]
  simp only []
  by_cases h3 : env.pert_order mc_config = 0
  · rw [if_pos h3]
    exact h_empty h3
  rw [if_neg h3]
  by_cases h4 : (env.window.lazy_eval_trace
      (env.window.compute_trace_bound
        (env.window.set_window_size
          (env.window.set_window_size w 1 mc_config.operators 0 .ITIME_LEFT)
          Nwin (transformed_operators transformer mc_config.operators) 0 .ITIME_LEFT)
        (transformed_operators transformer mc_config.operators)
        (List.replicate (env.window.get_num_brakets
          (env.window.set_window_size
            (env.window.set_window_size w 1 mc_config.operators 0 .ITIME_LEFT)
            Nwin (transformed_operators transformer mc_config.operators) 0
            .ITIME_LEFT)) (0 : ℚ))).2
      (transformed_operators transformer mc_config.operators) 0
      (env.window.compute_trace_bound
        (env.window.set_window_size
          (env.window.set_window_size w 1 mc_config.operators 0 .ITIME_LEFT)
          Nwin (transformed_operators transformer mc_config.operators) 0 .ITIME_LEFT)
        (transformed_operators transformer mc_config.operators)
        (List.replicate (env.window.get_num_brakets
          (env.window.set_window_size
            (env.window.set_window_size w 1 mc_config.operators 0 .ITIME_LEFT)
            Nwin (transformed_operators transformer mc_config.operators) 0
            .ITIME_LEFT)) (0 : ℚ))).1.2).1.2 = 0
  · rw [if_pos h4]
    exact h_trace h3 h4
  · rw [if_neg h4]
    split
    · rename_i e he
      exact h_evaluator h3 h4 e he
    · rename_i det_rat det_vec_old det_vec_new he
      by_cases h5 : rng pos < |det_rat * ((env.window.lazy_eval_trace
          (env.window.compute_trace_bound
            (env.window.set_window_size
              (env.window.set_window_size w 1 mc_config.operators 0 .ITIME_LEFT)
              Nwin (transformed_operators transformer mc_config.operators) 0 .ITIME_LEFT)
            (transformed_operators transformer mc_config.operators)
            (List.replicate (env.window.get_num_brakets
              (env.window.set_window_size
                (env.window.set_window_size w 1 mc_config.operators 0 .ITIME_LEFT)
                Nwin (transformed_operators transformer mc_config.operators) 0
                .ITIME_LEFT)) (0 : ℚ))).2
          (transformed_operators transformer mc_config.operators) 0
          (env.window.compute_trace_bound
            (env.window.set_window_size
              (env.window.set_window_size w 1 mc_config.operators 0 .ITIME_LEFT)
              Nwin (transformed_operators transformer mc_config.operators) 0 .ITIME_LEFT)
            (transformed_operators transformer mc_config.operators)
            (List.replicate (env.window.get_num_brakets
              (env.window.set_window_size
                (env.window.set_window_size w 1 mc_config.operators 0 .ITIME_LEFT)
                Nwin (transformed_operators transformer mc_config.operators) 0
                .ITIME_LEFT)) (0 : ℚ))).1.2).1.2 / mc_config.trace)|
      · rw [if_pos h5]
        by_cases h6 : env.pert_order mc_config ≤
            (List.map transformer (env.matrix.get_cdagg_ops mc_config.M)).length ∧
            env.pert_order mc_config ≤
              (List.map transformer (env.matrix.get_c_ops mc_config.M)).length
        · rw [if_pos h6]
          split
          · rename_i hs
            exact h_sanity h3 h4 det_rat det_vec_old det_vec_new he h5 h6 hs
          · rename_i w3 hs
            exact h_accept h3 h4 det_rat det_vec_old det_vec_new w3 he h5 h6 hs
        · rw [if_neg h6]
          exact h_range h3 h4 det_rat det_vec_old det_vec_new he h5 h6
      · rw [if_neg h5]
        exact h_reject h3 h4 det_rat det_vec_old det_vec_new he h5

/-- The block-wise `compute_det_rat` leaves in `det_vec_old` the old pivots, possibly in
another order. -/
theorem compute_det_rat_blocks_old {MS : Type} (mat : DeterminantMatrixGlobal MS)
    (decompose : List (List ℚ) → FullPivLU) (creation_operators annihilation_operators :
      List psi) (det_vec_old : List ℚ) (M : MS) (det_rat : ℚ) (old' new' : List ℚ)
    (h : compute_det_rat_blocks mat decompose creation_operators annihilation_operators
      det_vec_old M = Except.ok (det_rat, old', new')) : old'.Perm det_vec_old := by
  unfold compute_det_rat_blocks at h
  simp only [] at h
  split at h
  · cases h
  · split at h
    · cases h
    · split at h
      · cases h
        exact List.Perm.refl _
      · split at h
        · cases h
        · cases h
          exact List.perm_insertionSort _ _

/-- C16. Whenever `global_update` returns false, the live configuration is untouched:
operators, determinant matrix, trace, sign and `perm_sign` are the ones before the call
(the pivot vector `det_vec` keeps its entries, possibly in another order). -/
theorem global_update_false_is_frame {MS W : Type} (env : GlobalEnv MS W) (rng : Random01)
    (BETA : ℚ) (mc_config : MonteCarloConfiguration MS) (det_vec : List ℚ) (w : W)
    (num_flavors : Nat) (transformer : psi → psi) (Nwin : Nat) (pos : Nat)
    (h : (global_update env rng BETA mc_config det_vec w num_flavors transformer Nwin
      pos).result = Except.ok false) :
    (global_update env rng BETA mc_config det_vec w num_flavors transformer Nwin
      pos).mc_config.operators = mc_config.operators ∧
    (global_update env rng BETA mc_config det_vec w num_flavors transformer Nwin
      pos).mc_config.M = mc_config.M ∧
    (global_update env rng BETA mc_config det_vec w num_flavors transformer Nwin
      pos).mc_config.trace = mc_config.trace ∧
    (global_update env rng BETA mc_config det_vec w num_flavors transformer Nwin
      pos).mc_config.sign = mc_config.sign ∧
    (global_update env rng BETA mc_config det_vec w num_flavors transformer Nwin
      pos).mc_config.perm_sign = mc_config.perm_sign ∧
    (global_update env rng BETA mc_config det_vec w num_flavors transformer Nwin
      pos).det_vec.Perm det_vec := by
  revert h
  apply global_update_cases (Q := fun run => run.result = Except.ok false →
    run.mc_config.operators = mc_config.operators ∧ run.mc_config.M = mc_config.M ∧
    run.mc_config.trace = mc_config.trace ∧ run.mc_config.sign = mc_config.sign ∧
    run.mc_config.perm_sign = mc_config.perm_sign ∧ run.det_vec.Perm det_vec)
    env rng BETA mc_config det_vec w num_flavors transformer Nwin pos
    _ rfl _ rfl _ rfl _ rfl _ rfl _ rfl
  · intro _ h
    cases h
  · intro _ h
    cases h
  · intro _ h
    cases h
  · intro _ _ _
    exact ⟨rfl, rfl, rfl, rfl, rfl, List.Perm.refl _⟩
  · intro _ _ e _ h
    cases h
  · intro _ _ det_rat det_vec_old det_vec_new he _ _
    exact ⟨rfl, rfl, rfl, rfl, rfl, compute_det_rat_blocks_old _ _ _ _ _ _ _ _ _ he⟩
  · intro _ _ _ _ _ _ _ _ h
    cases h
  · intro _ _ _ _ _ _ _ _ _ h
    cases h
  · intro _ _ _ _ _ _ _ _ _ _ h
    cases h

/-- Witness of C16: a flavor exchange rejected by the Metropolis test (determinant ratio
`1/4`, trace ratio `1`, threshold `1/2`). -/
theorem global_update_false_is_frame_witness :
    (global_update (Bench.global_env 1) (Bench.stream [1 / 2]) 10 Bench.global_config [4] ()
      2 (ExchangeFlavor Bench.exchange_table) 1 0).result = Except.ok false ∧
    (global_update (Bench.global_env 1) (Bench.stream [1 / 2]) 10 Bench.global_config [4] ()
      2 (ExchangeFlavor Bench.exchange_table) 1 0).rng_pos = 1 ∧
    (global_update (Bench.global_env 1) (Bench.stream [1 / 2]) 10 Bench.global_config [4] ()
      2 (ExchangeFlavor Bench.exchange_table) 1 0).mc_config.operators
      = Bench.global_config.operators := by
  have h := global_update_false_is_frame (Bench.global_env 1) (Bench.stream [1 / 2]) 10
    Bench.global_config [4] () 2 (ExchangeFlavor Bench.exchange_table) 1 0 (by decide!)
  exact ⟨by decide!, by decide!, h.1⟩

theorem toFinset_insert_if_new (c : operator_container_t) (op : psi) :
    (insert_if_new c op).toFinset = Insert.insert op c.toFinset := by
  unfold insert_if_new
  by_cases h : op ∈ c.elems
  · rw [dif_pos h]
    exact (Finset.insert_eq_of_mem (operator_container_t.mem_toFinset.mpr h)).symm
  · rw [dif_neg h]
    exact operator_container_t.toFinset_insert c op h

theorem toFinset_transformed_fold (transformer : psi → psi) (l : List psi) :
    ∀ c : operator_container_t,
      (l.foldl (fun operators_new op => insert_if_new operators_new (transformer op))
        c).toFinset = c.toFinset ∪ l.toFinset.image transformer := by
  induction l with
  | nil => intro c; simp
  | cons a l ih =>
    intro c
    rw [List.foldl_cons, ih, toFinset_insert_if_new]
    ext x
    simp only [Finset.mem_union, Finset.mem_insert, Finset.mem_image, List.mem_toFinset,
      List.mem_cons]
    constructor
    · rintro ((rfl | h) | ⟨y, hy, rfl⟩)
      · exact Or.inr ⟨a, Or.inl rfl, rfl⟩
      · exact Or.inl h
      · exact Or.inr ⟨y, Or.inr hy, rfl⟩
    · rintro (h | ⟨y, rfl | hy, rfl⟩)
      · exact Or.inl (Or.inr h)
      · exact Or.inl (Or.inl rfl)
      · exact Or.inr ⟨y, hy, rfl⟩

/-- The collection `operators_new` holds exactly the images of the operators. -/
theorem toFinset_transformed_operators (transformer : psi → psi)
    (operators : operator_container_t) :
    (transformed_operators transformer operators).toFinset
      = operators.toFinset.image transformer := by
  unfold transformed_operators
  rw [toFinset_transformed_fold]
  simp [operator_container_t.toFinset, operator_container_t.empty]

/-- An injective transformer keeps the number of operators. -/
theorem length_transformed_operators (transformer : psi → psi)
    (hinj : Function.Injective transformer) (operators : operator_container_t) :
    (transformed_operators transformer operators).elems.length = operators.elems.length := by
  have h1 := List.toFinset_card_of_nodup (transformed_operators transformer operators).nodup
  have h2 := List.toFinset_card_of_nodup operators.nodup
  have h3 := toFinset_transformed_operators transformer operators
  unfold operator_container_t.toFinset at h3
  rw [← h1, h3, Finset.card_image_of_injective _ hinj, h2]

theorem ExchangeFlavor_injective (first_ : Nat → Nat) (hinj : Function.Injective first_) :
    Function.Injective (ExchangeFlavor first_) := by
  intro a b h
  cases a with
  | mk ta ka fa =>
    cases b with
    | mk tb kb fb =>
      simp only [ExchangeFlavor, psi.mk.injEq] at h
      obtain ⟨h1, h2, h3⟩ := h
      rw [h1, h2, hinj h3]

/-- The vector `operator_pairs` pairs the two lists index by index. -/
theorem make_operator_pairs_eq (n : Nat) (l1 l2 : List psi) (h1 : n ≤ l1.length)
    (h2 : n ≤ l2.length) : make_operator_pairs n l1 l2 = (l1.zip l2).take n := by
  unfold make_operator_pairs
  induction n with
  | zero => simp
  | succ k ih =>
    have hk1 : k < l1.length := h1
    have hk2 : k < l2.length := h2
    rw [List.range_succ, List.filterMap_append, ih (Nat.le_of_lt hk1) (Nat.le_of_lt hk2),
      List.take_succ]
    congr 1
    simp [List.getElem?_eq_getElem hk1, List.getElem?_eq_getElem hk2, List.getElem?_zip_eq_some,
      List.getElem?_eq_getElem (show k < (l1.zip l2).length by simp; omega)]

/-- C17. Whenever `global_update` returns true with `pert_order > 0` and the transformer
is `ExchangeFlavor` with an injective (permutation) table: the new operator collection is
exactly the image of the old one under the transformer, with the same number of elements
and with every operator's time and kind unchanged; the new matrix is built from the
pairs `(transformer(cdagg_i), transformer(c_i))`, `i < pert_order`, of the operator lists
of the old matrix; the trace is the one the lazy evaluation returned for the transformed
operators (cutoff zero); and `det_vec` is the new pivot vector left by the block-wise
`compute_det_rat`. -/
theorem global_update_true_postconditions {MS W : Type} (env : GlobalEnv MS W)
    (rng : Random01) (BETA : ℚ) (mc_config : MonteCarloConfiguration MS) (det_vec : List ℚ)
    (w : W) (num_flavors : Nat) (first_ : Nat → Nat) (Nwin : Nat) (pos : Nat)
    (hinj : Function.Injective first_)
    (hpert : 0 < env.pert_order mc_config)
    (h : (global_update env rng BETA mc_config det_vec w num_flavors (ExchangeFlavor first_)
      Nwin pos).result = Except.ok true) :
    (global_update env rng BETA mc_config det_vec w num_flavors (ExchangeFlavor first_)
      Nwin pos).mc_config.operators.toFinset
      = mc_config.operators.toFinset.image (ExchangeFlavor first_) ∧
    (global_update env rng BETA mc_config det_vec w num_flavors (ExchangeFlavor first_)
      Nwin pos).mc_config.operators.elems.length = mc_config.operators.elems.length ∧
    (∀ op : psi, (ExchangeFlavor first_ op).time = op.time ∧
      (ExchangeFlavor first_ op).type = op.type) ∧
    env.pert_order mc_config ≤ (env.matrix.get_cdagg_ops mc_config.M).length ∧
    env.pert_order mc_config ≤ (env.matrix.get_c_ops mc_config.M).length ∧
    (global_update env rng BETA mc_config det_vec w num_flavors (ExchangeFlavor first_)
      Nwin pos).mc_config.M
      = env.matrix.construct (env.matrix.get_greens_function mc_config.M)
          ((((env.matrix.get_cdagg_ops mc_config.M).map (ExchangeFlavor first_)).zip
            ((env.matrix.get_c_ops mc_config.M).map (ExchangeFlavor first_))).take
              (env.pert_order mc_config)) ∧
    (∃ w1 bounds,
      (global_update env rng BETA mc_config det_vec w num_flavors (ExchangeFlavor first_)
        Nwin pos).mc_config.trace
        = (env.window.lazy_eval_trace w1
            (global_update env rng BETA mc_config det_vec w num_flavors
              (ExchangeFlavor first_) Nwin pos).mc_config.operators 0 bounds).1.2) ∧
    (∃ det_rat det_vec_old,
      compute_det_rat_blocks env.matrix env.decompose
        ((env.matrix.get_cdagg_ops mc_config.M).map (ExchangeFlavor first_))
        ((env.matrix.get_c_ops mc_config.M).map (ExchangeFlavor first_)) det_vec mc_config.M
        = Except.ok (det_rat, det_vec_old,
          (global_update env rng BETA mc_config det_vec w num_flavors
            (ExchangeFlavor first_) Nwin pos).det_vec)) := by
  revert h
  apply global_update_cases (Q := fun run => run.result = Except.ok true →
    run.mc_config.operators.toFinset
      = mc_config.operators.toFinset.image (ExchangeFlavor first_) ∧
    run.mc_config.operators.elems.length = mc_config.operators.elems.length ∧
    (∀ op : psi, (ExchangeFlavor first_ op).time = op.time ∧
      (ExchangeFlavor first_ op).type = op.type) ∧
    env.pert_order mc_config ≤ (env.matrix.get_cdagg_ops mc_config.M).length ∧
    env.pert_order mc_config ≤ (env.matrix.get_c_ops mc_config.M).length ∧
    run.mc_config.M
      = env.matrix.construct (env.matrix.get_greens_function mc_config.M)
          ((((env.matrix.get_cdagg_ops mc_config.M).map (ExchangeFlavor first_)).zip
            ((env.matrix.get_c_ops mc_config.M).map (ExchangeFlavor first_))).take
              (env.pert_order mc_config)) ∧
    (∃ w1 bounds, run.mc_config.trace
        = (env.window.lazy_eval_trace w1 run.mc_config.operators 0 bounds).1.2) ∧
    (∃ det_rat det_vec_old,
      compute_det_rat_blocks env.matrix env.decompose
        ((env.matrix.get_cdagg_ops mc_config.M).map (ExchangeFlavor first_))
        ((env.matrix.get_c_ops mc_config.M).map (ExchangeFlavor first_)) det_vec mc_config.M
        = Except.ok (det_rat, det_vec_old, run.det_vec)))
    env rng BETA mc_config det_vec w num_flavors (ExchangeFlavor first_) Nwin pos
    _ rfl _ rfl _ rfl _ rfl _ rfl _ rfl
  · intro _ h
    cases h
  · intro _ h
    cases h
  · intro h0 _
    exact absurd h0 (Nat.pos_iff_ne_zero.mp hpert)
  · intro _ _ h
    cases h
  · intro _ _ e _ h
    cases h
  · intro _ _ _ _ _ _ _ h
    cases h
  · intro _ _ _ _ _ _ _ _ h
    cases h
  · intro _ _ _ _ _ _ _ _ _ h
    cases h
  · intro _ _ det_rat det_vec_old det_vec_new w3 he _ hlen _ _
    have hlen1 : env.pert_order mc_config ≤ (env.matrix.get_cdagg_ops mc_config.M).length := by
      simpa using hlen.1
    have hlen2 : env.pert_order mc_config ≤ (env.matrix.get_c_ops mc_config.M).length := by
      simpa using hlen.2
    refine ⟨toFinset_transformed_operators _ _,
      length_transformed_operators _ (ExchangeFlavor_injective first_ hinj) _,
      fun op => ⟨rfl, rfl⟩, hlen1, hlen2, ?_, ⟨_, _, rfl⟩, ⟨det_rat, det_vec_old, he⟩⟩
    show env.matrix.construct _ (make_operator_pairs _ _ _) = _
    rw [make_operator_pairs_eq _ _ _ hlen.1 hlen.2]

/-- Witness of C17: the exchange of the flavors `0` and `1` on a configuration with one
pair of operators, accepted by the Metropolis test. -/
theorem global_update_true_postconditions_witness :
    (global_update (Bench.global_env 1) (Bench.stream [1 / 2]) 10 Bench.global_config [1] ()
      2 (ExchangeFlavor Bench.exchange_table) 1 0).result = Except.ok true ∧
    (global_update (Bench.global_env 1) (Bench.stream [1 / 2]) 10 Bench.global_config [1] ()
      2 (ExchangeFlavor Bench.exchange_table) 1 0).mc_config.operators.toFinset
      = Bench.global_config.operators.toFinset.image (ExchangeFlavor Bench.exchange_table) ∧
    (global_update (Bench.global_env 1) (Bench.stream [1 / 2]) 10 Bench.global_config [1] ()
      2 (ExchangeFlavor Bench.exchange_table) 1 0).mc_config.M
      = [(⟨3, OperatorType.CREATION_OP, 1⟩, ⟨7, OperatorType.ANNIHILATION_OP, 1⟩)] := by
  have hinj : Function.Injective Bench.exchange_table := by
    intro a b hab
    unfold Bench.exchange_table at hab
    split_ifs at hab <;> omega
  have h := global_update_true_postconditions (Bench.global_env 1) (Bench.stream [1 / 2]) 10
    Bench.global_config [1] () 2 Bench.exchange_table 1 0 hinj (by decide!) (by decide!)
  exact ⟨by decide!, h.1, by decide!⟩

/-! ## The operator transformers -/

/-- Counterexample to C26: with `beta = 10` the operator at time `3` shifted by `7` lands
at time `10`, which is not below `beta`: the sum `3 + 7` is computed without rounding,
does not exceed `beta` and is not reduced. -/
theorem operator_shift_counterexample :
    OperatorShift id 10 7 ⟨3, OperatorType.CREATION_OP, 0⟩
      = some ⟨10, OperatorType.CREATION_OP, 0⟩ ∧
    ¬ ((10 : ℚ) < 10) := by
  refine ⟨by decide!, by decide!⟩

/-- C26, amended.  Let the rounding `fl` of the arithmetic be monotone and leave `0`,
`beta` and `2 * beta` as they are.  For every shift with `0 ≤ shift ≤ beta` and every
operator whose time `t` lies in `[0, beta)`: `OperatorShift` returns (both assertions
hold) an operator with the same kind and flavor whose time is the computed sum
`t + shift`, reduced by `beta` when the computed sum exceeds `beta`; the new time lies in
the closed interval `[0, beta]`, and it is `beta` itself whenever the computed sum is
`beta`. -/
theorem operator_shift_time (fl : ℚ → ℚ) (beta shift : ℚ) (op : psi)
    (hmono : ∀ a b, a ≤ b → fl a ≤ fl b) (hfl0 : fl 0 = 0) (hflb : fl beta = beta)
    (hfl2b : fl (beta + beta) = beta + beta)
    (hs : 0 ≤ shift) (hs' : shift ≤ beta) (ht : 0 ≤ op.time) (ht' : op.time < beta) :
    ∃ op', OperatorShift fl beta shift op = some op' ∧
      op'.type = op.type ∧ op'.flavor = op.flavor ∧
      op'.time = (if fl (op.time + shift) > beta then fl (fl (op.time + shift) - beta)
        else fl (op.time + shift)) ∧
      0 ≤ op'.time ∧ op'.time ≤ beta ∧
      (fl (op.time + shift) = beta → op'.time = beta) := by
  have hsum0 : 0 ≤ fl (op.time + shift) := by
    rw [← hfl0]
    exact hmono _ _ (by linarith)
  have hsum2 : fl (op.time + shift) ≤ beta + beta := by
    rw [← hfl2b]
    exact hmono _ _ (by linarith)
  by_cases h : fl (op.time + shift) > beta
  · have hlo : 0 ≤ fl (fl (op.time + shift) - beta) := by
      rw [← hfl0]
      exact hmono _ _ (by linarith)
    have hhi : fl (fl (op.time + shift) - beta) ≤ beta := by
      rw [← hflb]
      exact hmono _ _ (by linarith)
    refine ⟨{ op with time := fl (fl (op.time + shift) - beta) }, ?_, rfl, rfl, ?_, hlo, hhi,
      ?_⟩
    · unfold OperatorShift
      rw [if_neg (not_not.mpr hs)]
      simp only [if_pos h]
      rw [if_neg (not_not.mpr ⟨hlo, hhi⟩)]
    · rw [if_pos h]
    · intro heq
      rw [heq] at h
      exact absurd h (lt_irrefl _)
  · have h' : fl (op.time + shift) ≤ beta := not_lt.mp h
    refine ⟨{ op with time := fl (op.time + shift) }, ?_, rfl, rfl, ?_, hsum0, h', ?_⟩
    · unfold OperatorShift
      rw [if_neg (not_not.mpr hs)]
      simp only [if_neg h]
      rw [if_neg (not_not.mpr ⟨hsum0, h'⟩)]
    · rw [if_neg h]
    · intro heq
      exact heq

/-- Witness of C26 (amended): in exact arithmetic the operator at time `8` shifted by `7`
wraps around to time `5`. -/
theorem operator_shift_time_witness :
    ∃ op', OperatorShift id 10 7 ⟨8, OperatorType.CREATION_OP, 0⟩ = some op' ∧
      op'.time = 5 ∧ 0 ≤ op'.time ∧ op'.time ≤ 10 := by
  obtain ⟨op', h1, _, _, h4, h5, h6, _⟩ := operator_shift_time id 10 7
    ⟨8, OperatorType.CREATION_OP, 0⟩ (fun _ _ h => h) rfl rfl rfl
    (by decide!) (by decide!) (by decide!) (by decide!)
  refine ⟨op', h1, ?_, h5, h6⟩
  rw [h4]
  decide!

/-! ## The determinant-ratio evaluator: forward and reverse ratios -/

/-- When no new pivot is skipped and no old pivot is zero, `compute_det_rat` is the
quotient of the two products. -/
theorem compute_det_rat_all_pass (det_vec_new det_vec_old : List ℚ) (eps M : ℚ)
    (hM1 : ∀ x ∈ det_vec_new, |x| ≤ M) (hM2 : ∃ x ∈ det_vec_new, |x| = M)
    (hM0 : M ≠ 0) (hpass : ∀ p ∈ det_vec_new, |p| / M > eps)
    (hold : ∀ x ∈ det_vec_old, x ≠ 0) :
    compute_det_rat det_vec_new det_vec_old eps
      = some (det_vec_new.prod / det_vec_old.prod) := by
  have h0 : ¬ (0 : ℚ) ∈ det_vec_old := fun h => hold 0 h rfl
  rw [compute_det_rat_formula det_vec_new det_vec_old eps M hM1 hM2, if_neg h0,
    List.filter_eq_self.mpr (fun p hp => decide_eq_true ⟨hM0, hpass p hp⟩)]

theorem prod_ne_zero_of_entries (l : List ℚ) (h : ∀ x ∈ l, x ≠ 0) : l.prod ≠ 0 := by
  induction l with
  | nil => simp
  | cons a l ih =>
    rw [List.prod_cons]
    exact mul_ne_zero (h a (List.mem_cons_self _ _))
      (ih (fun x hx => h x (List.mem_cons_of_mem _ hx)))

/-- Counterexample to C27: both sequences are non-empty with non-zero entries, but the
second entry of `a` is far below its first and is skipped when `a` is the new sequence,
while it is divided out when `a` is the old one: the two ratios multiply to `10 ^ 31`. -/
theorem forward_reverse_counterexample :
    compute_det_rat [1, 1 / 10 ^ 31] [1] default_eps = some 1 ∧
    compute_det_rat [1] [1, 1 / 10 ^ 31] default_eps = some (10 ^ 31) ∧
    (1 : ℚ) * 10 ^ 31 ≠ 1 := by
  refine ⟨by decide!, by decide!, by decide!⟩

/-- C27, amended.  Forward/reverse reproducibility of the pivot ratio: for all pivot
sequences `a` and `b` with only non-zero entries, with largest magnitudes `Ma` and `Mb`,
in which no pivot is skipped by the epsilon test (`|p| / Ma > eps` for every `p` of `a`,
and likewise for `b`), both ratios are defined and
`compute_det_rat(a, b) * compute_det_rat(b, a) = 1`. -/
theorem forward_reverse_reciprocal (a b : List ℚ) (eps Ma Mb : ℚ)
    (ha0 : ∀ x ∈ a, x ≠ 0) (hb0 : ∀ x ∈ b, x ≠ 0)
    (hMa1 : ∀ x ∈ a, |x| ≤ Ma) (hMa2 : ∃ x ∈ a, |x| = Ma)
    (hMb1 : ∀ x ∈ b, |x| ≤ Mb) (hMb2 : ∃ x ∈ b, |x| = Mb)
    (hpa : ∀ p ∈ a, |p| / Ma > eps) (hpb : ∀ p ∈ b, |p| / Mb > eps) :
    ∃ x y, compute_det_rat a b eps = some x ∧ compute_det_rat b a eps = some y ∧
      x * y = 1 := by
  have hMa0 : Ma ≠ 0 := by
    obtain ⟨x, hx, hxM⟩ := hMa2
    rw [← hxM]
    exact abs_ne_zero.mpr (ha0 x hx)
  have hMb0 : Mb ≠ 0 := by
    obtain ⟨x, hx, hxM⟩ := hMb2
    rw [← hxM]
    exact abs_ne_zero.mpr (hb0 x hx)
  refine ⟨_, _, compute_det_rat_all_pass a b eps Ma hMa1 hMa2 hMa0 hpa hb0,
    compute_det_rat_all_pass b a eps Mb hMb1 hMb2 hMb0 hpb ha0, ?_⟩
  have h1 := prod_ne_zero_of_entries a ha0
  have h2 := prod_ne_zero_of_entries b hb0
  field_simp

/-- Witness of C27 (amended): the sequences `[2, -3]` and `[5]`. -/
theorem forward_reverse_reciprocal_witness :
    ∃ x y, compute_det_rat [2, -3] [5] default_eps = some x ∧
      compute_det_rat [5] [2, -3] default_eps = some y ∧ x * y = 1 :=
  forward_reverse_reciprocal [2, -3] [5] default_eps 3 5 (by decide!) (by decide!)
    (by decide!) (by decide!) (by decide!) (by decide!) (by decide!) (by decide!)

/-! ## The diagonal strategy against the cross-flavor strategy -/

/-- With one block holding one flavor and all the pairs in that block, the cross-flavor
factors and the diagonal factors differ by the square of `update_rank!`. -/
theorem single_block_corrections (w : ℚ) (r n m : Nat) (num_flavors : Nat → Nat)
    (hf : num_flavors 0 = 1) :
    InsertionRemovalUpdater.insertion_correction w r 1 num_flavors [n] [m] [r]
      = (r.factorial : ℚ) ^ 2 * InsertionRemovalDiagonalUpdater.insertion_correction w r n m ∧
    InsertionRemovalDiagonalUpdater.removal_correction w r n m
      = (r.factorial : ℚ) ^ 2 *
        InsertionRemovalUpdater.removal_correction w r 1 num_flavors [n] [m] [r] := by
  have hr1 : List.range 1 = [0] := rfl
  have hfac : (r.factorial : ℚ) ≠ 0 := Nat.cast_ne_zero.mpr (Nat.factorial_ne_zero r)
  have hc1 : (((n + r).choose r : Nat) : ℚ) ≠ 0 :=
    Nat.cast_ne_zero.mpr (Nat.pos_iff_ne_zero.mp (Nat.choose_pos (Nat.le_add_left r n)))
  have hc2 : (((m + r).choose r : Nat) : ℚ) ≠ 0 :=
    Nat.cast_ne_zero.mpr (Nat.pos_iff_ne_zero.mp (Nat.choose_pos (Nat.le_add_left r m)))
  constructor
  · unfold InsertionRemovalUpdater.insertion_correction
      InsertionRemovalDiagonalUpdater.insertion_correction
    rw [hr1]
    simp only [List.foldl_cons, List.foldl_nil, List.getD_cons_zero, hf, Nat.cast_one, mul_one]
    by_cases h0 : r = 0
    · subst h0
      simp
    · rw [if_neg h0]
      field_simp
      ring
  · unfold InsertionRemovalUpdater.removal_correction
      InsertionRemovalDiagonalUpdater.removal_correction
    rw [hr1]
    simp only [List.foldl_cons, List.foldl_nil, List.getD_cons_zero, hf, Nat.cast_one, mul_one]
    by_cases h0 : r = 0
    · subst h0
      simp
    · rw [if_neg h0]
      by_cases hw : w ^ (2 * r) = 0
      · rw [hw]
        simp
      · field_simp
        ring

/-- With one block every pair of the insertion loop is counted in block `0`. -/
theorem insertion_loop_single_block {MS : Type} (mat : DeterminantMatrix MS)
    (open_random : OpenRandom) (rng : Random01) (M : MS) (tau_low tau_high : ℚ) :
    ∀ (n k0 : Nat) (cd c : List psi) (pos : Nat) (k' : List Nat) (cd' c' : List psi)
      (pos' : Nat),
      InsertionRemovalUpdater.insertion_loop mat open_random rng M tau_low tau_high
        n [k0] cd c pos = some (k', cd', c', pos') → k' = [k0 + n] := by
  intro n
  induction n with
  | zero =>
    intro k0 cd c pos k' cd' c' pos' h
    simp only [InsertionRemovalUpdater.insertion_loop, Option.some.injEq, Prod.mk.injEq] at h
    rw [← h.1]
    rfl
  | succ n ih =>
    intro k0 cd c pos k' cd' c' pos' h
    simp only [InsertionRemovalUpdater.insertion_loop] at h
    split at h
    · cases h
    · rename_i k1 hk1
      obtain ⟨h0, hlt, hlen, hget⟩ := increment_at_some _ _ _ hk1
      have hi0 : (static_cast_int (rng pos * (mat.num_blocks M : ℚ))).toNat = 0 := by
        simpa using hlt
      have hk1' : k1 = [k0 + 1] := by
        cases k1 with
        | nil => simp at hlen
        | cons a l =>
          cases l with
          | nil =>
            have := hget 0
            simp only [List.getD_cons_zero, hi0, if_true] at this
            rw [this]
          | cons b l => simp at hlen
      subst hk1'
      split at h
      · cases h
      · split at h
        · cases h
        · have := ih _ _ _ _ _ _ _ _ h
          rw [this]
          congr 1
          omega

/-- With one block every pair to remove is counted in block `0`. -/
theorem removal_blocks_single_block (rng : Random01) (num_blocks : Nat) :
    ∀ (n k0 pos : Nat) (k' : List Nat) (pos' : Nat),
      InsertionRemovalUpdater.removal_blocks rng num_blocks n [k0] pos = some (k', pos') →
      k' = [k0 + n] := by
  intro n
  induction n with
  | zero =>
    intro k0 pos k' pos' h
    simp only [InsertionRemovalUpdater.removal_blocks, Option.some.injEq, Prod.mk.injEq] at h
    rw [← h.1]
    rfl
  | succ n ih =>
    intro k0 pos k' pos' h
    simp only [InsertionRemovalUpdater.removal_blocks] at h
    split at h
    · cases h
    · rename_i k1 hk1
      obtain ⟨h0, hlt, hlen, hget⟩ := increment_at_some _ _ _ hk1
      have hi0 : (static_cast_int (rng pos * (num_blocks : ℚ))).toNat = 0 := by
        simpa using hlt
      have hk1' : k1 = [k0 + 1] := by
        cases k1 with
        | nil => simp at hlen
        | cons a l =>
          cases l with
          | nil =>
            have := hget 0
            simp only [List.getD_cons_zero, hi0, if_true] at this
            rw [this]
          | cons b l => simp at hlen
      subst hk1'
      have := ih _ _ _ _ h
      rw [this]
      congr 1
      omega
/-- The two branches of `InsertionRemovalUpdater::propose`. -/
theorem cross_propose_branches {MS W : Type} (mat : DeterminantMatrix MS)
    (win : SlidingWindow W) (open_random : OpenRandom) (fuel : Nat) (rng : Random01)
    (pos : Nat) (u : LocalUpdater InsertionRemovalUpdater) (cfg : MonteCarloConfiguration MS)
    (w : W) (p : Proposal InsertionRemovalUpdater MS)
    (h : InsertionRemovalUpdater.propose mat win open_random fuel rng pos u cfg w = some p) :
    ∃ u' : LocalUpdater InsertionRemovalUpdater,
      u'.cdagg_ops_rem_ = u.cdagg_ops_rem_ ∧ u'.c_ops_rem_ = u.c_ops_rem_ ∧
      u'.cdagg_ops_add_ = u.cdagg_ops_add_ ∧ u'.c_ops_add_ = u.c_ops_add_ ∧
      u'.derived.update_rank_ = u.derived.update_rank_ ∧
      u'.derived.tau_low_ = win.get_tau_low w ∧ u'.derived.tau_high_ = win.get_tau_high w ∧
      u'.derived.cdagg_ops_range_ = (List.range (mat.num_blocks cfg.M)).map
        (fun ib => (mat.get_cdagg_ops_set cfg.M ib).range (win.get_tau_low w)
          (win.get_tau_high w)) ∧
      u'.derived.c_ops_range_ = (List.range (mat.num_blocks cfg.M)).map
        (fun ib => (mat.get_c_ops_set cfg.M ib).range (win.get_tau_low w)
          (win.get_tau_high w)) ∧
      u'.derived.num_cdagg_ops_in_range_ = u'.derived.cdagg_ops_range_.map List.length ∧
      u'.derived.num_c_ops_in_range_ = u'.derived.c_ops_range_.map List.length ∧
      ((rng pos < 1 / 2 ∧
          InsertionRemovalUpdater.propose_insertion mat open_random rng (pos + 1) u' cfg
            = some p) ∨
        (¬ rng pos < 1 / 2 ∧
          InsertionRemovalUpdater.propose_removal mat fuel rng (pos + 1) u' cfg = some p)) := by
  unfold InsertionRemovalUpdater.propose at h
  simp only [] at h
  refine ⟨{ u with derived :=
    { u.derived with
      tau_low_ := win.get_tau_low w
      tau_high_ := win.get_tau_high w
      num_cdagg_ops_in_range_ := ((List.range (mat.num_blocks cfg.M)).map
        (fun ib => (mat.get_cdagg_ops_set cfg.M ib).range (win.get_tau_low w)
          (win.get_tau_high w))).map List.length
      num_c_ops_in_range_ := ((List.range (mat.num_blocks cfg.M)).map
        (fun ib => (mat.get_c_ops_set cfg.M ib).range (win.get_tau_low w)
          (win.get_tau_high w))).map List.length
      cdagg_ops_range_ := (List.range (mat.num_blocks cfg.M)).map
        (fun ib => (mat.get_cdagg_ops_set cfg.M ib).range (win.get_tau_low w)
          (win.get_tau_high w))
      c_ops_range_ := (List.range (mat.num_blocks cfg.M)).map
        (fun ib => (mat.get_c_ops_set cfg.M ib).range (win.get_tau_low w)
          (win.get_tau_high w)) } },
    rfl, rfl, rfl, rfl, rfl, rfl, rfl, rfl, rfl, rfl, rfl, ?_⟩
  by_cases hc : rng pos < 1 / 2
  · rw [if_pos hc] at h
    exact Or.inl ⟨hc, h⟩
  · rw [if_neg hc] at h
    exact Or.inr ⟨hc, h⟩

/-- What `propose_removal` returns. -/
theorem propose_removal_some {MS : Type} (mat : DeterminantMatrix MS) (fuel : Nat)
    (rng : Random01) (pos : Nat) (u : LocalUpdater InsertionRemovalUpdater)
    (cfg : MonteCarloConfiguration MS) (p : Proposal InsertionRemovalUpdater MS)
    (h : InsertionRemovalUpdater.propose_removal mat fuel rng pos u cfg = some p) :
    ∃ k' pos1,
      InsertionRemovalUpdater.removal_blocks rng (mat.num_blocks cfg.M)
        u.derived.update_rank_ (List.replicate (mat.num_blocks cfg.M) 0) pos
        = some (k', pos1) ∧
      ((p.valid = false ∧ p = Proposal.of false u cfg pos1) ∨
        (p.valid = true ∧
          (∀ ib, ib < mat.num_blocks cfg.M →
            k'.getD ib 0 ≤ u.derived.num_cdagg_ops_in_range_.getD ib 0 ∧
            k'.getD ib 0 ≤ u.derived.num_c_ops_in_range_.getD ib 0) ∧
          ∃ cd c pos2,
            InsertionRemovalUpdater.removal_loop fuel rng u.derived k'
              (List.range (mat.num_blocks cfg.M)) u.cdagg_ops_rem_ u.c_ops_rem_ pos1
              = some (cd, c, pos2) ∧
            p.cdagg_ops_rem_ = cd ∧ p.c_ops_rem_ = c ∧
            p.cdagg_ops_add_ = u.cdagg_ops_add_ ∧ p.c_ops_add_ = u.c_ops_add_ ∧
            p.mc_config = cfg ∧
            p.acceptance_rate_correction_ = some
              (InsertionRemovalUpdater.removal_correction
                (u.derived.tau_high_ - u.derived.tau_low_) u.derived.update_rank_
                (mat.num_blocks cfg.M) (mat.num_flavors cfg.M)
                u.derived.num_cdagg_ops_in_range_ u.derived.num_c_ops_in_range_ k'))) := by
  unfold InsertionRemovalUpdater.propose_removal at h
  simp only [] at h
  split at h
  · cases h
  · rename_i k' pos1 hk
    refine ⟨k', pos1, hk, ?_⟩
    by_cases hg : ((List.range (mat.num_blocks cfg.M)).any (fun ib =>
        decide (u.derived.num_cdagg_ops_in_range_.getD ib 0 < k'.getD ib 0)
          || decide (u.derived.num_c_ops_in_range_.getD ib 0 < k'.getD ib 0))) = true
    · rw [if_pos hg] at h
      cases h
      exact Or.inl ⟨rfl, rfl⟩
    · rw [if_neg hg] at h
      split at h
      · cases h
      · rename_i cd c pos2 hl
        cases h
        refine Or.inr ⟨rfl, ?_, cd, c, pos2, hl, rfl, rfl, rfl, rfl, rfl, rfl⟩
        intro ib hib
        have hg' := hg
        simp only [List.any_eq_true, List.mem_range, Bool.or_eq_true, decide_eq_true_eq,
          not_exists, not_and, not_or, not_lt] at hg'
        exact hg' ib hib

/-- What `InsertionRemovalDiagonalUpdater::propose` returns when it returns true. -/
theorem diagonal_propose_true {MS W : Type} (mat : DeterminantMatrix MS)
    (win : SlidingWindow W) (open_random : OpenRandom) (fuel : Nat) (rng : Random01)
    (pos : Nat) (u : LocalUpdater InsertionRemovalDiagonalUpdater)
    (cfg : MonteCarloConfiguration MS) (w : W)
    (p : Proposal InsertionRemovalDiagonalUpdater MS)
    (flavor : Nat)
    (hflavor : flavor = (static_cast_int (rng pos * (u.derived.num_flavors_ : ℚ))).toNat)
    (cd_range : List psi)
    (hcd : cd_range = ((mat.get_cdagg_ops_set cfg.M (mat.block_belonging_to cfg.M flavor)).range
      (win.get_tau_low w) (win.get_tau_high w)).filter (fun op => decide (op.flavor = flavor)))
    (c_range : List psi)
    (hc : c_range = ((mat.get_c_ops_set cfg.M (mat.block_belonging_to cfg.M flavor)).range
      (win.get_tau_low w) (win.get_tau_high w)).filter (fun op => decide (op.flavor = flavor)))
    (h : InsertionRemovalDiagonalUpdater.propose mat win open_random fuel rng pos u cfg w
      = some p)
    (hv : p.valid = true) :
    p.mc_config = cfg ∧
    ((rng (pos + 1) < 1 / 2 ∧
        p.cdagg_ops_rem_ = u.cdagg_ops_rem_ ∧ p.c_ops_rem_ = u.c_ops_rem_ ∧
        p.cdagg_ops_add_ = (InsertionRemovalDiagonalUpdater.insertion_loop open_random rng
          (win.get_tau_low w) (win.get_tau_high w) flavor u.derived.update_rank_
          u.cdagg_ops_add_ u.c_ops_add_ (pos + 2)).1.insertionSort (· ≤ ·) ∧
        p.c_ops_add_ = (InsertionRemovalDiagonalUpdater.insertion_loop open_random rng
          (win.get_tau_low w) (win.get_tau_high w) flavor u.derived.update_rank_
          u.cdagg_ops_add_ u.c_ops_add_ (pos + 2)).2.1.insertionSort (· ≤ ·) ∧
        p.acceptance_rate_correction_ = some
          (InsertionRemovalDiagonalUpdater.insertion_correction
            (win.get_tau_high w - win.get_tau_low w) u.derived.update_rank_
            cd_range.length c_range.length)) ∨
      (¬ rng (pos + 1) < 1 / 2 ∧
        u.derived.update_rank_ ≤ cd_range.length ∧ u.derived.update_rank_ ≤ c_range.length ∧
        p.cdagg_ops_add_ = u.cdagg_ops_add_ ∧ p.c_ops_add_ = u.c_ops_add_ ∧
        (∃ idx_c pos1 idx_a pos2 rem_c rem_a,
          pickup_a_few_numbers fuel cd_range.length u.derived.update_rank_ rng (pos + 2)
            = some (idx_c, pos1) ∧
          pickup_a_few_numbers fuel c_range.length u.derived.update_rank_ rng pos1
            = some (idx_a, pos2) ∧
          InsertionRemovalDiagonalUpdater.removal_pick cd_range c_range idx_c idx_a
            u.cdagg_ops_rem_ u.c_ops_rem_ = some (rem_c, rem_a) ∧
          p.cdagg_ops_rem_ = rem_c.insertionSort (· ≤ ·) ∧
          p.c_ops_rem_ = rem_a.insertionSort (· ≤ ·)) ∧
        p.acceptance_rate_correction_ = some
          (InsertionRemovalDiagonalUpdater.removal_correction
            (win.get_tau_high w - win.get_tau_low w) u.derived.update_rank_
            cd_range.length c_range.length))) := by
  subst hflavor hcd hc
  unfold InsertionRemovalDiagonalUpdater.propose at h
  simp only [] at h
  by_cases hcoin : rng (pos + 1) < 1 / 2
  · rw [if_pos hcoin] at h
    split at h
    · cases h
    · cases h
      exact ⟨rfl, Or.inl ⟨hcoin, rfl, rfl, rfl, rfl, rfl⟩⟩
  · rw [if_neg hcoin] at h
    split_ifs at h with hg
    · cases h
      cases hv
    · split at h
      · cases h
      · rename_i idx_c pos1 h1
        split at h
        · cases h
        · rename_i idx_a pos2 h2
          split at h
          · cases h
          · rename_i rem_c rem_a h3
            split at h
            · cases h
            · cases h
              simp only [Bool.or_eq_true, decide_eq_true_eq, not_or, not_lt] at hg
              exact ⟨rfl, Or.inr ⟨hcoin, hg.1, hg.2, rfl, rfl,
                ⟨idx_c, pos1, idx_a, pos2, rem_c, rem_a, h1, h2, h3, rfl, rfl⟩, rfl⟩⟩
/-- The correction factors of the two strategies for a model with a single block holding
the single flavor `0`: when the cross-flavor strategy and the diagonal strategy both
return true from the same branch (insertion or removal) on the same configuration and
window, the cross-flavor insertion factor is `(update_rank!)^2` times the diagonal one,
and the diagonal removal factor is `(update_rank!)^2` times the cross-flavor one; they
are equal for `update_rank = 1`. -/
theorem single_flavor_corrections_differ {MS W : Type} (mat : DeterminantMatrix MS)
    (win : SlidingWindow W) (open_random : OpenRandom) (fuel : Nat)
    (rng1 : Random01) (pos1 : Nat) (rng2 : Random01) (pos2 : Nat)
    (uc : LocalUpdater InsertionRemovalUpdater)
    (ud : LocalUpdater InsertionRemovalDiagonalUpdater)
    (cfg : MonteCarloConfiguration MS) (w : W)
    (pc : Proposal InsertionRemovalUpdater MS)
    (pd : Proposal InsertionRemovalDiagonalUpdater MS)
    (hblocks : mat.num_blocks cfg.M = 1) (hnf : mat.num_flavors cfg.M 0 = 1)
    (hb0 : mat.block_belonging_to cfg.M 0 = 0)
    (hfl_cd : ∀ op ∈ (mat.get_cdagg_ops_set cfg.M 0).elems, op.flavor = 0)
    (hfl_c : ∀ op ∈ (mat.get_c_ops_set cfg.M 0).elems, op.flavor = 0)
    (hud : ud.derived.num_flavors_ = 1)
    (hrank : ud.derived.update_rank_ = uc.derived.update_rank_)
    (hr : 0 ≤ rng2 pos2 ∧ rng2 pos2 < 1)
    (hpc : InsertionRemovalUpdater.propose mat win open_random fuel rng1 pos1 uc cfg w
      = some pc)
    (hvc : pc.valid = true)
    (hpd : InsertionRemovalDiagonalUpdater.propose mat win open_random fuel rng2 pos2 ud cfg w
      = some pd)
    (hvd : pd.valid = true)
    (hsame : rng1 pos1 < 1 / 2 ↔ rng2 (pos2 + 1) < 1 / 2) :
    ∃ cc cd, pc.acceptance_rate_correction_ = some cc ∧
      pd.acceptance_rate_correction_ = some cd ∧
      (rng1 pos1 < 1 / 2 → cc = (uc.derived.update_rank_.factorial : ℚ) ^ 2 * cd) ∧
      (¬ rng1 pos1 < 1 / 2 → cd = (uc.derived.update_rank_.factorial : ℚ) ^ 2 * cc) ∧
      (uc.derived.update_rank_ = 1 → cc = cd) := by
  have hfl0 : (static_cast_int (rng2 pos2 * (ud.derived.num_flavors_ : ℚ))).toNat = 0 := by
    rw [hud]
    have := (static_cast_int_bounds (rng2 pos2) 1 hr.1 hr.2 Nat.one_pos).2
    omega
  have hfilter : ∀ (c : operator_container_t), (∀ op ∈ c.elems, op.flavor = 0) →
      (c.range (win.get_tau_low w) (win.get_tau_high w)).filter
        (fun op => decide (op.flavor = 0))
        = c.range (win.get_tau_low w) (win.get_tau_high w) := by
    intro c hc
    apply List.filter_eq_self.mpr
    intro op hop
    exact decide_eq_true (hc op (List.mem_of_mem_filter hop))
  obtain ⟨hcfg, hd⟩ := diagonal_propose_true mat win open_random fuel rng2 pos2 ud cfg w pd
    0 hfl0.symm _ rfl _ rfl hpd hvd
  rw [hb0, hfilter _ hfl_cd, hfilter _ hfl_c, hrank] at hd
  obtain ⟨u', _, _, _, _, hur, hlo, hhi, hcdr, hcr, hncd, hnc, hbr⟩ :=
    cross_propose_branches mat win open_random fuel rng1 pos1 uc cfg w pc hpc
  have hr1 : List.range 1 = [0] := rfl
  rw [hblocks, hr1] at hcdr hcr
  rw [hcdr] at hncd
  rw [hcr] at hnc
  simp only [List.map_cons, List.map_nil] at hncd hnc
  have hsb := single_block_corrections (win.get_tau_high w - win.get_tau_low w)
    uc.derived.update_rank_
    ((mat.get_cdagg_ops_set cfg.M 0).range (win.get_tau_low w) (win.get_tau_high w)).length
    ((mat.get_c_ops_set cfg.M 0).range (win.get_tau_low w) (win.get_tau_high w)).length
    (mat.num_flavors cfg.M) hnf
  have hfac1 : uc.derived.update_rank_ = 1 →
      ((uc.derived.update_rank_.factorial : ℚ)) ^ 2 = 1 := by
    intro h1
    rw [h1]
    simp
  rcases hbr with ⟨hcoin, hins⟩ | ⟨hcoin, hrem⟩
  · obtain ⟨k', cd', c', pos', hloop, _, _, hcorr⟩ :=
      propose_insertion_some mat open_random rng1 (pos1 + 1) u' cfg pc hins
    rw [hblocks] at hloop hcorr
    have hk := insertion_loop_single_block mat open_random rng1 cfg.M _ _ _ _ _ _ _ _ _ _ _
      hloop
    rw [hk, hlo, hhi, hur, hncd, hnc, Nat.zero_add] at hcorr
    rcases hd with ⟨_, _, _, _, _, hdc⟩ | ⟨hn, _⟩
    · refine ⟨_, _, hcorr, hdc, fun _ => hsb.1, fun h => absurd hcoin h, fun h1 => ?_⟩
      rw [hsb.1, hfac1 h1, one_mul]
    · exact absurd (hsame.mp hcoin) hn
  · obtain ⟨k', pos1', hblk, hcase⟩ := propose_removal_some mat fuel rng1 (pos1 + 1) u' cfg pc
      hrem
    rcases hcase with ⟨hf, _⟩ | ⟨_, _, cd', c', pos2', _, _, _, _, _, _, hcorr⟩
    · rw [hvc] at hf
      cases hf
    · rw [hblocks] at hblk hcorr
      have hk := removal_blocks_single_block rng1 1 _ _ _ _ _ hblk
      rw [hk, hlo, hhi, hur, hncd, hnc, Nat.zero_add] at hcorr
      rcases hd with ⟨hy, _⟩ | ⟨_, _, _, _, _, _, hdc⟩
      · exact absurd (hsame.mpr hy) hcoin
      · refine ⟨_, _, hcorr, hdc, fun h => absurd h hcoin, fun _ => hsb.2, fun h1 => ?_⟩
        rw [hsb.2, hfac1 h1, one_mul]

/-- C22, on the code: one block with one flavor, the window `[0, 10]` without operators,
`update_rank = 2`.  The insertion branch of the cross-flavor strategy computes the factor
`10 ^ 4 * 2! = 2 * 10 ^ 4` (line 592 multiplies by the factorial, as the formula of the
specification does), the insertion branch of the diagonal strategy computes
`10 ^ 4 / 2! = 10 ^ 4 / 2` (line 744 divides by the factorial): the diagonal strategy is
not the cross-flavor strategy restricted to one flavor. -/
theorem diagonal_divides_by_factorial :
    (InsertionRemovalUpdater.propose (Bench.matrix 1) Bench.window Bench.open_random 8
        (Bench.stream [1 / 4, 0, 1 / 10, 0, 2 / 10, 0, 0, 3 / 10, 0, 4 / 10, 0]) 0
        { Bench.insertion_updater with
          derived := { Bench.insertion_updater.derived with update_rank_ := 2 } }
        Bench.empty_config ()).map Proposal.acceptance_rate_correction_
      = some (some (2 * 10 ^ 4)) ∧
    (InsertionRemovalDiagonalUpdater.propose (Bench.matrix 1) Bench.window
        Bench.open_random 8 (Bench.stream [0, 1 / 4, 1 / 10, 2 / 10, 3 / 10, 4 / 10]) 0
        { Bench.diagonal_updater with
          derived := { Bench.diagonal_updater.derived with update_rank_ := 2 } }
        Bench.empty_config ()).map Proposal.acceptance_rate_correction_
      = some (some (10 ^ 4 / 2)) ∧
    (2 * 10 ^ 4 : ℚ) ≠ 10 ^ 4 / 2 := by
  refine ⟨by decide!, by decide!, by decide!⟩

/-! ## Picking a few numbers -/

/-- The rejection loop returns an index whose flag is not set. -/
theorem pickup_draw_some (rng : Random01) (N : Nat) (flag : List Nat) :
    ∀ (fuel pos i pos' : Nat), pickup_draw rng N flag fuel pos = some (i, pos') →
      flag[i]? = some 0 := by
  intro fuel
  induction fuel with
  | zero =>
    intro pos i pos' h
    simp [pickup_draw] at h
  | succ fuel ih =>
    intro pos i pos' h
    simp only [pickup_draw] at h
    split at h
    · cases h
    · rename_i f hf
      obtain ⟨_, _, hget⟩ := at_index_some _ _ _ hf
      by_cases h0 : f = 0
      · rw [if_pos h0] at h
        cases h
        rw [← List.get?_eq_getElem?, hget, h0]
      · rw [if_neg h0] at h
        exact ih _ _ _ h

/-- The state of the loop of `pickup_a_few_numbers`: the entries found so far are
pairwise distinct indices below `N` whose flags are set. -/
theorem pickup_loop_spec (rng : Random01) (fuel N : Nat) :
    ∀ (n : Nat) (flag list : List Nat) (pos : Nat) (list' : List Nat) (pos' : Nat),
      flag.length = N → list.Nodup → (∀ i ∈ list, flag[i]? = some 1) →
      pickup_loop rng fuel N n flag list pos = some (list', pos') →
      list'.length = list.length + n ∧ list'.Nodup ∧ (∀ i ∈ list', i < N) := by
  intro n
  induction n with
  | zero =>
    intro flag list pos list' pos' hlen hnd hflag h
    simp only [pickup_loop, Option.some.injEq, Prod.mk.injEq] at h
    rw [← h.1]
    refine ⟨rfl, hnd, fun i hi => ?_⟩
    have := hflag i hi
    rw [← hlen]
    by_contra hge
    rw [List.getElem?_eq_none (not_lt.mp hge)] at this
    cases this
  | succ n ih =>
    intro flag list pos list' pos' hlen hnd hflag h
    simp only [pickup_loop] at h
    split at h
    · cases h
    · rename_i itmp pos1 hd
      have h0 := pickup_draw_some rng N flag _ _ _ _ hd
      have hlt : itmp < flag.length := by
        by_contra hge
        rw [List.getElem?_eq_none (not_lt.mp hge)] at h0
        cases h0
      have hnotin : itmp ∉ list := by
        intro hin
        have := hflag itmp hin
        rw [h0] at this
        cases this
      obtain ⟨h1, h2, h3⟩ := ih (flag.set itmp 1) (list ++ [itmp]) pos1 list' pos'
        (by rw [List.length_set]; exact hlen)
        (List.nodup_append.mpr ⟨hnd, List.nodup_singleton _, by
          intro a ha hb
          rw [List.mem_singleton] at hb
          exact hnotin (hb ▸ ha)⟩)
        (by
          intro i hi
          rw [List.getElem?_set]
          rcases List.mem_append.mp hi with hi | hi
          · by_cases he : itmp = i
            · rw [if_pos he, if_pos hlt]
            · rw [if_neg he]
              exact hflag i hi
          · rw [List.mem_singleton] at hi
            rw [if_pos hi.symm, if_pos hlt])
        h
      refine ⟨?_, h2, h3⟩
      rw [h1, List.length_append, List.length_singleton]
      omega

/-- Pairwise distinct numbers below `N` are at most `N`. -/
theorem length_le_of_nodup_lt (l : List Nat) (N : Nat) (hnd : l.Nodup)
    (hlt : ∀ i ∈ l, i < N) : l.length ≤ N := by
  rw [← List.toFinset_card_of_nodup hnd, ← Finset.card_range N]
  apply Finset.card_le_card
  intro i hi
  exact Finset.mem_range.mpr (hlt i (List.mem_toFinset.mp hi))

/-- While no more iterations remain than flags are unset, every entry into the rejection
loop finds an unset flag. -/
theorem rejection_loop_free (rng : Random01) (fuel N : Nat) :
    ∀ (n : Nat) (flag : List Nat) (pos : Nat), n ≤ flag.count 0 →
      rejection_loop_has_free_index rng fuel N n flag pos := by
  intro n
  induction n with
  | zero =>
    intro flag pos _
    trivial
  | succ n ih =>
    intro flag pos hn
    refine ⟨List.count_pos_iff.mp (by omega), ?_⟩
    split
    · trivial
    · rename_i itmp pos1 hd
      have h0 := pickup_draw_some rng N flag _ _ _ _ hd
      have hlt : itmp < flag.length := by
        by_contra hge
        rw [List.getElem?_eq_none (not_lt.mp hge)] at h0
        cases h0
      apply ih
      rw [List.count_set _ _ _ _ hlt]
      have hi : flag[itmp] = 0 := by
        rw [List.getElem?_eq_getElem hlt] at h0
        exact Option.some.inj h0
      simp only [hi, beq_self_eq_true, if_true]
      have : ((1 : Nat) == 0) = false := rfl
      simp only [this, Bool.false_eq_true, if_false]
      omega
/-- C25. Whenever `pickup_a_few_numbers(N, n, rng)` returns, the result has exactly `n`
entries, every entry lies in `{0, ..., N-1}` and the entries are pairwise distinct (so it
returns only if `n ≤ N`); for `n ≤ N` every entry into its rejection loop finds an index
that is not taken yet.  In the removal branches of `InsertionRemovalUpdater` and
`InsertionRemovalDiagonalUpdater` the guard on the in-window counts precedes the calls:
either `propose` returns false before drawing any index, or every call has `n ≤ N`. -/
theorem pickup_a_few_numbers_spec (fuel N n : Nat) (rng : Random01) (pos : Nat) :
    (∀ list pos', pickup_a_few_numbers fuel N n rng pos = some (list, pos') →
      list.length = n ∧ (∀ i ∈ list, i < N) ∧ list.Nodup ∧ n ≤ N) ∧
    (n ≤ N → rejection_loop_has_free_index rng fuel N n (List.replicate N 0) pos) ∧
    (∀ (MS : Type) (mat : DeterminantMatrix MS) (u : LocalUpdater InsertionRemovalUpdater)
        (cfg : MonteCarloConfiguration MS) (num_pairs_rem : List Nat) (pos1 : Nat),
      InsertionRemovalUpdater.removal_blocks rng (mat.num_blocks cfg.M)
        u.derived.update_rank_ (List.replicate (mat.num_blocks cfg.M) 0) pos
        = some (num_pairs_rem, pos1) →
      InsertionRemovalUpdater.propose_removal mat fuel rng pos u cfg
        = some (Proposal.of false u cfg pos1) ∨
      ∀ ib, ib < mat.num_blocks cfg.M →
        num_pairs_rem.getD ib 0 ≤ u.derived.num_cdagg_ops_in_range_.getD ib 0 ∧
        num_pairs_rem.getD ib 0 ≤ u.derived.num_c_ops_in_range_.getD ib 0) ∧
    (∀ (MS W : Type) (mat : DeterminantMatrix MS) (win : SlidingWindow W)
        (open_random : OpenRandom) (u : LocalUpdater InsertionRemovalDiagonalUpdater)
        (cfg : MonteCarloConfiguration MS) (w : W),
      ¬ rng (pos + 1) < 1 / 2 →
      (∃ p, InsertionRemovalDiagonalUpdater.propose mat win open_random fuel rng pos u cfg w
          = some p ∧ p.valid = false ∧ p.rng_pos = pos + 2) ∨
      (u.derived.update_rank_ ≤
          (((mat.get_cdagg_ops_set cfg.M (mat.block_belonging_to cfg.M
              (static_cast_int (rng pos * (u.derived.num_flavors_ : ℚ))).toNat)).range
            (win.get_tau_low w) (win.get_tau_high w)).filter (fun op => decide (op.flavor =
              (static_cast_int (rng pos * (u.derived.num_flavors_ : ℚ))).toNat))).length ∧
        u.derived.update_rank_ ≤
          (((mat.get_c_ops_set cfg.M (mat.block_belonging_to cfg.M
              (static_cast_int (rng pos * (u.derived.num_flavors_ : ℚ))).toNat)).range
            (win.get_tau_low w) (win.get_tau_high w)).filter (fun op => decide (op.flavor =
              (static_cast_int (rng pos * (u.derived.num_flavors_ : ℚ))).toNat))).length)) := by
  have hspec : ∀ list pos', pickup_a_few_numbers fuel N n rng pos = some (list, pos') →
      list.length = n ∧ (∀ i ∈ list, i < N) ∧ list.Nodup ∧ n ≤ N := by
    intro list pos' h
    obtain ⟨h1, h2, h3⟩ := pickup_loop_spec rng fuel N n (List.replicate N 0) [] pos list pos'
      (List.length_replicate _ _) List.nodup_nil (fun i hi => nomatch hi) h
    have hlen : list.length = n := by simpa using h1
    exact ⟨hlen, h3, h2, hlen ▸ length_le_of_nodup_lt list N h2 h3⟩
  refine ⟨hspec, fun hn => ?_, ?_, ?_⟩
  · apply rejection_loop_free
    rw [List.count_replicate_self]
    exact hn
  · intro MS mat u cfg num_pairs_rem pos1 hblk
    unfold InsertionRemovalUpdater.propose_removal
    simp only [hblk]
    by_cases hg : ((List.range (mat.num_blocks cfg.M)).any (fun ib =>
        decide (u.derived.num_cdagg_ops_in_range_.getD ib 0 < num_pairs_rem.getD ib 0)
          || decide (u.derived.num_c_ops_in_range_.getD ib 0 < num_pairs_rem.getD ib 0)))
        = true
    · rw [if_pos hg]
      exact Or.inl rfl
    · right
      intro ib hib
      simp only [List.any_eq_true, List.mem_range, Bool.or_eq_true, decide_eq_true_eq,
        not_exists, not_and, not_or, not_lt] at hg
      exact hg ib hib
  · intro MS W mat win open_random u cfg w hcoin
    by_cases hg : (((mat.get_cdagg_ops_set cfg.M (mat.block_belonging_to cfg.M
              (static_cast_int (rng pos * (u.derived.num_flavors_ : ℚ))).toNat)).range
            (win.get_tau_low w) (win.get_tau_high w)).filter (fun op => decide (op.flavor =
              (static_cast_int (rng pos * (u.derived.num_flavors_ : ℚ))).toNat))).length
          < u.derived.update_rank_ ∨
        (((mat.get_c_ops_set cfg.M (mat.block_belonging_to cfg.M
              (static_cast_int (rng pos * (u.derived.num_flavors_ : ℚ))).toNat)).range
            (win.get_tau_low w) (win.get_tau_high w)).filter (fun op => decide (op.flavor =
              (static_cast_int (rng pos * (u.derived.num_flavors_ : ℚ))).toNat))).length
          < u.derived.update_rank_
    · left
      unfold InsertionRemovalDiagonalUpdater.propose
      simp only [if_neg hcoin]
      rw [if_pos (by simpa using hg)]
      exact ⟨_, rfl, rfl, rfl⟩
    · right
      simp only [not_or, not_lt] at hg
      exact hg

/-- Witness of C25: three of five numbers, drawn from a stream that hits the index `1`
twice. -/
theorem pickup_a_few_numbers_spec_witness :
    pickup_a_few_numbers 4 5 3 (Bench.stream [1 / 4, 1 / 4, 9 / 10, 0]) 0
      = some ([1, 4, 0], 4) ∧
    [1, 4, 0].length = 3 ∧ (∀ i ∈ [1, 4, 0], i < 5) ∧ [1, 4, 0].Nodup ∧
    rejection_loop_has_free_index (Bench.stream [1 / 4, 1 / 4, 9 / 10, 0]) 4 5 3
      (List.replicate 5 0) 0 := by
  have h := pickup_a_few_numbers_spec 4 5 3 (Bench.stream [1 / 4, 1 / 4, 9 / 10, 0]) 0
  have hrun : pickup_a_few_numbers 4 5 3 (Bench.stream [1 / 4, 1 / 4, 9 / 10, 0]) 0
      = some ([1, 4, 0], 4) := by decide!
  obtain ⟨h1, h2, h3, _⟩ := h.1 _ _ hrun
  exact ⟨hrun, h1, h2, h3, h.2.1 (by decide)⟩

/-! ## The shift proposal: what `propose` returns -/

/-- The body shared by the two branches of the shift proposal. -/
theorem shift_branch_spec {MS : Type} (mat : DeterminantMatrix MS)
    (cfg : MonteCarloConfiguration MS) (tau_low tau_high : ℚ)
    (d : SingleOperatorShiftUpdater) (it : psi) (kind : OperatorType) (rng : Random01)
    (pos : Nat) (res : Option (psi × psi)) (d' : SingleOperatorShiftUpdater) (pos' : Nat)
    (h : SingleOperatorShiftUpdater.shift_branch mat cfg tau_low tau_high d it kind rng pos
      = some (res, d', pos')) :
    ∃ new_flavor max_distance q,
      (new_flavor = it.flavor ∨
        new_flavor ∈ mat.flavors cfg.M (mat.block_belonging_to cfg.M it.flavor)) ∧
      (q = pos + 1 ∨ q = pos + 2) ∧
      d.max_distance_.get? it.flavor = some max_distance ∧
      ((((2 * rng q - 1) * max_distance + it.time < tau_low ∨
            (2 * rng q - 1) * max_distance + it.time > tau_high) ∧ res = none) ∨
        (¬ ((2 * rng q - 1) * max_distance + it.time < tau_low ∨
            (2 * rng q - 1) * max_distance + it.time > tau_high) ∧
          res = some (it, psi.mk ((2 * rng q - 1) * max_distance + it.time) kind
            new_flavor))) := by
  unfold SingleOperatorShiftUpdater.shift_branch at h
  simp only [] at h
  split at h
  · cases h
  · rename_i new_flavor q hnf
    have hnf' : (new_flavor = it.flavor ∨
        new_flavor ∈ mat.flavors cfg.M (mat.block_belonging_to cfg.M it.flavor)) ∧
        (q = pos + 1 ∨ q = pos + 2) := by
      by_cases hc : rng pos < 1 / 2
      · rw [if_pos hc] at hnf
        cases hnf
        exact ⟨Or.inl rfl, Or.inl rfl⟩
      · rw [if_neg hc] at hnf
        unfold SingleOperatorShiftUpdater.gen_new_flavor at hnf
        obtain ⟨hmem, hq⟩ := pick_some _ _ _ _ _ hnf
        exact ⟨Or.inr hmem, Or.inr hq⟩
    split at h
    · cases h
    · rename_i md hmd
      refine ⟨new_flavor, md, q, hnf'.1, hnf'.2, hmd, ?_⟩
      by_cases hout : (2 * rng q - 1) * md + it.time < tau_low ∨
          (2 * rng q - 1) * md + it.time > tau_high
      · rw [if_pos hout] at h
        cases h
        exact Or.inl ⟨hout, rfl⟩
      · rw [if_neg hout] at h
        cases h
        exact Or.inr ⟨hout, rfl⟩

/-- What `SingleOperatorShiftUpdater::propose` returns. -/
theorem shift_propose_spec {MS W : Type} (mat : DeterminantMatrix MS)
    (win : SlidingWindow W) (rng : Random01) (pos : Nat)
    (u : LocalUpdater SingleOperatorShiftUpdater) (cfg : MonteCarloConfiguration MS) (w : W)
    (p : Proposal SingleOperatorShiftUpdater MS)
    (hp : SingleOperatorShiftUpdater.propose mat win rng pos u cfg w = some p) :
    p.mc_config = cfg ∧
    ((cfg.operators.range (win.get_tau_low w) (win.get_tau_high w) = [] ∧ p.valid = false) ∨
      (cfg.operators.range (win.get_tau_low w) (win.get_tau_high w) ≠ [] ∧
        ∃ it new_flavor max_distance q kind,
          it ∈ cfg.operators.range (win.get_tau_low w) (win.get_tau_high w) ∧
          (new_flavor = it.flavor ∨
            new_flavor ∈ mat.flavors cfg.M (mat.block_belonging_to cfg.M it.flavor)) ∧
          (q = pos + 2 ∨ q = pos + 3) ∧
          u.derived.max_distance_.get? it.flavor = some max_distance ∧
          ((((2 * rng q - 1) * max_distance + it.time < win.get_tau_low w ∨
                (2 * rng q - 1) * max_distance + it.time > win.get_tau_high w) ∧
              p.valid = false) ∨
            (¬ ((2 * rng q - 1) * max_distance + it.time < win.get_tau_low w ∨
                (2 * rng q - 1) * max_distance + it.time > win.get_tau_high w) ∧
              p.valid = true ∧ p.acceptance_rate_correction_ = some 1 ∧
              ((kind = OperatorType.CREATION_OP ∧
                  p.cdagg_ops_rem_ = u.cdagg_ops_rem_ ++ [it] ∧
                  p.cdagg_ops_add_ = u.cdagg_ops_add_ ++
                    [psi.mk ((2 * rng q - 1) * max_distance + it.time) kind new_flavor] ∧
                  p.c_ops_rem_ = u.c_ops_rem_ ∧ p.c_ops_add_ = u.c_ops_add_) ∨
                (kind = OperatorType.ANNIHILATION_OP ∧
                  p.c_ops_rem_ = u.c_ops_rem_ ++ [it] ∧
                  p.c_ops_add_ = u.c_ops_add_ ++
                    [psi.mk ((2 * rng q - 1) * max_distance + it.time) kind new_flavor] ∧
                  p.cdagg_ops_rem_ = u.cdagg_ops_rem_ ∧
                  p.cdagg_ops_add_ = u.cdagg_ops_add_)))))) := by
  unfold SingleOperatorShiftUpdater.propose at hp
  simp only [] at hp
  by_cases hempty : (cfg.operators.range (win.get_tau_low w) (win.get_tau_high w)).length
      + (cfg.operators.range (win.get_tau_low w) (win.get_tau_high w)).length = 0
  · rw [if_pos hempty] at hp
    cases hp
    refine ⟨rfl, Or.inl ⟨?_, rfl⟩⟩
    apply List.length_eq_zero.mp
    omega
  · rw [if_neg hempty] at hp
    have hne : cfg.operators.range (win.get_tau_low w) (win.get_tau_high w) ≠ [] := by
      intro h0
      rw [h0] at hempty
      exact hempty rfl
    split at hp
    · split at hp
      · cases hp
      · rename_i it hit
        obtain ⟨_, _, hget⟩ := at_index_some _ _ _ hit
        have hmem := List.get?_mem hget
        split at hp
        · cases hp
        · rename_i d' pos' hsb
          cases hp
          obtain ⟨nf, md, q, h1, h2, h3, h4⟩ := shift_branch_spec _ _ _ _ _ _ _ _ _ _ _ _ hsb
          rcases h4 with ⟨hout, _⟩ | ⟨_, hres⟩
          · exact ⟨rfl, Or.inr ⟨hne, it, nf, md, q, OperatorType.CREATION_OP, hmem, h1, h2, h3,
              Or.inl ⟨hout, rfl⟩⟩⟩
          · cases hres
        · rename_i op_rem op_add d' pos' hsb
          cases hp
          obtain ⟨nf, md, q, h1, h2, h3, h4⟩ := shift_branch_spec _ _ _ _ _ _ _ _ _ _ _ _ hsb
          rcases h4 with ⟨_, hres⟩ | ⟨hin, hres⟩
          · cases hres
          · cases hres
            exact ⟨rfl, Or.inr ⟨hne, it, nf, md, q, OperatorType.CREATION_OP, hmem, h1, h2, h3,
              Or.inr ⟨hin, rfl, rfl, Or.inl ⟨rfl, rfl, rfl, rfl, rfl⟩⟩⟩⟩
    · split at hp
      · cases hp
      · rename_i it hit
        obtain ⟨_, _, hget⟩ := at_index_some _ _ _ hit
        have hmem := List.get?_mem hget
        split at hp
        · cases hp
        · rename_i d' pos' hsb
          cases hp
          obtain ⟨nf, md, q, h1, h2, h3, h4⟩ := shift_branch_spec _ _ _ _ _ _ _ _ _ _ _ _ hsb
          rcases h4 with ⟨hout, _⟩ | ⟨_, hres⟩
          · exact ⟨rfl, Or.inr ⟨hne, it, nf, md, q, OperatorType.ANNIHILATION_OP, hmem, h1, h2,
              h3, Or.inl ⟨hout, rfl⟩⟩⟩
          · cases hres
        · rename_i op_rem op_add d' pos' hsb
          cases hp
          obtain ⟨nf, md, q, h1, h2, h3, h4⟩ := shift_branch_spec _ _ _ _ _ _ _ _ _ _ _ _ hsb
          rcases h4 with ⟨_, hres⟩ | ⟨hin, hres⟩
          · cases hres
          · cases hres
            exact ⟨rfl, Or.inr ⟨hne, it, nf, md, q, OperatorType.ANNIHILATION_OP, hmem, h1, h2,
              h3, Or.inr ⟨hin, rfl, rfl, Or.inr ⟨rfl, rfl, rfl, rfl, rfl⟩⟩⟩⟩
/-- The product of the values `f 0, …, f (n - 1)` listed over `List.range n`. -/
theorem prod_map_range_eq_fin (n : Nat) (f : Nat → ℚ) :
    ((List.range n).map f).prod = ∏ i : Fin n, f i := by
  induction n with
  | zero => simp
  | succ n ih =>
    rw [List.range_succ, List.map_append, List.prod_append, ih, Fin.prod_univ_castSucc]
    simp

/-- The product of the values returned by `lu_product` for a matrix that has a row, in
terms of what it reads of the decomposition. -/
theorem lu_product_prod (decompose : List (List ℚ) → FullPivLU) (matrix : List (List ℚ))
    (h0 : matrix.length ≠ 0) :
    (lu_product decompose matrix).prod =
      (((decompose matrix).permutationP_determinant *
        (decompose matrix).permutationQ_determinant : Int) : ℚ) *
        ∏ i : Fin matrix.length, (decompose matrix).matrixLU i i := by
  unfold lu_product
  rw [if_neg h0,
    ← prod_map_range_eq_fin matrix.length (fun i => (decompose matrix).matrixLU i i)]
  generalize matrix.length = n at h0
  cases n with
  | zero => exact absurd rfl h0
  | succ n =>
    simp only [List.range_succ_eq_map, List.map_cons, List.prod_cons]
    ring

/-- The length of the sequence returned by `lu_product` is the number of rows. -/
theorem length_lu_product (decompose : List (List ℚ) → FullPivLU) (matrix : List (List ℚ)) :
    (lu_product decompose matrix).length = matrix.length := by
  unfold lu_product
  by_cases h0 : matrix.length = 0
  · rw [if_pos h0, h0]; rfl
  · rw [if_neg h0]
    generalize matrix.length = n at h0
    cases n with
    | zero => exact absurd rfl h0
    | succ n => simp [List.range_succ_eq_map]

/-- C28. `lu_product` represents the determinant as a product: let `matrix` be a square
matrix given by its rows, and let `P * A * Q = L * U` be a factorization of it with
`P`, `Q` the permutation matrices of `σ`, `τ`, with `L` lower triangular with unit
diagonal and `U` upper triangular, such that the decomposition that `lu_product` reads
has the diagonal of `U` on the diagonal of `matrixLU` and the signs of `σ`, `τ` as the
determinants of its permutations.  Then `lu_product` returns as many values as the
matrix has rows and their product is the determinant of the matrix; and for a matrix
with zero rows it returns the empty sequence. -/
theorem lu_product_is_determinant (decompose : List (List ℚ) → FullPivLU)
    (matrix : List (List ℚ))
    (σ τ : Equiv.Perm (Fin matrix.length))
    (L U : Matrix (Fin matrix.length) (Fin matrix.length) ℚ)
    (hfact : σ.permMatrix ℚ * to_matrix matrix * τ.permMatrix ℚ = L * U)
    (hL : ∀ i j, i < j → L i j = 0) (hL1 : ∀ i, L i i = 1)
    (hU : ∀ i j, j < i → U i j = 0)
    (hdiag : ∀ i : Fin matrix.length, (decompose matrix).matrixLU i i = U i i)
    (hP : (decompose matrix).permutationP_determinant = Equiv.Perm.sign σ)
    (hQ : (decompose matrix).permutationQ_determinant = Equiv.Perm.sign τ) :
    (lu_product decompose matrix).length = matrix.length ∧
    (lu_product decompose matrix).prod = (to_matrix matrix).det ∧
    lu_product decompose [] = [] := by
  refine ⟨length_lu_product _ _, ?_, rfl⟩
  have hLdet : L.det = 1 := by
    rw [Matrix.det_of_lowerTriangular L hL]
    exact Finset.prod_eq_one (fun i _ => hL1 i)
  have hUdet : U.det = ∏ i, U i i := Matrix.det_of_upperTriangular (fun i j h => hU i j h)
  have hdet := congrArg Matrix.det hfact
  rw [Matrix.det_mul, Matrix.det_mul, Matrix.det_mul, hLdet, hUdet, one_mul,
    Matrix.det_permutation, Matrix.det_permutation] at hdet
  by_cases h0 : matrix.length = 0
  · have hemp : IsEmpty (Fin matrix.length) := by rw [h0]; exact Fin.isEmpty
    rw [Matrix.det_isEmpty]
    unfold lu_product
    rw [if_pos h0]
    rfl
  · rw [lu_product_prod decompose matrix h0, hP, hQ,
      Finset.prod_congr rfl (fun i _ => hdiag i), ← hdet]
    have hσ : ((Equiv.Perm.sign σ : ℤ) : ℚ) * ((Equiv.Perm.sign σ : ℤ) : ℚ) = 1 := by
      rcases Int.units_eq_one_or (Equiv.Perm.sign σ) with h | h <;> rw [h] <;> norm_num
    have hτ : ((Equiv.Perm.sign τ : ℤ) : ℚ) * ((Equiv.Perm.sign τ : ℤ) : ℚ) = 1 := by
      rcases Int.units_eq_one_or (Equiv.Perm.sign τ) with h | h <;> rw [h] <;> norm_num
    push_cast
    calc ((Equiv.Perm.sign σ : ℤ) : ℚ) * ((Equiv.Perm.sign τ : ℤ) : ℚ) *
          (((Equiv.Perm.sign σ : ℤ) : ℚ) * (to_matrix matrix).det *
            ((Equiv.Perm.sign τ : ℤ) : ℚ))
        = (((Equiv.Perm.sign σ : ℤ) : ℚ) * ((Equiv.Perm.sign σ : ℤ) : ℚ)) *
          (((Equiv.Perm.sign τ : ℤ) : ℚ) * ((Equiv.Perm.sign τ : ℤ) : ℚ)) *
            (to_matrix matrix).det := by ring
      _ = (to_matrix matrix).det := by rw [hσ, hτ]; ring
/-- Witness of C28: a matrix with two rows whose decomposition swaps the rows. -/
theorem lu_product_is_determinant_witness :
    lu_product Bench.swap_lu Bench.swap_matrix = [-4, 5 / 4] ∧
    (lu_product Bench.swap_lu Bench.swap_matrix).prod = (to_matrix Bench.swap_matrix).det ∧
    (to_matrix Bench.swap_matrix).det = -5 := by
  have h := lu_product_is_determinant Bench.swap_lu Bench.swap_matrix
    (@Equiv.swap (Fin 2) _ 0 1) (@Equiv.refl (Fin 2))
    (Matrix.of ![![1, 0], ![1 / 4, 1]]) (Matrix.of ![![4, 3], ![0, 5 / 4]])
    (by decide!) (by decide!) (by decide!) (by decide!) (by decide!) (by decide!) (by decide!)
  refine ⟨by decide!, h.2.1, ?_⟩
  rw [← h.2.1]
  decide!

/-! ## The determinant-ratio evaluator: telescoping of the stored pivots -/

/-- Sorting by magnitude keeps the entries. -/
theorem sort_abs_greater_perm (v : List ℚ) : (sort_abs_greater v).Perm v :=
  List.perm_insertionSort _ _

/-- The block-wise `compute_det_rat` in terms of the result of its loop over the
blocks. -/
theorem compute_det_rat_blocks_unfold {MS : Type} (mat : DeterminantMatrixGlobal MS)
    (decompose : List (List ℚ) → FullPivLU) (creation_operators annihilation_operators :
      List psi) (det_vec_old : List ℚ) (M : MS)
    (hrange : ∀ op ∈ creation_operators ++ annihilation_operators,
      mat.block_belonging_to M op.flavor < mat.num_blocks M) :
    compute_det_rat_blocks mat decompose creation_operators annihilation_operators
      det_vec_old M =
    match compute_det_rat_block_loop (mat.get_greens_function M) decompose
      (operator_blocks mat creation_operators annihilation_operators M) ([], [], []) with
    | .error e => .error e
    | .ok (det_vec_new, cdagg_times, c_times) =>
      if det_vec_new.length = 0 then .ok (0, det_vec_old, det_vec_new)
      else
        match compute_det_rat (sort_abs_greater det_vec_new) (sort_abs_greater det_vec_old)
          default_eps with
        | none => .error .not_finite
        | some det_rat =>
          .ok (((comb_sort cdagg_times * comb_sort c_times : Int) : ℚ) * det_rat,
            sort_abs_greater det_vec_old,
            match sort_abs_greater det_vec_new with
            | [] => []
            | d :: rest => d * ((comb_sort cdagg_times * comb_sort c_times : Int) : ℚ) :: rest)
    := by
  have hany : (creation_operators ++ annihilation_operators).any
      (fun op => decide (mat.num_blocks M ≤ mat.block_belonging_to M op.flavor)) = false := by
    rw [List.any_eq_false]
    intro op hop
    simpa using hrange op hop
  unfold compute_det_rat_blocks operator_blocks
  simp only [hany]
  rfl

/-- The value, and the vectors left behind, of the block-wise `compute_det_rat` when its
loop over the blocks has collected the pivots `raw`: no pivot is skipped by the epsilon
rule and no old pivot is zero. -/
theorem compute_det_rat_blocks_eval {MS : Type} (mat : DeterminantMatrixGlobal MS)
    (decompose : List (List ℚ) → FullPivLU) (creation_operators annihilation_operators :
      List psi) (det_vec_old : List ℚ) (M : MS) (raw cdt ct : List ℚ)
    (hrange : ∀ op ∈ creation_operators ++ annihilation_operators,
      mat.block_belonging_to M op.flavor < mat.num_blocks M)
    (hloop : compute_det_rat_block_loop (mat.get_greens_function M) decompose
      (operator_blocks mat creation_operators annihilation_operators M) ([], [], [])
        = Except.ok (raw, cdt, ct))
    (hne : raw ≠ [])
    (hskip : ∀ p ∈ raw, ∀ q ∈ raw, |p| / |q| > default_eps)
    (hold : ∀ x ∈ det_vec_old, x ≠ 0) :
    ∃ new_exit,
      compute_det_rat_blocks mat decompose creation_operators annihilation_operators
        det_vec_old M
        = Except.ok (((comb_sort cdt * comb_sort ct : Int) : ℚ) * (raw.prod / det_vec_old.prod),
            sort_abs_greater det_vec_old, new_exit) ∧
      new_exit.prod = ((comb_sort cdt * comb_sort ct : Int) : ℚ) * raw.prod ∧
      (∀ x ∈ new_exit, x ≠ 0) := by
  have hperm := sort_abs_greater_perm raw
  have hpermo := sort_abs_greater_perm det_vec_old
  have hraw0 : ∀ p ∈ raw, p ≠ 0 := by
    intro p hp h0
    have := hskip p hp p hp
    rw [h0, abs_zero, div_zero] at this
    exact absurd this (by decide!)
  have hs : ((comb_sort cdt * comb_sort ct : Int) : ℚ) ≠ 0 := by
    unfold comb_sort
    push_cast
    exact mul_ne_zero (pow_ne_zero _ (by norm_num)) (pow_ne_zero _ (by norm_num))
  rw [compute_det_rat_blocks_unfold mat decompose creation_operators annihilation_operators
    det_vec_old M hrange, hloop]
  simp only []
  rw [if_neg (fun h => hne (List.length_eq_zero.mp h))]
  cases hsn : sort_abs_greater raw with
  | nil =>
    rw [hsn] at hperm
    exact absurd (List.Perm.nil_eq hperm) (fun h => hne h.symm)
  | cons d rest =>
    obtain ⟨m, hm, hmem, hmax⟩ := max_element_spec d rest
    have hmraw : m ∈ raw := by
      rw [← hsn] at hmem
      exact hperm.mem_iff.mp hmem
    have hcd : compute_det_rat (d :: rest) (sort_abs_greater det_vec_old) default_eps
        = some ((d :: rest).prod / (sort_abs_greater det_vec_old).prod) := by
      apply compute_det_rat_all_pass (d :: rest) (sort_abs_greater det_vec_old) default_eps |m|
      · exact hmax
      · exact ⟨m, hmem, rfl⟩
      · exact abs_ne_zero.mpr (hraw0 m hmraw)
      · intro p hp
        rw [← hsn] at hp
        exact hskip p (hperm.mem_iff.mp hp) m hmraw
      · intro x hx
        exact hold x (hpermo.mem_iff.mp hx)
    rw [hcd]
    have hprod : (d :: rest).prod = raw.prod := by
      rw [← hsn]
      exact hperm.prod_eq
    rw [hprod, hpermo.prod_eq]
    refine ⟨_, rfl, ?_, ?_⟩
    · rw [List.prod_cons, ← hprod, List.prod_cons]
      ring
    · intro x hx
      rw [List.mem_cons] at hx
      have hd : ∀ y ∈ d :: rest, y ≠ 0 := by
        intro y hy
        rw [← hsn] at hy
        exact hraw0 y (hperm.mem_iff.mp hy)
      rcases hx with hx | hx
      · rw [hx]
        exact mul_ne_zero (hd d (List.mem_cons_self _ _)) hs
      · exact hd x (List.mem_cons_of_mem _ hx)

/-- The blocks of operators, listed by the index of the block. -/
theorem operator_blocks_eq {MS : Type} (mat : DeterminantMatrixGlobal MS)
    (creation_operators annihilation_operators : List psi) (M : MS) :
    operator_blocks mat creation_operators annihilation_operators M =
      (List.range (mat.num_blocks M)).map (fun ib =>
        (creation_operators.filter
            (fun op => decide (mat.block_belonging_to M op.flavor = ib)),
          annihilation_operators.filter
            (fun op => decide (mat.block_belonging_to M op.flavor = ib)))) := by
  unfold operator_blocks
  rw [List.zip_map']

/-- Exchanging two adjacent distinct entries flips the parity counted by `comb_sort`. -/
theorem comb_sort_swap (p : List ℚ) (a b : ℚ) (l : List ℚ) (hab : a ≠ b) :
    comb_sort (p ++ a :: b :: l) = - comb_sort (p ++ b :: a :: l) := by
  unfold comb_sort
  induction p with
  | nil =>
    simp only [List.nil_append, inversions, List.filter_cons]
    rcases lt_or_gt_of_ne hab with h | h
    · have h' : ¬ b < a := not_lt.mpr (le_of_lt h)
      simp only [h, h', decide_True, decide_False, if_true, List.length_cons]
      simp only [Bool.false_eq_true, if_false]
      rw [show (List.filter (fun y => decide (y < a)) l).length +
          ((List.filter (fun y => decide (y < b)) l).length + inversions l)
          = ((List.filter (fun y => decide (y < b)) l).length +
            ((List.filter (fun y => decide (y < a)) l).length + inversions l)) by omega,
        show (List.filter (fun y => decide (y < b)) l).length + 1 +
          ((List.filter (fun y => decide (y < a)) l).length + inversions l)
          = ((List.filter (fun y => decide (y < b)) l).length +
            ((List.filter (fun y => decide (y < a)) l).length + inversions l)) + 1 by omega,
        pow_succ]
      ring
    · have h' : ¬ a < b := not_lt.mpr (le_of_lt h)
      simp only [h, h', decide_True, decide_False, if_true, List.length_cons]
      simp only [Bool.false_eq_true, if_false]
      rw [show (List.filter (fun y => decide (y < a)) l).length + 1 +
          ((List.filter (fun y => decide (y < b)) l).length + inversions l)
          = ((List.filter (fun y => decide (y < b)) l).length +
            ((List.filter (fun y => decide (y < a)) l).length + inversions l)) + 1 by omega,
        show (List.filter (fun y => decide (y < b)) l).length +
          ((List.filter (fun y => decide (y < a)) l).length + inversions l)
          = ((List.filter (fun y => decide (y < b)) l).length +
            ((List.filter (fun y => decide (y < a)) l).length + inversions l)) by omega,
        pow_succ]
      ring
  | cons c p ih =>
    have hperm : (p ++ a :: b :: l).Perm (p ++ b :: a :: l) :=
      List.Perm.append_left p (List.Perm.swap _ _ _)
    have e : ∀ xs : List ℚ, inversions (c :: xs)
        = (xs.filter (fun y => decide (y < c))).length + inversions xs := fun _ => rfl
    rw [List.cons_append, List.cons_append, e, e, (hperm.filter _).length_eq, pow_add,
      pow_add, ih]
    ring

/-- A strictly increasing sequence has no inversion. -/
theorem comb_sort_sorted (l : List ℚ) (h : l.Pairwise (fun a b => a < b)) :
    comb_sort l = 1 := by
  unfold comb_sort
  induction l with
  | nil => rfl
  | cons x xs ih =>
    rw [List.pairwise_cons] at h
    have hf : xs.filter (fun y => decide (y < x)) = [] := by
      rw [List.filter_eq_nil_iff]
      intro y hy
      simpa using le_of_lt (h.1 y hy)
    simp only [inversions, hf, List.length_nil, Nat.zero_add]
    exact ih h.2

/-- The exchange of two adjacent indices as a permutation of `Fin n`. -/
theorem swap_index_eq_swap (n k : Nat) (hk : k + 1 < n) (j : Fin n) :
    ((Equiv.swap (⟨k, by omega⟩ : Fin n) ⟨k + 1, hk⟩ j : Fin n) : Nat) = swap_index k j := by
  unfold swap_index
  rw [Equiv.swap_apply_def]
  by_cases h1 : (j : Nat) = k
  · have : j = ⟨k, by omega⟩ := Fin.ext h1
    rw [if_pos this, if_pos h1]
  · have h1' : ¬ j = ⟨k, by omega⟩ := fun h => h1 (congrArg Fin.val h)
    rw [if_neg h1', if_neg h1]
    by_cases h2 : (j : Nat) = k + 1
    · have : j = ⟨k + 1, hk⟩ := Fin.ext h2
      rw [if_pos this, if_pos h2]
    · have h2' : ¬ j = ⟨k + 1, hk⟩ := fun h => h2 (congrArg Fin.val h)
      rw [if_neg h2', if_neg h2]

/-- Exchanging two adjacent columns changes the sign of the determinant. -/
theorem det_of_entries_swap_cols (n k : Nat) (hk : k + 1 < n) (f : Nat → Nat → ℚ) :
    det_of_entries n (fun i j => f i (swap_index k j)) = - det_of_entries n f := by
  unfold det_of_entries
  have h : (Matrix.of (fun (i j : Fin n) => f i (swap_index k j)))
      = (Matrix.of (fun (i j : Fin n) => f i j)).submatrix id
        (Equiv.swap (⟨k, by omega⟩ : Fin n) ⟨k + 1, hk⟩) := by
    ext i j
    simp only [Matrix.of_apply, Matrix.submatrix_apply, id]
    rw [swap_index_eq_swap n k hk j]
  rw [h, Matrix.det_permute', Equiv.Perm.sign_swap (by
    intro h
    have := congrArg Fin.val h
    simp at this)]
  simp

/-- Exchanging two adjacent rows changes the sign of the determinant. -/
theorem det_of_entries_swap_rows (n k : Nat) (hk : k + 1 < n) (f : Nat → Nat → ℚ) :
    det_of_entries n (fun i j => f (swap_index k i) j) = - det_of_entries n f := by
  unfold det_of_entries
  have h : (Matrix.of (fun (i j : Fin n) => f (swap_index k i) j))
      = (Matrix.of (fun (i j : Fin n) => f i j)).submatrix
        (Equiv.swap (⟨k, by omega⟩ : Fin n) ⟨k + 1, hk⟩) id := by
    ext i j
    simp only [Matrix.of_apply, Matrix.submatrix_apply, id]
    rw [swap_index_eq_swap n k hk i]
  rw [h, Matrix.det_permute, Equiv.Perm.sign_swap (by
    intro h
    have := congrArg Fin.val h
    simp at this)]
  simp

/-- The determinant depends only on the entries inside the matrix. -/
theorem det_of_entries_congr (n : Nat) (f g : Nat → Nat → ℚ)
    (h : ∀ i j, i < n → j < n → f i j = g i j) : det_of_entries n f = det_of_entries n g := by
  unfold det_of_entries
  congr 1
  ext i j
  exact h i j i.isLt j.isLt

/-- The determinant of a matrix given by its rows, in terms of its entries. -/
theorem det_to_matrix (A : List (List ℚ)) (n : Nat) (h : A.length = n) :
    (to_matrix A).det = det_of_entries n (fun i j => (A.getD i []).getD j 0) := by
  subst h
  rfl

/-- Reading a list in which two adjacent entries have been exchanged. -/
theorem getElem?_swap_adjacent {α : Type} (p : List α) (x y : α) (l : List α) (j : Nat) :
    (p ++ y :: x :: l)[j]? = (p ++ x :: y :: l)[swap_index p.length j]? := by
  unfold swap_index
  by_cases h1 : j = p.length
  · rw [if_pos h1, h1]
    rw [List.getElem?_append_right (le_refl _), List.getElem?_append_right (by omega)]
    simp
  · rw [if_neg h1]
    by_cases h2 : j = p.length + 1
    · rw [if_pos h2, h2]
      rw [List.getElem?_append_right (by omega), List.getElem?_append_right (le_refl _)]
      simp
    · rw [if_neg h2]
      by_cases h3 : j < p.length
      · rw [List.getElem?_append_left h3, List.getElem?_append_left h3]
      · rw [List.getElem?_append_right (by omega), List.getElem?_append_right (by omega)]
        obtain ⟨m, hm⟩ : ∃ m, j - p.length = m + 2 := ⟨j - p.length - 2, by omega⟩
        rw [hm]
        rfl

/-- A quantity that changes sign whenever two adjacent operators of the list are
exchanged, multiplied by the parity of the times of the list, does not depend on the order
of the list, the times being pairwise distinct. -/
theorem perm_parity_invariant (H : List psi → ℚ) (n : Nat)
    (hswap : ∀ (p : List psi) (x y : psi) (l : List psi), (p ++ y :: x :: l).length = n →
      H (p ++ y :: x :: l) = - H (p ++ x :: y :: l))
    {l l' : List psi} (h : l.Perm l') :
    ∀ p : List psi, (p ++ l).length = n → ((p ++ l).map psi.time).Nodup →
      ((comb_sort ((p ++ l).map psi.time) : Int) : ℚ) * H (p ++ l)
        = ((comb_sort ((p ++ l').map psi.time) : Int) : ℚ) * H (p ++ l') := by
  induction h with
  | nil => intro p _ _; rfl
  | cons x _ ih =>
    intro p hl hn
    have := ih (p ++ [x]) (by simpa using hl) (by simpa using hn)
    simpa using this
  | swap x y l =>
    intro p hl hn
    have hxy : y.time ≠ x.time := by
      rw [List.map_append, List.nodup_append] at hn
      have h2 := hn.2.1
      rw [List.map_cons, List.map_cons, List.nodup_cons] at h2
      intro he
      exact h2.1 (by rw [he]; exact List.mem_cons_self _ _)
    rw [hswap p x y l hl]
    rw [List.map_append, List.map_cons, List.map_cons, comb_sort_swap _ _ _ _ hxy]
    rw [List.map_append, List.map_cons, List.map_cons]
    push_cast
    ring
  | trans h1 _ ih1 ih2 =>
    intro p hl hn
    have hp := List.Perm.append_left p h1
    rw [ih1 p hl hn]
    exact ih2 p (by rw [← hp.length_eq]; exact hl) ((hp.map psi.time).nodup_iff.mp hn)

/-- The determinant of the matrix of a block, in terms of its entries. -/
theorem det_block_matrix (gf : psi → psi → ℚ) (cd cs : List psi) :
    (to_matrix (block_matrix gf cd cs)).det
      = det_of_entries cd.length (block_entry gf cd cs) := by
  rw [det_to_matrix (block_matrix gf cd cs) cd.length (by simp [block_matrix])]
  apply det_of_entries_congr
  intro i j hi hj
  unfold block_matrix block_entry
  simp only [List.getD_eq_getElem?_getD, List.getElem?_map, List.getElem?_range hi,
    List.getElem?_range hj, Option.map_some', Option.getD_some]

/-- The parity of the times of the two lists times the determinant of the matrix of the
block does not depend on the order of the lists. -/
theorem parity_times_det_invariant (gf : psi → psi → ℚ) (cd cs cd' cs' : List psi)
    (hlen : cd.length = cs.length) (hcd : cd.Perm cd') (hcs : cs.Perm cs')
    (hcdt : (cd.map psi.time).Nodup) (hcst : (cs.map psi.time).Nodup) :
    ((comb_sort (cd.map psi.time) * comb_sort (cs.map psi.time) : Int) : ℚ) *
        (to_matrix (block_matrix gf cd cs)).det
      = ((comb_sort (cd'.map psi.time) * comb_sort (cs'.map psi.time) : Int) : ℚ) *
        (to_matrix (block_matrix gf cd' cs')).det := by
  rw [det_block_matrix, det_block_matrix, ← hcd.length_eq]
  have hcols := perm_parity_invariant
    (fun l => det_of_entries cd.length (block_entry gf l cs)) cd.length
    (by
      intro p x y l hl
      show det_of_entries cd.length (block_entry gf (p ++ y :: x :: l) cs)
        = - det_of_entries cd.length (block_entry gf (p ++ x :: y :: l) cs)
      rw [← det_of_entries_swap_cols cd.length p.length
        (by rw [← hl]; simp) (block_entry gf (p ++ x :: y :: l) cs)]
      apply det_of_entries_congr
      intro i j _ _
      unfold block_entry
      rw [getElem?_swap_adjacent p x y l j])
    hcd [] rfl hcdt
  have hrows := perm_parity_invariant
    (fun l => det_of_entries cd.length (block_entry gf cd' l)) cd.length
    (by
      intro p x y l hl
      show det_of_entries cd.length (block_entry gf cd' (p ++ y :: x :: l))
        = - det_of_entries cd.length (block_entry gf cd' (p ++ x :: y :: l))
      rw [← det_of_entries_swap_rows cd.length p.length
        (by rw [← hl]; simp) (block_entry gf cd' (p ++ x :: y :: l))]
      apply det_of_entries_congr
      intro i j _ _
      unfold block_entry
      rw [getElem?_swap_adjacent p x y l i])
    hcs [] hlen.symm hcst
  simp only [List.nil_append] at hcols hrows
  push_cast
  calc ((comb_sort (cd.map psi.time) : Int) : ℚ) * ((comb_sort (cs.map psi.time) : Int) : ℚ) *
        det_of_entries cd.length (block_entry gf cd cs)
      = ((comb_sort (cs.map psi.time) : Int) : ℚ) *
        (((comb_sort (cd.map psi.time) : Int) : ℚ) *
          det_of_entries cd.length (block_entry gf cd cs)) := by ring
    _ = ((comb_sort (cd'.map psi.time) : Int) : ℚ) *
        (((comb_sort (cs.map psi.time) : Int) : ℚ) *
          det_of_entries cd.length (block_entry gf cd' cs)) := by rw [hcols]; ring
    _ = ((comb_sort (cd'.map psi.time) : Int) : ℚ) *
          ((comb_sort (cs'.map psi.time) : Int) : ℚ) *
        det_of_entries cd.length (block_entry gf cd' cs') := by rw [hrows]; ring

/-- The loop over the blocks for a single block that holds all the operators. -/
theorem single_block_loop {MS : Type} (mat : DeterminantMatrixGlobal MS)
    (decompose : List (List ℚ) → FullPivLU) (cd cs : List psi) (M : MS)
    (hblocks : mat.num_blocks M = 1)
    (hblock : ∀ op ∈ cd ++ cs, mat.block_belonging_to M op.flavor = 0)
    (hlen : cd.length = cs.length) (hne : cd ≠ []) :
    compute_det_rat_block_loop (mat.get_greens_function M) decompose
      (operator_blocks mat cd cs M) ([], [], [])
      = Except.ok (lu_product decompose (block_matrix (mat.get_greens_function M) cd cs),
          cd.map psi.time, cs.map psi.time) := by
  have h1 : cd.filter (fun op => decide (mat.block_belonging_to M op.flavor = 0)) = cd :=
    List.filter_eq_self.mpr
      (fun op hop => decide_eq_true (hblock op (List.mem_append_left _ hop)))
  have h2 : cs.filter (fun op => decide (mat.block_belonging_to M op.flavor = 0)) = cs :=
    List.filter_eq_self.mpr
      (fun op hop => decide_eq_true (hblock op (List.mem_append_right _ hop)))
  have hb : operator_blocks mat cd cs M = [(cd, cs)] := by
    rw [operator_blocks_eq, hblocks]
    show [(_, _)] = [(cd, cs)]
    rw [h1, h2]
  rw [hb]
  unfold compute_det_rat_block_loop
  rw [if_neg (not_not.mpr hlen), if_neg (fun h => hne (List.length_eq_zero.mp h))]
  unfold compute_det_rat_block_loop
  rfl

/-- C21. Sign consistency of the block-wise `compute_det_rat`.  Take a single block, its
creation operators `cd` and annihilation operators `cs` in time-sorted order (strictly
increasing times), as many of the one as of the other and at least one, and any
reordering `cd2`, `cs2` of the two lists.  Let the product of the pivots of `lu_product`
be the determinant for the two matrices, let no pivot be skipped by the epsilon rule and
no old pivot be zero.  Then the determinant for the reordered lists is the determinant
for the sorted lists times the parity that `comb_sort` counts on the reordered times,
this parity is the sign multiplied into the ratio, the parity of the sorted lists is
`+1`, and both calls return the same ratio, the determinant for the sorted lists divided
by the product of the old pivots. -/
theorem permuted_lists_same_ratio {MS : Type} (mat : DeterminantMatrixGlobal MS)
    (decompose : List (List ℚ) → FullPivLU) (cd cs cd2 cs2 : List psi)
    (det_vec_old : List ℚ) (M : MS)
    (hblocks : mat.num_blocks M = 1)
    (hblock : ∀ op ∈ cd ++ cs, mat.block_belonging_to M op.flavor = 0)
    (hlen : cd.length = cs.length) (hne : cd ≠ [])
    (hcd : cd.Perm cd2) (hcs : cs.Perm cs2)
    (hcdt : (cd.map psi.time).Pairwise (fun a b => a < b))
    (hcst : (cs.map psi.time).Pairwise (fun a b => a < b))
    (hlu : (lu_product decompose (block_matrix (mat.get_greens_function M) cd cs)).prod
      = (to_matrix (block_matrix (mat.get_greens_function M) cd cs)).det)
    (hlu2 : (lu_product decompose (block_matrix (mat.get_greens_function M) cd2 cs2)).prod
      = (to_matrix (block_matrix (mat.get_greens_function M) cd2 cs2)).det)
    (hskip : ∀ p ∈ block_pivots mat decompose cd cs M,
      ∀ q ∈ block_pivots mat decompose cd cs M, |p| / |q| > default_eps)
    (hskip2 : ∀ p ∈ block_pivots mat decompose cd2 cs2 M,
      ∀ q ∈ block_pivots mat decompose cd2 cs2 M, |p| / |q| > default_eps)
    (hold : ∀ x ∈ det_vec_old, x ≠ 0) :
    (to_matrix (block_matrix (mat.get_greens_function M) cd2 cs2)).det
      = ((comb_sort (cd2.map psi.time) * comb_sort (cs2.map psi.time) : Int) : ℚ) *
        (to_matrix (block_matrix (mat.get_greens_function M) cd cs)).det ∧
    comb_sort (cd.map psi.time) * comb_sort (cs.map psi.time) = 1 ∧
    ∃ r old_exit new_exit new_exit2,
      compute_det_rat_blocks mat decompose cd cs det_vec_old M
        = Except.ok (r, old_exit, new_exit) ∧
      compute_det_rat_blocks mat decompose cd2 cs2 det_vec_old M
        = Except.ok (r, old_exit, new_exit2) ∧
      r = ((comb_sort (cd2.map psi.time) * comb_sort (cs2.map psi.time) : Int) : ℚ) *
        ((to_matrix (block_matrix (mat.get_greens_function M) cd2 cs2)).det /
          det_vec_old.prod) ∧
      r = (to_matrix (block_matrix (mat.get_greens_function M) cd cs)).det /
        det_vec_old.prod := by
  have hs1 : comb_sort (cd.map psi.time) = 1 := comb_sort_sorted _ hcdt
  have hs2 : comb_sort (cs.map psi.time) = 1 := comb_sort_sorted _ hcst
  have hinv := parity_times_det_invariant (mat.get_greens_function M) cd cs cd2 cs2 hlen hcd hcs
    (hcdt.imp (fun h => ne_of_lt h)) (hcst.imp (fun h => ne_of_lt h))
  rw [hs1, hs2] at hinv
  simp only [mul_one, Int.cast_one, one_mul] at hinv
  have hsq : ((comb_sort (cd2.map psi.time) * comb_sort (cs2.map psi.time) : Int) : ℚ) *
      ((comb_sort (cd2.map psi.time) * comb_sort (cs2.map psi.time) : Int) : ℚ) = 1 := by
    unfold comb_sort
    push_cast
    rw [← pow_add, ← pow_add, ← two_mul, pow_mul]
    norm_num
  have hdet2 : (to_matrix (block_matrix (mat.get_greens_function M) cd2 cs2)).det
      = ((comb_sort (cd2.map psi.time) * comb_sort (cs2.map psi.time) : Int) : ℚ) *
        (to_matrix (block_matrix (mat.get_greens_function M) cd cs)).det := by
    rw [hinv, ← mul_assoc, hsq, one_mul]
  have hblock2 : ∀ op ∈ cd2 ++ cs2, mat.block_belonging_to M op.flavor = 0 := by
    intro op hop
    apply hblock op
    rw [List.mem_append] at hop ⊢
    exact hop.imp hcd.mem_iff.mpr hcs.mem_iff.mpr
  have hlen2 : cd2.length = cs2.length := by rw [← hcd.length_eq, ← hcs.length_eq, hlen]
  have hne2 : cd2 ≠ [] := fun h => hne (by rw [h] at hcd; exact List.Perm.eq_nil hcd)
  have hrange : ∀ op ∈ cd ++ cs, mat.block_belonging_to M op.flavor < mat.num_blocks M := by
    intro op hop; rw [hblock op hop, hblocks]; exact Nat.one_pos
  have hrange2 : ∀ op ∈ cd2 ++ cs2, mat.block_belonging_to M op.flavor < mat.num_blocks M := by
    intro op hop; rw [hblock2 op hop, hblocks]; exact Nat.one_pos
  have hloop := single_block_loop mat decompose cd cs M hblocks hblock hlen hne
  have hloop2 := single_block_loop mat decompose cd2 cs2 M hblocks hblock2 hlen2 hne2
  have hpiv : block_pivots mat decompose cd cs M
      = lu_product decompose (block_matrix (mat.get_greens_function M) cd cs) := by
    unfold block_pivots; rw [hloop]
  have hpiv2 : block_pivots mat decompose cd2 cs2 M
      = lu_product decompose (block_matrix (mat.get_greens_function M) cd2 cs2) := by
    unfold block_pivots; rw [hloop2]
  rw [hpiv] at hskip
  rw [hpiv2] at hskip2
  have hraw : lu_product decompose (block_matrix (mat.get_greens_function M) cd cs) ≠ [] := by
    intro h
    have := length_lu_product decompose (block_matrix (mat.get_greens_function M) cd cs)
    rw [h] at this
    simp [block_matrix] at this
    exact hne (List.length_eq_zero.mp this.symm)
  have hraw2 : lu_product decompose (block_matrix (mat.get_greens_function M) cd2 cs2) ≠ [] := by
    intro h
    have := length_lu_product decompose (block_matrix (mat.get_greens_function M) cd2 cs2)
    rw [h] at this
    simp [block_matrix] at this
    exact hne2 (List.length_eq_zero.mp this.symm)
  obtain ⟨ne1, e1, _, _⟩ := compute_det_rat_blocks_eval mat decompose cd cs det_vec_old M _ _ _
    hrange hloop hraw hskip hold
  obtain ⟨ne2, e2, _, _⟩ := compute_det_rat_blocks_eval mat decompose cd2 cs2 det_vec_old M _ _ _
    hrange2 hloop2 hraw2 hskip2 hold
  rw [hlu, hs1, hs2] at e1
  rw [hlu2] at e2
  simp only [mul_one, Int.cast_one, one_mul] at e1
  have hr : ((comb_sort (cd2.map psi.time) * comb_sort (cs2.map psi.time) : Int) : ℚ) *
      ((to_matrix (block_matrix (mat.get_greens_function M) cd2 cs2)).det / det_vec_old.prod)
      = (to_matrix (block_matrix (mat.get_greens_function M) cd cs)).det / det_vec_old.prod := by
    rw [hinv, mul_div_assoc]
  refine ⟨hdet2, by rw [hs1, hs2]; rfl, _, _, ne1, ne2, e1, ?_, hr.symm, rfl⟩
  rw [e2, hr]

/-- Witness of C21: two creation operators at the times `1`, `2`, two annihilation
operators at the times `3`, `4`, and the creation operators supplied in reversed order;
the determinants are `7` and `-7`, the parity is `-1`, both ratios are `7`. -/
theorem permuted_lists_same_ratio_witness :
    (to_matrix (block_matrix (Bench.time_matrix.get_greens_function [])
      [⟨2, OperatorType.CREATION_OP, 0⟩, ⟨1, OperatorType.CREATION_OP, 0⟩]
      [⟨3, OperatorType.ANNIHILATION_OP, 0⟩, ⟨4, OperatorType.ANNIHILATION_OP, 0⟩])).det = -7 ∧
    compute_det_rat_blocks Bench.time_matrix Bench.two_by_two_lu
      [⟨1, OperatorType.CREATION_OP, 0⟩, ⟨2, OperatorType.CREATION_OP, 0⟩]
      [⟨3, OperatorType.ANNIHILATION_OP, 0⟩, ⟨4, OperatorType.ANNIHILATION_OP, 0⟩] [1] []
      = Except.ok (7, [1], [33, 7 / 33]) ∧
    compute_det_rat_blocks Bench.time_matrix Bench.two_by_two_lu
      [⟨2, OperatorType.CREATION_OP, 0⟩, ⟨1, OperatorType.CREATION_OP, 0⟩]
      [⟨3, OperatorType.ANNIHILATION_OP, 0⟩, ⟨4, OperatorType.ANNIHILATION_OP, 0⟩] [1] []
      = Except.ok (7, [1], [33, 7 / 33]) := by
  have h := permuted_lists_same_ratio Bench.time_matrix Bench.two_by_two_lu
    [⟨1, OperatorType.CREATION_OP, 0⟩, ⟨2, OperatorType.CREATION_OP, 0⟩]
    [⟨3, OperatorType.ANNIHILATION_OP, 0⟩, ⟨4, OperatorType.ANNIHILATION_OP, 0⟩]
    [⟨2, OperatorType.CREATION_OP, 0⟩, ⟨1, OperatorType.CREATION_OP, 0⟩]
    [⟨3, OperatorType.ANNIHILATION_OP, 0⟩, ⟨4, OperatorType.ANNIHILATION_OP, 0⟩] [1] []
    rfl (by decide!) rfl (by decide!) (List.Perm.swap _ _ _) (List.Perm.refl _)
    (by decide!) (by decide!) (by decide!) (by decide!) (by decide!) (by decide!) (by decide!)
  have hd : (to_matrix (block_matrix (Bench.time_matrix.get_greens_function [])
      [⟨1, OperatorType.CREATION_OP, 0⟩, ⟨2, OperatorType.CREATION_OP, 0⟩]
      [⟨3, OperatorType.ANNIHILATION_OP, 0⟩, ⟨4, OperatorType.ANNIHILATION_OP, 0⟩])).det = 7 := by
    decide!
  refine ⟨?_, by decide!, by decide!⟩
  rw [h.1, hd]
  decide!

/-! ## The shipped strategies keep the orchestrator off its fatal branches -/

/-- The operators of the window are operators of the container with their time in the
window. -/
theorem mem_range_iff (c : operator_container_t) (tau_low tau_high : ℚ) (op : psi) :
    op ∈ c.range tau_low tau_high ↔
      op ∈ c.elems ∧ tau_low ≤ op.time ∧ op.time ≤ tau_high := by
  unfold operator_container_t.range
  simp [List.mem_filter]

/-- No operator is listed twice in the window. -/
theorem nodup_range (c : operator_container_t) (tau_low tau_high : ℚ) :
    (c.range tau_low tau_high).Nodup :=
  c.nodup.filter _

/-- The two strategies pick the operators to remove from the index lists in the same
way. -/
theorem diagonal_removal_pick_eq (R_cd R_c : List psi) :
    ∀ (idx_c idx_a : List Nat) (cd cs : List psi),
      InsertionRemovalDiagonalUpdater.removal_pick R_cd R_c idx_c idx_a cd cs
        = InsertionRemovalUpdater.removal_pick R_cd R_c idx_c idx_a cd cs := by
  intro idx_c
  induction idx_c with
  | nil =>
    intro idx_a cd cs
    unfold InsertionRemovalDiagonalUpdater.removal_pick InsertionRemovalUpdater.removal_pick
    rfl
  | cons ic idx_c ih =>
    intro idx_a cd cs
    cases idx_a with
    | nil =>
      unfold InsertionRemovalDiagonalUpdater.removal_pick InsertionRemovalUpdater.removal_pick
      rfl
    | cons ia idx_a =>
      unfold InsertionRemovalDiagonalUpdater.removal_pick InsertionRemovalUpdater.removal_pick
      cases h1 : R_cd.get? ic with
      | none => rfl
      | some opc =>
        cases h2 : R_c.get? ia with
        | none => rfl
        | some opa => exact ih idx_a _ _

/-- The operators picked from lists without repetition, at indices without repetition,
are picked once: the lists stay free of repetitions, and every new entry comes from the
list it is picked from. -/
theorem removal_pick_spec (R_cd R_c : List psi) (hR1 : R_cd.Nodup) (hR2 : R_c.Nodup) :
    ∀ (idx_c idx_a : List Nat) (cd cs cd2 cs2 : List psi),
      idx_c.Nodup → idx_a.Nodup → cd.Nodup → cs.Nodup →
      (∀ op ∈ cd, ∀ j ∈ idx_c, R_cd.get? j ≠ some op) →
      (∀ op ∈ cs, ∀ j ∈ idx_a, R_c.get? j ≠ some op) →
      InsertionRemovalUpdater.removal_pick R_cd R_c idx_c idx_a cd cs = some (cd2, cs2) →
      cd2.Nodup ∧ cs2.Nodup ∧ (∀ op ∈ cd2, op ∈ cd ∨ op ∈ R_cd) ∧
        (∀ op ∈ cs2, op ∈ cs ∨ op ∈ R_c) := by
  intro idx_c
  induction idx_c with
  | nil =>
    intro idx_a cd cs cd2 cs2 _ _ h3 h4 _ _ h
    unfold InsertionRemovalUpdater.removal_pick at h
    cases h
    exact ⟨h3, h4, fun op hop => Or.inl hop, fun op hop => Or.inl hop⟩
  | cons ic idx_c ih =>
    intro idx_a cd cs cd2 cs2 h1 h2 h3 h4 h5 h6 h
    cases idx_a with
    | nil =>
      unfold InsertionRemovalUpdater.removal_pick at h
      cases h
      exact ⟨h3, h4, fun op hop => Or.inl hop, fun op hop => Or.inl hop⟩
    | cons ia idx_a =>
      unfold InsertionRemovalUpdater.removal_pick at h
      cases hc : R_cd.get? ic with
      | none => rw [hc] at h; cases h
      | some opc =>
        cases ha : R_c.get? ia with
        | none => rw [hc, ha] at h; cases h
        | some opa =>
          rw [hc, ha] at h
          simp only [] at h
          rw [List.nodup_cons] at h1 h2
          have hopc : opc ∉ cd := fun hm => h5 opc hm ic (List.mem_cons_self _ _) hc
          have hopa : opa ∉ cs := fun hm => h6 opa hm ia (List.mem_cons_self _ _) ha
          have key : ∀ (R : List psi), R.Nodup → ∀ (i j : Nat) (x : psi),
              R.get? i = some x → R.get? j = some x → i = j := by
            intro R hR i j x hi hj
            rw [List.get?_eq_some] at hi hj
            obtain ⟨hi1, hi2⟩ := hi
            obtain ⟨hj1, hj2⟩ := hj
            have := (List.Nodup.get_inj_iff hR (i := ⟨i, hi1⟩) (j := ⟨j, hj1⟩)).mp
              (hi2.trans hj2.symm)
            exact congrArg Fin.val this
          obtain ⟨r1, r2, r3, r4⟩ := ih idx_a (cd ++ [opc]) (cs ++ [opa]) cd2 cs2 h1.2 h2.2
            (List.Nodup.append h3 (List.nodup_singleton _)
              (List.disjoint_singleton.mpr hopc))
            (List.Nodup.append h4 (List.nodup_singleton _)
              (List.disjoint_singleton.mpr hopa))
            (by
              intro op hop j hj
              rw [List.mem_append, List.mem_singleton] at hop
              rcases hop with hop | hop
              · exact h5 op hop j (List.mem_cons_of_mem _ hj)
              · intro hget
                rw [hop] at hget
                have := key R_cd hR1 j ic opc hget hc
                exact h1.1 (this ▸ hj))
            (by
              intro op hop j hj
              rw [List.mem_append, List.mem_singleton] at hop
              rcases hop with hop | hop
              · exact h6 op hop j (List.mem_cons_of_mem _ hj)
              · intro hget
                rw [hop] at hget
                have := key R_c hR2 j ia opa hget ha
                exact h2.1 (this ▸ hj))
            h
          refine ⟨r1, r2, ?_, ?_⟩
          · intro op hop
            rcases r3 op hop with hm | hm
            · rw [List.mem_append, List.mem_singleton] at hm
              rcases hm with hm | hm
              · exact Or.inl hm
              · exact Or.inr (hm ▸ List.get?_mem hc)
            · exact Or.inr hm
          · intro op hop
            rcases r4 op hop with hm | hm
            · rw [List.mem_append, List.mem_singleton] at hm
              rcases hm with hm | hm
              · exact Or.inl hm
              · exact Or.inr (hm ▸ List.get?_mem ha)
            · exact Or.inr hm

/-- The numbers picked are pairwise distinct and below `N`. -/
theorem pickup_numbers_distinct (fuel N n : Nat) (rng : Random01) (pos : Nat)
    (idx : List Nat) (pos2 : Nat)
    (h : pickup_a_few_numbers fuel N n rng pos = some (idx, pos2)) :
    idx.Nodup ∧ ∀ i ∈ idx, i < N := by
  unfold pickup_a_few_numbers at h
  have := pickup_loop_spec rng fuel N n (List.replicate N 0) [] pos idx pos2
    (List.length_replicate _ _) List.nodup_nil (fun i hi => nomatch hi) h
  exact ⟨this.2.1, this.2.2⟩

/-- The loop over the blocks of `propose_removal`: when the in-window range of every
block lists no operator twice and only operators of that block, the removal lists stay
free of repetitions and hold only operators of these ranges. -/
theorem removal_loop_spec (fuel : Nat) (rng : Random01) (d : InsertionRemovalUpdater)
    (k : List Nat) (blockOf : psi → Nat) (Gc Ga : psi → Prop)
    (hRcd : ∀ ib, (d.cdagg_ops_range_.getD ib []).Nodup ∧
      ∀ op ∈ d.cdagg_ops_range_.getD ib [], Gc op ∧ blockOf op = ib)
    (hRc : ∀ ib, (d.c_ops_range_.getD ib []).Nodup ∧
      ∀ op ∈ d.c_ops_range_.getD ib [], Ga op ∧ blockOf op = ib) :
    ∀ (blocks : List Nat) (cd cs : List psi) (pos : Nat) (cd2 cs2 : List psi) (pos2 : Nat),
      blocks.Nodup → cd.Nodup → cs.Nodup →
      (∀ op ∈ cd, Gc op ∧ blockOf op ∉ blocks) →
      (∀ op ∈ cs, Ga op ∧ blockOf op ∉ blocks) →
      InsertionRemovalUpdater.removal_loop fuel rng d k blocks cd cs pos
        = some (cd2, cs2, pos2) →
      cd2.Nodup ∧ cs2.Nodup ∧ (∀ op ∈ cd2, Gc op) ∧ (∀ op ∈ cs2, Ga op) := by
  intro blocks
  induction blocks with
  | nil =>
    intro cd cs pos cd2 cs2 pos2 _ h2 h3 h4 h5 h
    unfold InsertionRemovalUpdater.removal_loop at h
    cases h
    exact ⟨h2, h3, fun op hop => (h4 op hop).1, fun op hop => (h5 op hop).1⟩
  | cons ib blocks ih =>
    intro cd cs pos cd2 cs2 pos2 h1 h2 h3 h4 h5 h
    unfold InsertionRemovalUpdater.removal_loop at h
    cases hc : pickup_a_few_numbers fuel (d.num_cdagg_ops_in_range_.getD ib 0) (k.getD ib 0)
        rng pos with
    | none => rw [hc] at h; cases h
    | some r1 =>
      obtain ⟨idx_c, pos1⟩ := r1
      rw [hc] at h
      simp only [] at h
      cases ha : pickup_a_few_numbers fuel (d.num_c_ops_in_range_.getD ib 0) (k.getD ib 0)
          rng pos1 with
      | none => rw [ha] at h; cases h
      | some r2 =>
        obtain ⟨idx_a, pos3⟩ := r2
        rw [ha] at h
        simp only [] at h
        cases hp : InsertionRemovalUpdater.removal_pick (d.cdagg_ops_range_.getD ib [])
            (d.c_ops_range_.getD ib []) idx_c idx_a cd cs with
        | none => rw [hp] at h; cases h
        | some r3 =>
          obtain ⟨cd1, cs1⟩ := r3
          rw [hp] at h
          simp only [] at h
          rw [List.nodup_cons] at h1
          obtain ⟨q1, q2, q3, q4⟩ := removal_pick_spec _ _ (hRcd ib).1 (hRc ib).1 idx_c idx_a
            cd cs cd1 cs1 (pickup_numbers_distinct _ _ _ _ _ _ _ hc).1
            (pickup_numbers_distinct _ _ _ _ _ _ _ ha).1 h2 h3
            (by
              intro op hop j _ hget
              have := ((hRcd ib).2 op (List.get?_mem hget)).2
              exact (h4 op hop).2 (this ▸ List.mem_cons_self _ _))
            (by
              intro op hop j _ hget
              have := ((hRc ib).2 op (List.get?_mem hget)).2
              exact (h5 op hop).2 (this ▸ List.mem_cons_self _ _))
            hp
          apply ih cd1 cs1 pos3 cd2 cs2 pos2 h1.2 q1 q2 _ _ h
          · intro op hop
            rcases q3 op hop with hm | hm
            · exact ⟨(h4 op hm).1, fun hb => (h4 op hm).2 (List.mem_cons_of_mem _ hb)⟩
            · have := (hRcd ib).2 op hm
              exact ⟨this.1, fun hb => h1.1 (this.2 ▸ hb)⟩
          · intro op hop
            rcases q4 op hop with hm | hm
            · exact ⟨(h5 op hm).1, fun hb => (h5 op hm).2 (List.mem_cons_of_mem _ hb)⟩
            · have := (hRc ib).2 op hm
              exact ⟨this.1, fun hb => h1.1 (this.2 ▸ hb)⟩

/-- A fold that multiplies a positive number by positive factors stays positive. -/
theorem foldl_pos (l : List Nat) (f : ℚ → Nat → ℚ)
    (hf : ∀ acc ib, ib ∈ l → 0 < acc → 0 < f acc ib) :
    ∀ a : ℚ, 0 < a → 0 < l.foldl f a := by
  induction l with
  | nil => intro a ha; exact ha
  | cons x xs ih =>
    intro a ha
    rw [List.foldl_cons]
    exact ih (fun acc ib hib hacc => hf acc ib (List.mem_cons_of_mem _ hib) hacc) _
      (hf a x (List.mem_cons_self _ _) ha)

/-- The correction factor of `propose_insertion` is strictly positive for a window of
positive width and blocks that hold at least one flavor. -/
theorem insertion_correction_pos (width : ℚ) (update_rank num_blocks : Nat)
    (num_flavors : Nat → Nat) (ncd nc np : List Nat) (hw : 0 < width)
    (hnf : ∀ ib, ib < num_blocks → 0 < num_flavors ib) :
    0 < InsertionRemovalUpdater.insertion_correction width update_rank num_blocks num_flavors
      ncd nc np := by
  unfold InsertionRemovalUpdater.insertion_correction
  apply foldl_pos
  · intro acc ib hib hacc
    by_cases h0 : np.getD ib 0 = 0
    · rw [if_pos h0]; exact hacc
    · rw [if_neg h0]
      have h1 : (0 : ℚ) < ((np.getD ib 0).factorial : ℚ) :=
        Nat.cast_pos.mpr (Nat.factorial_pos _)
      have h2 : (0 : ℚ) < (num_flavors ib : ℚ) :=
        Nat.cast_pos.mpr (hnf ib (List.mem_range.mp hib))
      have h3 : (0 : ℚ) < (((ncd.getD ib 0 + np.getD ib 0).choose (np.getD ib 0) : Nat) : ℚ) :=
        Nat.cast_pos.mpr (Nat.choose_pos (Nat.le_add_left _ _))
      have h4 : (0 : ℚ) < (((nc.getD ib 0 + np.getD ib 0).choose (np.getD ib 0) : Nat) : ℚ) :=
        Nat.cast_pos.mpr (Nat.choose_pos (Nat.le_add_left _ _))
      positivity
  · positivity

/-- The correction factor of `propose_removal` is strictly positive for a window of
positive width, blocks that hold at least one flavor, and no more pairs to remove from a
block than it has operators of each kind in the window. -/
theorem removal_correction_pos (width : ℚ) (update_rank num_blocks : Nat)
    (num_flavors : Nat → Nat) (ncd nc np : List Nat) (hw : 0 < width)
    (hnf : ∀ ib, ib < num_blocks → 0 < num_flavors ib)
    (hnp : ∀ ib, ib < num_blocks → np.getD ib 0 ≤ ncd.getD ib 0 ∧ np.getD ib 0 ≤ nc.getD ib 0) :
    0 < InsertionRemovalUpdater.removal_correction width update_rank num_blocks num_flavors
      ncd nc np := by
  unfold InsertionRemovalUpdater.removal_correction
  apply foldl_pos
  · intro acc ib hib hacc
    by_cases h0 : np.getD ib 0 = 0
    · rw [if_pos h0]; exact hacc
    · rw [if_neg h0]
      have hib2 := List.mem_range.mp hib
      have h1 : (0 : ℚ) < ((np.getD ib 0).factorial : ℚ) :=
        Nat.cast_pos.mpr (Nat.factorial_pos _)
      have h2 : (0 : ℚ) < (num_flavors ib : ℚ) := Nat.cast_pos.mpr (hnf ib hib2)
      have h3 : (0 : ℚ) < (((ncd.getD ib 0).choose (np.getD ib 0) : Nat) : ℚ) :=
        Nat.cast_pos.mpr (Nat.choose_pos (hnp ib hib2).1)
      have h4 : (0 : ℚ) < (((nc.getD ib 0).choose (np.getD ib 0) : Nat) : ℚ) :=
        Nat.cast_pos.mpr (Nat.choose_pos (hnp ib hib2).2)
      positivity
  · positivity

/-- The operators drawn by the loop of `propose_insertion` have their times strictly
inside the window. -/
theorem insertion_loop_times {MS : Type} (mat : DeterminantMatrix MS)
    (open_random : OpenRandom) (rng : Random01) (M : MS) (tau_low tau_high : ℚ)
    (hopen : ∀ pos, tau_low < (open_random rng pos tau_low tau_high).1 ∧
      (open_random rng pos tau_low tau_high).1 < tau_high) :
    ∀ (n : Nat) (k : List Nat) (cd cs : List psi) (pos : Nat) (k2 : List Nat)
      (cd2 cs2 : List psi) (pos2 : Nat),
      InsertionRemovalUpdater.insertion_loop mat open_random rng M tau_low tau_high
        n k cd cs pos = some (k2, cd2, cs2, pos2) →
      (∀ op ∈ cd2, op ∈ cd ∨ (tau_low < op.time ∧ op.time < tau_high)) ∧
      (∀ op ∈ cs2, op ∈ cs ∨ (tau_low < op.time ∧ op.time < tau_high)) := by
  intro n
  induction n with
  | zero =>
    intro k cd cs pos k2 cd2 cs2 pos2 h
    simp only [InsertionRemovalUpdater.insertion_loop] at h
    cases h
    exact ⟨fun op hop => Or.inl hop, fun op hop => Or.inl hop⟩
  | succ n ih =>
    intro k cd cs pos k2 cd2 cs2 pos2 h
    simp only [InsertionRemovalUpdater.insertion_loop] at h
    split at h
    · cases h
    · split at h
      · cases h
      · split at h
        · cases h
        · obtain ⟨r1, r2⟩ := ih _ _ _ _ _ _ _ _ h
          constructor
          · intro op hop
            rcases r1 op hop with hm | hm
            · rw [List.mem_append, List.mem_singleton] at hm
              rcases hm with hm | hm
              · exact Or.inl hm
              · rw [hm]; exact Or.inr (hopen _)
            · exact Or.inr hm
          · intro op hop
            rcases r2 op hop with hm | hm
            · rw [List.mem_append, List.mem_singleton] at hm
              rcases hm with hm | hm
              · exact Or.inl hm
              · rw [hm]; exact Or.inr (hopen _)
            · exact Or.inr hm

/-- The operators drawn by the insertion loop of the diagonal strategy have their times
strictly inside the window. -/
theorem diagonal_insertion_loop_times (open_random : OpenRandom) (rng : Random01)
    (tau_low tau_high : ℚ) (flavor : Nat)
    (hopen : ∀ pos, tau_low < (open_random rng pos tau_low tau_high).1 ∧
      (open_random rng pos tau_low tau_high).1 < tau_high) :
    ∀ (n : Nat) (cd cs : List psi) (pos : Nat),
      (∀ op ∈ (InsertionRemovalDiagonalUpdater.insertion_loop open_random rng tau_low tau_high
          flavor n cd cs pos).1, op ∈ cd ∨ (tau_low < op.time ∧ op.time < tau_high)) ∧
      (∀ op ∈ (InsertionRemovalDiagonalUpdater.insertion_loop open_random rng tau_low tau_high
          flavor n cd cs pos).2.1, op ∈ cs ∨ (tau_low < op.time ∧ op.time < tau_high)) := by
  intro n
  induction n with
  | zero =>
    intro cd cs pos
    exact ⟨fun op hop => Or.inl hop, fun op hop => Or.inl hop⟩
  | succ n ih =>
    intro cd cs pos
    simp only [InsertionRemovalDiagonalUpdater.insertion_loop]
    obtain ⟨r1, r2⟩ := ih
      (cd ++ [psi.mk (open_random rng pos tau_low tau_high).1 OperatorType.CREATION_OP flavor])
      (cs ++ [psi.mk (open_random rng (open_random rng pos tau_low tau_high).2 tau_low
        tau_high).1 OperatorType.ANNIHILATION_OP flavor])
      (open_random rng (open_random rng pos tau_low tau_high).2 tau_low tau_high).2
    constructor
    · intro op hop
      rcases r1 op hop with hm | hm
      · rw [List.mem_append, List.mem_singleton] at hm
        rcases hm with hm | hm
        · exact Or.inl hm
        · rw [hm]; exact Or.inr (hopen _)
      · exact Or.inr hm
    · intro op hop
      rcases r2 op hop with hm | hm
      · rw [List.mem_append, List.mem_singleton] at hm
        rcases hm with hm | hm
        · exact Or.inl hm
        · rw [hm]; exact Or.inr (hopen _)
      · exact Or.inr hm

/-- What `propose_insertion` leaves in the four lists and in the correction factor. -/
theorem propose_insertion_lists {MS : Type} (mat : DeterminantMatrix MS)
    (open_random : OpenRandom) (rng : Random01) (pos : Nat)
    (u : LocalUpdater InsertionRemovalUpdater) (cfg : MonteCarloConfiguration MS)
    (p : Proposal InsertionRemovalUpdater MS)
    (h : InsertionRemovalUpdater.propose_insertion mat open_random rng pos u cfg = some p) :
    ∃ k2 cd2 cs2 pos2,
      InsertionRemovalUpdater.insertion_loop mat open_random rng cfg.M u.derived.tau_low_
        u.derived.tau_high_ u.derived.update_rank_ (List.replicate (mat.num_blocks cfg.M) 0)
        u.cdagg_ops_add_ u.c_ops_add_ pos = some (k2, cd2, cs2, pos2) ∧
      p.cdagg_ops_add_ = cd2 ∧ p.c_ops_add_ = cs2 ∧
      p.cdagg_ops_rem_ = u.cdagg_ops_rem_ ∧ p.c_ops_rem_ = u.c_ops_rem_ ∧
      p.acceptance_rate_correction_ = some
        (InsertionRemovalUpdater.insertion_correction
          (u.derived.tau_high_ - u.derived.tau_low_) u.derived.update_rank_
          (mat.num_blocks cfg.M) (mat.num_flavors cfg.M)
          u.derived.num_cdagg_ops_in_range_ u.derived.num_c_ops_in_range_ k2) := by
  unfold InsertionRemovalUpdater.propose_insertion at h
  simp only [] at h
  split at h
  · cases h
  · rename_i k2 cd2 cs2 pos2 hloop
    cases h
    exact ⟨k2, cd2, cs2, pos2, hloop, rfl, rfl, rfl, rfl, rfl⟩

/-- Reading the list of the values of `g` on `0, …, n - 1`. -/
theorem getD_map_range_nil {α : Type} (g : Nat → List α) (n ib : Nat) :
    ((List.range n).map g).getD ib [] = if ib < n then g ib else [] := by
  rw [List.getD_eq_getElem?_getD, List.getElem?_map]
  by_cases h : ib < n
  · rw [if_pos h, List.getElem?_range h]
    rfl
  · rw [if_neg h, List.getElem?_eq_none (by simpa using h)]
    rfl

/-- Two lists without repetition, one of creation operators and one of annihilation
operators, have no repetition together. -/
theorem nodup_append_of_kinds (cd cs : List psi) (h1 : cd.Nodup) (h2 : cs.Nodup)
    (hc : ∀ op ∈ cd, op.type = OperatorType.CREATION_OP)
    (ha : ∀ op ∈ cs, op.type = OperatorType.ANNIHILATION_OP) : (cd ++ cs).Nodup := by
  apply List.Nodup.append h1 h2
  intro op hcd hcs
  have := hc op hcd
  rw [ha op hcs] at this
  cases this

/-- The cross-flavor strategy: a proposal that returns true keeps the orchestrator away
from its fatal branches. -/
theorem cross_proposal_safe {MS W : Type} (mat : DeterminantMatrix MS)
    (win : SlidingWindow W) (open_random : OpenRandom) (fuel : Nat) (rng : Random01)
    (pos : Nat) (u : LocalUpdater InsertionRemovalUpdater) (cfg : MonteCarloConfiguration MS)
    (w : W) (p : Proposal InsertionRemovalUpdater MS)
    (hwin : win.get_tau_low w < win.get_tau_high w)
    (hopen : ∀ q, win.get_tau_low w <
        (open_random rng q (win.get_tau_low w) (win.get_tau_high w)).1 ∧
      (open_random rng q (win.get_tau_low w) (win.get_tau_high w)).1 < win.get_tau_high w)
    (hcdset : ∀ ib op, op ∈ (mat.get_cdagg_ops_set cfg.M ib).elems →
      op ∈ cfg.operators.elems ∧ op.type = OperatorType.CREATION_OP ∧
        mat.block_belonging_to cfg.M op.flavor = ib)
    (hcset : ∀ ib op, op ∈ (mat.get_c_ops_set cfg.M ib).elems →
      op ∈ cfg.operators.elems ∧ op.type = OperatorType.ANNIHILATION_OP ∧
        mat.block_belonging_to cfg.M op.flavor = ib)
    (hnf : ∀ ib, ib < mat.num_blocks cfg.M → 0 < mat.num_flavors cfg.M ib)
    (he1 : u.cdagg_ops_rem_ = []) (he2 : u.c_ops_rem_ = [])
    (he3 : u.cdagg_ops_add_ = []) (he4 : u.c_ops_add_ = [])
    (hp : InsertionRemovalUpdater.propose mat win open_random fuel rng pos u cfg w = some p)
    (hv : p.valid = true) :
    proposal_is_safe p cfg.operators (win.get_tau_low w) (win.get_tau_high w) := by
  obtain ⟨u2, g1, g2, g3, g4, _, g6, g7, g8, g9, g10, g11, hbr⟩ :=
    cross_propose_branches mat win open_random fuel rng pos u cfg w p hp
  rw [he1] at g1
  rw [he2] at g2
  rw [he3] at g3
  rw [he4] at g4
  have hwidth : 0 < u2.derived.tau_high_ - u2.derived.tau_low_ := by
    rw [g6, g7]; exact sub_pos.mpr hwin
  rcases hbr with ⟨_, hins⟩ | ⟨_, hrem⟩
  · obtain ⟨k2, cd2, cs2, pos2, hloop, l1, l2, l3, l4, l5⟩ :=
      propose_insertion_lists mat open_random rng (pos + 1) u2 cfg p hins
    rw [g6, g7, g3, g4] at hloop
    obtain ⟨t1, t2⟩ := insertion_loop_times mat open_random rng cfg.M _ _ hopen _ _ _ _ _ _ _ _
      _ hloop
    refine ⟨⟨_, l5, insertion_correction_pos _ _ _ _ _ _ _ hwidth hnf⟩, ?_, ?_, ?_⟩
    · intro op hop
      rw [l1, l2, l3, l4, g1, g2] at hop
      simp only [List.nil_append, List.mem_append] at hop
      rcases hop with hop | hop
      · rcases t1 op hop with hm | hm
        · cases hm
        · exact ⟨le_of_lt hm.1, le_of_lt hm.2⟩
      · rcases t2 op hop with hm | hm
        · cases hm
        · exact ⟨le_of_lt hm.1, le_of_lt hm.2⟩
    · intro op hop
      rw [l3, l4, g1, g2] at hop
      cases hop
    · rw [l3, l4, g1, g2]
      exact List.nodup_nil
  · obtain ⟨k2, pos1, _, hcase⟩ := propose_removal_some mat fuel rng (pos + 1) u2 cfg p hrem
    rcases hcase with ⟨hf, _⟩ | ⟨_, hbound, cd, cs, pos2, hloop, l1, l2, l3, l4, _, l5⟩
    · rw [hv] at hf
      cases hf
    · rw [g1, g2] at hloop
      have hR1 : ∀ ib, (u2.derived.cdagg_ops_range_.getD ib []).Nodup ∧
          ∀ op ∈ u2.derived.cdagg_ops_range_.getD ib [],
            (op ∈ cfg.operators.elems ∧ op.type = OperatorType.CREATION_OP ∧
              win.get_tau_low w ≤ op.time ∧ op.time ≤ win.get_tau_high w) ∧
            mat.block_belonging_to cfg.M op.flavor = ib := by
        intro ib
        rw [g8, getD_map_range_nil]
        by_cases hib : ib < mat.num_blocks cfg.M
        · rw [if_pos hib]
          refine ⟨nodup_range _ _ _, ?_⟩
          intro op hop
          rw [mem_range_iff] at hop
          have := hcdset ib op hop.1
          exact ⟨⟨this.1, this.2.1, hop.2⟩, this.2.2⟩
        · rw [if_neg hib]
          exact ⟨List.nodup_nil, fun op hop => nomatch hop⟩
      have hR2 : ∀ ib, (u2.derived.c_ops_range_.getD ib []).Nodup ∧
          ∀ op ∈ u2.derived.c_ops_range_.getD ib [],
            (op ∈ cfg.operators.elems ∧ op.type = OperatorType.ANNIHILATION_OP ∧
              win.get_tau_low w ≤ op.time ∧ op.time ≤ win.get_tau_high w) ∧
            mat.block_belonging_to cfg.M op.flavor = ib := by
        intro ib
        rw [g9, getD_map_range_nil]
        by_cases hib : ib < mat.num_blocks cfg.M
        · rw [if_pos hib]
          refine ⟨nodup_range _ _ _, ?_⟩
          intro op hop
          rw [mem_range_iff] at hop
          have := hcset ib op hop.1
          exact ⟨⟨this.1, this.2.1, hop.2⟩, this.2.2⟩
        · rw [if_neg hib]
          exact ⟨List.nodup_nil, fun op hop => nomatch hop⟩
      obtain ⟨n1, n2, n3, n4⟩ := removal_loop_spec fuel rng u2.derived k2
        (fun op => mat.block_belonging_to cfg.M op.flavor) _ _ hR1 hR2
        (List.range (mat.num_blocks cfg.M)) [] [] pos1 cd cs pos2 (List.nodup_range _)
        List.nodup_nil List.nodup_nil (fun op hop => nomatch hop) (fun op hop => nomatch hop)
        hloop
      refine ⟨⟨_, l5, removal_correction_pos _ _ _ _ _ _ _ hwidth hnf hbound⟩, ?_, ?_, ?_⟩
      · intro op hop
        rw [l1, l2, l3, l4, g3, g4] at hop
        simp only [List.append_nil, List.mem_append] at hop
        rcases hop with hop | hop
        · exact (n3 op hop).2.2
        · exact (n4 op hop).2.2
      · intro op hop
        rw [l1, l2, List.mem_append] at hop
        rcases hop with hop | hop
        · exact (n3 op hop).1
        · exact (n4 op hop).1
      · rw [l1, l2]
        exact nodup_append_of_kinds cd cs n1 n2 (fun op hop => (n3 op hop).2.1)
          (fun op hop => (n4 op hop).2.1)

/-- The diagonal strategy: a proposal that returns true keeps the orchestrator away from
its fatal branches. -/
theorem diagonal_proposal_safe {MS W : Type} (mat : DeterminantMatrix MS)
    (win : SlidingWindow W) (open_random : OpenRandom) (fuel : Nat) (rng : Random01)
    (pos : Nat) (u : LocalUpdater InsertionRemovalDiagonalUpdater)
    (cfg : MonteCarloConfiguration MS) (w : W)
    (p : Proposal InsertionRemovalDiagonalUpdater MS)
    (hwin : win.get_tau_low w < win.get_tau_high w)
    (hopen : ∀ q, win.get_tau_low w <
        (open_random rng q (win.get_tau_low w) (win.get_tau_high w)).1 ∧
      (open_random rng q (win.get_tau_low w) (win.get_tau_high w)).1 < win.get_tau_high w)
    (hcdset : ∀ ib op, op ∈ (mat.get_cdagg_ops_set cfg.M ib).elems →
      op ∈ cfg.operators.elems ∧ op.type = OperatorType.CREATION_OP ∧
        mat.block_belonging_to cfg.M op.flavor = ib)
    (hcset : ∀ ib op, op ∈ (mat.get_c_ops_set cfg.M ib).elems →
      op ∈ cfg.operators.elems ∧ op.type = OperatorType.ANNIHILATION_OP ∧
        mat.block_belonging_to cfg.M op.flavor = ib)
    (he1 : u.cdagg_ops_rem_ = []) (he2 : u.c_ops_rem_ = [])
    (he3 : u.cdagg_ops_add_ = []) (he4 : u.c_ops_add_ = [])
    (hp : InsertionRemovalDiagonalUpdater.propose mat win open_random fuel rng pos u cfg w
      = some p)
    (hv : p.valid = true) :
    proposal_is_safe p cfg.operators (win.get_tau_low w) (win.get_tau_high w) := by
  obtain ⟨_, hbr⟩ := diagonal_propose_true mat win open_random fuel rng pos u cfg w p
    _ rfl _ rfl _ rfl hp hv
  have hwidth : 0 < win.get_tau_high w - win.get_tau_low w := sub_pos.mpr hwin
  rcases hbr with ⟨_, l1, l2, l3, l4, l5⟩ | ⟨_, b1, b2, l3, l4, hpick, l5⟩
  · obtain ⟨t1, t2⟩ := diagonal_insertion_loop_times open_random rng _ _
      (static_cast_int (rng pos * (u.derived.num_flavors_ : ℚ))).toNat hopen
      u.derived.update_rank_ u.cdagg_ops_add_ u.c_ops_add_ (pos + 2)
    refine ⟨⟨_, l5, ?_⟩, ?_, ?_, ?_⟩
    · unfold InsertionRemovalDiagonalUpdater.insertion_correction
      have h1 : (0 : ℚ) < (u.derived.update_rank_.factorial : ℚ) :=
        Nat.cast_pos.mpr (Nat.factorial_pos _)
      have h3 : ∀ n : Nat, (0 : ℚ) <
          (((n + u.derived.update_rank_).choose u.derived.update_rank_ : Nat) : ℚ) :=
        fun n => Nat.cast_pos.mpr (Nat.choose_pos (Nat.le_add_left _ _))
      have := h3 (List.filter (fun op => decide (op.flavor =
        (static_cast_int (rng pos * (u.derived.num_flavors_ : ℚ))).toNat))
        ((mat.get_cdagg_ops_set cfg.M (mat.block_belonging_to cfg.M
          (static_cast_int (rng pos * (u.derived.num_flavors_ : ℚ))).toNat)).range
          (win.get_tau_low w) (win.get_tau_high w))).length
      have := h3 (List.filter (fun op => decide (op.flavor =
        (static_cast_int (rng pos * (u.derived.num_flavors_ : ℚ))).toNat))
        ((mat.get_c_ops_set cfg.M (mat.block_belonging_to cfg.M
          (static_cast_int (rng pos * (u.derived.num_flavors_ : ℚ))).toNat)).range
          (win.get_tau_low w) (win.get_tau_high w))).length
      positivity
    · intro op hop
      rw [l1, l2, l3, l4, he1, he2] at hop
      simp only [List.nil_append, List.mem_append] at hop
      rcases hop with hop | hop
      · rcases t1 op ((List.perm_insertionSort _ _).mem_iff.mp hop) with hm | hm
        · rw [he3] at hm
          cases hm
        · exact ⟨le_of_lt hm.1, le_of_lt hm.2⟩
      · rcases t2 op ((List.perm_insertionSort _ _).mem_iff.mp hop) with hm | hm
        · rw [he4] at hm
          cases hm
        · exact ⟨le_of_lt hm.1, le_of_lt hm.2⟩
    · intro op hop
      rw [l1, l2, he1, he2] at hop
      cases hop
    · rw [l1, l2, he1, he2]
      exact List.nodup_nil
  · obtain ⟨idx_c, pos1, idx_a, pos2, rem_c, rem_a, hc, ha, hpk, l1, l2⟩ := hpick
    rw [diagonal_removal_pick_eq, he1, he2] at hpk
    obtain ⟨n1, n2, n3, n4⟩ := removal_pick_spec _ _ ((nodup_range _ _ _).filter _)
      ((nodup_range _ _ _).filter _) idx_c idx_a [] [] rem_c rem_a
      (pickup_numbers_distinct _ _ _ _ _ _ _ hc).1 (pickup_numbers_distinct _ _ _ _ _ _ _ ha).1
      List.nodup_nil List.nodup_nil (fun op hop => nomatch hop) (fun op hop => nomatch hop) hpk
    have hcd : ∀ op ∈ rem_c, op ∈ cfg.operators.elems ∧ op.type = OperatorType.CREATION_OP ∧
        win.get_tau_low w ≤ op.time ∧ op.time ≤ win.get_tau_high w := by
      intro op hop
      rcases n3 op hop with hm | hm
      · cases hm
      · have hm2 := (mem_range_iff _ _ _ _).mp (List.mem_filter.mp hm).1
        have := hcdset _ op hm2.1
        exact ⟨this.1, this.2.1, hm2.2⟩
    have hcs : ∀ op ∈ rem_a, op ∈ cfg.operators.elems ∧
        op.type = OperatorType.ANNIHILATION_OP ∧
        win.get_tau_low w ≤ op.time ∧ op.time ≤ win.get_tau_high w := by
      intro op hop
      rcases n4 op hop with hm | hm
      · cases hm
      · have hm2 := (mem_range_iff _ _ _ _).mp (List.mem_filter.mp hm).1
        have := hcset _ op hm2.1
        exact ⟨this.1, this.2.1, hm2.2⟩
    refine ⟨⟨_, l5, ?_⟩, ?_, ?_, ?_⟩
    · unfold InsertionRemovalDiagonalUpdater.removal_correction
      have h1 : (0 : ℚ) < (u.derived.update_rank_.factorial : ℚ) :=
        Nat.cast_pos.mpr (Nat.factorial_pos _)
      have h2 := (Nat.cast_pos (α := ℚ)).mpr (Nat.choose_pos b1)
      have h3 := (Nat.cast_pos (α := ℚ)).mpr (Nat.choose_pos b2)
      positivity
    · intro op hop
      rw [l1, l2, l3, l4, he3, he4] at hop
      simp only [List.append_nil, List.mem_append] at hop
      rcases hop with hop | hop
      · exact (hcd op ((List.perm_insertionSort _ _).mem_iff.mp hop)).2.2
      · exact (hcs op ((List.perm_insertionSort _ _).mem_iff.mp hop)).2.2
    · intro op hop
      rw [l1, l2, List.mem_append] at hop
      rcases hop with hop | hop
      · exact (hcd op ((List.perm_insertionSort _ _).mem_iff.mp hop)).1
      · exact (hcs op ((List.perm_insertionSort _ _).mem_iff.mp hop)).1
    · rw [l1, l2]
      exact nodup_append_of_kinds _ _ ((List.perm_insertionSort _ _).nodup_iff.mpr n1)
        ((List.perm_insertionSort _ _).nodup_iff.mpr n2)
        (fun op hop => (hcd op ((List.perm_insertionSort _ _).mem_iff.mp hop)).2.1)
        (fun op hop => (hcs op ((List.perm_insertionSort _ _).mem_iff.mp hop)).2.1)

/-- The shift strategy: a proposal that returns true keeps the orchestrator away from its
fatal branches. -/
theorem shift_proposal_safe {MS W : Type} (mat : DeterminantMatrix MS)
    (win : SlidingWindow W) (rng : Random01) (pos : Nat)
    (u : LocalUpdater SingleOperatorShiftUpdater) (cfg : MonteCarloConfiguration MS) (w : W)
    (p : Proposal SingleOperatorShiftUpdater MS)
    (he1 : u.cdagg_ops_rem_ = []) (he2 : u.c_ops_rem_ = [])
    (he3 : u.cdagg_ops_add_ = []) (he4 : u.c_ops_add_ = [])
    (hp : SingleOperatorShiftUpdater.propose mat win rng pos u cfg w = some p)
    (hv : p.valid = true) :
    proposal_is_safe p cfg.operators (win.get_tau_low w) (win.get_tau_high w) := by
  obtain ⟨_, hcase⟩ := shift_propose_spec mat win rng pos u cfg w p hp
  rcases hcase with ⟨_, hf⟩ | ⟨_, it, nf, md, q, kind, hit, _, _, _, hcase2⟩
  · rw [hv] at hf; cases hf
  · rcases hcase2 with ⟨_, hf⟩ | ⟨hin, _, l5, hlists⟩
    · rw [hv] at hf; cases hf
    · have hit2 := (mem_range_iff _ _ _ _).mp hit
      have hnew : win.get_tau_low w ≤ (2 * rng q - 1) * md + it.time ∧
          (2 * rng q - 1) * md + it.time ≤ win.get_tau_high w := by
        constructor
        · by_contra hc
          exact hin (Or.inl (not_le.mp hc))
        · by_contra hc
          exact hin (Or.inr (not_le.mp hc))
      refine ⟨⟨1, l5, one_pos⟩, ?_, ?_, ?_⟩
      · intro op hop
        rcases hlists with ⟨_, l1, l2, l3, l4⟩ | ⟨_, l1, l2, l3, l4⟩
        · rw [l1, l2, l3, l4, he1, he2, he3, he4] at hop
          simp only [List.nil_append, List.append_nil, List.mem_append, List.mem_singleton,
            List.not_mem_nil, or_false] at hop
          rcases hop with hop | hop
          · rw [hop]; exact hit2.2
          · rw [hop]; exact hnew
        · rw [l1, l2, l3, l4, he1, he2, he3, he4] at hop
          simp only [List.nil_append, List.append_nil, List.mem_append, List.mem_singleton,
            List.not_mem_nil, or_false, false_or] at hop
          rcases hop with hop | hop
          · rw [hop]; exact hit2.2
          · rw [hop]; exact hnew
      · intro op hop
        rcases hlists with ⟨_, l1, _, l3, _⟩ | ⟨_, l1, _, l3, _⟩
        · rw [l1, l3, he1, he2] at hop
          simp only [List.nil_append, List.append_nil, List.mem_singleton] at hop
          rw [hop]; exact hit2.1
        · rw [l1, l3, he1, he2] at hop
          simp only [List.nil_append, List.append_nil, List.mem_singleton] at hop
          rw [hop]; exact hit2.1
      · rcases hlists with ⟨_, l1, _, l3, _⟩ | ⟨_, l1, _, l3, _⟩
        · rw [l1, l3, he1, he2]
          exact List.nodup_singleton _
        · rw [l1, l3, he1, he2]
          exact List.nodup_singleton _

/-- C23. The fatal branches of the orchestrator are unreachable for the shipped
strategies.  Let the window have `tau_low < tau_high`, let every operator of a per-block
set of `M` be an operator of `mc_config.operators` of the kind of the set and of that
block, and let every block hold at least one flavor.  Then for each of
`InsertionRemovalUpdater`, `InsertionRemovalDiagonalUpdater` and
`SingleOperatorShiftUpdater`, entered with its four lists empty (and, for the first two,
with an `open_random` that returns times strictly between its bounds), whenever
`propose` returns true: the correction factor is set and strictly positive, every
operator of the four lists has its time inside `[tau_low, tau_high]`, and every operator
of the removal lists is in `mc_config.operators` and none is listed twice. -/
theorem shipped_proposals_are_safe {MS W : Type} (mat : DeterminantMatrix MS)
    (win : SlidingWindow W) (open_random : OpenRandom) (fuel : Nat)
    (cfg : MonteCarloConfiguration MS) (w : W)
    (hwin : win.get_tau_low w < win.get_tau_high w)
    (hcdset : ∀ ib op, op ∈ (mat.get_cdagg_ops_set cfg.M ib).elems →
      op ∈ cfg.operators.elems ∧ op.type = OperatorType.CREATION_OP ∧
        mat.block_belonging_to cfg.M op.flavor = ib)
    (hcset : ∀ ib op, op ∈ (mat.get_c_ops_set cfg.M ib).elems →
      op ∈ cfg.operators.elems ∧ op.type = OperatorType.ANNIHILATION_OP ∧
        mat.block_belonging_to cfg.M op.flavor = ib)
    (hnf : ∀ ib, ib < mat.num_blocks cfg.M → 0 < mat.num_flavors cfg.M ib) :
    (∀ (rng : Random01) (pos : Nat) (u : LocalUpdater InsertionRemovalUpdater)
      (p : Proposal InsertionRemovalUpdater MS),
      (∀ q, win.get_tau_low w <
          (open_random rng q (win.get_tau_low w) (win.get_tau_high w)).1 ∧
        (open_random rng q (win.get_tau_low w) (win.get_tau_high w)).1
          < win.get_tau_high w) →
      u.cdagg_ops_rem_ = [] → u.c_ops_rem_ = [] → u.cdagg_ops_add_ = [] →
      u.c_ops_add_ = [] →
      InsertionRemovalUpdater.propose mat win open_random fuel rng pos u cfg w = some p →
      p.valid = true →
      proposal_is_safe p cfg.operators (win.get_tau_low w) (win.get_tau_high w)) ∧
    (∀ (rng : Random01) (pos : Nat) (u : LocalUpdater InsertionRemovalDiagonalUpdater)
      (p : Proposal InsertionRemovalDiagonalUpdater MS),
      (∀ q, win.get_tau_low w <
          (open_random rng q (win.get_tau_low w) (win.get_tau_high w)).1 ∧
        (open_random rng q (win.get_tau_low w) (win.get_tau_high w)).1
          < win.get_tau_high w) →
      u.cdagg_ops_rem_ = [] → u.c_ops_rem_ = [] → u.cdagg_ops_add_ = [] →
      u.c_ops_add_ = [] →
      InsertionRemovalDiagonalUpdater.propose mat win open_random fuel rng pos u cfg w
        = some p →
      p.valid = true →
      proposal_is_safe p cfg.operators (win.get_tau_low w) (win.get_tau_high w)) ∧
    (∀ (rng : Random01) (pos : Nat) (u : LocalUpdater SingleOperatorShiftUpdater)
      (p : Proposal SingleOperatorShiftUpdater MS),
      u.cdagg_ops_rem_ = [] → u.c_ops_rem_ = [] → u.cdagg_ops_add_ = [] →
      u.c_ops_add_ = [] →
      SingleOperatorShiftUpdater.propose mat win rng pos u cfg w = some p →
      p.valid = true →
      proposal_is_safe p cfg.operators (win.get_tau_low w) (win.get_tau_high w)) := by
  refine ⟨?_, ?_, ?_⟩
  · intro rng pos u p hopen he1 he2 he3 he4 hp hv
    exact cross_proposal_safe mat win open_random fuel rng pos u cfg w p hwin hopen hcdset
      hcset hnf he1 he2 he3 he4 hp hv
  · intro rng pos u p hopen he1 he2 he3 he4 hp hv
    exact diagonal_proposal_safe mat win open_random fuel rng pos u cfg w p hwin hopen hcdset
      hcset he1 he2 he3 he4 hp hv
  · intro rng pos u p he1 he2 he3 he4 hp hv
    exact shift_proposal_safe mat win rng pos u cfg w p he1 he2 he3 he4 hp hv

/-- Witness of C23: on the test bench with the pair of operators at the times `3` and
`7`, the cross-flavor strategy proposes to remove the pair, the diagonal strategy
proposes to insert a pair, and the shift strategy proposes to move the creation
operator. -/
theorem shipped_proposals_are_safe_witness :
    ∃ p1 p2 p3,
      InsertionRemovalUpdater.propose Bench.stocked_matrix Bench.window Bench.midpoint_random
        8 (Bench.stream [1 / 2, 0, 0, 0]) 0 Bench.insertion_updater Bench.pair_config ()
        = some p1 ∧
      p1.cdagg_ops_rem_ = [⟨3, OperatorType.CREATION_OP, 0⟩] ∧
      proposal_is_safe p1 Bench.pair_config.operators 0 10 ∧
      InsertionRemovalDiagonalUpdater.propose Bench.stocked_matrix Bench.window
        Bench.midpoint_random 8 (Bench.stream [0, 1 / 4]) 0 Bench.diagonal_updater
        Bench.pair_config () = some p2 ∧
      p2.cdagg_ops_add_ = [⟨5, OperatorType.CREATION_OP, 0⟩] ∧
      proposal_is_safe p2 Bench.pair_config.operators 0 10 ∧
      SingleOperatorShiftUpdater.propose Bench.stocked_matrix Bench.window
        (Bench.stream [0, 0, 3 / 5]) 0 Bench.shift_updater Bench.pair_config () = some p3 ∧
      p3.cdagg_ops_add_ = [⟨4, OperatorType.CREATION_OP, 0⟩] ∧
      proposal_is_safe p3 Bench.pair_config.operators 0 10 := by
  have hmid : ∀ (rng : Random01) (q : Nat),
      Bench.window.get_tau_low () <
        (Bench.midpoint_random rng q (Bench.window.get_tau_low ())
          (Bench.window.get_tau_high ())).1 ∧
      (Bench.midpoint_random rng q (Bench.window.get_tau_low ())
        (Bench.window.get_tau_high ())).1 < Bench.window.get_tau_high () := by
    intro rng q
    constructor
    · show (0 : ℚ) < (0 + 10) / 2
      norm_num
    · show ((0 : ℚ) + 10) / 2 < 10
      norm_num
  have h := shipped_proposals_are_safe Bench.stocked_matrix Bench.window
    Bench.midpoint_random 8 Bench.pair_config () (by decide!)
    (by
      intro ib op hop
      by_cases hib : ib = 0
      · subst hib
        have : op = ⟨3, OperatorType.CREATION_OP, 0⟩ := by
          simpa [Bench.stocked_matrix, operator_container_t.ofList,
            operator_container_t.insert, operator_container_t.empty] using hop
        subst this
        exact ⟨by decide!, rfl, rfl⟩
      · simp [Bench.stocked_matrix, hib, operator_container_t.empty] at hop)
    (by
      intro ib op hop
      by_cases hib : ib = 0
      · subst hib
        have : op = ⟨7, OperatorType.ANNIHILATION_OP, 0⟩ := by
          simpa [Bench.stocked_matrix, operator_container_t.ofList,
            operator_container_t.insert, operator_container_t.empty] using hop
        subst this
        exact ⟨by decide!, rfl, rfl⟩
      · simp [Bench.stocked_matrix, hib, operator_container_t.empty] at hop)
    (fun ib _ => Nat.one_pos)
  have h1 : (InsertionRemovalUpdater.propose Bench.stocked_matrix Bench.window
      Bench.midpoint_random 8 (Bench.stream [1 / 2, 0, 0, 0]) 0 Bench.insertion_updater
      Bench.pair_config ()).map (fun p => (p.valid, p.cdagg_ops_rem_))
      = some (true, [⟨3, OperatorType.CREATION_OP, 0⟩]) := by decide!
  have h2 : (InsertionRemovalDiagonalUpdater.propose Bench.stocked_matrix Bench.window
      Bench.midpoint_random 8 (Bench.stream [0, 1 / 4]) 0 Bench.diagonal_updater
      Bench.pair_config ()).map (fun p => (p.valid, p.cdagg_ops_add_))
      = some (true, [⟨5, OperatorType.CREATION_OP, 0⟩]) := by decide!
  have h3 : (SingleOperatorShiftUpdater.propose Bench.stocked_matrix Bench.window
      (Bench.stream [0, 0, 3 / 5]) 0 Bench.shift_updater Bench.pair_config ()).map
      (fun p => (p.valid, p.cdagg_ops_add_))
      = some (true, [⟨4, OperatorType.CREATION_OP, 0⟩]) := by decide!
  obtain ⟨p1, hp1, hv1⟩ := Option.map_eq_some'.mp h1
  obtain ⟨p2, hp2, hv2⟩ := Option.map_eq_some'.mp h2
  obtain ⟨p3, hp3, hv3⟩ := Option.map_eq_some'.mp h3
  exact ⟨p1, p2, p3, hp1, (Prod.mk.inj hv1).2,
    h.1 _ _ _ p1 (hmid _) rfl rfl rfl rfl hp1 (Prod.mk.inj hv1).1,
    hp2, (Prod.mk.inj hv2).2,
    h.2.1 _ _ _ p2 (hmid _) rfl rfl rfl rfl hp2 (Prod.mk.inj hv2).1,
    hp3, (Prod.mk.inj hv3).2,
    h.2.2 _ _ _ p3 rfl rfl rfl rfl hp3 (Prod.mk.inj hv3).1⟩

/-! ## Global update: the pivot vector after a rejection -/

/-- Sorting with `AbsGreater` leaves the magnitudes in descending order. -/
theorem sort_abs_greater_sorted (v : List ℚ) :
    (sort_abs_greater v).Pairwise (fun a b => |a| ≥ |b|) := by
  have hr : ∀ a b : ℚ, (AbsGreater b a = false) ↔ |a| ≥ |b| := by
    intro a b
    unfold AbsGreater
    simp
  haveI : IsTotal ℚ (fun a b => AbsGreater b a = false) :=
    ⟨fun a b => by
      rw [hr, hr]
      exact le_total |b| |a|⟩
  haveI : IsTrans ℚ (fun a b => AbsGreater b a = false) :=
    ⟨fun a b c h1 h2 => by
      rw [hr] at h1 h2 ⊢
      exact le_trans h2 h1⟩
  have hs := List.sorted_insertionSort (fun a b : ℚ => AbsGreater b a = false) v
  exact List.Pairwise.imp (fun h => (hr _ _).mp h) hs

/-- The vector `det_vec_old` as the block-wise `compute_det_rat` leaves it: untouched
when no new pivot has been collected, sorted by descending magnitude otherwise. -/
theorem compute_det_rat_blocks_old_cases {MS : Type} (mat : DeterminantMatrixGlobal MS)
    (decompose : List (List ℚ) → FullPivLU) (creation_operators annihilation_operators :
      List psi) (det_vec_old : List ℚ) (M : MS) (det_rat : ℚ) (old_exit new_exit : List ℚ)
    (h : compute_det_rat_blocks mat decompose creation_operators annihilation_operators
      det_vec_old M = Except.ok (det_rat, old_exit, new_exit)) :
    (new_exit = [] ∧ det_rat = 0 ∧ old_exit = det_vec_old) ∨
    (new_exit ≠ [] ∧ old_exit = sort_abs_greater det_vec_old) := by
  unfold compute_det_rat_blocks at h
  simp only [] at h
  split at h
  · cases h
  · split at h
    · cases h
    · rename_i raw cdt ct hloop
      split at h
      · rename_i hlen
        cases h
        exact Or.inl ⟨List.length_eq_zero.mp hlen, rfl, rfl⟩
      · rename_i hlen
        split at h
        · cases h
        · cases h
          refine Or.inr ⟨?_, rfl⟩
          have hperm := sort_abs_greater_perm raw
          cases hsn : sort_abs_greater raw with
          | nil =>
            rw [hsn] at hperm
            exact absurd (List.length_eq_zero.mpr (List.Perm.nil_eq hperm).symm) hlen
          | cons d rest => simp

/-- C32. Whenever `global_update` returns false, the pivot vector `det_vec` holds the
same entries as on entry, possibly in another order.  When the rejection is caused by a
zero transformed trace the vector is equal to the one on entry.  When it is caused by
the Metropolis test, the block-wise `compute_det_rat` has been evaluated with `det_vec` as
its old pivots and the vector is what this call left: the vector on entry when no new
pivot was collected, and the vector on entry sorted by descending magnitude otherwise. -/
theorem rejected_global_update_keeps_pivots {MS W : Type} (env : GlobalEnv MS W)
    (rng : Random01) (BETA : ℚ) (mc_config : MonteCarloConfiguration MS) (det_vec : List ℚ)
    (w : W) (num_flavors : Nat) (transformer : psi → psi) (Nwin : Nat) (pos : Nat)
    (h : (global_update env rng BETA mc_config det_vec w num_flavors transformer Nwin
      pos).result = Except.ok false) :
    (global_update env rng BETA mc_config det_vec w num_flavors transformer Nwin
      pos).det_vec.Perm det_vec ∧
    (transformed_trace env mc_config w transformer Nwin = 0 →
      (global_update env rng BETA mc_config det_vec w num_flavors transformer Nwin
        pos).det_vec = det_vec) ∧
    (transformed_trace env mc_config w transformer Nwin ≠ 0 →
      ∃ det_rat det_vec_new,
        compute_det_rat_blocks env.matrix env.decompose
          ((env.matrix.get_cdagg_ops mc_config.M).map transformer)
          ((env.matrix.get_c_ops mc_config.M).map transformer) det_vec mc_config.M
          = Except.ok (det_rat, (global_update env rng BETA mc_config det_vec w num_flavors
            transformer Nwin pos).det_vec, det_vec_new) ∧
        ¬ rng pos < |det_rat *
          (transformed_trace env mc_config w transformer Nwin / mc_config.trace)| ∧
        (det_vec_new = [] →
          (global_update env rng BETA mc_config det_vec w num_flavors transformer Nwin
            pos).det_vec = det_vec) ∧
        (det_vec_new ≠ [] →
          (global_update env rng BETA mc_config det_vec w num_flavors transformer Nwin
            pos).det_vec = sort_abs_greater det_vec)) ∧
    (sort_abs_greater det_vec).Pairwise (fun a b => |a| ≥ |b|) := by
  suffices key : (global_update env rng BETA mc_config det_vec w num_flavors transformer Nwin
      pos).result = Except.ok false →
      (global_update env rng BETA mc_config det_vec w num_flavors transformer Nwin
        pos).det_vec.Perm det_vec ∧
      (transformed_trace env mc_config w transformer Nwin = 0 →
        (global_update env rng BETA mc_config det_vec w num_flavors transformer Nwin
          pos).det_vec = det_vec) ∧
      (transformed_trace env mc_config w transformer Nwin ≠ 0 →
        ∃ det_rat det_vec_new,
          compute_det_rat_blocks env.matrix env.decompose
            ((env.matrix.get_cdagg_ops mc_config.M).map transformer)
            ((env.matrix.get_c_ops mc_config.M).map transformer) det_vec mc_config.M
            = Except.ok (det_rat, (global_update env rng BETA mc_config det_vec w num_flavors
              transformer Nwin pos).det_vec, det_vec_new) ∧
          ¬ rng pos < |det_rat *
            (transformed_trace env mc_config w transformer Nwin / mc_config.trace)| ∧
          (det_vec_new = [] →
            (global_update env rng BETA mc_config det_vec w num_flavors transformer Nwin
              pos).det_vec = det_vec) ∧
          (det_vec_new ≠ [] →
            (global_update env rng BETA mc_config det_vec w num_flavors transformer Nwin
              pos).det_vec = sort_abs_greater det_vec)) from
    ⟨(key h).1, (key h).2.1, (key h).2.2, sort_abs_greater_sorted det_vec⟩
  apply global_update_cases (Q := fun run => run.result = Except.ok false →
    run.det_vec.Perm det_vec ∧
    (transformed_trace env mc_config w transformer Nwin = 0 → run.det_vec = det_vec) ∧
    (transformed_trace env mc_config w transformer Nwin ≠ 0 →
      ∃ det_rat det_vec_new,
        compute_det_rat_blocks env.matrix env.decompose
          ((env.matrix.get_cdagg_ops mc_config.M).map transformer)
          ((env.matrix.get_c_ops mc_config.M).map transformer) det_vec mc_config.M
          = Except.ok (det_rat, run.det_vec, det_vec_new) ∧
        ¬ rng pos < |det_rat *
          (transformed_trace env mc_config w transformer Nwin / mc_config.trace)| ∧
        (det_vec_new = [] → run.det_vec = det_vec) ∧
        (det_vec_new ≠ [] → run.det_vec = sort_abs_greater det_vec)))
    env rng BETA mc_config det_vec w num_flavors transformer Nwin pos
    _ rfl _ rfl _ rfl _ rfl _ rfl _ rfl
  · intro _ h
    cases h
  · intro _ h
    cases h
  · intro _ h
    cases h
  · intro _ ht _
    exact ⟨List.Perm.refl _, fun _ => rfl, fun hne => absurd ht hne⟩
  · intro _ _ e _ h
    cases h
  · intro _ hne det_rat det_vec_old det_vec_new he hrej _
    refine ⟨compute_det_rat_blocks_old _ _ _ _ _ _ _ _ _ he, fun h0 => absurd h0 hne, ?_⟩
    intro _
    refine ⟨det_rat, det_vec_new, he, hrej, ?_, ?_⟩
    · intro hnil
      rcases compute_det_rat_blocks_old_cases _ _ _ _ _ _ _ _ _ he with ⟨_, _, h3⟩ | ⟨h1, _⟩
      · exact h3
      · exact absurd hnil h1
    · intro hnn
      rcases compute_det_rat_blocks_old_cases _ _ _ _ _ _ _ _ _ he with ⟨h1, _, _⟩ | ⟨_, h2⟩
      · exact absurd h1 hnn
      · exact h2
  · intro _ _ _ _ _ _ _ _ h
    cases h
  · intro _ _ _ _ _ _ _ _ _ h
    cases h
  · intro _ _ _ _ _ _ _ _ _ _ h
    cases h

/-- Witness of C32: a flavor exchange rejected by the Metropolis test (determinant ratio
`1/4`, trace ratio `1`, threshold `1/2`) leaves the pivots `1/2, -8` in the order
`-8, 1/2`. -/
theorem rejected_global_update_keeps_pivots_witness :
    (global_update (Bench.global_env 1) (Bench.stream [1 / 2]) 10 Bench.global_config
      [1 / 2, -8] () 2 (ExchangeFlavor Bench.exchange_table) 1 0).result = Except.ok false ∧
    (global_update (Bench.global_env 1) (Bench.stream [1 / 2]) 10 Bench.global_config
      [1 / 2, -8] () 2 (ExchangeFlavor Bench.exchange_table) 1 0).det_vec = [-8, 1 / 2] ∧
    (global_update (Bench.global_env 1) (Bench.stream [1 / 2]) 10 Bench.global_config
      [1 / 2, -8] () 2 (ExchangeFlavor Bench.exchange_table) 1 0).det_vec.Perm [1 / 2, -8] := by
  have h := rejected_global_update_keeps_pivots (Bench.global_env 1) (Bench.stream [1 / 2]) 10
    Bench.global_config [1 / 2, -8] () 2 (ExchangeFlavor Bench.exchange_table) 1 0
    (by decide!)
  exact ⟨by decide!, by decide!, h.1⟩

/-! ## Block balance of the insertion and removal proposals -/

/-- The loop of `propose_insertion` appends one creation and one annihilation operator
per iteration, both with a flavor of the block drawn in that iteration. -/
theorem insertion_loop_balance {MS : Type} (mat : DeterminantMatrix MS)
    (open_random : OpenRandom) (rng : Random01) (M : MS) (tau_low tau_high : ℚ)
    (N : Nat)
    (hblocks : ∀ b, b < N → ∀ f ∈ mat.flavors M b, mat.block_belonging_to M f = b) :
    ∀ (n : Nat) (k : List Nat) (cd cs : List psi) (pos : Nat)
      (k2 : List Nat) (cd2 cs2 : List psi) (pos2 : Nat),
      k.length = N →
      InsertionRemovalUpdater.insertion_loop mat open_random rng M tau_low tau_high
        n k cd cs pos = some (k2, cd2, cs2, pos2) →
      (∀ b, block_count mat M b cd2 + block_count mat M b cs
        = block_count mat M b cd + block_count mat M b cs2) ∧
      cd2.length = cd.length + n ∧ cs2.length = cs.length + n := by
  intro n
  induction n with
  | zero =>
    intro k cd cs pos k2 cd2 cs2 pos2 _ h
    simp only [InsertionRemovalUpdater.insertion_loop, Option.some.injEq, Prod.mk.injEq] at h
    obtain ⟨rfl, rfl, rfl, rfl⟩ := h
    exact ⟨fun _ => rfl, rfl, rfl⟩
  | succ n ih =>
    intro k cd cs pos k2 cd2 cs2 pos2 hkN h
    simp only [InsertionRemovalUpdater.insertion_loop] at h
    split at h
    · cases h
    · rename_i k1 hk1
      split at h
      · cases h
      · rename_i f1 pos1 hf1
        split at h
        · cases h
        · rename_i f2 pos3 hf2
          obtain ⟨_, hlt, hlen, _⟩ := increment_at_some _ _ _ hk1
          obtain ⟨hmem1, _⟩ := pick_some _ _ _ _ _ hf1
          obtain ⟨hmem2, _⟩ := pick_some _ _ _ _ _ hf2
          have hblk1 := hblocks _ (hkN ▸ hlt) f1 hmem1
          have hblk2 := hblocks _ (hkN ▸ hlt) f2 hmem2
          obtain ⟨ihb, ihl1, ihl2⟩ := ih _ _ _ _ _ _ _ _ (hlen.trans hkN) h
          refine ⟨fun b => ?_, ?_, ?_⟩
          · have e1 := ihb b
            unfold block_count at e1 ⊢
            simp only [List.countP_append, List.countP_cons, List.countP_nil, hblk1, hblk2,
              decide_eq_true_eq] at e1
            omega
          · rw [ihl1, List.length_append, List.length_singleton]
            omega
          · rw [ihl2, List.length_append, List.length_singleton]
            omega

/-- The operators picked in one block are appended to the removal lists: as many of
each kind as there are indices, each from the list it is picked from. -/
theorem removal_pick_appends (R_cd R_c : List psi) :
    ∀ (idx_c idx_a : List Nat) (cd cs cd2 cs2 : List psi),
      idx_c.length = idx_a.length →
      InsertionRemovalUpdater.removal_pick R_cd R_c idx_c idx_a cd cs = some (cd2, cs2) →
      ∃ xs ys, cd2 = cd ++ xs ∧ cs2 = cs ++ ys ∧ xs.length = idx_c.length ∧
        ys.length = idx_c.length ∧ (∀ x ∈ xs, x ∈ R_cd) ∧ (∀ y ∈ ys, y ∈ R_c) := by
  intro idx_c
  induction idx_c with
  | nil =>
    intro idx_a cd cs cd2 cs2 _ h
    unfold InsertionRemovalUpdater.removal_pick at h
    cases h
    exact ⟨[], [], by simp, by simp, rfl, rfl, fun x hx => (nomatch hx), fun y hy => (nomatch hy)⟩
  | cons ic idx_c ih =>
    intro idx_a cd cs cd2 cs2 hlen h
    cases idx_a with
    | nil => cases hlen
    | cons ia idx_a =>
      unfold InsertionRemovalUpdater.removal_pick at h
      cases hc : R_cd.get? ic with
      | none => rw [hc] at h; cases h
      | some opc =>
        cases ha : R_c.get? ia with
        | none => rw [hc, ha] at h; cases h
        | some opa =>
          rw [hc, ha] at h
          simp only [] at h
          obtain ⟨xs, ys, h1, h2, h3, h4, h5, h6⟩ := ih idx_a _ _ cd2 cs2
            (Nat.succ.inj hlen) h
          refine ⟨opc :: xs, opa :: ys, ?_, ?_, ?_, ?_, ?_, ?_⟩
          · rw [h1, List.append_assoc]; rfl
          · rw [h2, List.append_assoc]; rfl
          · simp [h3]
          · simp [h4]
          · intro x hx
            rcases List.mem_cons.mp hx with hx | hx
            · rw [hx]; exact List.get?_mem hc
            · exact h5 x hx
          · intro y hy
            rcases List.mem_cons.mp hy with hy | hy
            · rw [hy]; exact List.get?_mem ha
            · exact h6 y hy

/-- As many numbers are picked as asked for. -/
theorem pickup_numbers_length (fuel N n : Nat) (rng : Random01) (pos : Nat)
    (idx : List Nat) (pos2 : Nat)
    (h : pickup_a_few_numbers fuel N n rng pos = some (idx, pos2)) : idx.length = n := by
  unfold pickup_a_few_numbers at h
  have := pickup_loop_spec rng fuel N n (List.replicate N 0) [] pos idx pos2
    (List.length_replicate _ _) List.nodup_nil (fun i hi => nomatch hi) h
  simpa using this.1

/-- The block count of operators that all belong to one block. -/
theorem block_count_of_block {MS : Type} (mat : DeterminantMatrix MS) (M : MS) (ib b : Nat)
    (xs : List psi) (h : ∀ x ∈ xs, mat.block_belonging_to M x.flavor = ib) :
    block_count mat M b xs = if b = ib then xs.length else 0 := by
  unfold block_count
  by_cases hb : b = ib
  · rw [if_pos hb, List.countP_eq_length]
    intro x hx
    rw [h x hx, hb]
    exact decide_eq_true rfl
  · rw [if_neg hb, List.countP_eq_zero]
    intro x hx
    rw [h x hx]
    simpa using fun h' => hb h'.symm

/-- The loop over the blocks of `propose_removal` appends, for every block it visits,
as many creation as annihilation operators of that block as pairs are to be removed from
it. -/
theorem removal_loop_balance {MS : Type} (mat : DeterminantMatrix MS) (M : MS) (fuel : Nat)
    (rng : Random01) (d : InsertionRemovalUpdater) (k : List Nat) :
    ∀ (blocks : List Nat) (cd cs : List psi) (pos : Nat) (cd2 cs2 : List psi) (pos2 : Nat),
      (∀ ib ∈ blocks, ∀ op ∈ d.cdagg_ops_range_.getD ib [],
        mat.block_belonging_to M op.flavor = ib) →
      (∀ ib ∈ blocks, ∀ op ∈ d.c_ops_range_.getD ib [],
        mat.block_belonging_to M op.flavor = ib) →
      InsertionRemovalUpdater.removal_loop fuel rng d k blocks cd cs pos
        = some (cd2, cs2, pos2) →
      (∀ b, block_count mat M b cd2 + block_count mat M b cs
        = block_count mat M b cd + block_count mat M b cs2) ∧
      cd2.length = cd.length + (blocks.map (fun ib => k.getD ib 0)).sum ∧
      cs2.length = cs.length + (blocks.map (fun ib => k.getD ib 0)).sum := by
  intro blocks
  induction blocks with
  | nil =>
    intro cd cs pos cd2 cs2 pos2 _ _ h
    unfold InsertionRemovalUpdater.removal_loop at h
    cases h
    exact ⟨fun _ => rfl, rfl, rfl⟩
  | cons ib blocks ih =>
    intro cd cs pos cd2 cs2 pos2 hR1 hR2 h
    unfold InsertionRemovalUpdater.removal_loop at h
    cases hc : pickup_a_few_numbers fuel (d.num_cdagg_ops_in_range_.getD ib 0) (k.getD ib 0)
        rng pos with
    | none => rw [hc] at h; cases h
    | some r1 =>
      obtain ⟨idx_c, pos1⟩ := r1
      rw [hc] at h
      simp only [] at h
      cases ha : pickup_a_few_numbers fuel (d.num_c_ops_in_range_.getD ib 0) (k.getD ib 0)
          rng pos1 with
      | none => rw [ha] at h; cases h
      | some r2 =>
        obtain ⟨idx_a, pos3⟩ := r2
        rw [ha] at h
        simp only [] at h
        cases hp : InsertionRemovalUpdater.removal_pick (d.cdagg_ops_range_.getD ib [])
            (d.c_ops_range_.getD ib []) idx_c idx_a cd cs with
        | none => rw [hp] at h; cases h
        | some r3 =>
          obtain ⟨cd1, cs1⟩ := r3
          rw [hp] at h
          simp only [] at h
          have hl1 := pickup_numbers_length _ _ _ _ _ _ _ hc
          have hl2 := pickup_numbers_length _ _ _ _ _ _ _ ha
          obtain ⟨xs, ys, e1, e2, e3, e4, e5, e6⟩ := removal_pick_appends _ _ idx_c idx_a cd cs
            cd1 cs1 (hl1.trans hl2.symm) hp
          obtain ⟨ihb, ihl1, ihl2⟩ := ih cd1 cs1 pos3 cd2 cs2 pos2
            (fun j hj => hR1 j (List.mem_cons_of_mem _ hj))
            (fun j hj => hR2 j (List.mem_cons_of_mem _ hj)) h
          have hx := fun b => block_count_of_block mat M ib b xs
            (fun x hx => hR1 ib (List.mem_cons_self _ _) x (e5 x hx))
          have hy := fun b => block_count_of_block mat M ib b ys
            (fun y hy => hR2 ib (List.mem_cons_self _ _) y (e6 y hy))
          refine ⟨fun b => ?_, ?_, ?_⟩
          · have q := ihb b
            have q1 : block_count mat M b cd1 = block_count mat M b cd + block_count mat M b xs := by
              rw [e1]; unfold block_count; rw [List.countP_append]
            have q2 : block_count mat M b cs1 = block_count mat M b cs + block_count mat M b ys := by
              rw [e2]; unfold block_count; rw [List.countP_append]
            rw [q1, q2, hx b, hy b, e3, e4] at q
            omega
          · rw [ihl1, e1, List.length_append, e3, hl1, List.map_cons, List.sum_cons]
            omega
          · rw [ihl2, e2, List.length_append, e4, hl1, List.map_cons, List.sum_cons]
            omega

/-- Raising one entry of a vector of counters by one raises the sum of its entries by
one. -/
theorem sum_getD_increment (N i : Nat) (f g : Nat → Nat) (hi : i < N)
    (h : ∀ b, g b = f b + (if b = i then 1 else 0)) :
    ((List.range N).map g).sum = ((List.range N).map f).sum + 1 := by
  induction N with
  | zero => omega
  | succ N ih =>
    rw [List.range_succ, List.map_append, List.map_append, List.sum_append, List.sum_append]
    simp only [List.map_cons, List.map_nil, List.sum_cons, List.sum_nil, Nat.add_zero]
    by_cases hN : i = N
    · have hsame : (List.range N).map g = (List.range N).map f := by
        apply List.map_congr_left
        intro b hb
        rw [h b, if_neg (by have := List.mem_range.mp hb; omega)]
        rfl
      rw [hsame, h N, if_pos hN.symm]
      omega
    · rw [ih (by omega), h N, if_neg (fun hh => hN hh.symm)]
      omega

/-- The loop of `propose_removal` that distributes the pairs among the blocks raises the
sum of the counters by the number of its iterations. -/
theorem removal_blocks_sum (rng : Random01) (num_blocks : Nat) :
    ∀ (n : Nat) (k : List Nat) (pos : Nat) (k2 : List Nat) (pos2 : Nat),
      InsertionRemovalUpdater.removal_blocks rng num_blocks n k pos = some (k2, pos2) →
      k2.length = k.length ∧
      ((List.range k.length).map (fun ib => k2.getD ib 0)).sum
        = ((List.range k.length).map (fun ib => k.getD ib 0)).sum + n := by
  intro n
  induction n with
  | zero =>
    intro k pos k2 pos2 h
    unfold InsertionRemovalUpdater.removal_blocks at h
    cases h
    exact ⟨rfl, rfl⟩
  | succ n ih =>
    intro k pos k2 pos2 h
    unfold InsertionRemovalUpdater.removal_blocks at h
    cases hk : increment_at k (static_cast_int (rng pos * (num_blocks : ℚ))) with
    | none => rw [hk] at h; cases h
    | some k1 =>
      rw [hk] at h
      simp only [] at h
      obtain ⟨_, hlt, hlen, hget⟩ := increment_at_some _ _ _ hk
      obtain ⟨i1, i2⟩ := ih k1 _ k2 pos2 h
      rw [hlen] at i1 i2
      refine ⟨i1, ?_⟩
      rw [i2, sum_getD_increment k.length _ (fun ib => k.getD ib 0) (fun ib => k1.getD ib 0)
        hlt hget]
      omega

/-- Taking operators that are held, none of them twice, out of a list lowers the block
counts by their block counts. -/
theorem block_count_diff {MS : Type} (mat : DeterminantMatrix MS) (M : MS) (b : Nat)
    (ops ops_rem : List psi) (hnodup : ops_rem.Nodup) (hsub : ∀ op ∈ ops_rem, op ∈ ops) :
    block_count mat M b (ops.diff ops_rem) + block_count mat M b ops_rem
      = block_count mat M b ops := by
  have hperm : (ops_rem ++ ops.diff ops_rem).Perm ops := by
    apply List.subperm_append_diff_self_of_count_le
    intro x hx
    rw [List.count_eq_one_of_mem hnodup hx]
    exact List.count_pos_iff.mpr (hsub x hx)
  unfold block_count
  rw [← hperm.countP_eq, List.countP_append]
  omega

/-- C31. Block balance of the insertion/removal proposals.  Let every flavor listed for a
block belong to that block, and let every operator of a per-block set of `M` be held in
the list of the creation (respectively annihilation) operators and have its flavor in
that block.  Whenever `InsertionRemovalUpdater::propose`, entered with its four lists
empty, returns true: for every block as many creation as annihilation operators of the
block are added, and as many are removed; either `update_rank` operators of each kind are
added and none is removed, or `update_rank` of each kind are removed and none is added;
and if every block holds as many creation as annihilation operators before the move, it
does so after the move. -/
theorem insertion_removal_block_balance {MS W : Type} (mat : DeterminantMatrix MS)
    (win : SlidingWindow W) (open_random : OpenRandom) (fuel : Nat) (rng : Random01)
    (pos : Nat) (u : LocalUpdater InsertionRemovalUpdater) (cfg : MonteCarloConfiguration MS)
    (w : W) (p : Proposal InsertionRemovalUpdater MS) (cdagg_ops c_ops : List psi)
    (hflav : ∀ b, b < mat.num_blocks cfg.M → ∀ f ∈ mat.flavors cfg.M b,
      mat.block_belonging_to cfg.M f = b)
    (hcdset : ∀ ib, ib < mat.num_blocks cfg.M → ∀ op ∈ (mat.get_cdagg_ops_set cfg.M ib).elems,
      op ∈ cdagg_ops ∧ mat.block_belonging_to cfg.M op.flavor = ib)
    (hcset : ∀ ib, ib < mat.num_blocks cfg.M → ∀ op ∈ (mat.get_c_ops_set cfg.M ib).elems,
      op ∈ c_ops ∧ mat.block_belonging_to cfg.M op.flavor = ib)
    (hbal : ∀ b, block_count mat cfg.M b cdagg_ops = block_count mat cfg.M b c_ops)
    (he1 : u.cdagg_ops_rem_ = []) (he2 : u.c_ops_rem_ = [])
    (he3 : u.cdagg_ops_add_ = []) (he4 : u.c_ops_add_ = [])
    (hp : InsertionRemovalUpdater.propose mat win open_random fuel rng pos u cfg w = some p)
    (hv : p.valid = true) :
    (∀ b, block_count mat cfg.M b p.cdagg_ops_add_ = block_count mat cfg.M b p.c_ops_add_) ∧
    (∀ b, block_count mat cfg.M b p.cdagg_ops_rem_ = block_count mat cfg.M b p.c_ops_rem_) ∧
    ((p.cdagg_ops_add_.length = u.derived.update_rank_ ∧
        p.c_ops_add_.length = u.derived.update_rank_ ∧
        p.cdagg_ops_rem_ = [] ∧ p.c_ops_rem_ = []) ∨
      (p.cdagg_ops_rem_.length = u.derived.update_rank_ ∧
        p.c_ops_rem_.length = u.derived.update_rank_ ∧
        p.cdagg_ops_add_ = [] ∧ p.c_ops_add_ = [])) ∧
    (∀ b, block_count mat cfg.M b (after_move cdagg_ops p.cdagg_ops_rem_ p.cdagg_ops_add_)
      = block_count mat cfg.M b (after_move c_ops p.c_ops_rem_ p.c_ops_add_)) := by
  obtain ⟨u2, g1, g2, g3, g4, g5, g6, g7, g8, g9, _, _, hbr⟩ :=
    cross_propose_branches mat win open_random fuel rng pos u cfg w p hp
  rw [he1] at g1
  rw [he2] at g2
  rw [he3] at g3
  rw [he4] at g4
  have hafter : (∀ b, block_count mat cfg.M b p.cdagg_ops_add_
        = block_count mat cfg.M b p.c_ops_add_) →
      (∀ b, block_count mat cfg.M b p.cdagg_ops_rem_
        = block_count mat cfg.M b p.c_ops_rem_) →
      p.cdagg_ops_rem_.Nodup → p.c_ops_rem_.Nodup →
      (∀ op ∈ p.cdagg_ops_rem_, op ∈ cdagg_ops) → (∀ op ∈ p.c_ops_rem_, op ∈ c_ops) →
      ∀ b, block_count mat cfg.M b (after_move cdagg_ops p.cdagg_ops_rem_ p.cdagg_ops_add_)
        = block_count mat cfg.M b (after_move c_ops p.c_ops_rem_ p.c_ops_add_) := by
    intro ha hr n1 n2 s1 s2 b
    have d1 := block_count_diff mat cfg.M b cdagg_ops p.cdagg_ops_rem_ n1 s1
    have d2 := block_count_diff mat cfg.M b c_ops p.c_ops_rem_ n2 s2
    have a1 : block_count mat cfg.M b (after_move cdagg_ops p.cdagg_ops_rem_ p.cdagg_ops_add_)
        = block_count mat cfg.M b (cdagg_ops.diff p.cdagg_ops_rem_)
          + block_count mat cfg.M b p.cdagg_ops_add_ := by
      unfold after_move block_count
      rw [List.countP_append]
    have a2 : block_count mat cfg.M b (after_move c_ops p.c_ops_rem_ p.c_ops_add_)
        = block_count mat cfg.M b (c_ops.diff p.c_ops_rem_)
          + block_count mat cfg.M b p.c_ops_add_ := by
      unfold after_move block_count
      rw [List.countP_append]
    have := ha b
    have := hr b
    have := hbal b
    omega
  rcases hbr with ⟨_, hins⟩ | ⟨_, hrem⟩
  · obtain ⟨k2, cd2, cs2, pos2, hloop, l1, l2, l3, l4, _⟩ :=
      propose_insertion_lists mat open_random rng (pos + 1) u2 cfg p hins
    rw [g3, g4, g5] at hloop
    obtain ⟨hb, hl1, hl2⟩ := insertion_loop_balance mat open_random rng cfg.M _ _
      (mat.num_blocks cfg.M) hflav _ _ _ _ _ _ _ _ _ (List.length_replicate _ _) hloop
    rw [g1] at l3
    rw [g2] at l4
    have hadd : ∀ b, block_count mat cfg.M b p.cdagg_ops_add_
        = block_count mat cfg.M b p.c_ops_add_ := by
      intro b
      have := hb b
      rw [l1, l2]
      simpa [block_count] using this
    have hrm : ∀ b, block_count mat cfg.M b p.cdagg_ops_rem_
        = block_count mat cfg.M b p.c_ops_rem_ := by
      intro b
      rw [l3, l4]
    refine ⟨hadd, hrm, Or.inl ⟨?_, ?_, l3, l4⟩, ?_⟩
    · rw [l1, hl1]; simp
    · rw [l2, hl2]; simp
    · apply hafter hadd hrm
      · rw [l3]; exact List.nodup_nil
      · rw [l4]; exact List.nodup_nil
      · intro op hop; rw [l3] at hop; cases hop
      · intro op hop; rw [l4] at hop; cases hop
  · obtain ⟨k2, pos1, hblocks, hcase⟩ :=
      propose_removal_some mat fuel rng (pos + 1) u2 cfg p hrem
    rcases hcase with ⟨hf, _⟩ | ⟨_, _, cd, cs, pos2, hloop, l1, l2, l3, l4, _, _⟩
    · rw [hv] at hf
      cases hf
    · rw [g1, g2] at hloop
      rw [g3] at l3
      rw [g4] at l4
      have hR1 : ∀ ib, (u2.derived.cdagg_ops_range_.getD ib []).Nodup ∧
          ∀ op ∈ u2.derived.cdagg_ops_range_.getD ib [],
            op ∈ cdagg_ops ∧ mat.block_belonging_to cfg.M op.flavor = ib := by
        intro ib
        rw [g8, getD_map_range_nil]
        by_cases hib : ib < mat.num_blocks cfg.M
        · rw [if_pos hib]
          exact ⟨nodup_range _ _ _, fun op hop =>
            hcdset ib hib op ((mem_range_iff _ _ _ _).mp hop).1⟩
        · rw [if_neg hib]
          exact ⟨List.nodup_nil, fun op hop => nomatch hop⟩
      have hR2 : ∀ ib, (u2.derived.c_ops_range_.getD ib []).Nodup ∧
          ∀ op ∈ u2.derived.c_ops_range_.getD ib [],
            op ∈ c_ops ∧ mat.block_belonging_to cfg.M op.flavor = ib := by
        intro ib
        rw [g9, getD_map_range_nil]
        by_cases hib : ib < mat.num_blocks cfg.M
        · rw [if_pos hib]
          exact ⟨nodup_range _ _ _, fun op hop =>
            hcset ib hib op ((mem_range_iff _ _ _ _).mp hop).1⟩
        · rw [if_neg hib]
          exact ⟨List.nodup_nil, fun op hop => nomatch hop⟩
      obtain ⟨n1, n2, n3, n4⟩ := removal_loop_spec fuel rng u2.derived k2
        (fun op => mat.block_belonging_to cfg.M op.flavor) _ _ hR1 hR2
        (List.range (mat.num_blocks cfg.M)) [] [] pos1 cd cs pos2 (List.nodup_range _)
        List.nodup_nil List.nodup_nil (fun op hop => nomatch hop) (fun op hop => nomatch hop)
        hloop
      obtain ⟨hb, hl1, hl2⟩ := removal_loop_balance mat cfg.M fuel rng u2.derived k2
        (List.range (mat.num_blocks cfg.M)) [] [] pos1 cd cs pos2
        (fun ib _ op hop => ((hR1 ib).2 op hop).2) (fun ib _ op hop => ((hR2 ib).2 op hop).2)
        hloop
      obtain ⟨s1, s2⟩ := removal_blocks_sum rng (mat.num_blocks cfg.M) _ _ _ _ _ hblocks
      rw [List.length_replicate] at s1 s2
      have hzero : ((List.range (mat.num_blocks cfg.M)).map
          (fun ib => (List.replicate (mat.num_blocks cfg.M) 0).getD ib 0)).sum = 0 := by
        apply List.sum_eq_zero
        intro x hx
        obtain ⟨ib, _, rfl⟩ := List.mem_map.mp hx
        rw [List.getD_eq_getElem?_getD]
        cases hget : (List.replicate (mat.num_blocks cfg.M) 0)[ib]? with
        | none => rfl
        | some v =>
          have := List.getElem?_mem hget
          rw [List.mem_replicate] at this
          rw [this.2]
          rfl
      rw [hzero, g5] at s2
      have hadd : ∀ b, block_count mat cfg.M b p.cdagg_ops_add_
          = block_count mat cfg.M b p.c_ops_add_ := by
        intro b
        rw [l3, l4]
      have hrm : ∀ b, block_count mat cfg.M b p.cdagg_ops_rem_
          = block_count mat cfg.M b p.c_ops_rem_ := by
        intro b
        have := hb b
        rw [l1, l2]
        simpa [block_count] using this
      refine ⟨hadd, hrm, Or.inr ⟨?_, ?_, l3, l4⟩, ?_⟩
      · rw [l1, hl1, s2]; simp
      · rw [l2, hl2, s2]; simp
      · apply hafter hadd hrm
        · rw [l1]; exact n1
        · rw [l2]; exact n2
        · intro op hop; rw [l1] at hop; exact n3 op hop
        · intro op hop; rw [l2] at hop; exact n4 op hop

/-- Witness of C31: on the test bench with the pair of operators at the times `3` and
`7`, the strategy proposes to remove the pair: one operator of each kind, both of the
block `0`. -/
theorem insertion_removal_block_balance_witness :
    ∃ p,
      InsertionRemovalUpdater.propose Bench.stocked_matrix Bench.window Bench.midpoint_random
        8 (Bench.stream [1 / 2, 0, 0, 0]) 0 Bench.insertion_updater Bench.pair_config ()
        = some p ∧
      p.cdagg_ops_rem_ = [⟨3, OperatorType.CREATION_OP, 0⟩] ∧
      p.c_ops_rem_ = [⟨7, OperatorType.ANNIHILATION_OP, 0⟩] ∧
      block_count Bench.stocked_matrix Bench.pair_config.M 0 p.cdagg_ops_rem_
        = block_count Bench.stocked_matrix Bench.pair_config.M 0 p.c_ops_rem_ ∧
      block_count Bench.stocked_matrix Bench.pair_config.M 0
          (after_move [⟨3, OperatorType.CREATION_OP, 0⟩] p.cdagg_ops_rem_ p.cdagg_ops_add_)
        = block_count Bench.stocked_matrix Bench.pair_config.M 0
          (after_move [⟨7, OperatorType.ANNIHILATION_OP, 0⟩] p.c_ops_rem_ p.c_ops_add_) := by
  have h1 : (InsertionRemovalUpdater.propose Bench.stocked_matrix Bench.window
      Bench.midpoint_random 8 (Bench.stream [1 / 2, 0, 0, 0]) 0 Bench.insertion_updater
      Bench.pair_config ()).map (fun p => (p.valid, p.cdagg_ops_rem_, p.c_ops_rem_))
      = some (true, [⟨3, OperatorType.CREATION_OP, 0⟩],
        [⟨7, OperatorType.ANNIHILATION_OP, 0⟩]) := by decide!
  obtain ⟨p, hp, hv⟩ := Option.map_eq_some'.mp h1
  have hv1 : p.valid = true := (Prod.mk.inj hv).1
  have hv2 : p.cdagg_ops_rem_ = [⟨3, OperatorType.CREATION_OP, 0⟩] :=
    (Prod.mk.inj (Prod.mk.inj hv).2).1
  have hv3 : p.c_ops_rem_ = [⟨7, OperatorType.ANNIHILATION_OP, 0⟩] :=
    (Prod.mk.inj (Prod.mk.inj hv).2).2
  have h := insertion_removal_block_balance Bench.stocked_matrix Bench.window
    Bench.midpoint_random 8 (Bench.stream [1 / 2, 0, 0, 0]) 0 Bench.insertion_updater
    Bench.pair_config () p [⟨3, OperatorType.CREATION_OP, 0⟩]
    [⟨7, OperatorType.ANNIHILATION_OP, 0⟩]
    (fun b hb f _ => (Nat.lt_one_iff.mp hb).symm)
    (by
      intro ib hib op hop
      have hib0 : ib = 0 := Nat.lt_one_iff.mp hib
      subst hib0
      have : op = ⟨3, OperatorType.CREATION_OP, 0⟩ := by
        simpa [Bench.stocked_matrix, operator_container_t.ofList,
          operator_container_t.insert, operator_container_t.empty] using hop
      subst this
      exact ⟨List.mem_singleton.mpr rfl, rfl⟩)
    (by
      intro ib hib op hop
      have hib0 : ib = 0 := Nat.lt_one_iff.mp hib
      subst hib0
      have : op = ⟨7, OperatorType.ANNIHILATION_OP, 0⟩ := by
        simpa [Bench.stocked_matrix, operator_container_t.ofList,
          operator_container_t.insert, operator_container_t.empty] using hop
      subst this
      exact ⟨List.mem_singleton.mpr rfl, rfl⟩)
    (fun b => rfl) rfl rfl rfl rfl hp hv1
  exact ⟨p, hp, hv2, hv3, h.2.1 0, h.2.2.2 0⟩

end CTHYB
